import Mathlib

/-! # vs-imwri: the pixel conversion engine of `src/imwri.cpp`

A shallow embedding of the depth-scale arithmetic, the planar to interleaved
packer (`writeImageHelper`, with its SSE2 kernels) and the interleaved to planar
unpacker (`readImageHelper`, and the float branch of `readGetFrame`).

Conventions of the embedding.

* `MAGICKCORE_QUANTUM_DEPTH` is a build constant that is not declared in the
  source file; it is the parameter `Q` of every definition that uses it.
* `unsigned` and `int` are 32 bits wide.  Every unsigned result is reduced
  modulo `2 ^ 32` (`toU32`), every signed result is wrapped into
  `[-2 ^ 31, 2 ^ 31)` (`toI32`).
* A `Quantum` is a floating-point number (the file refuses to build without
  HDRI), modelled by the rational number it holds.  Its format is not declared
  in the source file; where the rounding matters it is the parameter `fmt`.
* The floating-point operations have two embeddings.  The definitions whose
  name ends in `_fp` follow the arithmetic of the machine: every operation
  rounds its exact result to the format, to nearest, ties to even (section
  "Floating-point arithmetic"), and a run-time shift takes its count modulo 32.
  The definitions without the suffix (`outScale`, `unpackSample`, `floatPixel`,
  `mm_mul_ps` and what is built on them) take products, quotients and sums
  exactly and let a shift by 32 wrap to zero; the two agree wherever the exact
  result is a value of the format and the shift count is below 32.
* A plane is addressed in samples: `plane k` is the sample that a `T *` base
  pointer reaches with index `k`.
-/

namespace Imwri

/-! ## Machine arithmetic -/

/-- Reduction of a natural number to the range of a 32-bit `unsigned`. -/
def toU32 (n : Nat) : Nat := n % 2 ^ 32

/-- Wrapping of an integer into the range of a two's complement 32-bit `int`. -/
def toI32 (z : Int) : Int := (z + 2 ^ 31) % 2 ^ 32 - 2 ^ 31

/-- The value of `x << n` on `unsigned`. -/
def shlU32 (x n : Nat) : Nat := toU32 (x * 2 ^ n)

/-- The value of `x << n` on `int`, the product wrapped to 32 bits: for
`n = 32` it is the `0` of the folded constant `1 << MAGICKCORE_QUANTUM_DEPTH`
of a build of depth 32 (`shlRun` is the shift executed at run time). -/
def shlI32 (x : Int) (n : Nat) : Int := toI32 (x * 2 ^ n)

/-! ## Depth-scale calculator (`writeImageHelper`, lines 340-352) -/

/-- Line 340: `unsigned prepeat = (MAGICKCORE_QUANTUM_DEPTH - 1) / bitsPerSample;`
(for `Q ≥ 1` and `B ≥ 1`, where the `int` quotient is the natural one). -/
def prepeat (Q B : Nat) : Nat := toU32 ((Q - 1) / B)

/-- Line 341: `unsigned pleftover = MAGICKCORE_QUANTUM_DEPTH - (bitsPerSample * prepeat);`
an unsigned subtraction. -/
def pleftover (Q B : Nat) : Nat := toU32 (Q + 2 ^ 32 - toU32 (B * prepeat Q B))

/-- The accumulator of lines 343-347 after `k` rounds of
`scaleFactor <<= bitsPerSample; scaleFactor += 1;`, starting from `0`. -/
def scaleAcc (B : Nat) : Nat → Nat
  | 0 => 0
  | k + 1 => toU32 (shlU32 (scaleAcc B k) B + 1)

/-- Lines 343-348: the accumulator after `prepeat` rounds, then
`scaleFactor <<= pleftover;`. -/
def scaleFactor (Q B : Nat) : Nat := shlU32 (scaleAcc B (prepeat Q B)) (pleftover Q B)

/-- Line 342, `unsigned shiftFactor = bitsPerSample - pleftover;`, and its
replacement by `bitsPerSample - MAGICKCORE_QUANTUM_DEPTH` at lines 351-352. -/
def shiftFactor (Q B : Nat) : Nat :=
  if B > Q then B - Q else toU32 (B + 2 ^ 32 - pleftover Q B)

/-- The right-hand side `s * scaleFactor + (s >> shiftFactor)` of lines 378-381
and 461-463, evaluated in `unsigned`. -/
def packSample (sf sh s : Nat) : Nat := toU32 (s * sf + s >>> sh)

/-- The packed value of a sample with the parameters that `writeImageHelper`
computes for quantum depth `Q` and sample width `B`. -/
def packed (Q B s : Nat) : Nat := packSample (scaleFactor Q B) (shiftFactor Q B) s

/-! ## Read scale (`readImageHelper`, lines 932 and 956-959) -/

/-- Line 932:
`float outScale = ((1 << bitsPerSample) - 1) / static_cast<float>((1 << MAGICKCORE_QUANTUM_DEPTH) - 1);`
Both shifts and both subtractions are `int` operations.  The quotient is taken
exactly; `outScale_fp` is the `float` that the machine computes. -/
def outScale (Q B : Nat) : ℚ :=
  (toI32 (shlI32 1 B - 1) : ℚ) / (toI32 (shlI32 1 Q - 1) : ℚ)

/-- Truncation toward zero, the rounding of a floating to integer conversion. -/
def truncQ (q : ℚ) : Int := if 0 ≤ q then ⌊q⌋ else ⌈q⌉

/-- The cast `(unsigned)(q)`.  The truncated value is reduced modulo `2 ^ 32`;
C++ defines the cast only when the truncated value is in `[0, 2 ^ 32)`. -/
def toUnsigned (q : ℚ) : Nat := Int.toNat (truncQ q % 2 ^ 32)

/-- Storing an `unsigned` into a sample of `bytes` bytes (`T` is `uint8_t`,
`uint16_t` or `uint32_t`). -/
def storeT (bytes n : Nat) : Nat := n % 2 ^ (8 * bytes)

/-- The right-hand side `(unsigned)(p * outScale + .5f)` of lines 956-959 and
971-973, stored into a sample of `bytes` bytes, with the product and the sum
taken exactly (`unpackSample_fp` rounds them). -/
def unpackSample (bytes : Nat) (scale p : ℚ) : Nat :=
  storeT bytes (toUnsigned (p * scale + 1 / 2))

/-! ## SSE2 registers and intrinsics

An `__m128i` is modelled by its sixteen bytes, least significant first.  Data
movement is defined on bytes; arithmetic on 16-bit and 32-bit lanes goes through
the little-endian views `word` and `dword`. -/

/-- An `__m128i`: `v i` is byte `i` of the register for `i < 16`. -/
abbrev M128 := Nat → Nat

/-- A `__m128`: `v j` is the float in lane `j` for `j < 4`. -/
abbrev M128f := Nat → ℚ

/-- The register whose byte `i` is `f i` (reduced to a byte). -/
def reg (f : Nat → Nat) : M128 := fun i => if i < 16 then f i % 256 else 0

/-- The 16-bit lane `j` of a register. -/
def word (v : M128) (j : Nat) : Nat := v (2 * j) + 256 * v (2 * j + 1)

/-- The 32-bit lane `j` of a register. -/
def dword (v : M128) (j : Nat) : Nat := word v (2 * j) + 65536 * word v (2 * j + 1)

/-- The 64-bit lane `j` of a register. -/
def qword (v : M128) (j : Nat) : Nat := dword v (2 * j) + 4294967296 * dword v (2 * j + 1)

/-- The register with the given 16-bit lanes. -/
def ofWords (w : Nat → Nat) : M128 := reg (fun i => w (i / 2) / 256 ^ (i % 2))

/-- The register with the given 32-bit lanes. -/
def ofDwords (d : Nat → Nat) : M128 := reg (fun i => d (i / 4) / 256 ^ (i % 4))

/-- `_mm_loadu_si128(reinterpret_cast<const __m128i*>(p + x) + n)` for a pointer
`p` to samples of `tBytes` bytes. -/
def mm_loadu_si128 (tBytes : Nat) (p : Nat → Nat) (x n : Nat) : M128 :=
  reg (fun i => p (x + (16 * n + i) / tBytes) / 256 ^ ((16 * n + i) % tBytes))

/-- `_mm_setzero_si128()`. -/
def mm_setzero_si128 : M128 := reg (fun _ => 0)

/-- `_mm_set1_epi16(w)`. -/
def mm_set1_epi16 (w : Nat) : M128 := ofWords (fun _ => w)

/-- `_mm_set_epi32(e3, e2, e1, e0)`. -/
def mm_set_epi32 (e3 e2 e1 e0 : Int) : M128 :=
  ofDwords (fun j => Int.toNat ((if j = 0 then e0 else if j = 1 then e1
    else if j = 2 then e2 else e3) % 2 ^ 32))

/-- `_mm_unpacklo_epi8(a, b)`. -/
def mm_unpacklo_epi8 (a b : M128) : M128 :=
  reg (fun i => if i % 2 = 0 then a (i / 2) else b (i / 2))

/-- `_mm_unpackhi_epi8(a, b)`. -/
def mm_unpackhi_epi8 (a b : M128) : M128 :=
  reg (fun i => if i % 2 = 0 then a (8 + i / 2) else b (8 + i / 2))

/-- `_mm_unpacklo_epi16(a, b)`. -/
def mm_unpacklo_epi16 (a b : M128) : M128 :=
  reg (fun i => if (i / 2) % 2 = 0 then a (2 * (i / 4) + i % 2) else b (2 * (i / 4) + i % 2))

/-- `_mm_unpackhi_epi16(a, b)`. -/
def mm_unpackhi_epi16 (a b : M128) : M128 :=
  reg (fun i => if (i / 2) % 2 = 0 then a (8 + 2 * (i / 4) + i % 2)
    else b (8 + 2 * (i / 4) + i % 2))

/-- `_mm_unpacklo_epi32(a, b)`. -/
def mm_unpacklo_epi32 (a b : M128) : M128 :=
  reg (fun i => if (i / 4) % 2 = 0 then a (4 * (i / 8) + i % 4) else b (4 * (i / 8) + i % 4))

/-- `_mm_unpackhi_epi32(a, b)`. -/
def mm_unpackhi_epi32 (a b : M128) : M128 :=
  reg (fun i => if (i / 4) % 2 = 0 then a (8 + 4 * (i / 8) + i % 4)
    else b (8 + 4 * (i / 8) + i % 4))

/-- `_mm_unpackhi_epi64(a, b)`. -/
def mm_unpackhi_epi64 (a b : M128) : M128 :=
  reg (fun i => if i < 8 then a (8 + i) else b i)

/-- `_mm_and_si128(a, b)`, taken on 16-bit lanes. -/
def mm_and_si128 (a b : M128) : M128 := ofWords (fun j => word a j &&& word b j)

/-- `_mm_or_si128(a, b)`, taken on 16-bit lanes. -/
def mm_or_si128 (a b : M128) : M128 := ofWords (fun j => word a j ||| word b j)

/-- `_mm_srli_epi16(a, n)`. -/
def mm_srli_epi16 (a : M128) (n : Nat) : M128 :=
  ofWords (fun j => if n > 15 then 0 else word a j >>> n)

/-- `_mm_sll_epi16(a, count)`: the count is the low 64 bits of `count`. -/
def mm_sll_epi16 (a count : M128) : M128 :=
  ofWords (fun j => if qword count 0 > 15 then 0 else word a j <<< qword count 0)

/-- `_mm_srl_epi16(a, count)`: the count is the low 64 bits of `count`. -/
def mm_srl_epi16 (a count : M128) : M128 :=
  ofWords (fun j => if qword count 0 > 15 then 0 else word a j >>> qword count 0)

/-- Unsigned saturation of a signed 16-bit lane to a byte. -/
def satU8 (w : Nat) : Nat := if w ≥ 32768 then 0 else if w > 255 then 255 else w

/-- `_mm_packus_epi16(a, b)`. -/
def mm_packus_epi16 (a b : M128) : M128 :=
  reg (fun i => if i < 8 then satU8 (word a i) else satU8 (word b (i - 8)))

/-- `_MM_SHUFFLE(z, y, x, w)`. -/
def MM_SHUFFLE (z y x w : Nat) : Nat := (z <<< 6) ||| (y <<< 4) ||| (x <<< 2) ||| w

/-- `_mm_shufflelo_epi16(a, imm)`. -/
def mm_shufflelo_epi16 (a : M128) (imm : Nat) : M128 :=
  reg (fun i => if i < 8 then a (2 * ((imm >>> (2 * (i / 2))) &&& 3) + i % 2) else a i)

/-- `_mm_shufflehi_epi16(a, imm)`. -/
def mm_shufflehi_epi16 (a : M128) (imm : Nat) : M128 :=
  reg (fun i => if i < 8 then a i
    else a (8 + 2 * ((imm >>> (2 * ((i - 8) / 2))) &&& 3) + i % 2))

/-- `_mm_castps_si128(_mm_shuffle_ps(_mm_castsi128_ps(a), _mm_castsi128_ps(b), imm))`. -/
def mm_shuffle_ps (a b : M128) (imm : Nat) : M128 :=
  reg (fun i => if i < 8 then a (4 * ((imm >>> (2 * (i / 4))) &&& 3) + i % 4)
    else b (4 * ((imm >>> (2 * (i / 4))) &&& 3) + i % 4))

/-- `_mm_cvtepi32_ps(v)`: the signed 32-bit lanes as floats. -/
def mm_cvtepi32_ps (v : M128) : M128f :=
  fun j => ((toI32 (dword v j) : Int) : ℚ)

/-- `_mm_set1_ps(c)`. -/
def mm_set1_ps (c : ℚ) : M128f := fun _ => c

/-- `_mm_mul_ps(a, b)`, the products taken exactly (`mm_mul_ps_fp` rounds
them). -/
def mm_mul_ps (a b : M128f) : M128f := fun j => a j * b j

/-- `_mm_storeu_ps(dst + p, v)`: four floats written at `dst[p .. p + 3]`. -/
def mm_storeu_ps (dst : Nat → ℚ) (p : Nat) (v : M128f) : Nat → ℚ :=
  fun i => if p ≤ i ∧ i < p + 4 then v (i - p) else dst i

/-- `ssePackPair8(outLo, outHi, a, b)` (lines 198-206); the result is
`(outLo, outHi)`. -/
def ssePackPair8 (a b : M128) : M128 × M128 :=
  (mm_packus_epi16 (mm_and_si128 a (mm_set1_epi16 0xff)) (mm_and_si128 b (mm_set1_epi16 0xff)),
   mm_packus_epi16 (mm_srli_epi16 a 8) (mm_srli_epi16 b 8))

/-- `ssePackPair16(outLo, outHi, a, b)` (lines 207-219); the result is
`(outLo, outHi)`. -/
def ssePackPair16 (a b : M128) : M128 × M128 :=
  let a1 := mm_shufflehi_epi16 (mm_shufflelo_epi16 a (MM_SHUFFLE 3 1 2 0)) (MM_SHUFFLE 3 1 2 0)
  let b1 := mm_shufflehi_epi16 (mm_shufflelo_epi16 b (MM_SHUFFLE 3 1 2 0)) (MM_SHUFFLE 3 1 2 0)
  (mm_shuffle_ps a1 b1 (MM_SHUFFLE 2 0 2 0), mm_shuffle_ps a1 b1 (MM_SHUFFLE 3 1 3 1))

/-- `sseWritePixels8(dst + p, vecs)` (lines 221-251, the HDRI branch, which is
the one compiled: the file refuses to build without HDRI), with exact
conversions and products (`sseWritePixels8_fp` rounds them). -/
def sseWritePixels8 (Q : Nat) : (Nat → ℚ) → Nat → List M128 → (Nat → ℚ)
  | dst, _, [] => dst
  | dst, p, vec :: vecs =>
    let vec0 := if Q = 8 then mm_unpacklo_epi8 vec mm_setzero_si128 else mm_unpacklo_epi8 vec vec
    let vec1 := if Q = 8 then mm_unpackhi_epi8 vec mm_setzero_si128 else mm_unpackhi_epi8 vec vec
    let vec00 := mm_cvtepi32_ps (mm_unpacklo_epi16 vec0 mm_setzero_si128)
    let vec01 := mm_cvtepi32_ps (mm_unpackhi_epi16 vec0 mm_setzero_si128)
    let vec10 := mm_cvtepi32_ps (mm_unpacklo_epi16 vec1 mm_setzero_si128)
    let vec11 := mm_cvtepi32_ps (mm_unpackhi_epi16 vec1 mm_setzero_si128)
    let vec00 := if Q = 32 then mm_mul_ps vec00 (mm_set1_ps 65537) else vec00
    let vec01 := if Q = 32 then mm_mul_ps vec01 (mm_set1_ps 65537) else vec01
    let vec10 := if Q = 32 then mm_mul_ps vec10 (mm_set1_ps 65537) else vec10
    let vec11 := if Q = 32 then mm_mul_ps vec11 (mm_set1_ps 65537) else vec11
    let dst := mm_storeu_ps dst p vec00
    let dst := mm_storeu_ps dst (p + 4) vec01
    let dst := mm_storeu_ps dst (p + 8) vec10
    let dst := mm_storeu_ps dst (p + 12) vec11
    sseWritePixels8 Q dst (p + 16) vecs

/-- `sseWritePixels16(dst + p, vecs)` (lines 287-305, the HDRI branch), with
exact conversions and products (`sseWritePixels16_fp` rounds them). -/
def sseWritePixels16 (Q : Nat) : (Nat → ℚ) → Nat → List M128 → (Nat → ℚ)
  | dst, _, [] => dst
  | dst, p, vec :: vecs =>
    let vec := if Q = 8 then mm_srli_epi16 vec 8 else vec
    let vec0 := mm_cvtepi32_ps (mm_unpacklo_epi16 vec mm_setzero_si128)
    let vec1 := mm_cvtepi32_ps (mm_unpackhi_epi16 vec mm_setzero_si128)
    let vec0 := if Q = 32 then mm_mul_ps vec0 (mm_set1_ps 65537) else vec0
    let vec1 := if Q = 32 then mm_mul_ps vec1 (mm_set1_ps 65537) else vec1
    let dst := mm_storeu_ps dst p vec0
    let dst := mm_storeu_ps dst (p + 4) vec1
    sseWritePixels16 Q dst (p + 8) vecs

/-- A register proper: sixteen bytes. -/
def IsReg (v : M128) : Prop := ∀ i, i < 16 → v i < 256

/-- The value that `sseWritePixels8` stores for the byte `v`: `v` at quantum
depth 8, `257 * v` otherwise, multiplied by `65537` at quantum depth 32. -/
def widen8 (Q v : Nat) : ℚ :=
  if Q = 32 then ((if Q = 8 then v else v + 256 * v : Nat) : ℚ) * 65537
  else ((if Q = 8 then v else v + 256 * v : Nat) : ℚ)

/-- The value that `sseWritePixels16` stores for the 16-bit lane `w`: `w >> 8`
at quantum depth 8, `w` otherwise, multiplied by `65537` at quantum depth 32. -/
def widen16 (Q w : Nat) : ℚ :=
  if Q = 32 then ((if Q = 8 then w / 256 else w : Nat) : ℚ) * 65537
  else ((if Q = 8 then w / 256 else w : Nat) : ℚ)

/-- The even-indexed and the odd-indexed bytes of the 32-byte sequence `a`
followed by `b`. -/
def evenOdd8 (a b : M128) : M128 × M128 :=
  (reg (fun i => if i < 8 then a (2 * i) else b (2 * i - 16)),
   reg (fun i => if i < 8 then a (2 * i + 1) else b (2 * i - 15)))

/-- The even-indexed and the odd-indexed 16-bit words of the 16-word sequence
`a` followed by `b`. -/
def evenOdd16 (a b : M128) : M128 × M128 :=
  (reg (fun i => if i < 8 then a (4 * (i / 2) + i % 2) else b (4 * (i / 2) + i % 2 - 16)),
   reg (fun i => if i < 8 then a (4 * (i / 2) + i % 2 + 2) else b (4 * (i / 2) + i % 2 - 14)))

/-- The 16-bit lane that the fast path makes of a lane `v`:
`((v << (16 - B)) mod 2 ^ 16) | (v >> (2 * B - 16))`. -/
def upsampleLane (B v : Nat) : Nat := ((v <<< (16 - B)) % 65536) ||| (v >>> (2 * B - 16))

/-- The register `a` with `f` applied to every byte. -/
def mapReg (f : Nat → Nat) (a : M128) : M128 := reg (fun i => f (a i % 256))

/-- The register number `k` of a block whose bytes are numbered in a row: byte
`i` holds the number `16 * k + i`. -/
def tagReg (k : Nat) : M128 := reg (fun i => 16 * k + i)

/-- The byte numbered `t` of a list of registers: byte `t % 16` of register
`t / 16`. -/
def byteOf (rs : List M128) (t : Nat) : Nat := (rs.getD (t / 16) mm_setzero_si128) (t % 16)

/-! ## Frames, images and loops -/

/-- A video frame of the host.  `plane p k` is the sample `k` of the pointer
`getReadPtr(frame, p)` (or `getWritePtr`), `stride p` is `getStride(frame, p)`
in bytes. -/
structure Frame (α : Type) where
  width : Nat
  height : Nat
  plane : Nat → Nat → α
  stride : Nat → Nat

/-- A call on the `Magick::Pixels` accessor of the write path. -/
inductive CacheCall where
  | get (y : Nat)
  | sync
  deriving DecidableEq, Repr

/-- A `Magick::Image` seen through its pixel accessor: the channel count, the
channel offsets (`aOff` is negative when the image has no alpha channel), the
quanta of every row, and the accessor calls made so far. -/
structure MagickImage where
  channels : Nat
  rOff : Nat
  gOff : Nat
  bOff : Nat
  aOff : Int
  pixels : Nat → Nat → ℚ
  calls : List CacheCall

/-- The build: `MAGICKCORE_QUANTUM_DEPTH`, `sizeof(MagickCore::Quantum)` and
whether `HAVE_SSE2` is defined. -/
structure Build where
  Q : Nat
  quantumBytes : Nat
  sse2 : Bool

/-- The pointer `p + n`. -/
def advance {α : Type} (p : Nat → α) (n : Nat) : Nat → α := fun x => p (x + n)

/-- The loop `for (; x < start + count; x++) body`, from `x = start`. -/
def forLoop {σ : Type} (body : Nat → σ → σ) : Nat → Nat → σ → σ
  | 0, _, s => s
  | count + 1, x, s => forLoop body count (x + 1) (body x s)

/-- The loop `for (; x < width - (k - 1); x += k) body` of the vector kernels,
run for at most `fuel` rounds; the result is the state and the final `x`. -/
def vecLoop {σ : Type} (k width : Nat) (body : Nat → σ → σ) : Nat → Nat → σ → σ × Nat
  | 0, x, s => (s, x)
  | fuel + 1, x, s =>
    if x + (k - 1) < width then vecLoop k width body fuel (x + k) (body x s) else (s, x)

/-- The plane pointers `r`, `g`, `b`, `a` of the conversion loops. -/
structure RowPtrs (α : Type) where
  r : Nat → α
  g : Nat → α
  b : Nat → α
  a : Nat → α

/-- What the row loops change: the plane pointers, the quanta of the image and
the list of accessor calls. -/
structure WriteState where
  ptrs : RowPtrs Nat
  pixels : Nat → Nat → ℚ
  calls : List CacheCall

/-- The scalar statements of one pixel (lines 378-381 with an alpha frame,
lines 461-463 without). -/
def scalarPixel (withAlpha : Bool) (sf sh : Nat) (im : MagickImage) (p : RowPtrs Nat)
    (x : Nat) (pixels : Nat → ℚ) : Nat → ℚ :=
  let pixels := Function.update pixels (x * im.channels + im.rOff) (packSample sf sh (p.r x) : ℚ)
  let pixels := Function.update pixels (x * im.channels + im.gOff) (packSample sf sh (p.g x) : ℚ)
  let pixels := Function.update pixels (x * im.channels + im.bOff) (packSample sf sh (p.b x) : ℚ)
  if withAlpha then
    Function.update pixels (Int.toNat (x * im.channels + im.aOff)) (packSample sf sh (p.a x) : ℚ)
  else pixels

/-- The pointer increments at the end of a row (lines 384-387, 466-468). -/
def nextRow {α : Type} (withAlpha : Bool) (tBytes strideR strideG strideB strideA : Nat)
    (p : RowPtrs α) : RowPtrs α :=
  { r := advance p.r (strideR / tBytes)
    g := advance p.g (strideG / tBytes)
    b := advance p.b (strideB / tBytes)
    a := if withAlpha then advance p.a (strideA / tBytes) else p.a }

/-- One row of `loopImage`, between `pixelCache.get` and the pointer increments:
the kernel `loopPixels` from `x = 0`, then the scalar loop from the `x` that the
kernel left. -/
def writeRow (withAlpha : Bool) (sf sh : Nat) (im : MagickImage) (width : Nat)
    (loopPixels : RowPtrs Nat → (Nat → ℚ) → (Nat → ℚ) × Nat) (p : RowPtrs Nat)
    (pixels : Nat → ℚ) : Nat → ℚ :=
  let px := loopPixels p pixels
  forLoop (scalarPixel withAlpha sf sh im p) (width - px.2) px.2 px.1

/-- The lambda `loopImage` (lines 372-391 with an alpha frame, lines 455-472
without): for every row, `pixelCache.get`, the row conversion, the pointer
increments and `pixelCache.sync`. -/
def loopImage (withAlpha : Bool) (sf sh tBytes : Nat) (strideR strideG strideB strideA : Nat)
    (im : MagickImage) (width height : Nat)
    (loopPixels : RowPtrs Nat → (Nat → ℚ) → (Nat → ℚ) × Nat) (st : WriteState) : WriteState :=
  forLoop (fun y st =>
    let pixels := writeRow withAlpha sf sh im width loopPixels st.ptrs (st.pixels y)
    { ptrs := nextRow withAlpha tBytes strideR strideG strideB strideA st.ptrs
      pixels := Function.update st.pixels y pixels
      calls := st.calls ++ [CacheCall.get y, CacheCall.sync] }) height 0 st

/-- The empty kernel `[&](MagickCore::Quantum *pixels, int &x) {}` (lines 453, 570). -/
def noKernel (_ : RowPtrs Nat) (pixels : Nat → ℚ) : (Nat → ℚ) × Nat := (pixels, 0)

/-- The interleaving of the RGBA kernel for 8-bit samples (lines 402-415): the
vectors `rgba0, rgba1, rgba2, rgba3` passed to `sseWritePixels8`. -/
def interleaveRGBA8 (r0 g0 b0 a0 : M128) : List M128 :=
  let rg0 := mm_unpacklo_epi8 r0 g0
  let rg1 := mm_unpackhi_epi8 r0 g0
  let ba0 := mm_unpacklo_epi8 b0 a0
  let ba1 := mm_unpackhi_epi8 b0 a0
  let rgba0 := mm_unpacklo_epi16 rg0 ba0
  let rgba1 := mm_unpackhi_epi16 rg0 ba0
  let rgba2 := mm_unpacklo_epi16 rg1 ba1
  let rgba3 := mm_unpackhi_epi16 rg1 ba1
  [rgba0, rgba1, rgba2, rgba3]

/-- The RGBA kernel for 8-bit samples (lines 395-417). -/
def kernelRGBA8 (Q channels width : Nat) (p : RowPtrs Nat) (pixels : Nat → ℚ) :
    (Nat → ℚ) × Nat :=
  vecLoop 16 width (fun x pixels =>
    let r0 := mm_loadu_si128 1 p.r x 0
    let g0 := mm_loadu_si128 1 p.g x 0
    let b0 := mm_loadu_si128 1 p.b x 0
    let a0 := mm_loadu_si128 1 p.a x 0
    sseWritePixels8 Q pixels (x * channels) (interleaveRGBA8 r0 g0 b0 a0))
    width 0 pixels

/-- The upsampling `_mm_or_si128(_mm_sll_epi16(v, shl), _mm_srl_epi16(v, shr))`
of lines 430-433 and 532-537. -/
def upsample16 (v shl shr : M128) : M128 :=
  mm_or_si128 (mm_sll_epi16 v shl) (mm_srl_epi16 v shr)

/-- The register `shl` of lines 421 and 521. -/
def shlCount (B : Nat) : M128 := mm_set_epi32 0 ((B : Int) * 2 - 16) 0 (16 - (B : Int))

/-- The register `shr` of lines 422 and 522. -/
def shrCount (B : Nat) : M128 := mm_unpackhi_epi64 (shlCount B) (shlCount B)

/-- The interleaving of the RGBA kernel for 16-bit storage (lines 435-446): the
four vectors passed to `sseWritePixels16`. -/
def interleaveRGBA16 (r0 g0 b0 a0 : M128) : List M128 :=
  let rg0 := mm_unpacklo_epi16 r0 g0
  let rg1 := mm_unpackhi_epi16 r0 g0
  let ba0 := mm_unpacklo_epi16 b0 a0
  let ba1 := mm_unpackhi_epi16 b0 a0
  [mm_unpacklo_epi32 rg0 ba0, mm_unpackhi_epi32 rg0 ba0,
   mm_unpacklo_epi32 rg1 ba1, mm_unpackhi_epi32 rg1 ba1]

/-- The RGBA kernel for 16-bit storage (lines 420-448). -/
def kernelRGBA16 (Q B channels width : Nat) (p : RowPtrs Nat) (pixels : Nat → ℚ) :
    (Nat → ℚ) × Nat :=
  let shl := shlCount B
  let shr := shrCount B
  vecLoop 8 width (fun x pixels =>
    let r0 := upsample16 (mm_loadu_si128 2 p.r x 0) shl shr
    let g0 := upsample16 (mm_loadu_si128 2 p.g x 0) shl shr
    let b0 := upsample16 (mm_loadu_si128 2 p.b x 0) shl shr
    let a0 := upsample16 (mm_loadu_si128 2 p.a x 0) shl shr
    sseWritePixels16 Q pixels (x * channels) (interleaveRGBA16 r0 g0 b0 a0))
    width 0 pixels

/-- The first four rounds of the interleaving network of the RGB kernels (lines
487-505 with `ssePackPair8`, lines 540-558 with `ssePackPair16`): `pack` is the
pair packer, the result is `(r_g0, r_g1, b_r0, b_r1, g_b0, g_b1)`. -/
def packRounds (pack : M128 → M128 → M128 × M128) (r0 r1 g0 g1 b0 b1 : M128) :
    M128 × M128 × M128 × M128 × M128 × M128 :=
  let r01 := pack r0 r1
  let g01 := pack g0 g1
  let b01 := pack b0 b1
  let rg02 := pack r01.1 g01.1
  let gb13 := pack g01.2 b01.2
  let br02 := pack b01.1 r01.2
  let rgbr := pack rg02.1 br02.1
  let gbrg := pack gb13.1 rg02.2
  let brgb := pack br02.2 gb13.2
  let r_g := pack rgbr.1 gbrg.1
  let b_r := pack brgb.1 rgbr.2
  let g_b := pack gbrg.2 brgb.2
  (r_g.1, r_g.2, b_r.1, b_r.2, g_b.1, g_b.2)

/-- The interleaving of the RGB kernel for 8-bit samples (lines 486-515): five
rounds of `ssePackPair8`, the result is the six vectors
`r_r0, g_g0, b_b0, r_r1, g_g1, b_b1` passed to `sseWritePixels8`. -/
def interleaveRGB8 (r0 r1 g0 g1 b0 b1 : M128) : List M128 :=
  match packRounds ssePackPair8 r0 r1 g0 g1 b0 b1 with
  | (r_g0, r_g1, b_r0, b_r1, g_b0, g_b1) =>
    let r_r := ssePackPair8 r_g0 b_r0
    let g_g := ssePackPair8 g_b0 r_g1
    let b_b := ssePackPair8 b_r1 g_b1
    [r_r.1, g_g.1, b_b.1, r_r.2, g_g.2, b_b.2]

/-- The RGB kernel for 8-bit samples (lines 477-517). -/
def kernelRGB8 (Q channels width : Nat) (p : RowPtrs Nat) (pixels : Nat → ℚ) :
    (Nat → ℚ) × Nat :=
  vecLoop 32 width (fun x pixels =>
    let r0 := mm_loadu_si128 1 p.r x 0
    let r1 := mm_loadu_si128 1 p.r x 1
    let g0 := mm_loadu_si128 1 p.g x 0
    let g1 := mm_loadu_si128 1 p.g x 1
    let b0 := mm_loadu_si128 1 p.b x 0
    let b1 := mm_loadu_si128 1 p.b x 1
    sseWritePixels8 Q pixels (x * channels) (interleaveRGB8 r0 r1 g0 g1 b0 b1))
    width 0 pixels

/-- The interleaving of the RGB kernel for 16-bit storage (lines 539-563): four
rounds of `ssePackPair16`, the result is the six vectors
`r_g0, b_r0, g_b0, r_g1, b_r1, g_b1` passed to `sseWritePixels16`. -/
def interleaveRGB16 (r0 r1 g0 g1 b0 b1 : M128) : List M128 :=
  match packRounds ssePackPair16 r0 r1 g0 g1 b0 b1 with
  | (r_g0, r_g1, b_r0, b_r1, g_b0, g_b1) => [r_g0, b_r0, g_b0, r_g1, b_r1, g_b1]

/-- The RGB kernel for 16-bit storage (lines 520-565). -/
def kernelRGB16 (Q B channels width : Nat) (p : RowPtrs Nat) (pixels : Nat → ℚ) :
    (Nat → ℚ) × Nat :=
  let shl := shlCount B
  let shr := shrCount B
  vecLoop 16 width (fun x pixels =>
    let r0 := upsample16 (mm_loadu_si128 2 p.r x 0) shl shr
    let r1 := upsample16 (mm_loadu_si128 2 p.r x 1) shl shr
    let g0 := upsample16 (mm_loadu_si128 2 p.g x 0) shl shr
    let g1 := upsample16 (mm_loadu_si128 2 p.g x 1) shl shr
    let b0 := upsample16 (mm_loadu_si128 2 p.b x 0) shl shr
    let b1 := upsample16 (mm_loadu_si128 2 p.b x 1) shl shr
    sseWritePixels16 Q pixels (x * channels) (interleaveRGB16 r0 r1 g0 g1 b0 b1))
    width 0 pixels

/-- `writeImageHelper<T>` (lines 338-572) for a sample type `T` of `tBytes`
bytes: the depth-scale parameters, the plane pointers (all three from plane 0
for a gray frame), and the dispatch to a vector kernel or to the scalar loop.
The result is the image with its rows rewritten and the accessor calls added. -/
def writeImageHelper (cfg : Build) (tBytes : Nat) (frame : Frame Nat)
    (alphaFrame : Option (Frame Nat)) (isGray : Bool) (image : MagickImage)
    (width height B : Nat) : MagickImage :=
  let sf := scaleFactor cfg.Q B
  let sh := shiftFactor cfg.Q B
  let r := frame.plane 0
  let g := frame.plane (if isGray then 0 else 1)
  let b := frame.plane (if isGray then 0 else 2)
  let strideR := frame.stride 0
  let strideG := frame.stride (if isGray then 0 else 1)
  let strideB := frame.stride (if isGray then 0 else 2)
  let finish (st : WriteState) : MagickImage :=
    { image with pixels := st.pixels, calls := st.calls }
  match alphaFrame with
  | some alpha =>
    let strideA := alpha.stride 0
    let st : WriteState :=
      { ptrs := { r := r, g := g, b := b, a := alpha.plane 0 }
        pixels := image.pixels, calls := image.calls }
    let loop := loopImage true sf sh tBytes strideR strideG strideB strideA image width height
    if cfg.sse2 = true ∧ cfg.quantumBytes ≤ 4 ∧ cfg.Q ≤ 32 ∧ image.channels = 4
        ∧ image.rOff = 0 ∧ image.gOff = 1 ∧ image.bOff = 2 ∧ image.aOff = 3 then
      if tBytes = 1 ∧ B = 8 then
        finish (loop (kernelRGBA8 cfg.Q image.channels width) st)
      else if tBytes = 2 ∧ B ≥ 8 ∧ (cfg.Q ≤ 16 ∨ B = 8 ∨ B = 16) then
        finish (loop (kernelRGBA16 cfg.Q B image.channels width) st)
      else finish (loop noKernel st)
    else finish (loop noKernel st)
  | none =>
    let st : WriteState :=
      { ptrs := { r := r, g := g, b := b, a := fun _ => 0 }
        pixels := image.pixels, calls := image.calls }
    let loop := loopImage false sf sh tBytes strideR strideG strideB 0 image width height
    if cfg.sse2 = true ∧ cfg.quantumBytes ≤ 4 ∧ cfg.Q ≤ 32 ∧ image.channels = 3
        ∧ image.rOff = 0 ∧ image.gOff = 1 ∧ image.bOff = 2 then
      if tBytes = 1 ∧ B = 8 then
        finish (loop (kernelRGB8 cfg.Q image.channels width) st)
      else if tBytes = 2 ∧ B ≥ 8 ∧ (cfg.Q ≤ 16 ∨ B = 8 ∨ B = 16) then
        finish (loop (kernelRGB16 cfg.Q B image.channels width) st)
      else finish (loop noKernel st)
    else finish (loop noKernel st)

/-! ## The read path (`readImageHelper`, and the float branch of `readGetFrame`) -/

/-- What the read loops change: the planes of the frame, plane 0 of the alpha
frame, and the pointers `r`, `g`, `b`, `a`, kept as sample offsets from the
start of their plane. -/
structure ReadState (α : Type) where
  planes : Nat → Nat → α
  alpha : Nat → α
  r : Nat
  g : Nat
  b : Nat
  a : Nat

/-- The store `p[k] = v` into plane `p` of the frame. -/
def storePlane {α : Type} (planes : Nat → Nat → α) (p k : Nat) (v : α) : Nat → Nat → α :=
  Function.update planes p (Function.update (planes p) k v)

/-- `memset(a, 0, n)` on a plane of samples of `bytes` bytes each: the samples
that lie within the first `n` bytes become zero (`n` is a multiple of `bytes`
whenever the stride is). -/
def memsetZero {α : Type} [Zero α] (bytes n : Nat) (plane : Nat → α) : Nat → α :=
  fun k => if (k + 1) * bytes ≤ n then 0 else plane k

/-- The statements of one pixel in the read loops (lines 956-959 and 971-973 of
`readImageHelper`, lines 1093-1096 and 1111-1113 of `readGetFrame`); `conv` is
the conversion of a quantum to a sample, `pg` and `pb` are the planes behind the
pointers `g` and `b`. -/
def unpackPixel {α : Type} (conv : ℚ → α) (withAlpha : Bool) (pg pb : Nat) (im : MagickImage)
    (pixels : Nat → ℚ) (x : Nat) (st : ReadState α) : ReadState α :=
  let vr := conv (pixels (x * im.channels + im.rOff))
  let st := { st with planes := storePlane st.planes 0 (st.r + x) vr }
  let vg := conv (pixels (x * im.channels + im.gOff))
  let st := { st with planes := storePlane st.planes pg (st.g + x) vg }
  let vb := conv (pixels (x * im.channels + im.bOff))
  let st := { st with planes := storePlane st.planes pb (st.b + x) vb }
  if withAlpha then
    let va := conv (pixels (Int.toNat (x * im.channels + im.aOff)))
    { st with alpha := Function.update st.alpha (st.a + x) va }
  else st

/-- The row loops of the read path (lines 953-966 and 968-979 of
`readImageHelper`, lines 1090-1103 and 1108-1119 of `readGetFrame`): for every
row `pixelCache.getConst`, the pixel loop, and the pointer increments. -/
def unpackLoop {α : Type} (conv : ℚ → α) (withAlpha : Bool) (tBytes pg pb : Nat)
    (strideR strideG strideB strideA : Nat) (im : MagickImage) (width height : Nat)
    (st : ReadState α) : ReadState α :=
  forLoop (fun y st =>
    let pixels := im.pixels y
    let st := forLoop (unpackPixel conv withAlpha pg pb im pixels) width 0 st
    { st with
      r := st.r + strideR / tBytes
      g := st.g + strideG / tBytes
      b := st.b + strideB / tBytes
      a := if withAlpha then st.a + strideA / tBytes else st.a }) height 0 st

/-- `readImageHelper<T>` (lines 930-987) for a sample type `T` of `tBytes`
bytes, with the exact conversion `unpackSample` (`readImageHelper_fp` has the
rounded one).  The result is the frame and the alpha frame after the call. -/
def readImageHelper (cfg : Build) (tBytes : Nat) (frame : Frame Nat)
    (alphaFrame : Option (Frame Nat)) (isGray : Bool) (image : MagickImage)
    (width height B : Nat) : Frame Nat × Option (Frame Nat) :=
  let conv := unpackSample tBytes (outScale cfg.Q B)
  let pg := if isGray then 0 else 1
  let pb := if isGray then 0 else 2
  let strideR := frame.stride 0
  let strideG := frame.stride pg
  let strideB := frame.stride pb
  match alphaFrame with
  | some alpha =>
    let strideA := alpha.stride 0
    let st0 : ReadState Nat :=
      { planes := frame.plane, alpha := alpha.plane 0, r := 0, g := 0, b := 0, a := 0 }
    if image.aOff ≥ 0 then
      let st := unpackLoop conv true tBytes pg pb strideR strideG strideB strideA image
        width height st0
      ({ frame with plane := st.planes },
        some { alpha with plane := Function.update alpha.plane 0 st.alpha })
    else
      let st := unpackLoop conv false tBytes pg pb strideR strideG strideB strideA image
        width height st0
      ({ frame with plane := st.planes },
        some { alpha with
          plane := Function.update alpha.plane 0 (memsetZero tBytes (strideA * height) st.alpha) })
  | none =>
    let st0 : ReadState Nat :=
      { planes := frame.plane, alpha := fun _ => 0, r := 0, g := 0, b := 0, a := 0 }
    let st := unpackLoop conv false tBytes pg pb strideR strideG strideB 0 image width height st0
    ({ frame with plane := st.planes }, none)

/-- The float branch of `readGetFrame` (lines 1068-1120); `quantumRange` is the
macro `QuantumRange`, which the source file does not declare.  The quotient is
taken exactly (`readGetFrameFloat_fp` rounds it).  The result is the frame and
the alpha frame after the branch. -/
def readGetFrameFloat (quantumRange : ℚ) (frame : Frame ℚ) (alphaFrame : Option (Frame ℚ))
    (isGray : Bool) (image : MagickImage) (width height : Nat) : Frame ℚ × Option (Frame ℚ) :=
  let conv := fun (q : ℚ) => q / quantumRange
  let pg := if isGray then 0 else 1
  let pb := if isGray then 0 else 2
  let strideR := frame.stride 0
  let strideG := frame.stride pg
  let strideB := frame.stride pb
  match alphaFrame with
  | some alpha =>
    let strideA := alpha.stride 0
    let st0 : ReadState ℚ :=
      { planes := frame.plane, alpha := alpha.plane 0, r := 0, g := 0, b := 0, a := 0 }
    if image.aOff ≥ 0 then
      let st := unpackLoop conv true 4 pg pb strideR strideG strideB strideA image
        width height st0
      ({ frame with plane := st.planes },
        some { alpha with plane := Function.update alpha.plane 0 st.alpha })
    else
      (frame, some { alpha with
        plane := Function.update alpha.plane 0 (memsetZero 4 (strideA * height) (alpha.plane 0)) })
  | none =>
    let st0 : ReadState ℚ :=
      { planes := frame.plane, alpha := fun _ => 0, r := 0, g := 0, b := 0, a := 0 }
    let st := unpackLoop conv false 4 pg pb strideR strideG strideB 0 image width height st0
    ({ frame with plane := st.planes }, none)

/-! ## The float branch of `frameToImage` (lines 594-652) -/

/-- The statements of one pixel in the float branch of `frameToImage` (lines
620-623 with an alpha frame, lines 641-643 without); `scaleFactor` is the local
constant of line 597.  The products are taken exactly (`floatPixel_fp` rounds
them). -/
def floatPixel (withAlpha : Bool) (scaleFactor : ℚ) (im : MagickImage) (p : RowPtrs ℚ)
    (x : Nat) (pixels : Nat → ℚ) : Nat → ℚ :=
  let pixels := Function.update pixels (x * im.channels + im.rOff) (p.r x * scaleFactor)
  let pixels := Function.update pixels (x * im.channels + im.gOff) (p.g x * scaleFactor)
  let pixels := Function.update pixels (x * im.channels + im.bOff) (p.b x * scaleFactor)
  if withAlpha then
    Function.update pixels (Int.toNat (x * im.channels + im.aOff)) (p.a x * scaleFactor)
  else pixels

/-- What the row loops of the float branch change: the plane pointers, the
quanta of the image and the list of accessor calls. -/
structure FloatWriteState where
  ptrs : RowPtrs ℚ
  pixels : Nat → Nat → ℚ
  calls : List CacheCall

/-- The row loops of the float branch (lines 617-632 with an alpha frame, lines
638-651 without): for every row, `pixelCache.get`, the pixel loop, the pointer
increments by `stride / sizeof(float)` and `pixelCache.sync`. -/
def floatLoop (withAlpha : Bool) (scaleFactor : ℚ) (strideR strideG strideB strideA : Nat)
    (im : MagickImage) (width height : Nat) (st : FloatWriteState) : FloatWriteState :=
  forLoop (fun y st =>
    let pixels := forLoop (floatPixel withAlpha scaleFactor im st.ptrs) width 0 (st.pixels y)
    { ptrs := nextRow withAlpha 4 strideR strideG strideB strideA st.ptrs
      pixels := Function.update st.pixels y pixels
      calls := st.calls ++ [CacheCall.get y, CacheCall.sync] }) height 0 st

/-- The float branch of `frameToImage` (lines 594-652); `quantumRange` is the
macro `QuantumRange`, which the source file does not declare.  The result is the
image with its rows rewritten and the accessor calls added. -/
def frameToImageFloat (quantumRange : ℚ) (frame : Frame ℚ) (alphaFrame : Option (Frame ℚ))
    (isGray : Bool) (image : MagickImage) (width height : Nat) : MagickImage :=
  let scaleFactor := quantumRange
  let r := frame.plane 0
  let g := frame.plane (if isGray then 0 else 1)
  let b := frame.plane (if isGray then 0 else 2)
  let strideR := frame.stride 0
  let strideG := frame.stride (if isGray then 0 else 1)
  let strideB := frame.stride (if isGray then 0 else 2)
  match alphaFrame with
  | some alpha =>
    let st := floatLoop true scaleFactor strideR strideG strideB (alpha.stride 0) image width
      height { ptrs := { r := r, g := g, b := b, a := alpha.plane 0 }
               pixels := image.pixels, calls := image.calls }
    { image with pixels := st.pixels, calls := st.calls }
  | none =>
    let st := floatLoop false scaleFactor strideR strideG strideB 0 image width
      height { ptrs := { r := r, g := g, b := b, a := fun _ => 0 }
               pixels := image.pixels, calls := image.calls }
    { image with pixels := st.pixels, calls := st.calls }

/-! ## Frame-number substitution (`specialPrintf`, lines 88-135)

A `std::string` is modelled by the list of its characters. -/

/-- The locals of `specialPrintf` that the loop changes (lines 89-95). -/
structure ScanState where
  result : List Char
  copyPos : Nat
  minWidth : Nat
  zeroPad : Bool
  percentSeen : Bool
  zeroPadSeen : Bool
  minWidthSeen : Bool

/-- The call `s.substr(pos, len)` of `std::string`, for `pos ≤ s.length()`. -/
def substr (s : List Char) (pos len : Nat) : List Char := (s.drop pos).take len

/-- The call `std::to_string(number)` on an `int`: the decimal digits, after a
minus sign for a negative number. -/
def toStringInt (number : Int) : List Char :=
  if number < 0 then '-' :: Nat.toDigits 10 number.natAbs else Nat.toDigits 10 number.toNat

/-- The body of the loop of `specialPrintf` at position `pos` (lines 98-129).
A `continue` ends the round with the flags as they are; the other paths reach
the reset of lines 125-129. -/
def scanStep (filename : List Char) (number : Int) (pos : Nat) (st : ScanState) : ScanState :=
  let c := filename.getD pos ' '
  if c = '%' ∧ st.percentSeen = false then
    { st with
      result := st.result ++ substr filename st.copyPos (pos - st.copyPos)
      copyPos := pos
      percentSeen := true }
  else if st.percentSeen = true ∧ c = '0' ∧ st.zeroPadSeen = false then
    { st with zeroPad := true, zeroPadSeen := true }
  else if st.percentSeen = true ∧ '1' ≤ c ∧ c ≤ '9' ∧ st.minWidthSeen = false then
    { st with minWidth := c.toNat - '0'.toNat, zeroPadSeen := true, minWidthSeen := true }
  else
    let st :=
      if st.percentSeen = true ∧ c = 'd' then
        let num := toStringInt number
        let num :=
          if st.minWidthSeen = true ∧ st.minWidth > num.length then
            List.replicate (st.minWidth - num.length) (if st.zeroPad then '0' else ' ') ++ num
          else num
        { st with result := st.result ++ num, copyPos := pos + 1 }
      else st
    { st with
      minWidth := 0, zeroPad := false, percentSeen := false, zeroPadSeen := false
      minWidthSeen := false }

/-- The locals of `specialPrintf` before the loop (lines 89-95). -/
def scanInit : ScanState :=
  { result := [], copyPos := 0, minWidth := 0, zeroPad := false, percentSeen := false
    zeroPadSeen := false, minWidthSeen := false }

/-- The state of `specialPrintf` when the loop reaches position `pos`. -/
def scanState (filename : List Char) (number : Int) (pos : Nat) : ScanState :=
  forLoop (scanStep filename number) pos 0 scanInit

/-- `specialPrintf(filename, number)` (lines 88-135). -/
def specialPrintf (filename : List Char) (number : Int) : List Char :=
  let st := scanState filename number filename.length
  st.result ++ substr filename st.copyPos (filename.length - st.copyPos)

/-- The loop of `specialPrintf` reaches the substitution of lines 118-122 at
position `pos`: it is in a directive (`percentSeen`) and reads a `d`. -/
def substitutesAt (filename : List Char) (pos : Nat) : Prop :=
  (scanState filename 0 pos).percentSeen = true ∧ filename.getD pos ' ' = 'd'

instance (filename : List Char) (pos : Nat) : Decidable (substitutesAt filename pos) := by
  unfold substitutesAt
  infer_instance

/-- `specialPrintf` substitutes the number somewhere in `filename`. -/
def substitutes (filename : List Char) : Prop :=
  ∃ pos, pos < filename.length ∧ substitutesAt filename pos

/-- The test of `writeCreate` on the filename (lines 839-845): the error message
when `overwrite` is off and `specialPrintf(filename, 0) == filename`. -/
def writeCreateFilenameTest (overwrite : Bool) (filename : List Char) : Option String :=
  if overwrite = false ∧ specialPrintf filename 0 = filename then
    some "Write: Filename string doesn't contain a number"
  else none

/-- The flag `fileListMode` after lines 1183-1184 of `readCreate`: it starts
`true` (the constructor of `ReadData`) and is cleared for a single filename that
`specialPrintf` changes. -/
def readCreateFileListMode (filenames : List (List Char)) : Bool :=
  if filenames.length = 1 ∧ specialPrintf (filenames.getD 0 []) 0 ≠ filenames.getD 0 [] then false
  else true

/-! ## Arguments of `Write` and `EncodeFrame` (lines 723-790, 824-837, 877-890)

The VapourSynth API and its helper header are not part of the source file.  A
`VSMap` is modelled by what the lookups of the source return for its keys, a
clip or frame by its format and the dimensions of plane 0. -/

/-- The values of `MagickCore::CompressionType` that lines 735-778 name. -/
inductive CompressionType where
  | UndefinedCompression | NoCompression | BZipCompression | DXT1Compression
  | DXT3Compression | DXT5Compression | FaxCompression | Group4Compression
  | JPEGCompression | JPEG2000Compression | LosslessJPEGCompression | LZWCompression
  | RLECompression | ZipCompression | ZipSCompression | PizCompression | Pxr24Compression
  | B44Compression | B44ACompression | LZMACompression | JBIG1Compression | JBIG2Compression
  deriving DecidableEq, Repr

/-- The fields of `WriteData` (lines 178-192) that `fillWriteDataFromMap` sets. -/
structure WriteData where
  imgFormat : String
  quality : Int
  compressType : CompressionType
  dither : Bool

/-- The object that `new WriteData()` makes (the constructor of line 191). -/
def WriteData.new : WriteData :=
  { imgFormat := "", quality := 0, compressType := CompressionType.UndefinedCompression
    dither := true }

/-- The argument map of `Write` and `EncodeFrame` as `fillWriteDataFromMap`
reads it: an optional key is `none` when the lookup reports an error. -/
structure WriteArgs where
  quality : Option Int
  compression_type : Option String
  imgformat : String
  dither : Option Int

/-- The call `mapGetInt(in, key, 0, &err)` of the VapourSynth API on an optional
integer key: the value and whether `err` is set; an absent key gives `0` and
sets `err`. -/
def mapGetInt (v : Option Int) : Int × Bool :=
  match v with
  | some x => (x, false)
  | none => (0, true)

/-- The call `mapGetIntSaturated(in, key, 0, &err)` of the VapourSynth API: as
`mapGetInt`, with the stored 64-bit integer clamped to the range of `int`. -/
def mapGetIntSaturated (v : Option Int) : Int × Bool :=
  ((max (-(2 ^ 31)) (min (mapGetInt v).1 (2 ^ 31 - 1))), (mapGetInt v).2)

/-- The chain of comparisons of lines 735-781 on the upper-cased string;
`none` stands for the `else` branch. -/
def parseCompression (s : String) : Option CompressionType :=
  if s = "" ∨ s = "UNDEFINED" then some CompressionType.UndefinedCompression
  else if s = "NONE" then some CompressionType.NoCompression
  else if s = "BZIP" then some CompressionType.BZipCompression
  else if s = "DXT1" then some CompressionType.DXT1Compression
  else if s = "DXT3" then some CompressionType.DXT3Compression
  else if s = "DXT5" then some CompressionType.DXT5Compression
  else if s = "FAX" then some CompressionType.FaxCompression
  else if s = "GROUP4" then some CompressionType.Group4Compression
  else if s = "JPEG" then some CompressionType.JPEGCompression
  else if s = "JPEG2000" then some CompressionType.JPEG2000Compression
  else if s = "LOSSLESSJPEG" then some CompressionType.LosslessJPEGCompression
  else if s = "LZW" then some CompressionType.LZWCompression
  else if s = "RLE" then some CompressionType.RLECompression
  else if s = "ZIP" then some CompressionType.ZipCompression
  else if s = "ZIPS" then some CompressionType.ZipSCompression
  else if s = "PIZ" then some CompressionType.PizCompression
  else if s = "PXR24" then some CompressionType.Pxr24Compression
  else if s = "B44" then some CompressionType.B44Compression
  else if s = "B44A" then some CompressionType.B44ACompression
  else if s = "LZMA" then some CompressionType.LZMACompression
  else if s = "JBIG1" then some CompressionType.JBIG1Compression
  else if s = "JBIG2" then some CompressionType.JBIG2Compression
  else none

/-- `fillWriteDataFromMap(in, d, vsapi)` (lines 723-790): the returned message
(`none` for `nullptr`) and `d` as the call leaves it. -/
def fillWriteDataFromMap (args : WriteArgs) (d : WriteData) : Option String × WriteData :=
  let q := mapGetIntSaturated args.quality
  let d := { d with quality := q.1 }
  let d := if q.2 then { d with quality := 75 } else d
  if d.quality < 0 ∨ d.quality > 100 then (some "Quality must be between 0 and 100", d)
  else
    let compression : Except String WriteData :=
      match args.compression_type with
      | some s =>
        match parseCompression s.toUpper with
        | some t => Except.ok { d with compressType := t }
        | none => Except.error "Unrecognized compression type"
      | none => Except.ok d
    match compression with
    | Except.error msg => (some msg, d)
    | Except.ok d =>
      let d := { d with imgFormat := args.imgformat }
      let dither := mapGetInt args.dither
      let d := { d with dither := decide (dither.1 ≠ 0) }
      let d := if dither.2 then { d with dither := true } else d
      (none, d)

/-- The constants of `VSColorFamily` that the source names. -/
inductive ColorFamily where
  | cfUndefined | cfGray | cfRGB | cfYUV
  deriving DecidableEq, Repr

/-- The constants of `VSSampleType`. -/
inductive SampleType where
  | stInteger | stFloat
  deriving DecidableEq, Repr

/-- The fields of `VSVideoFormat`. -/
structure VideoFormat where
  colorFamily : ColorFamily
  sampleType : SampleType
  bitsPerSample : Int
  bytesPerSample : Int
  subSamplingW : Int
  subSamplingH : Int
  numPlanes : Int
  deriving DecidableEq

/-- A clip or a frame as the checks see it: its format (`vi->format`,
`getVideoFrameFormat`) and the dimensions of plane 0 (`vi->width`, `vi->height`,
`getFrameWidth(f, 0)`, `getFrameHeight(f, 0)`). -/
structure Picture where
  format : VideoFormat
  width : Int
  height : Int

/-- The helper `vsh::isSameVideoFormat` of the VapourSynth header `VSHelper4.h`:
colour family, sample type, bits per sample and both subsampling values agree. -/
def isSameVideoFormat (v1 v2 : VideoFormat) : Bool :=
  decide (v1.colorFamily = v2.colorFamily ∧ v1.sampleType = v2.sampleType
    ∧ v1.bitsPerSample = v2.bitsPerSample ∧ v1.subSamplingW = v2.subSamplingW
    ∧ v1.subSamplingH = v2.subSamplingH)

/-- The format that `queryVideoFormat` of the VapourSynth API fills in for a
request that it accepts: the requested fields, the bytes per sample that hold
the bits, one plane for gray and three otherwise. -/
def queryVideoFormat (cf : ColorFamily) (st : SampleType) (bits ssw ssh : Int) : VideoFormat :=
  { colorFamily := cf, sampleType := st, bitsPerSample := bits
    bytesPerSample := if bits ≤ 8 then 1 else if bits ≤ 16 then 2 else if bits ≤ 32 then 4 else 8
    subSamplingW := ssw, subSamplingH := ssh
    numPlanes := if cf = ColorFamily.cfGray then 1 else 3 }

/-- `frameDimsMatch(a, b, vsapi)` (lines 664-667). -/
def frameDimsMatch (a b : Picture) : Bool :=
  decide (a.width = b.width ∧ b.height = b.height)

/-- The test of `writeCreate` on the alpha clip (lines 824-837): the error
message, or `none` when the clip is accepted. -/
def writeCreateAlphaTest (vi alphaVi : Picture) : Option String :=
  let alphaFormat :=
    queryVideoFormat ColorFamily.cfGray vi.format.sampleType vi.format.bitsPerSample 0 0
  if vi.width ≠ alphaVi.width ∨ vi.height ≠ alphaVi.height
      ∨ alphaVi.format.colorFamily = ColorFamily.cfUndefined
      ∨ isSameVideoFormat alphaVi.format alphaFormat = false then
    some "Write: Alpha clip dimensions and format don't match the main clip"
  else none

/-- The test of `encodeFrame` on the alpha frame (lines 879-890): the error
message, or `none` when the frame is accepted. -/
def encodeFrameAlphaTest (frame alpha : Picture) : Option String :=
  if frameDimsMatch frame alpha = false
      ∨ alpha.format.colorFamily = ColorFamily.cfUndefined
      ∨ isSameVideoFormat frame.format alpha.format = false then
    some "EncodeFrame: Alpha frame dimensions and format don't match the main frame"
  else none

/-- The rule of the claim for an alpha picture: the width and height of the main
picture, a gray format, the sample type and bits per sample of the main format. -/
def alphaRule (main alpha : Picture) : Prop :=
  alpha.width = main.width ∧ alpha.height = main.height
    ∧ alpha.format.colorFamily = ColorFamily.cfGray
    ∧ alpha.format.sampleType = main.format.sampleType
    ∧ alpha.format.bitsPerSample = main.format.bitsPerSample

instance (main alpha : Picture) : Decidable (alphaRule main alpha) := by
  unfold alphaRule
  infer_instance

/-- An RGB frame of 8-bit integer samples, 640 by 480. -/
def demoRGB24 : Picture :=
  { format := queryVideoFormat ColorFamily.cfRGB SampleType.stInteger 8 0 0
    width := 640, height := 480 }

/-- A gray frame of 8-bit integer samples, 640 by 480. -/
def demoGray8 : Picture :=
  { format := queryVideoFormat ColorFamily.cfGray SampleType.stInteger 8 0 0
    width := 640, height := 480 }

/-- An RGB frame of 8-bit integer samples, 640 by 240. -/
def demoRGB24Half : Picture :=
  { format := queryVideoFormat ColorFamily.cfRGB SampleType.stInteger 8 0 0
    width := 640, height := 240 }

/-- The 16-bit word numbered `t` of a list of registers: word `t % 8` of register
`t / 8`. -/
def wordOf (rs : List M128) (t : Nat) : Nat := word (rs.getD (t / 8) mm_setzero_si128) (t % 8)

/-- The kernel that `writeImageHelper` passes to `loopImage`: one of the four
vector kernels, or the empty lambda of lines 453 and 570 (`scalar`). -/
inductive KernelChoice where
  | rgba8 | rgba16 | rgb8 | rgb16 | scalar
  deriving DecidableEq, Repr

/-- The dispatch of `writeImageHelper` (lines 392-453 with an alpha frame, lines
474-570 without): the tests on the build, the channel layout and the sample
format, in the order of the source. -/
def selectKernel (cfg : Build) (tBytes : Nat) (withAlpha : Bool) (image : MagickImage)
    (B : Nat) : KernelChoice :=
  if withAlpha then
    if cfg.sse2 = true ∧ cfg.quantumBytes ≤ 4 ∧ cfg.Q ≤ 32 ∧ image.channels = 4
        ∧ image.rOff = 0 ∧ image.gOff = 1 ∧ image.bOff = 2 ∧ image.aOff = 3 then
      if tBytes = 1 ∧ B = 8 then KernelChoice.rgba8
      else if tBytes = 2 ∧ B ≥ 8 ∧ (cfg.Q ≤ 16 ∨ B = 8 ∨ B = 16) then KernelChoice.rgba16
      else KernelChoice.scalar
    else KernelChoice.scalar
  else
    if cfg.sse2 = true ∧ cfg.quantumBytes ≤ 4 ∧ cfg.Q ≤ 32 ∧ image.channels = 3
        ∧ image.rOff = 0 ∧ image.gOff = 1 ∧ image.bOff = 2 then
      if tBytes = 1 ∧ B = 8 then KernelChoice.rgb8
      else if tBytes = 2 ∧ B ≥ 8 ∧ (cfg.Q ≤ 16 ∨ B = 8 ∨ B = 16) then KernelChoice.rgb16
      else KernelChoice.scalar
    else KernelChoice.scalar

/-- The lambda `loopPixels` that belongs to a choice. -/
def kernelOf (c : KernelChoice) (Q B channels width : Nat) :
    RowPtrs Nat → (Nat → ℚ) → (Nat → ℚ) × Nat :=
  match c with
  | KernelChoice.rgba8 => kernelRGBA8 Q channels width
  | KernelChoice.rgba16 => kernelRGBA16 Q B channels width
  | KernelChoice.rgb8 => kernelRGB8 Q channels width
  | KernelChoice.rgb16 => kernelRGB16 Q B channels width
  | KernelChoice.scalar => noKernel

/-- The body of `writeImageHelper<T>` around the dispatch (lines 340-391 and
455-472): the depth-scale parameters, the plane pointers, and the call of the
lambda `loopImage` on a given `loopPixels`. -/
def writeImageWith (loopPixels : RowPtrs Nat → (Nat → ℚ) → (Nat → ℚ) × Nat) (Q tBytes : Nat)
    (frame : Frame Nat) (alphaFrame : Option (Frame Nat)) (isGray : Bool) (image : MagickImage)
    (width height B : Nat) : MagickImage :=
  let sf := scaleFactor Q B
  let sh := shiftFactor Q B
  let r := frame.plane 0
  let g := frame.plane (if isGray then 0 else 1)
  let b := frame.plane (if isGray then 0 else 2)
  let strideR := frame.stride 0
  let strideG := frame.stride (if isGray then 0 else 1)
  let strideB := frame.stride (if isGray then 0 else 2)
  match alphaFrame with
  | some alpha =>
    let st := loopImage true sf sh tBytes strideR strideG strideB (alpha.stride 0) image width
      height loopPixels
      { ptrs := { r := r, g := g, b := b, a := alpha.plane 0 }
        pixels := image.pixels, calls := image.calls }
    { image with pixels := st.pixels, calls := st.calls }
  | none =>
    let st := loopImage false sf sh tBytes strideR strideG strideB 0 image width height
      loopPixels
      { ptrs := { r := r, g := g, b := b, a := fun _ => 0 }
        pixels := image.pixels, calls := image.calls }
    { image with pixels := st.pixels, calls := st.calls }

/-- Line 342 alone, `unsigned shiftFactor = bitsPerSample - pleftover;`: the
value of `shiftFactor` before the statement of lines 351-352. -/
def shiftFactorGeneral (Q B : Nat) : Nat := toU32 (B + 2 ^ 32 - pleftover Q B)

/-- The test of `writeGetFrame` on the alpha frame (lines 690-696): the error
message, or `none` when the frame goes on to `frameToImage`. -/
def writeGetFrameAlphaTest (frame alpha : Picture) : Option String :=
  if frameDimsMatch frame alpha = false then
    some "Write: Mismatched dimension of the alpha clip"
  else none

/-- A gray frame of 8-bit integer samples, 640 by 240. -/
def demoGray8Half : Picture :=
  { format := queryVideoFormat ColorFamily.cfGray SampleType.stInteger 8 0 0
    width := 640, height := 240 }

/-- `readSampleTypeDepth(d, image, st, depth)` (lines 989-1003): `floatOutput` is
`d->floatOutput`, `format` is `image.attribute("quantum:format")` and `imageDepth`
is `image.depth()`, a `size_t` that line 991 casts to `int`.  The result is
`(st, depth)`. -/
def readSampleTypeDepth (floatOutput : Bool) (format : String) (imageDepth : Nat) :
    SampleType × Int :=
  let st := SampleType.stInteger
  let depth := toI32 imageDepth
  let st := if depth = 32 then SampleType.stFloat else st
  let r : SampleType × Int :=
    if floatOutput = true ∨ format = "floating-point" then (SampleType.stFloat, 32)
    else (st, depth)
  if r.2 < 8 then (r.1, 8) else r

/-! ## Floating-point arithmetic

The floating-point operations of the source round their exact result to the
nearest value of the format, ties to even (IEEE 754), each operation on its own.
A floating-point value is modelled by the rational number it holds.  Infinities
and NaN are not values of the model: a rounding stands for the result of the
machine when the exact result lies within the finite range of the format
(`FloatFormat.InRange`). -/

/-- A binary floating-point format: the precision in bits and the exponents of
the least and of the greatest normal numbers. -/
structure FloatFormat where
  prec : Nat
  emin : Int
  emax : Int

/-- The format of `float`. -/
def binary32 : FloatFormat := { prec := 24, emin := -126, emax := 127 }

/-- The greatest finite value of a format. -/
def FloatFormat.maxFinite (fmt : FloatFormat) : ℚ :=
  (2 ^ fmt.prec - 1) * 2 ^ (fmt.emax - ((fmt.prec : Int) - 1))

/-- An exact result within the finite range of a format: the operation that
produces it does not overflow, and its floating-point result is the rounding
`roundTo` below. -/
def FloatFormat.InRange (fmt : FloatFormat) (x : ℚ) : Prop := |x| ≤ fmt.maxFinite

/-- Rounding of a rational number to the nearest integer, a tie to the even one. -/
def roundHalfEven (q : ℚ) : Int :=
  if q - ⌊q⌋ < 1 / 2 then ⌊q⌋
  else if 1 / 2 < q - ⌊q⌋ then ⌊q⌋ + 1
  else if ⌊q⌋ % 2 = 0 then ⌊q⌋ else ⌊q⌋ + 1

/-- The exponent of the unit in the last place of `x` in a format: for a normal
`x` with `2 ^ e ≤ |x| < 2 ^ (e + 1)` it is `e - (prec - 1)`, below the normal
range it is that of the least normal number. -/
def ulpExp (fmt : FloatFormat) (x : ℚ) : Int :=
  max (Int.log 2 |x|) fmt.emin - ((fmt.prec : Int) - 1)

/-- Rounding of an exact result to a format, to nearest, ties to even. -/
def roundTo (fmt : FloatFormat) (x : ℚ) : ℚ :=
  (roundHalfEven (x / 2 ^ ulpExp fmt x) : ℚ) * 2 ^ ulpExp fmt x

/-- A format that holds every `float`: the precision and the exponent range are
at least those of `float`.  `Quantum` is such a format. -/
def FloatFormat.Wide (fmt : FloatFormat) : Prop :=
  24 ≤ fmt.prec ∧ fmt.emin ≤ -126 ∧ 127 ≤ fmt.emax

instance (fmt : FloatFormat) : Decidable fmt.Wide := by
  unfold FloatFormat.Wide
  infer_instance

/-- The float read of a quantum `q` stays finite: the conversion of
`QuantumRange` to a `Quantum` (line 1069), the division `pixels[..] / scaleFactor`
of lines 1093-1096 and 1111-1113 and the conversion of the quotient to `float`
do not overflow, and the divisor is not zero. -/
def unpackFloatFinite (fmt : FloatFormat) (quantumRange q : ℚ) : Prop :=
  fmt.InRange quantumRange ∧ roundTo fmt quantumRange ≠ 0
    ∧ fmt.InRange (q / roundTo fmt quantumRange)
    ∧ binary32.InRange (roundTo fmt (q / roundTo fmt quantumRange))

/-- The float write of a sample `s` stays finite: the conversion of
`QuantumRange` to a `Quantum` (line 597) and the product `r[x] * scaleFactor` of
lines 620-623 and 641-643 do not overflow. -/
def packFloatFinite (fmt : FloatFormat) (quantumRange s : ℚ) : Prop :=
  fmt.InRange quantumRange ∧ fmt.InRange (s * roundTo fmt quantumRange)

/-- The run-time shift `x << n` of an `int`.  The shift instruction of x86 takes
the count modulo 32, so that `1 << 32` executes as `1 << 0`; C++ leaves a shift
by the width of the type undefined.  For `n < 32` it is `shlI32`. -/
def shlRun (x : Int) (n : Nat) : Int := toI32 (x * 2 ^ (n % 32))

/-- Line 932 in the arithmetic of the machine:
`float outScale = ((1 << bitsPerSample) - 1) / static_cast<float>((1 << MAGICKCORE_QUANTUM_DEPTH) - 1);`
The numerator is an `int` computed at run time and converted to `float` for the
division, the divisor is a constant expression converted to `float`, and the
quotient is a `float`: three roundings. -/
def outScale_fp (Q B : Nat) : ℚ :=
  roundTo binary32
    (roundTo binary32 (toI32 (shlRun 1 B - 1) : ℚ) / roundTo binary32 (toI32 (shlI32 1 Q - 1) : ℚ))

/-- The right-hand side `(unsigned)(p * outScale + .5f)` of lines 956-959 and
971-973 in the arithmetic of the machine, stored into a sample of `bytes`
bytes; `fmt` is the format of `Quantum`, in which the product and the sum are
formed and rounded one after the other. -/
def unpackSample_fp (fmt : FloatFormat) (bytes : Nat) (scale p : ℚ) : Nat :=
  storeT bytes (toUnsigned (roundTo fmt (roundTo fmt (p * scale) + 1 / 2)))

/-- `readImageHelper<T>` (lines 930-987) in the arithmetic of the machine; `fmt`
is the format of `Quantum`, which the source file does not declare.  The loops
are those of `readImageHelper`. -/
def readImageHelper_fp (fmt : FloatFormat) (cfg : Build) (tBytes : Nat) (frame : Frame Nat)
    (alphaFrame : Option (Frame Nat)) (isGray : Bool) (image : MagickImage)
    (width height B : Nat) : Frame Nat × Option (Frame Nat) :=
  let conv := unpackSample_fp fmt tBytes (outScale_fp cfg.Q B)
  let pg := if isGray then 0 else 1
  let pb := if isGray then 0 else 2
  let strideR := frame.stride 0
  let strideG := frame.stride pg
  let strideB := frame.stride pb
  match alphaFrame with
  | some alpha =>
    let strideA := alpha.stride 0
    let st0 : ReadState Nat :=
      { planes := frame.plane, alpha := alpha.plane 0, r := 0, g := 0, b := 0, a := 0 }
    if image.aOff ≥ 0 then
      let st := unpackLoop conv true tBytes pg pb strideR strideG strideB strideA image
        width height st0
      ({ frame with plane := st.planes },
        some { alpha with plane := Function.update alpha.plane 0 st.alpha })
    else
      let st := unpackLoop conv false tBytes pg pb strideR strideG strideB strideA image
        width height st0
      ({ frame with plane := st.planes },
        some { alpha with
          plane := Function.update alpha.plane 0 (memsetZero tBytes (strideA * height) st.alpha) })
  | none =>
    let st0 : ReadState Nat :=
      { planes := frame.plane, alpha := fun _ => 0, r := 0, g := 0, b := 0, a := 0 }
    let st := unpackLoop conv false tBytes pg pb strideR strideG strideB 0 image width height st0
    ({ frame with plane := st.planes }, none)

/-- The right-hand side `pixels[..] / scaleFactor` of lines 1093-1096 and
1111-1113, stored into a `float`: the quotient of two `Quantum` values is formed
in the format of `Quantum` and converted to `float`. -/
def unpackFloat_fp (fmt : FloatFormat) (scaleFactor q : ℚ) : ℚ :=
  roundTo binary32 (roundTo fmt (q / scaleFactor))

/-- The float branch of `readGetFrame` (lines 1068-1120) in the arithmetic of
the machine; `fmt` is the format of `Quantum` and `quantumRange` the macro
`QuantumRange`, neither declared in the source file.  Line 1069 converts
`QuantumRange` to a `Quantum`. -/
def readGetFrameFloat_fp (fmt : FloatFormat) (quantumRange : ℚ) (frame : Frame ℚ)
    (alphaFrame : Option (Frame ℚ)) (isGray : Bool) (image : MagickImage)
    (width height : Nat) : Frame ℚ × Option (Frame ℚ) :=
  let scaleFactor := roundTo fmt quantumRange
  let conv := unpackFloat_fp fmt scaleFactor
  let pg := if isGray then 0 else 1
  let pb := if isGray then 0 else 2
  let strideR := frame.stride 0
  let strideG := frame.stride pg
  let strideB := frame.stride pb
  match alphaFrame with
  | some alpha =>
    let strideA := alpha.stride 0
    let st0 : ReadState ℚ :=
      { planes := frame.plane, alpha := alpha.plane 0, r := 0, g := 0, b := 0, a := 0 }
    if image.aOff ≥ 0 then
      let st := unpackLoop conv true 4 pg pb strideR strideG strideB strideA image
        width height st0
      ({ frame with plane := st.planes },
        some { alpha with plane := Function.update alpha.plane 0 st.alpha })
    else
      (frame, some { alpha with
        plane := Function.update alpha.plane 0 (memsetZero 4 (strideA * height) (alpha.plane 0)) })
  | none =>
    let st0 : ReadState ℚ :=
      { planes := frame.plane, alpha := fun _ => 0, r := 0, g := 0, b := 0, a := 0 }
    let st := unpackLoop conv false 4 pg pb strideR strideG strideB 0 image width height st0
    ({ frame with plane := st.planes }, none)

/-- The right-hand side `r[x] * scaleFactor` of lines 620-623 and 641-643: the
product of a `float` and a `Quantum`, formed in the format of `Quantum`. -/
def packFloat_fp (fmt : FloatFormat) (scaleFactor s : ℚ) : ℚ := roundTo fmt (s * scaleFactor)

/-- The statements of one pixel in the float branch of `frameToImage` (lines
620-623 with an alpha frame, lines 641-643 without) in the arithmetic of the
machine; `scaleFactor` is the local constant of line 597. -/
def floatPixel_fp (fmt : FloatFormat) (withAlpha : Bool) (scaleFactor : ℚ) (im : MagickImage)
    (p : RowPtrs ℚ) (x : Nat) (pixels : Nat → ℚ) : Nat → ℚ :=
  let pixels := Function.update pixels (x * im.channels + im.rOff)
    (packFloat_fp fmt scaleFactor (p.r x))
  let pixels := Function.update pixels (x * im.channels + im.gOff)
    (packFloat_fp fmt scaleFactor (p.g x))
  let pixels := Function.update pixels (x * im.channels + im.bOff)
    (packFloat_fp fmt scaleFactor (p.b x))
  if withAlpha then
    Function.update pixels (Int.toNat (x * im.channels + im.aOff))
      (packFloat_fp fmt scaleFactor (p.a x))
  else pixels

/-- The row loops of the float branch (lines 617-632 with an alpha frame, lines
638-651 without) in the arithmetic of the machine: for every row,
`pixelCache.get`, the pixel loop, the pointer increments by
`stride / sizeof(float)` and `pixelCache.sync`. -/
def floatLoop_fp (fmt : FloatFormat) (withAlpha : Bool) (scaleFactor : ℚ)
    (strideR strideG strideB strideA : Nat) (im : MagickImage) (width height : Nat)
    (st : FloatWriteState) : FloatWriteState :=
  forLoop (fun y st =>
    let pixels := forLoop (floatPixel_fp fmt withAlpha scaleFactor im st.ptrs) width 0
      (st.pixels y)
    { ptrs := nextRow withAlpha 4 strideR strideG strideB strideA st.ptrs
      pixels := Function.update st.pixels y pixels
      calls := st.calls ++ [CacheCall.get y, CacheCall.sync] }) height 0 st

/-- The float branch of `frameToImage` (lines 594-652) in the arithmetic of the
machine; `fmt` is the format of `Quantum` and `quantumRange` the macro
`QuantumRange`, neither declared in the source file.  Line 597 converts
`QuantumRange` to a `Quantum`. -/
def frameToImageFloat_fp (fmt : FloatFormat) (quantumRange : ℚ) (frame : Frame ℚ)
    (alphaFrame : Option (Frame ℚ)) (isGray : Bool) (image : MagickImage)
    (width height : Nat) : MagickImage :=
  let scaleFactor := roundTo fmt quantumRange
  let r := frame.plane 0
  let g := frame.plane (if isGray then 0 else 1)
  let b := frame.plane (if isGray then 0 else 2)
  let strideR := frame.stride 0
  let strideG := frame.stride (if isGray then 0 else 1)
  let strideB := frame.stride (if isGray then 0 else 2)
  match alphaFrame with
  | some alpha =>
    let st := floatLoop_fp fmt true scaleFactor strideR strideG strideB (alpha.stride 0) image
      width height { ptrs := { r := r, g := g, b := b, a := alpha.plane 0 }
                     pixels := image.pixels, calls := image.calls }
    { image with pixels := st.pixels, calls := st.calls }
  | none =>
    let st := floatLoop_fp fmt false scaleFactor strideR strideG strideB 0 image width
      height { ptrs := { r := r, g := g, b := b, a := fun _ => 0 }
               pixels := image.pixels, calls := image.calls }
    { image with pixels := st.pixels, calls := st.calls }

/-- A 2x2 frame of 8-bit samples with a stride of 4 bytes. -/
def demoFrame : Frame Nat :=
  { width := 2, height := 2, plane := fun p k => (50 * p + 7 * k + 3) % 256, stride := fun _ => 4 }

/-- A 2x2 alpha frame of 8-bit samples with a stride of 4 bytes. -/
def demoAlpha : Frame Nat :=
  { width := 2, height := 2, plane := fun _ k => 255 - k, stride := fun _ => 4 }

/-- An RGBA image with the usual channel order, every quantum set to 16 times
its index plus the row number. -/
def demoImage : MagickImage :=
  { channels := 4, rOff := 0, gOff := 1, bOff := 2, aOff := 3,
    pixels := fun y i => 16 * i + y, calls := [] }

/-- An RGB image without an alpha channel, every quantum set to 10 times its
index plus the row number. -/
def demoOpaque : MagickImage :=
  { channels := 3, rOff := 0, gOff := 1, bOff := 2, aOff := -1,
    pixels := fun y i => 10 * i + y, calls := [] }

/-- A 2x2 frame of float samples with a stride of 16 bytes, every sample 1/2. -/
def demoFloat : Frame ℚ :=
  { width := 2, height := 2, plane := fun _ _ => 1 / 2, stride := fun _ => 16 }

/-- The plane pointers of a row of 8-bit samples. -/
def demoRow : RowPtrs Nat :=
  { r := fun k => (7 * k + 3) % 256, g := fun k => (11 * k + 5) % 256,
    b := fun k => (13 * k) % 256, a := fun k => 255 - k % 256 }

/-! ## Theorems -/

/-! ### Depth-scale calculator -/

theorem prepeat_eq {Q B : Nat} (hQ : Q ≤ 32) : prepeat Q B = (Q - 1) / B := by
  unfold prepeat toU32
  apply Nat.mod_eq_of_lt
  have : (Q - 1) / B ≤ Q - 1 := Nat.div_le_self _ _
  omega

theorem mul_prepeat_le {Q B : Nat} (hQ : Q ≤ 32) : B * prepeat Q B ≤ Q - 1 := by
  rw [prepeat_eq hQ]
  exact Nat.mul_div_le _ _

theorem pleftover_eq {Q B : Nat} (hQ1 : 1 ≤ Q) (hQ : Q ≤ 32) :
    pleftover Q B = Q - B * prepeat Q B := by
  have h := mul_prepeat_le (B := B) hQ
  unfold pleftover toU32
  rw [Nat.mod_eq_of_lt (a := B * prepeat Q B) (by omega)]
  omega

theorem pleftover_pos {Q B : Nat} (hQ1 : 1 ≤ Q) (hQ : Q ≤ 32) : 1 ≤ pleftover Q B := by
  have h := mul_prepeat_le (B := B) hQ
  rw [pleftover_eq hQ1 hQ]
  omega

theorem pleftover_le_width {Q B : Nat} (hB : 1 ≤ B) (hQ1 : 1 ≤ Q) (hQ : Q ≤ 32) :
    pleftover Q B ≤ B := by
  rw [pleftover_eq hQ1 hQ, prepeat_eq hQ]
  have h1 := Nat.div_add_mod (Q - 1) B
  have h2 : (Q - 1) % B < B := Nat.mod_lt _ (by omega)
  omega

theorem pleftover_le_depth {Q B : Nat} (hQ1 : 1 ≤ Q) (hQ : Q ≤ 32) : pleftover Q B ≤ Q := by
  rw [pleftover_eq hQ1 hQ]
  omega

theorem depth_split {Q B : Nat} (hQ1 : 1 ≤ Q) (hQ : Q ≤ 32) :
    B * prepeat Q B + pleftover Q B = Q := by
  have h := mul_prepeat_le (B := B) hQ
  rw [pleftover_eq hQ1 hQ]
  omega

theorem ones_succ (B k : Nat) :
    ∑ i in Finset.range (k + 1), 2 ^ (B * i) = 2 ^ B * (∑ i in Finset.range k, 2 ^ (B * i)) + 1 := by
  rw [Finset.sum_range_succ', Finset.mul_sum]
  simp [Nat.mul_succ, pow_add, mul_comm]

theorem ones_lt (B k : Nat) (hB : 1 ≤ B) : ∑ i in Finset.range k, 2 ^ (B * i) < 2 ^ (B * k) := by
  induction k with
  | zero => simp
  | succ k ih =>
    rw [ones_succ, Nat.mul_succ, pow_add]
    have h2 : 2 ≤ 2 ^ B := by
      calc 2 = 2 ^ 1 := by norm_num
        _ ≤ 2 ^ B := Nat.pow_le_pow_right (by norm_num) hB
    have h3 : 2 ^ B * (∑ i in Finset.range k, 2 ^ (B * i)) + 2 ^ B ≤ 2 ^ (B * k) * 2 ^ B := by
      have : 2 ^ B * ((∑ i in Finset.range k, 2 ^ (B * i)) + 1) ≤ 2 ^ B * 2 ^ (B * k) :=
        Nat.mul_le_mul_left _ ih
      calc 2 ^ B * (∑ i in Finset.range k, 2 ^ (B * i)) + 2 ^ B
          = 2 ^ B * ((∑ i in Finset.range k, 2 ^ (B * i)) + 1) := by ring
        _ ≤ 2 ^ B * 2 ^ (B * k) := this
        _ = 2 ^ (B * k) * 2 ^ B := by ring
    omega

theorem pow_le_word {n : Nat} (h : n ≤ 32) : 2 ^ n ≤ 2 ^ 32 :=
  Nat.pow_le_pow_right (by norm_num) h

theorem scaleAcc_eq (B : Nat) (hB : 1 ≤ B) :
    ∀ k, B * k ≤ 32 → scaleAcc B k = ∑ i in Finset.range k, 2 ^ (B * i) := by
  intro k
  induction k with
  | zero => intro _; simp [scaleAcc]
  | succ k ih =>
    intro hk
    have hk' : B * k ≤ 32 := by rw [Nat.mul_succ] at hk; omega
    have hlt := ones_lt B (k + 1) hB
    have hle := pow_le_word hk
    rw [ones_succ] at hlt
    rw [scaleAcc, ih hk', ones_succ, shlU32, toU32, toU32]
    rw [Nat.mod_eq_of_lt (a := _ * 2 ^ B) (by rw [mul_comm]; omega)]
    rw [Nat.mod_eq_of_lt (by rw [mul_comm]; omega)]
    ring

theorem scaleFactor_eq {Q B : Nat} (hB : 1 ≤ B) (hQ1 : 1 ≤ Q) (hQ : Q ≤ 32) :
    scaleFactor Q B = 2 ^ pleftover Q B * ∑ i in Finset.range (prepeat Q B), 2 ^ (B * i) := by
  have hs := depth_split (B := B) hQ1 hQ
  have hlt := ones_lt B (prepeat Q B) hB
  rw [scaleFactor, scaleAcc_eq B hB _ (by omega), shlU32, toU32, mul_comm]
  apply Nat.mod_eq_of_lt
  calc 2 ^ pleftover Q B * ∑ i in Finset.range (prepeat Q B), 2 ^ (B * i)
      < 2 ^ pleftover Q B * 2 ^ (B * prepeat Q B) :=
        Nat.mul_lt_mul_of_pos_left hlt (by positivity)
    _ = 2 ^ Q := by rw [← pow_add, add_comm, hs]
    _ ≤ 2 ^ 32 := pow_le_word hQ

theorem shiftFactor_eq {Q B : Nat} (hB : 1 ≤ B) (hBQ : B ≤ Q) (hQ : Q ≤ 32) :
    shiftFactor Q B = B - pleftover Q B := by
  have h := pleftover_le_width (Q := Q) hB (by omega) hQ
  rw [shiftFactor, if_neg (by omega), toU32]
  omega

/-! ### Bit replication -/

theorem rep_succ (B v k : Nat) :
    v * ∑ i in Finset.range (k + 1), 2 ^ (B * i)
      = 2 ^ B * (v * ∑ i in Finset.range k, 2 ^ (B * i)) + v := by
  rw [ones_succ]; ring

theorem rep_lt {B v : Nat} (hv : v < 2 ^ B) (k : Nat) :
    v * ∑ i in Finset.range k, 2 ^ (B * i) < 2 ^ (B * k) := by
  induction k with
  | zero => simp
  | succ k ih =>
    rw [rep_succ, Nat.mul_succ, pow_add]
    have h3 : 2 ^ B * ((v * ∑ i in Finset.range k, 2 ^ (B * i)) + 1) ≤ 2 ^ B * 2 ^ (B * k) :=
      Nat.mul_le_mul_left _ ih
    have h4 : 2 ^ B * ((v * ∑ i in Finset.range k, 2 ^ (B * i)) + 1)
        = 2 ^ B * (v * ∑ i in Finset.range k, 2 ^ (B * i)) + 2 ^ B := by ring
    have h5 : 2 ^ B * 2 ^ (B * k) = 2 ^ (B * k) * 2 ^ B := by ring
    omega

theorem rep_testBit {B v : Nat} (hv : v < 2 ^ B) :
    ∀ k j, j < B * k → (v * ∑ i in Finset.range k, 2 ^ (B * i)).testBit j = v.testBit (j % B) := by
  intro k
  induction k with
  | zero => intro j hj; simp at hj
  | succ k ih =>
    intro j hj
    rw [rep_succ, Nat.testBit_mul_pow_two_add _ hv]
    by_cases h : j < B
    · rw [if_pos h, Nat.mod_eq_of_lt h]
    · rw [if_neg h, ih (j - B) (by rw [Nat.mul_succ] at hj; omega)]
      congr 1
      have : j = (j - B) + B := by omega
      conv_rhs => rw [this, Nat.add_mod_right]

theorem shr_lt {B v p : Nat} (hv : v < 2 ^ B) (hp : p ≤ B) : v >>> (B - p) < 2 ^ p := by
  rw [Nat.shiftRight_eq_div_pow, Nat.div_lt_iff_lt_mul (by positivity), ← pow_add]
  have : p + (B - p) = B := by omega
  rw [this]; exact hv

theorem packed_eq_of_le {Q B v : Nat} (hB : 1 ≤ B) (hBQ : B ≤ Q) (hQ : Q ≤ 32)
    (hv : v < 2 ^ B) :
    packed Q B v = 2 ^ pleftover Q B * (v * ∑ i in Finset.range (prepeat Q B), 2 ^ (B * i))
      + v >>> (B - pleftover Q B) ∧ packed Q B v < 2 ^ Q := by
  have hQ1 : 1 ≤ Q := by omega
  have hs := depth_split (B := B) hQ1 hQ
  have hp := pleftover_le_width (Q := Q) hB hQ1 hQ
  have hr := rep_lt hv (prepeat Q B)
  have hh := shr_lt hv hp
  have hbound : 2 ^ pleftover Q B * (v * ∑ i in Finset.range (prepeat Q B), 2 ^ (B * i))
      + v >>> (B - pleftover Q B) < 2 ^ Q := by
    have h1 : 2 ^ pleftover Q B * ((v * ∑ i in Finset.range (prepeat Q B), 2 ^ (B * i)) + 1)
        ≤ 2 ^ pleftover Q B * 2 ^ (B * prepeat Q B) := Nat.mul_le_mul_left _ hr
    have h2 : 2 ^ pleftover Q B * 2 ^ (B * prepeat Q B) = 2 ^ Q := by
      rw [← pow_add, add_comm, hs]
    have h3 : 2 ^ pleftover Q B * ((v * ∑ i in Finset.range (prepeat Q B), 2 ^ (B * i)) + 1)
        = 2 ^ pleftover Q B * (v * ∑ i in Finset.range (prepeat Q B), 2 ^ (B * i))
          + 2 ^ pleftover Q B := by ring
    omega
  have hval : packed Q B v
      = 2 ^ pleftover Q B * (v * ∑ i in Finset.range (prepeat Q B), 2 ^ (B * i))
        + v >>> (B - pleftover Q B) := by
    rw [packed, packSample, scaleFactor_eq hB hQ1 hQ, shiftFactor_eq hB hBQ hQ, toU32]
    have e : v * (2 ^ pleftover Q B * ∑ i in Finset.range (prepeat Q B), 2 ^ (B * i))
        = 2 ^ pleftover Q B * (v * ∑ i in Finset.range (prepeat Q B), 2 ^ (B * i)) := by ring
    rw [e]
    exact Nat.mod_eq_of_lt (lt_of_lt_of_le hbound (pow_le_word hQ))
  exact ⟨hval, hval ▸ hbound⟩

theorem packed_testBit {Q B v i : Nat} (hB : 1 ≤ B) (hBQ : B ≤ Q) (hQ : Q ≤ 32)
    (hv : v < 2 ^ B) (hi : i < Q) :
    (packed Q B v).testBit (Q - 1 - i) = v.testBit (B - 1 - i % B) := by
  have hQ1 : 1 ≤ Q := by omega
  have hs := depth_split (B := B) hQ1 hQ
  have hp := pleftover_le_width (Q := Q) hB hQ1 hQ
  have hp1 := pleftover_pos (Q := Q) (B := B) hQ1 hQ
  rw [(packed_eq_of_le hB hBQ hQ hv).1, Nat.testBit_mul_pow_two_add _ (shr_lt hv hp)]
  have hmodlt : i % B < B := Nat.mod_lt _ (by omega)
  have hdm := Nat.div_add_mod i B
  by_cases h : Q - 1 - i < pleftover Q B
  · rw [if_pos h, Nat.testBit_shiftRight]
    congr 1
    obtain ⟨r, hr⟩ : ∃ r, r = pleftover Q B - 1 - (Q - 1 - i) := ⟨_, rfl⟩
    have hi' : i = B * prepeat Q B + r := by omega
    have hm : i % B = r := by
      rw [hi', Nat.mul_add_mod]
      exact Nat.mod_eq_of_lt (by omega)
    omega
  · rw [if_neg h]
    have hiq : i / B < prepeat Q B := by
      by_contra hc
      have hc' : prepeat Q B ≤ i / B := by omega
      have : B * prepeat Q B ≤ B * (i / B) := Nat.mul_le_mul_left _ hc'
      omega
    have hle : B * (i / B + 1) ≤ B * prepeat Q B := Nat.mul_le_mul_left _ hiq
    rw [Nat.mul_succ] at hle
    rw [rep_testBit hv _ _ (by omega)]
    congr 1
    have e : Q - 1 - i - pleftover Q B
        = B * (prepeat Q B - (i / B + 1)) + (B - 1 - i % B) := by
      rw [Nat.mul_sub, Nat.mul_succ]
      omega
    rw [e, Nat.mul_add_mod]
    exact Nat.mod_eq_of_lt (by omega)

/-- C1. Bit replication: for `1 ≤ B ≤ Q ≤ 32` and `v < 2 ^ B` the packed value
`v * scaleFactor + (v >> shiftFactor)` is the first `Q` bits of the `B`-bit
pattern of `v` repeated: bit `Q - 1 - i` of it is bit `B - 1 - i % B` of `v`
for every `i < Q`; and the 5-bit sample `0b10110` packs to `0b10110101` at
depth 8. -/
theorem C1_bit_replication (Q B v i : Nat) (hQ : Q ≤ 32) (hB : 1 ≤ B)
    (hBQ : B ≤ Q) (hv : v < 2 ^ B) (hi : i < Q) :
    (packSample (scaleFactor Q B) (shiftFactor Q B) v).testBit (Q - 1 - i)
        = v.testBit (B - 1 - i % B)
      ∧ packSample (scaleFactor 8 5) (shiftFactor 8 5) 0b10110 = 0b10110101 :=
  ⟨packed_testBit hB hBQ hQ hv hi, by decide⟩

theorem C1_bit_replication_witness :
    (packSample (scaleFactor 16 10) (shiftFactor 16 10) 693).testBit (16 - 1 - 12)
        = (693 : Nat).testBit (10 - 1 - 12 % 10)
      ∧ packSample (scaleFactor 8 5) (shiftFactor 8 5) 0b10110 = 0b10110101 :=
  C1_bit_replication 16 10 693 12 (by decide) (by decide) (by decide) (by decide)
    (by decide)

/-- C7. Depth-scale parameters: for `1 ≤ B ≤ Q ≤ 32`, `prepeat = (Q - 1) / B`,
`pleftover = Q - B * prepeat`, `shiftFactor = B - pleftover` and
`scaleFactor = 2 ^ pleftover * Σ_{i < prepeat} 2 ^ (B * i)`; no round of the
accumulator loop wraps (shifting the accumulator by `B` and adding one stays
below `2 ^ 32`), and neither does the final shift by `pleftover`. -/
theorem C7_depth_scale_parameters (Q B : Nat) (hQ : Q ≤ 32) (hB : 1 ≤ B) (hBQ : B ≤ Q) :
    prepeat Q B = (Q - 1) / B
      ∧ pleftover Q B = Q - B * prepeat Q B
      ∧ shiftFactor Q B = B - pleftover Q B
      ∧ scaleFactor Q B = 2 ^ pleftover Q B * ∑ i in Finset.range (prepeat Q B), 2 ^ (B * i)
      ∧ (∀ k, k < prepeat Q B → scaleAcc B k * 2 ^ B + 1 < 2 ^ 32)
      ∧ scaleAcc B (prepeat Q B) * 2 ^ pleftover Q B < 2 ^ 32 := by
  have hQ1 : 1 ≤ Q := by omega
  have hs := depth_split (B := B) hQ1 hQ
  refine ⟨prepeat_eq hQ, pleftover_eq hQ1 hQ, shiftFactor_eq hB hBQ hQ,
    scaleFactor_eq hB hQ1 hQ, ?_, ?_⟩
  · intro k hk
    have hk1 : B * (k + 1) ≤ B * prepeat Q B := Nat.mul_le_mul_left _ hk
    have hk2 : B * k ≤ B * (k + 1) := Nat.mul_le_mul_left _ (Nat.le_succ k)
    rw [scaleAcc_eq B hB k (by omega)]
    have h1 := ones_lt B (k + 1) hB
    rw [ones_succ, mul_comm] at h1
    exact lt_of_lt_of_le h1 (pow_le_word (by omega))
  · rw [scaleAcc_eq B hB _ (by omega)]
    have h1 := ones_lt B (prepeat Q B) hB
    calc (∑ i in Finset.range (prepeat Q B), 2 ^ (B * i)) * 2 ^ pleftover Q B
        < 2 ^ (B * prepeat Q B) * 2 ^ pleftover Q B :=
          Nat.mul_lt_mul_of_pos_right h1 (by positivity)
      _ = 2 ^ Q := by rw [← pow_add, hs]
      _ ≤ 2 ^ 32 := pow_le_word hQ

theorem C7_depth_scale_parameters_witness :
    prepeat 16 5 = (16 - 1) / 5
      ∧ pleftover 16 5 = 16 - 5 * prepeat 16 5
      ∧ shiftFactor 16 5 = 5 - pleftover 16 5
      ∧ scaleFactor 16 5 = 2 ^ pleftover 16 5 * ∑ i in Finset.range (prepeat 16 5), 2 ^ (5 * i)
      ∧ (∀ k, k < prepeat 16 5 → scaleAcc 5 k * 2 ^ 5 + 1 < 2 ^ 32)
      ∧ scaleAcc 5 (prepeat 16 5) * 2 ^ pleftover 16 5 < 2 ^ 32 :=
  C7_depth_scale_parameters 16 5 (by decide) (by decide) (by decide)

/-! ### Downsampling -/

theorem prepeat_of_lt {Q B : Nat} (hQ1 : 1 ≤ Q) (hQB : Q < B) : prepeat Q B = 0 := by
  rw [prepeat, Nat.div_eq_of_lt (by omega)]; rfl

theorem scaleFactor_of_lt {Q B : Nat} (hQ1 : 1 ≤ Q) (hQB : Q < B) : scaleFactor Q B = 0 := by
  rw [scaleFactor, prepeat_of_lt hQ1 hQB, scaleAcc, shlU32, Nat.zero_mul]; rfl

theorem packed_of_lt {Q B v : Nat} (hQ1 : 1 ≤ Q) (hQB : Q < B) (hB : B ≤ 32)
    (hv : v < 2 ^ B) : packed Q B v = v / 2 ^ (B - Q) := by
  rw [packed, packSample, scaleFactor_of_lt hQ1 hQB, shiftFactor, if_pos hQB, toU32,
    Nat.mul_zero, Nat.zero_add, Nat.shiftRight_eq_div_pow]
  apply Nat.mod_eq_of_lt
  have h1 : v / 2 ^ (B - Q) ≤ v := Nat.div_le_self _ _
  have h2 := pow_le_word hB
  omega

/-- C2. Downsample truncation: for `1 ≤ Q < B ≤ 32` and `v < 2 ^ B`,
`shiftFactor = B - Q`, `scaleFactor = 0`, and the packed value is
`v / 2 ^ (B - Q)`, the top `Q` bits of `v`; the 16-bit sample `0xABCD` packs
to `0xAB` at depth 8. -/
theorem C2_downsample_truncation (Q B v : Nat) (hQ1 : 1 ≤ Q) (hQB : Q < B) (hB : B ≤ 32)
    (hv : v < 2 ^ B) :
    shiftFactor Q B = B - Q ∧ scaleFactor Q B = 0
      ∧ packSample (scaleFactor Q B) (shiftFactor Q B) v = v / 2 ^ (B - Q)
      ∧ packSample (scaleFactor 8 16) (shiftFactor 8 16) 0xABCD = 0xAB :=
  ⟨by rw [shiftFactor, if_pos hQB], scaleFactor_of_lt hQ1 hQB, packed_of_lt hQ1 hQB hB hv,
    by decide⟩

theorem C2_downsample_truncation_witness :
    shiftFactor 8 10 = 10 - 8 ∧ scaleFactor 8 10 = 0
      ∧ packSample (scaleFactor 8 10) (shiftFactor 8 10) 1023 = 1023 / 2 ^ (10 - 8)
      ∧ packSample (scaleFactor 8 16) (shiftFactor 8 16) 0xABCD = 0xAB :=
  C2_downsample_truncation 8 10 1023 (by decide) (by decide) (by decide) (by decide)

/-! ### Read scale and round trips -/

theorem floor_add_half (n : Nat) : ⌊(n : ℚ) + 1 / 2⌋ = (n : Int) := by
  rw [Int.floor_eq_iff]
  constructor
  · push_cast; linarith
  · push_cast; linarith

theorem packSample_zero_zero {v : Nat} (hv : v < 2 ^ 32) : packSample 0 0 v = v := by
  rw [packSample, toU32, Nat.mul_zero, Nat.zero_add, Nat.shiftRight_zero]
  exact Nat.mod_eq_of_lt hv

/-- C6 at quantum depth 32. `1 << 32` does not fit an `int`: the divisor of
line 932 is `-1`, not `2 ^ 32 - 1`. For 8-bit samples `outScale` is `-255`, a
white quantum `4294967295` is sent below zero, while
`floor (p * (2 ^ 8 - 1) / (2 ^ 32 - 1) + 1/2)` is `255`. -/
theorem C6_read_scale_depth32 :
    toI32 (shlI32 1 32 - 1) = -1 ∧ outScale 32 8 = -255
      ∧ outScale 32 8 ≠ ((2 : ℚ) ^ 8 - 1) / ((2 : ℚ) ^ 32 - 1)
      ∧ (4294967295 : ℚ) * outScale 32 8 + 1 / 2 < 0
      ∧ ⌊(4294967295 : ℚ) * (((2 : ℚ) ^ 8 - 1) / ((2 : ℚ) ^ 32 - 1)) + 1 / 2⌋ = 255 := by
  have h : outScale 32 8 = -255 := by norm_num [outScale, toI32, shlI32]
  refine ⟨by decide, h, ?_, ?_, ?_⟩
  · rw [h]; norm_num
  · rw [h]; norm_num
  · norm_num [Int.floor_eq_iff]

theorem ones_geom (B k : Nat) :
    (∑ i in Finset.range k, 2 ^ (B * i)) * 2 ^ B + 1
      = (∑ i in Finset.range k, 2 ^ (B * i)) + 2 ^ (B * k) := by
  induction k with
  | zero => simp
  | succ k ih =>
    rw [ones_succ, Nat.mul_succ, pow_add]
    have e : (2 ^ B * (∑ i in Finset.range k, 2 ^ (B * i)) + 1) * 2 ^ B + 1
        = 2 ^ B * ((∑ i in Finset.range k, 2 ^ (B * i)) * 2 ^ B + 1) + 1 := by ring
    rw [e, ih]; ring

/-- The arithmetic core of the round trip: a value `P` made of `v` repeated
(`S` is the repetition multiplier, `E * Y = W` the target range, `A * Y = X` the
source range, `h` the high part of `v`) is sent back to `v` by the rescaling
with `(X - 1) / (W - 1)` and rounding. -/
theorem roundtrip_core (P v h l S E X Y W A : Nat)
    (hgeo : S * X + 1 = S + E) (hP : P = Y * (v * S) + h) (hvd : v = A * h + l)
    (hX : X = A * Y) (hW : W = E * Y) (hl : l < A) (hvX : v < X)
    (hWX : (W = X ∧ A = 1) ∨ 2 * X ≤ W) (hX2 : 2 ≤ X) :
    ⌊(P : ℚ) * (((X : ℚ) - 1) / ((W : ℚ) - 1)) + 1 / 2⌋ = (v : Int) := by
  have f1 : l * Y + Y ≤ X := by
    have : (l + 1) * Y ≤ A * Y := Nat.mul_le_mul_right _ hl
    rw [hX]; linarith
  have f2 : h ≤ v := by
    have : h ≤ A * h := Nat.le_mul_of_pos_left _ (by omega)
    omega
  have f3 : 1 ≤ Y := by
    rcases Nat.eq_zero_or_pos Y with h0 | h0
    · rw [h0, Nat.mul_zero] at hX; omega
    · exact h0
  have qf3 : (1 : ℚ) ≤ Y := by exact_mod_cast f3
  have hW2 : 2 ≤ W := by rcases hWX with ⟨h1, _⟩ | h1 <;> omega
  have hd : (l = 0 ∧ h = v ∧ W = X) ∨ 2 * X ≤ W := by
    rcases hWX with ⟨h1, h2⟩ | h1
    · left
      subst h2
      have hl0 : l = 0 := by omega
      subst hl0
      exact ⟨rfl, by omega, h1⟩
    · right; exact h1
  have qgeo : (S : ℚ) * X + 1 = S + E := by exact_mod_cast hgeo
  have qP : (P : ℚ) = Y * (v * S) + h := by exact_mod_cast hP
  have qvd : (v : ℚ) = A * h + l := by exact_mod_cast hvd
  have qX : (X : ℚ) = A * Y := by exact_mod_cast hX
  have qW : (W : ℚ) = E * Y := by exact_mod_cast hW
  have qf1 : (l : ℚ) * Y + Y ≤ X := by exact_mod_cast f1
  have qf2 : (h : ℚ) ≤ v := by exact_mod_cast f2
  have qvX : (v : ℚ) + 1 ≤ X := by exact_mod_cast hvX
  have qW2 : (2 : ℚ) ≤ W := by exact_mod_cast hW2
  have qX2 : (2 : ℚ) ≤ X := by exact_mod_cast hX2
  have ql0 : (0 : ℚ) ≤ l := Nat.cast_nonneg l
  have qh0 : (0 : ℚ) ≤ h := Nat.cast_nonneg h
  have qY0 : (0 : ℚ) ≤ Y := Nat.cast_nonneg Y
  have qlY : (0 : ℚ) ≤ l * Y := mul_nonneg ql0 qY0
  have hpos : (0 : ℚ) < (W : ℚ) - 1 := by linarith
  have key : (P : ℚ) * ((X : ℚ) - 1) = v * ((W : ℚ) - 1) + (v - l * Y - h) := by
    linear_combination ((X : ℚ) - 1) * qP + (Y : ℚ) * v * qgeo - (v : ℚ) * qW
      - (Y : ℚ) * qvd + (h : ℚ) * qX
  have hx : (P : ℚ) * (((X : ℚ) - 1) / ((W : ℚ) - 1)) + 1 / 2
      = v + ((v : ℚ) - l * Y - h) / ((W : ℚ) - 1) + 1 / 2 := by
    rw [← mul_div_assoc, key, add_div, mul_div_assoc, div_self (ne_of_gt hpos), mul_one]
  have hup : 2 * ((v : ℚ) - l * Y - h) < (W : ℚ) - 1 := by
    rcases hd with ⟨h1, h2, h3⟩ | h1
    · subst h1; subst h2
      simp only [Nat.cast_zero, zero_mul, sub_zero, sub_self, mul_zero]
      exact hpos
    · have : (2 : ℚ) * X ≤ W := by exact_mod_cast h1
      linarith
  have hlo : -((W : ℚ) - 1) ≤ 2 * ((v : ℚ) - l * Y - h) := by
    rcases hd with ⟨h1, h2, h3⟩ | h1
    · subst h1; subst h2
      simp only [Nat.cast_zero, zero_mul, sub_zero, sub_self, mul_zero]
      linarith
    · have : (2 : ℚ) * X ≤ W := by exact_mod_cast h1
      linarith
  have t1 : -(1 / 2 : ℚ) ≤ ((v : ℚ) - l * Y - h) / ((W : ℚ) - 1) := by
    rw [le_div_iff₀ hpos]; linarith
  have t2 : ((v : ℚ) - l * Y - h) / ((W : ℚ) - 1) < 1 / 2 := by
    rw [div_lt_iff₀ hpos]; linarith
  rw [hx, Int.floor_eq_iff]
  constructor
  · push_cast; linarith
  · push_cast; linarith

/-- Packing a `B`-bit sample to `Q ≥ B` bits and rescaling it by
`(2 ^ B - 1) / (2 ^ Q - 1)` with rounding gives the sample back. -/
theorem roundtrip_floor {Q B v : Nat} (hB : 1 ≤ B) (hBQ : B ≤ Q) (hQ : Q ≤ 32)
    (hv : v < 2 ^ B) :
    ⌊(packed Q B v : ℚ) * (((2 : ℚ) ^ B - 1) / ((2 : ℚ) ^ Q - 1)) + 1 / 2⌋ = (v : Int) := by
  have hQ1 : 1 ≤ Q := by omega
  have hs := depth_split (B := B) hQ1 hQ
  have hp := pleftover_le_width (Q := Q) hB hQ1 hQ
  have hp1 := pleftover_pos (Q := Q) (B := B) hQ1 hQ
  have hcore := roundtrip_core (packed Q B v) v (v / 2 ^ (B - pleftover Q B))
    (v % 2 ^ (B - pleftover Q B)) (∑ i in Finset.range (prepeat Q B), 2 ^ (B * i))
    (2 ^ (B * prepeat Q B)) (2 ^ B) (2 ^ pleftover Q B) (2 ^ Q) (2 ^ (B - pleftover Q B))
    (ones_geom B _)
    (by rw [(packed_eq_of_le hB hBQ hQ hv).1, Nat.shiftRight_eq_div_pow])
    (Nat.div_add_mod _ _).symm
    (by rw [← pow_add]; congr 1; omega)
    (by rw [← pow_add, hs])
    (Nat.mod_lt _ (by positivity)) hv
    (by
      rcases Nat.eq_or_lt_of_le hBQ with h | h
      · left
        subst h
        have h0 : prepeat B B = 0 := by
          rw [prepeat_eq hQ]; exact Nat.div_eq_of_lt (by omega)
        rw [h0] at hs
        have : pleftover B B = B := by omega
        rw [this]; simp
      · right
        calc 2 * 2 ^ B = 2 ^ (B + 1) := by ring
          _ ≤ 2 ^ Q := Nat.pow_le_pow_right (by norm_num) h)
    (by
      calc 2 = 2 ^ 1 := by norm_num
        _ ≤ 2 ^ B := Nat.pow_le_pow_right (by norm_num) hB)
  simpa using hcore

theorem forLoop_succ_right {σ : Type} (body : Nat → σ → σ) :
    ∀ (n x : Nat) (s : σ), forLoop body (n + 1) x s = body (x + n) (forLoop body n x s) := by
  intro n
  induction n with
  | zero => intro x s; rfl
  | succ n ih =>
    intro x s
    rw [forLoop, ih (x + 1) (body x s)]
    have e : x + 1 + n = x + (n + 1) := by omega
    rw [e]
    rfl

theorem idx_div {ch o : Nat} (x : Nat) (ho : o < ch) : (x * ch + o) / ch = x := by
  have hch : 0 < ch := by omega
  rw [Nat.mul_comm, Nat.mul_add_div hch, Nat.div_eq_of_lt ho, Nat.add_zero]

theorem idx_mod {ch o : Nat} (x : Nat) (ho : o < ch) : (x * ch + o) % ch = o := by
  rw [Nat.mul_comm, Nat.mul_add_mod, Nat.mod_eq_of_lt ho]

theorem idx_eq_iff {ch o : Nat} (i x : Nat) (ho : o < ch) :
    i = x * ch + o ↔ i / ch = x ∧ i % ch = o := by
  constructor
  · intro h; rw [h]; exact ⟨idx_div x ho, idx_mod x ho⟩
  · rintro ⟨h1, h2⟩
    have := Nat.div_add_mod i ch
    rw [h1, h2, Nat.mul_comm] at this
    exact this.symm

theorem nextRow_iterate {α : Type} (wa : Bool) (tB sR sG sB sA : Nat) (p : RowPtrs α) :
    ∀ (y x : Nat),
      ((nextRow wa tB sR sG sB sA)^[y] p).r x = p.r (x + y * (sR / tB))
      ∧ ((nextRow wa tB sR sG sB sA)^[y] p).g x = p.g (x + y * (sG / tB))
      ∧ ((nextRow wa tB sR sG sB sA)^[y] p).b x = p.b (x + y * (sB / tB))
      ∧ (wa = true → ((nextRow wa tB sR sG sB sA)^[y] p).a x = p.a (x + y * (sA / tB))) := by
  intro y
  induction y with
  | zero => intro x; simp
  | succ y ih =>
    intro x
    rw [Function.iterate_succ_apply']
    have h := ih (x + sR / tB)
    have hg := ih (x + sG / tB)
    have hb := ih (x + sB / tB)
    have ha := ih (x + sA / tB)
    refine ⟨?_, ?_, ?_, ?_⟩
    · show ((nextRow wa tB sR sG sB sA)^[y] p).r (x + sR / tB) = _
      rw [h.1]; congr 1; ring
    · show ((nextRow wa tB sR sG sB sA)^[y] p).g (x + sG / tB) = _
      rw [hg.2.1]; congr 1; ring
    · show ((nextRow wa tB sR sG sB sA)^[y] p).b (x + sB / tB) = _
      rw [hb.2.2.1]; congr 1; ring
    · intro hwa
      subst hwa
      show ((nextRow true tB sR sG sB sA)^[y] p).a (x + sA / tB) = _
      rw [ha.2.2.2 rfl]; congr 1; ring

/-- The state of `loopImage` after its rows: row `y < height` holds the row
conversion of the pointers advanced `y` times, the other rows are as before,
and every row contributed one `get` and one `sync`. -/
theorem loopImage_spec (wa : Bool) (sf sh tB sR sG sB sA : Nat) (im : MagickImage)
    (width : Nat) (lp : RowPtrs Nat → (Nat → ℚ) → (Nat → ℚ) × Nat) (st : WriteState) :
    ∀ height,
      (loopImage wa sf sh tB sR sG sB sA im width height lp st).ptrs
          = (nextRow wa tB sR sG sB sA)^[height] st.ptrs
      ∧ (∀ y, (loopImage wa sf sh tB sR sG sB sA im width height lp st).pixels y
          = if y < height then
              writeRow wa sf sh im width lp ((nextRow wa tB sR sG sB sA)^[y] st.ptrs) (st.pixels y)
            else st.pixels y)
      ∧ (loopImage wa sf sh tB sR sG sB sA im width height lp st).calls
          = st.calls ++ (List.range height).flatMap (fun y => [CacheCall.get y, CacheCall.sync]) := by
  intro height
  induction height with
  | zero => simp [loopImage, forLoop]
  | succ n ih =>
    obtain ⟨h1, h2, h3⟩ := ih
    unfold loopImage at h1 h2 h3 ⊢
    rw [forLoop_succ_right]
    generalize forLoop _ n 0 st = S at h1 h2 h3 ⊢
    rw [Nat.zero_add]
    refine ⟨?_, ?_, ?_⟩
    · show nextRow wa tB sR sG sB sA S.ptrs = _
      rw [h1, Function.iterate_succ_apply']
    · intro y
      show Function.update S.pixels n (writeRow wa sf sh im width lp S.ptrs (S.pixels n)) y = _
      by_cases hy : y = n
      · subst hy
        rw [Function.update_same, h1, h2 y, if_neg (lt_irrefl y), if_pos (Nat.lt_succ_self y)]
      · rw [Function.update_noteq hy, h2 y]
        by_cases hlt : y < n
        · rw [if_pos hlt, if_pos (by omega)]
        · rw [if_neg hlt, if_neg (by omega)]
    · show S.calls ++ [CacheCall.get n, CacheCall.sync] = _
      rw [h3, List.range_succ, List.flatMap_append]
      simp

/-! ### The scalar packer -/

theorem alpha_index (x ch : Nat) {aOff : Int} (ha : 0 ≤ aOff) :
    Int.toNat ((x : Int) * (ch : Int) + aOff) = x * ch + aOff.toNat := by
  obtain ⟨n, rfl⟩ := Int.eq_ofNat_of_zero_le ha
  rw [Int.toNat_natCast]
  exact_mod_cast Int.toNat_natCast (x * ch + n)

theorem scalarPixel_apply (wa : Bool) (sf sh : Nat) (im : MagickImage) (p : RowPtrs Nat)
    (x : Nat) (pixels : Nat → ℚ) (i : Nat) (ha : wa = true → 0 ≤ im.aOff) :
    scalarPixel wa sf sh im p x pixels i
      = if wa = true ∧ i = x * im.channels + im.aOff.toNat then (packSample sf sh (p.a x) : ℚ)
        else if i = x * im.channels + im.bOff then (packSample sf sh (p.b x) : ℚ)
        else if i = x * im.channels + im.gOff then (packSample sf sh (p.g x) : ℚ)
        else if i = x * im.channels + im.rOff then (packSample sf sh (p.r x) : ℚ)
        else pixels i := by
  cases wa with
  | false => simp [scalarPixel, Function.update_apply]
  | true =>
    simp only [scalarPixel, if_true, true_and, Function.update_apply, alpha_index x _ (ha rfl)]

/-- The scalar loop over the pixels `x0 .. x0 + n - 1` of a row: every slot of
those pixels that carries a channel holds the packed sample of the channel
written last, every other slot is unchanged. -/
theorem scalarLoop_apply (wa : Bool) (sf sh : Nat) (im : MagickImage) (p : RowPtrs Nat)
    (hr : im.rOff < im.channels) (hg : im.gOff < im.channels) (hb : im.bOff < im.channels)
    (ha : wa = true → 0 ≤ im.aOff ∧ im.aOff.toNat < im.channels) :
    ∀ (n x0 : Nat) (pixels : Nat → ℚ) (i : Nat),
      forLoop (scalarPixel wa sf sh im p) n x0 pixels i
        = if x0 ≤ i / im.channels ∧ i / im.channels < x0 + n then
            (if wa = true ∧ i % im.channels = im.aOff.toNat then
                (packSample sf sh (p.a (i / im.channels)) : ℚ)
              else if i % im.channels = im.bOff then
                (packSample sf sh (p.b (i / im.channels)) : ℚ)
              else if i % im.channels = im.gOff then
                (packSample sf sh (p.g (i / im.channels)) : ℚ)
              else if i % im.channels = im.rOff then
                (packSample sf sh (p.r (i / im.channels)) : ℚ)
              else pixels i)
          else pixels i := by
  intro n
  induction n with
  | zero =>
    intro x0 pixels i
    rw [forLoop, if_neg (by omega)]
  | succ n ih =>
    intro x0 pixels i
    rw [forLoop_succ_right, scalarPixel_apply wa sf sh im p _ _ i (fun h => (ha h).1), ih]
    have ea : wa = true →
        (i = (x0 + n) * im.channels + im.aOff.toNat
          ↔ i / im.channels = x0 + n ∧ i % im.channels = im.aOff.toNat) :=
      fun h => idx_eq_iff i (x0 + n) (ha h).2
    have eb := idx_eq_iff i (x0 + n) hb
    have eg := idx_eq_iff i (x0 + n) hg
    have er := idx_eq_iff i (x0 + n) hr
    by_cases hx : i / im.channels = x0 + n
    · have c1 : x0 ≤ i / im.channels ∧ i / im.channels < x0 + (n + 1) := by omega
      have c2 : ¬ (x0 ≤ i / im.channels ∧ i / im.channels < x0 + n) := by omega
      rw [if_pos c1, if_neg c2]
      simp only [eb, eg, er, hx, true_and]
      by_cases hwa : wa = true
      · simp only [hwa, true_and, ea hwa, hx]
      · have hwa' : wa = false := by cases wa <;> simp_all
        subst hwa'
        simp only [Bool.false_eq_true, false_and, if_false]
    · have n1 : ¬ (wa = true ∧ i = (x0 + n) * im.channels + im.aOff.toNat) := by
        rintro ⟨hwa, h⟩
        exact hx ((ea hwa).1 h).1
      have n2 : ¬ (i = (x0 + n) * im.channels + im.bOff) := fun h => hx (eb.1 h).1
      have n3 : ¬ (i = (x0 + n) * im.channels + im.gOff) := fun h => hx (eg.1 h).1
      have n4 : ¬ (i = (x0 + n) * im.channels + im.rOff) := fun h => hx (er.1 h).1
      rw [if_neg n1, if_neg n2, if_neg n3, if_neg n4]
      by_cases c : x0 ≤ i / im.channels ∧ i / im.channels < x0 + n
      · have c' : x0 ≤ i / im.channels ∧ i / im.channels < x0 + (n + 1) := by omega
        rw [if_pos c, if_pos c']
      · have c' : ¬ (x0 ≤ i / im.channels ∧ i / im.channels < x0 + (n + 1)) := by omega
        rw [if_neg c, if_neg c']

theorem writeRow_noKernel (wa : Bool) (sf sh : Nat) (im : MagickImage) (width : Nat)
    (p : RowPtrs Nat) (pixels : Nat → ℚ) :
    writeRow wa sf sh im width noKernel p pixels
      = forLoop (scalarPixel wa sf sh im p) width 0 pixels := rfl

theorem sample_index {tB stride : Nat} (x y : Nat) (ht : 0 < tB) (hs : tB ∣ stride) :
    (y * stride + x * tB) / tB = x + y * (stride / tB) := by
  obtain ⟨c, rfl⟩ := hs
  rw [Nat.mul_div_cancel_left c ht]
  have e : y * (tB * c) + x * tB = tB * (y * c + x) := by ring
  rw [e, Nat.mul_div_cancel_left _ ht]
  ring

theorem storePlane_apply {α : Type} (planes : Nat → Nat → α) (p k : Nat) (v : α) (p' k' : Nat) :
    storePlane planes p k v p' k' = if p' = p ∧ k' = k then v else planes p' k' := by
  unfold storePlane
  by_cases hp : p' = p
  · subst hp
    rw [Function.update_same, Function.update_apply]
    by_cases hk : k' = k <;> simp [hk]
  · rw [Function.update_noteq hp]
    simp [hp]

theorem unpackPixel_ptrs {α : Type} (conv : ℚ → α) (wa : Bool) (pg pb : Nat) (im : MagickImage)
    (pixels : Nat → ℚ) (x : Nat) (st : ReadState α) :
    (unpackPixel conv wa pg pb im pixels x st).r = st.r
      ∧ (unpackPixel conv wa pg pb im pixels x st).g = st.g
      ∧ (unpackPixel conv wa pg pb im pixels x st).b = st.b
      ∧ (unpackPixel conv wa pg pb im pixels x st).a = st.a := by
  cases wa <;> simp [unpackPixel]

theorem unpackPixel_planes {α : Type} (conv : ℚ → α) (wa : Bool) (pg pb : Nat) (im : MagickImage)
    (pixels : Nat → ℚ) (x : Nat) (st : ReadState α) (p k : Nat) :
    (unpackPixel conv wa pg pb im pixels x st).planes p k
      = if p = pb ∧ k = st.b + x then conv (pixels (x * im.channels + im.bOff))
        else if p = pg ∧ k = st.g + x then conv (pixels (x * im.channels + im.gOff))
        else if p = 0 ∧ k = st.r + x then conv (pixels (x * im.channels + im.rOff))
        else st.planes p k := by
  cases wa <;> simp [unpackPixel, storePlane_apply]

theorem unpackPixel_alpha {α : Type} (conv : ℚ → α) (wa : Bool) (pg pb : Nat) (im : MagickImage)
    (pixels : Nat → ℚ) (x : Nat) (st : ReadState α) (k : Nat) :
    (unpackPixel conv wa pg pb im pixels x st).alpha k
      = if wa = true ∧ k = st.a + x then
          conv (pixels (Int.toNat ((x : Int) * (im.channels : Int) + im.aOff)))
        else st.alpha k := by
  cases wa <;> simp [unpackPixel, Function.update_apply]

/-- The pixel loop of one row of the read path, for three distinct colour
planes: the samples `x0 .. x0 + n - 1` behind each pointer hold the converted
quanta of their channel, everything else is unchanged. -/
theorem unpackRow_spec {α : Type} (conv : ℚ → α) (wa : Bool) (pg pb : Nat) (im : MagickImage)
    (pixels : Nat → ℚ) (h0g : 0 ≠ pg) (h0b : 0 ≠ pb) (hgb : pg ≠ pb) :
    ∀ (n x0 : Nat) (st : ReadState α),
      ((forLoop (unpackPixel conv wa pg pb im pixels) n x0 st).r = st.r
        ∧ (forLoop (unpackPixel conv wa pg pb im pixels) n x0 st).g = st.g
        ∧ (forLoop (unpackPixel conv wa pg pb im pixels) n x0 st).b = st.b
        ∧ (forLoop (unpackPixel conv wa pg pb im pixels) n x0 st).a = st.a)
      ∧ (∀ k, (forLoop (unpackPixel conv wa pg pb im pixels) n x0 st).alpha k
          = if wa = true ∧ st.a + x0 ≤ k ∧ k < st.a + x0 + n then
              conv (pixels (Int.toNat (((k - st.a : Nat) : Int) * (im.channels : Int) + im.aOff)))
            else st.alpha k)
      ∧ (∀ k, (forLoop (unpackPixel conv wa pg pb im pixels) n x0 st).planes 0 k
          = if st.r + x0 ≤ k ∧ k < st.r + x0 + n then
              conv (pixels ((k - st.r) * im.channels + im.rOff))
            else st.planes 0 k)
      ∧ (∀ k, (forLoop (unpackPixel conv wa pg pb im pixels) n x0 st).planes pg k
          = if st.g + x0 ≤ k ∧ k < st.g + x0 + n then
              conv (pixels ((k - st.g) * im.channels + im.gOff))
            else st.planes pg k)
      ∧ (∀ k, (forLoop (unpackPixel conv wa pg pb im pixels) n x0 st).planes pb k
          = if st.b + x0 ≤ k ∧ k < st.b + x0 + n then
              conv (pixels ((k - st.b) * im.channels + im.bOff))
            else st.planes pb k) := by
  intro n
  induction n with
  | zero =>
    intro x0 st
    refine ⟨⟨rfl, rfl, rfl, rfl⟩, ?_, ?_, ?_, ?_⟩ <;> intro k <;> rw [forLoop, if_neg (by omega)]
  | succ n ih =>
    intro x0 st
    obtain ⟨⟨ir, ig, ib, ia⟩, iA, iR, iG, iB⟩ := ih x0 st
    rw [forLoop_succ_right]
    generalize forLoop (unpackPixel conv wa pg pb im pixels) n x0 st = S at ir ig ib ia iA iR iG iB
    obtain ⟨pr, pgg, pbb, pa⟩ := unpackPixel_ptrs conv wa pg pb im pixels (x0 + n) S
    refine ⟨⟨pr.trans ir, pgg.trans ig, pbb.trans ib, pa.trans ia⟩, ?_, ?_, ?_, ?_⟩
    · intro k
      rw [unpackPixel_alpha, iA, ia]
      by_cases hk : k = st.a + (x0 + n)
      · subst hk
        by_cases hwa : wa = true
        · rw [if_pos ⟨hwa, rfl⟩, if_pos ⟨hwa, by omega, by omega⟩]
          have e : st.a + (x0 + n) - st.a = x0 + n := by omega
          rw [e]
        · rw [if_neg (fun h => hwa h.1), if_neg (fun h => hwa h.1), if_neg (fun h => hwa h.1)]
      · rw [if_neg (fun h => hk h.2)]
        by_cases c : wa = true ∧ st.a + x0 ≤ k ∧ k < st.a + x0 + n
        · rw [if_pos c, if_pos ⟨c.1, c.2.1, by omega⟩]
        · rw [if_neg c, if_neg (fun h => c ⟨h.1, h.2.1, by omega⟩)]
    · intro k
      rw [unpackPixel_planes, iR, ir, if_neg (fun h => h0b h.1), if_neg (fun h => h0g h.1)]
      by_cases hk : k = st.r + (x0 + n)
      · subst hk
        rw [if_pos ⟨rfl, rfl⟩, if_pos ⟨by omega, by omega⟩]
        have e : st.r + (x0 + n) - st.r = x0 + n := by omega
        rw [e]
      · rw [if_neg (fun h => hk h.2)]
        by_cases c : st.r + x0 ≤ k ∧ k < st.r + x0 + n
        · rw [if_pos c, if_pos ⟨c.1, by omega⟩]
        · rw [if_neg c, if_neg (fun h => c ⟨h.1, by omega⟩)]
    · intro k
      rw [unpackPixel_planes, iG, ig, if_neg (fun h => hgb h.1)]
      by_cases hk : k = st.g + (x0 + n)
      · subst hk
        rw [if_pos ⟨rfl, rfl⟩, if_pos ⟨by omega, by omega⟩]
        have e : st.g + (x0 + n) - st.g = x0 + n := by omega
        rw [e]
      · rw [if_neg (fun h => hk h.2), if_neg (fun h => h0g h.1.symm)]
        by_cases c : st.g + x0 ≤ k ∧ k < st.g + x0 + n
        · rw [if_pos c, if_pos ⟨c.1, by omega⟩]
        · rw [if_neg c, if_neg (fun h => c ⟨h.1, by omega⟩)]
    · intro k
      by_cases hk : k = st.b + (x0 + n)
      · subst hk
        rw [unpackPixel_planes, ib, if_pos ⟨rfl, rfl⟩, if_pos ⟨by omega, by omega⟩]
        have e : st.b + (x0 + n) - st.b = x0 + n := by omega
        rw [e]
      · rw [unpackPixel_planes, iB, ib, if_neg (fun h => hk h.2),
          if_neg (fun h => hgb h.1.symm), if_neg (fun h => h0b h.1.symm)]
        by_cases c : st.b + x0 ≤ k ∧ k < st.b + x0 + n
        · rw [if_pos c, if_pos ⟨c.1, by omega⟩]
        · rw [if_neg c, if_neg (fun h => c ⟨h.1, by omega⟩)]

theorem row_before {es width n y x : Nat} (hw : width ≤ es) (hy : y < n) (hx : x < width) :
    y * es + x < n * es := by
  have h1 : (y + 1) * es ≤ n * es := Nat.mul_le_mul_right _ hy
  have h2 : (y + 1) * es = y * es + es := by ring
  omega

/-- The read loops over `height` rows, for three distinct colour planes whose
rows do not overlap: the sample `(x, y)` behind each pointer holds the converted
quantum of its channel. -/
theorem unpackLoop_spec {α : Type} (conv : ℚ → α) (wa : Bool) (tB pg pb sR sG sB sA : Nat)
    (im : MagickImage) (width : Nat) (st0 : ReadState α)
    (h0g : 0 ≠ pg) (h0b : 0 ≠ pb) (hgb : pg ≠ pb) :
    ∀ height,
      ((unpackLoop conv wa tB pg pb sR sG sB sA im width height st0).r
          = st0.r + height * (sR / tB)
        ∧ (unpackLoop conv wa tB pg pb sR sG sB sA im width height st0).g
          = st0.g + height * (sG / tB)
        ∧ (unpackLoop conv wa tB pg pb sR sG sB sA im width height st0).b
          = st0.b + height * (sB / tB)
        ∧ (wa = true → (unpackLoop conv wa tB pg pb sR sG sB sA im width height st0).a
          = st0.a + height * (sA / tB)))
      ∧ (width ≤ sR / tB → ∀ y x, y < height → x < width →
          (unpackLoop conv wa tB pg pb sR sG sB sA im width height st0).planes 0
              (st0.r + y * (sR / tB) + x)
            = conv (im.pixels y (x * im.channels + im.rOff)))
      ∧ (width ≤ sG / tB → ∀ y x, y < height → x < width →
          (unpackLoop conv wa tB pg pb sR sG sB sA im width height st0).planes pg
              (st0.g + y * (sG / tB) + x)
            = conv (im.pixels y (x * im.channels + im.gOff)))
      ∧ (width ≤ sB / tB → ∀ y x, y < height → x < width →
          (unpackLoop conv wa tB pg pb sR sG sB sA im width height st0).planes pb
              (st0.b + y * (sB / tB) + x)
            = conv (im.pixels y (x * im.channels + im.bOff)))
      ∧ (wa = true → width ≤ sA / tB → ∀ y x, y < height → x < width →
          (unpackLoop conv wa tB pg pb sR sG sB sA im width height st0).alpha
              (st0.a + y * (sA / tB) + x)
            = conv (im.pixels y (Int.toNat ((x : Int) * (im.channels : Int) + im.aOff))))
      ∧ (wa = false →
          (unpackLoop conv wa tB pg pb sR sG sB sA im width height st0).alpha = st0.alpha) := by
  intro height
  induction height with
  | zero =>
    refine ⟨⟨by simp [unpackLoop, forLoop], by simp [unpackLoop, forLoop],
      by simp [unpackLoop, forLoop], fun _ => by simp [unpackLoop, forLoop]⟩, ?_, ?_, ?_, ?_, ?_⟩
    · intro _ y x hy; omega
    · intro _ y x hy; omega
    · intro _ y x hy; omega
    · intro _ _ y x hy; omega
    · intro _; rfl
  | succ n ih =>
    obtain ⟨⟨ir, ig, ib, ia⟩, iR, iG, iB, iA, iN⟩ := ih
    unfold unpackLoop at ir ig ib ia iR iG iB iA iN ⊢
    rw [forLoop_succ_right]
    generalize forLoop _ n 0 st0 = S at ir ig ib ia iR iG iB iA iN ⊢
    rw [Nat.zero_add]
    dsimp only
    obtain ⟨⟨qr, qg, qb, qa⟩, qA, qR, qG, qB⟩ :=
      unpackRow_spec conv wa pg pb im (im.pixels n) h0g h0b hgb width 0 S
    generalize forLoop (unpackPixel conv wa pg pb im (im.pixels n)) width 0 S = S' at qr qg qb qa qA qR qG qB ⊢
    refine ⟨⟨?_, ?_, ?_, ?_⟩, ?_, ?_, ?_, ?_, ?_⟩
    · show S'.r + sR / tB = _
      rw [qr, ir]; ring
    · show S'.g + sG / tB = _
      rw [qg, ig]; ring
    · show S'.b + sB / tB = _
      rw [qb, ib]; ring
    · intro hwa
      subst hwa
      show S'.a + sA / tB = _
      rw [qa, ia rfl]; ring
    · intro hw y x hy hx
      show S'.planes 0 _ = _
      rw [qR, ir]
      rcases Nat.lt_succ_iff_lt_or_eq.1 hy with hlt | heq
      · have := row_before hw hlt hx
        rw [if_neg (by omega)]
        exact iR hw y x hlt hx
      · subst heq
        rw [if_pos (by omega)]
        have e : st0.r + y * (sR / tB) + x - (st0.r + y * (sR / tB)) = x := by omega
        rw [e]
    · intro hw y x hy hx
      show S'.planes pg _ = _
      rw [qG, ig]
      rcases Nat.lt_succ_iff_lt_or_eq.1 hy with hlt | heq
      · have := row_before hw hlt hx
        rw [if_neg (by omega)]
        exact iG hw y x hlt hx
      · subst heq
        rw [if_pos (by omega)]
        have e : st0.g + y * (sG / tB) + x - (st0.g + y * (sG / tB)) = x := by omega
        rw [e]
    · intro hw y x hy hx
      show S'.planes pb _ = _
      rw [qB, ib]
      rcases Nat.lt_succ_iff_lt_or_eq.1 hy with hlt | heq
      · have := row_before hw hlt hx
        rw [if_neg (by omega)]
        exact iB hw y x hlt hx
      · subst heq
        rw [if_pos (by omega)]
        have e : st0.b + y * (sB / tB) + x - (st0.b + y * (sB / tB)) = x := by omega
        rw [e]
    · intro hwa hw y x hy hx
      subst hwa
      show S'.alpha _ = _
      rw [qA, ia rfl]
      rcases Nat.lt_succ_iff_lt_or_eq.1 hy with hlt | heq
      · have := row_before hw hlt hx
        rw [if_neg (by omega)]
        exact iA rfl hw y x hlt hx
      · subst heq
        rw [if_pos ⟨rfl, by omega, by omega⟩]
        have e : st0.a + y * (sA / tB) + x - (st0.a + y * (sA / tB)) = x := by omega
        rw [e]
    · intro hwa
      subst hwa
      show S'.alpha = _
      funext k
      rw [qA, if_neg (by simp), iN rfl]

theorem memset_covers {tB sA height y j : Nat} (hy : y < height) (hj : (j + 1) * tB ≤ sA) :
    (y * (sA / tB) + j + 1) * tB ≤ sA * height := by
  have h1 : sA / tB * tB ≤ sA := Nat.div_mul_le_self sA tB
  have h2 : y * (sA / tB * tB) ≤ y * sA := Nat.mul_le_mul_left _ h1
  have h3 : (y + 1) * sA ≤ height * sA := Nat.mul_le_mul_right _ hy
  have e1 : (y * (sA / tB) + j + 1) * tB = y * (sA / tB * tB) + (j + 1) * tB := by ring
  have e2 : (y + 1) * sA = y * sA + sA := by ring
  have e3 : sA * height = height * sA := Nat.mul_comm _ _
  omega

/-- C10. Alpha absence on read: when an alpha frame is requested and the alpha
offset of the image is negative, the integer read path (`readImageHelper`) and
the float read path (`readGetFrame`) leave zero in every sample of the alpha
plane that lies within the stride of a row `y < height`. -/
theorem C10_alpha_absence_on_read (cfg : Build) (tBytes : Nat) (frame alpha : Frame Nat)
    (isGray : Bool) (image : MagickImage) (width height B : Nat) (quantumRange : ℚ)
    (fframe falpha : Frame ℚ) (y j : Nat)
    (hneg : image.aOff < 0) (hy : y < height)
    (hj : (j + 1) * tBytes ≤ alpha.stride 0) (hjf : (j + 1) * 4 ≤ falpha.stride 0) :
    Option.map (fun f => f.plane 0 (y * (alpha.stride 0 / tBytes) + j))
        (readImageHelper cfg tBytes frame (some alpha) isGray image width height B).2 = some 0
    ∧ Option.map (fun f => f.plane 0 (y * (falpha.stride 0 / 4) + j))
        (readGetFrameFloat quantumRange fframe (some falpha) isGray image width height).2
          = some 0 := by
  have h : ¬ image.aOff ≥ 0 := not_le.2 hneg
  constructor
  · simp only [readImageHelper, if_neg h, Option.map_some', Function.update_same, memsetZero]
    rw [if_pos (memset_covers hy hj)]
  · simp only [readGetFrameFloat, if_neg h, Option.map_some', Function.update_same, memsetZero]
    rw [if_pos (memset_covers hy hjf)]

theorem C10_alpha_absence_on_read_witness :
    Option.map (fun f => f.plane 0 (1 * (demoAlpha.stride 0 / 1) + 3))
        (readImageHelper ⟨16, 4, true⟩ 1 demoFrame (some demoAlpha) false demoOpaque 2 2 8).2
          = some 0
    ∧ Option.map (fun f => f.plane 0 (1 * (demoFloat.stride 0 / 4) + 3))
        (readGetFrameFloat 65535 demoFloat (some demoFloat) false demoOpaque 2 2).2 = some 0 :=
  C10_alpha_absence_on_read ⟨16, 4, true⟩ 1 demoFrame demoAlpha false demoOpaque 2 2 8 65535
    demoFloat demoFloat 1 3 (by decide) (by decide) (by decide) (by decide)

theorem reg_lt (f : Nat → Nat) {i : Nat} (h : i < 16) : reg f i = f i % 256 := by
  rw [reg, if_pos h]

theorem isReg_reg (f : Nat → Nat) : IsReg (reg f) := by
  intro i hi
  rw [reg_lt f hi]
  exact Nat.mod_lt _ (by norm_num)

theorem isReg_ofWords (w : Nat → Nat) : IsReg (ofWords w) := isReg_reg _

theorem IsReg.mod {v : M128} (h : IsReg v) {i : Nat} (hi : i < 16) : v i % 256 = v i :=
  Nat.mod_eq_of_lt (h i hi)

theorem word_ofWords (w : Nat → Nat) {j : Nat} (hj : j < 8) :
    word (ofWords w) j = w j % 65536 := by
  unfold word ofWords
  rw [reg_lt _ (by omega), reg_lt _ (by omega)]
  have e1 : 2 * j / 2 = j := by omega
  have e2 : 2 * j % 2 = 0 := by omega
  have e3 : (2 * j + 1) / 2 = j := by omega
  have e4 : (2 * j + 1) % 2 = 1 := by omega
  rw [e1, e2, e3, e4, pow_zero, pow_one, Nat.div_one]
  omega

theorem word_lt {v : M128} (h : IsReg v) {j : Nat} (hj : j < 8) : word v j < 65536 := by
  unfold word
  have h1 := h (2 * j) (by omega)
  have h2 := h (2 * j + 1) (by omega)
  omega

theorem toI32_of_lt {n : Nat} (h : n < 2147483648) : toI32 (n : Int) = (n : Int) := by
  unfold toI32
  omega

theorem storeu_at (dst : Nat → ℚ) (p c m : Nat) (v : M128f) :
    mm_storeu_ps dst (p + c) v (p + m)
      = if c ≤ m ∧ m < c + 4 then v (m - c) else dst (p + m) := by
  unfold mm_storeu_ps
  by_cases h : c ≤ m ∧ m < c + 4
  · rw [if_pos h, if_pos (by omega)]
    congr 1
    omega
  · rw [if_neg h, if_neg (by omega)]

theorem storeu_out (dst : Nat → ℚ) (p c i : Nat) (v : M128f) (h : i < p ∨ p + 16 ≤ i)
    (hc : c + 4 ≤ 16) :
    mm_storeu_ps dst (p + c) v i = dst i := by
  unfold mm_storeu_ps
  rw [if_neg (by omega)]

theorem storeu_at0 (dst : Nat → ℚ) (p m : Nat) (v : M128f) :
    mm_storeu_ps dst p v (p + m) = if m < 4 then v m else dst (p + m) := by
  have := storeu_at dst p 0 m v
  simpa using this

theorem storeu_out0 (dst : Nat → ℚ) (p i : Nat) (v : M128f) (h : i < p ∨ p + 16 ≤ i) :
    mm_storeu_ps dst p v i = dst i := by
  unfold mm_storeu_ps
  rw [if_neg (by omega)]

theorem dword_unpacklo16_zero {a : M128} (ha : IsReg a) {j : Nat} (hj : j < 4) :
    dword (mm_unpacklo_epi16 a mm_setzero_si128) j = word a j := by
  have hb : ∀ k, k < 16 → a k % 256 = a k := fun k hk => ha.mod hk
  interval_cases j <;>
    simp [dword, word, mm_unpacklo_epi16, mm_setzero_si128, reg, hb]

theorem dword_unpackhi16_zero {a : M128} (ha : IsReg a) {j : Nat} (hj : j < 4) :
    dword (mm_unpackhi_epi16 a mm_setzero_si128) j = word a (4 + j) := by
  have hb : ∀ k, k < 16 → a k % 256 = a k := fun k hk => ha.mod hk
  interval_cases j <;>
    simp [dword, word, mm_unpackhi_epi16, mm_setzero_si128, reg, hb]

theorem word_unpacklo8_zero {a : M128} (ha : IsReg a) {j : Nat} (hj : j < 8) :
    word (mm_unpacklo_epi8 a mm_setzero_si128) j = a j := by
  have hb : ∀ k, k < 16 → a k % 256 = a k := fun k hk => ha.mod hk
  interval_cases j <;>
    simp [word, mm_unpacklo_epi8, mm_setzero_si128, reg, hb]

theorem word_unpackhi8_zero {a : M128} (ha : IsReg a) {j : Nat} (hj : j < 8) :
    word (mm_unpackhi_epi8 a mm_setzero_si128) j = a (8 + j) := by
  have hb : ∀ k, k < 16 → a k % 256 = a k := fun k hk => ha.mod hk
  interval_cases j <;>
    simp [word, mm_unpackhi_epi8, mm_setzero_si128, reg, hb]

theorem word_unpacklo8_self {a : M128} (ha : IsReg a) {j : Nat} (hj : j < 8) :
    word (mm_unpacklo_epi8 a a) j = a j + 256 * a j := by
  have hb : ∀ k, k < 16 → a k % 256 = a k := fun k hk => ha.mod hk
  interval_cases j <;>
    simp [word, mm_unpacklo_epi8, reg, hb]

theorem word_unpackhi8_self {a : M128} (ha : IsReg a) {j : Nat} (hj : j < 8) :
    word (mm_unpackhi_epi8 a a) j = a (8 + j) + 256 * a (8 + j) := by
  have hb : ∀ k, k < 16 → a k % 256 = a k := fun k hk => ha.mod hk
  interval_cases j <;>
    simp [word, mm_unpackhi_epi8, reg, hb]

theorem cvt_of_word {a : M128} (ha : IsReg a) {j : Nat} (hj : j < 4) :
    mm_cvtepi32_ps (mm_unpacklo_epi16 a mm_setzero_si128) j = ((word a j : Nat) : ℚ)
      ∧ mm_cvtepi32_ps (mm_unpackhi_epi16 a mm_setzero_si128) j = ((word a (4 + j) : Nat) : ℚ) := by
  unfold mm_cvtepi32_ps
  rw [dword_unpacklo16_zero ha hj, dword_unpackhi16_zero ha hj,
    toI32_of_lt (by have := word_lt ha (show j < 8 by omega); omega),
    toI32_of_lt (by have := word_lt ha (show 4 + j < 8 by omega); omega)]
  exact ⟨by norm_cast, by norm_cast⟩

/-- The two float vectors that `sseWritePixels8` and `sseWritePixels16` make of
a register of 16-bit lanes: lane `j` of the first is the 16-bit lane `j`, lane
`j` of the second is the 16-bit lane `4 + j`, both times `65537` at depth 32. -/
theorem widen_lanes (Q : Nat) {a : M128} (ha : IsReg a) {j : Nat} (hj : j < 4) :
    (if Q = 32 then mm_mul_ps (mm_cvtepi32_ps (mm_unpacklo_epi16 a mm_setzero_si128))
        (mm_set1_ps 65537) else mm_cvtepi32_ps (mm_unpacklo_epi16 a mm_setzero_si128)) j
      = (if Q = 32 then ((word a j : Nat) : ℚ) * 65537 else ((word a j : Nat) : ℚ))
    ∧ (if Q = 32 then mm_mul_ps (mm_cvtepi32_ps (mm_unpackhi_epi16 a mm_setzero_si128))
        (mm_set1_ps 65537) else mm_cvtepi32_ps (mm_unpackhi_epi16 a mm_setzero_si128)) j
      = (if Q = 32 then ((word a (4 + j) : Nat) : ℚ) * 65537
          else ((word a (4 + j) : Nat) : ℚ)) := by
  obtain ⟨h1, h2⟩ := cvt_of_word ha hj
  by_cases hQ : Q = 32
  · simp only [if_pos hQ, mm_mul_ps, mm_set1_ps, h1, h2, and_self]
  · simp only [if_neg hQ, h1, h2, and_self]

/-- One vector of `sseWritePixels8`: the sixteen quanta at `p` receive the
widened bytes of the vector, the other quanta are unchanged. -/
theorem sseWritePixels8_cons (Q : Nat) (dst : Nat → ℚ) (p : Nat) (vec : M128) (vecs : List M128)
    (hv : IsReg vec) :
    sseWritePixels8 Q dst p (vec :: vecs)
      = sseWritePixels8 Q
          (fun i => if p ≤ i ∧ i < p + 16 then widen8 Q (vec (i - p)) else dst i) (p + 16) vecs := by
  rw [sseWritePixels8]
  refine congrArg (fun d => sseWritePixels8 Q d (p + 16) vecs) ?_
  funext i
  have hlo : IsReg (if Q = 8 then mm_unpacklo_epi8 vec mm_setzero_si128
      else mm_unpacklo_epi8 vec vec) := by
    split <;> exact isReg_reg _
  have hhi : IsReg (if Q = 8 then mm_unpackhi_epi8 vec mm_setzero_si128
      else mm_unpackhi_epi8 vec vec) := by
    split <;> exact isReg_reg _
  have wlo : ∀ j, j < 8 → word (if Q = 8 then mm_unpacklo_epi8 vec mm_setzero_si128
      else mm_unpacklo_epi8 vec vec) j = if Q = 8 then vec j else vec j + 256 * vec j := by
    intro j hj
    by_cases h8 : Q = 8
    · rw [if_pos h8, if_pos h8, word_unpacklo8_zero hv hj]
    · rw [if_neg h8, if_neg h8, word_unpacklo8_self hv hj]
  have whi : ∀ j, j < 8 → word (if Q = 8 then mm_unpackhi_epi8 vec mm_setzero_si128
      else mm_unpackhi_epi8 vec vec) j
        = if Q = 8 then vec (8 + j) else vec (8 + j) + 256 * vec (8 + j) := by
    intro j hj
    by_cases h8 : Q = 8
    · rw [if_pos h8, if_pos h8, word_unpackhi8_zero hv hj]
    · rw [if_neg h8, if_neg h8, word_unpackhi8_self hv hj]
  by_cases h : p ≤ i ∧ i < p + 16
  · obtain ⟨m, rfl⟩ : ∃ m, i = p + m := ⟨i - p, by omega⟩
    have hm : m < 16 := by omega
    have e : p + m - p = m := by omega
    rw [if_pos h, e]
    rw [storeu_at, storeu_at, storeu_at, storeu_at0]
    by_cases c3 : 12 ≤ m ∧ m < 12 + 4
    · rw [if_pos c3, (widen_lanes Q hhi (show m - 12 < 4 by omega)).2,
        whi _ (by omega)]
      have e2 : 8 + (4 + (m - 12)) = m := by omega
      rw [e2]; rfl
    · rw [if_neg c3]
      by_cases c2 : 8 ≤ m ∧ m < 8 + 4
      · rw [if_pos c2, (widen_lanes Q hhi (show m - 8 < 4 by omega)).1,
          whi _ (by omega)]
        have e2 : 8 + (m - 8) = m := by omega
        rw [e2]; rfl
      · rw [if_neg c2]
        by_cases c1 : 4 ≤ m ∧ m < 4 + 4
        · rw [if_pos c1, (widen_lanes Q hlo (show m - 4 < 4 by omega)).2,
            wlo _ (by omega)]
          have e2 : 4 + (m - 4) = m := by omega
          rw [e2]; rfl
        · rw [if_neg c1, if_pos (by omega), (widen_lanes Q hlo (show m < 4 by omega)).1,
            wlo _ (by omega)]
          rfl
  · rw [if_neg h]
    have h' : i < p ∨ p + 16 ≤ i := by omega
    rw [storeu_out _ _ _ _ _ h' (by norm_num), storeu_out _ _ _ _ _ h' (by norm_num),
      storeu_out _ _ _ _ _ h' (by norm_num), storeu_out0 _ _ _ _ h']

theorem word_srli8 {a : M128} (ha : IsReg a) {j : Nat} (hj : j < 8) :
    word (mm_srli_epi16 a 8) j = word a j / 256 := by
  unfold mm_srli_epi16
  rw [word_ofWords _ hj, if_neg (by norm_num), Nat.shiftRight_eq_div_pow]
  have := word_lt ha hj
  omega

/-- One vector of `sseWritePixels16`: the eight quanta at `p` receive the
widened 16-bit lanes of the vector, the other quanta are unchanged. -/
theorem sseWritePixels16_cons (Q : Nat) (dst : Nat → ℚ) (p : Nat) (vec : M128)
    (vecs : List M128) (hv : IsReg vec) :
    sseWritePixels16 Q dst p (vec :: vecs)
      = sseWritePixels16 Q
          (fun i => if p ≤ i ∧ i < p + 8 then widen16 Q (word vec (i - p)) else dst i)
          (p + 8) vecs := by
  rw [sseWritePixels16]
  refine congrArg (fun d => sseWritePixels16 Q d (p + 8) vecs) ?_
  funext i
  have hr : IsReg (if Q = 8 then mm_srli_epi16 vec 8 else vec) := by
    split
    · exact isReg_reg _
    · exact hv
  have wv : ∀ j, j < 8 → word (if Q = 8 then mm_srli_epi16 vec 8 else vec) j
      = if Q = 8 then word vec j / 256 else word vec j := by
    intro j hj
    by_cases h8 : Q = 8
    · rw [if_pos h8, if_pos h8, word_srli8 hv hj]
    · rw [if_neg h8, if_neg h8]
  by_cases h : p ≤ i ∧ i < p + 8
  · obtain ⟨m, rfl⟩ : ∃ m, i = p + m := ⟨i - p, by omega⟩
    have hm : m < 8 := by omega
    have e : p + m - p = m := by omega
    rw [if_pos h, e]
    rw [storeu_at, storeu_at0]
    by_cases c1 : 4 ≤ m ∧ m < 4 + 4
    · rw [if_pos c1, (widen_lanes Q hr (show m - 4 < 4 by omega)).2, wv _ (by omega)]
      have e2 : 4 + (m - 4) = m := by omega
      rw [e2]; rfl
    · rw [if_neg c1, if_pos (by omega), (widen_lanes Q hr (show m < 4 by omega)).1,
        wv _ (by omega)]
      rfl
  · rw [if_neg h]
    unfold mm_storeu_ps
    rw [if_neg (by omega), if_neg (by omega)]

/-! ### Vector kernels against the scalar loop -/

/-- `sseWritePixels8` on a list of registers: the quantum `p + m` receives the
widened byte `m % 16` of vector `m / 16`, the quanta outside are unchanged. -/
theorem sseWritePixels8_spec (Q : Nat) :
    ∀ (vecs : List M128) (dst : Nat → ℚ) (p : Nat), (∀ v, v ∈ vecs → IsReg v) → ∀ i,
      sseWritePixels8 Q dst p vecs i
        = if p ≤ i ∧ i < p + 16 * vecs.length then
            widen8 Q ((vecs.getD ((i - p) / 16) mm_setzero_si128) ((i - p) % 16))
          else dst i := by
  intro vecs
  induction vecs with
  | nil =>
    intro dst p _ i
    rw [sseWritePixels8, if_neg (by simp)]
  | cons vec vecs ih =>
    intro dst p hv i
    rw [sseWritePixels8_cons Q dst p vec vecs (hv vec (List.mem_cons_self _ _)),
      ih _ _ (fun v h => hv v (List.mem_cons_of_mem _ h)), List.length_cons]
    by_cases h2 : p + 16 ≤ i ∧ i < p + 16 + 16 * vecs.length
    · have e1 : (i - p) / 16 = (i - (p + 16)) / 16 + 1 := by omega
      have e2 : (i - p) % 16 = (i - (p + 16)) % 16 := by omega
      rw [if_pos h2, if_pos (by omega), e1, e2, List.getD_cons_succ]
    · rw [if_neg h2]
      by_cases h1 : p ≤ i ∧ i < p + 16
      · have e1 : (i - p) / 16 = 0 := by omega
        have e2 : (i - p) % 16 = i - p := by omega
        rw [if_pos h1, if_pos (by omega), e1, e2, List.getD_cons_zero]
      · rw [if_neg h1, if_neg (by omega)]

/-- `sseWritePixels16` on a list of registers: the quantum `p + m` receives the
widened 16-bit lane `m % 8` of vector `m / 8`, the quanta outside are unchanged. -/
theorem sseWritePixels16_spec (Q : Nat) :
    ∀ (vecs : List M128) (dst : Nat → ℚ) (p : Nat), (∀ v, v ∈ vecs → IsReg v) → ∀ i,
      sseWritePixels16 Q dst p vecs i
        = if p ≤ i ∧ i < p + 8 * vecs.length then
            widen16 Q (word (vecs.getD ((i - p) / 8) mm_setzero_si128) ((i - p) % 8))
          else dst i := by
  intro vecs
  induction vecs with
  | nil =>
    intro dst p _ i
    rw [sseWritePixels16, if_neg (by simp)]
  | cons vec vecs ih =>
    intro dst p hv i
    rw [sseWritePixels16_cons Q dst p vec vecs (hv vec (List.mem_cons_self _ _)),
      ih _ _ (fun v h => hv v (List.mem_cons_of_mem _ h)), List.length_cons]
    by_cases h2 : p + 8 ≤ i ∧ i < p + 8 + 8 * vecs.length
    · have e1 : (i - p) / 8 = (i - (p + 8)) / 8 + 1 := by omega
      have e2 : (i - p) % 8 = (i - (p + 8)) % 8 := by omega
      rw [if_pos h2, if_pos (by omega), e1, e2, List.getD_cons_succ]
    · rw [if_neg h2]
      by_cases h1 : p ≤ i ∧ i < p + 8
      · have e1 : (i - p) / 8 = 0 := by omega
        have e2 : (i - p) % 8 = i - p := by omega
        rw [if_pos h1, if_pos (by omega), e1, e2, List.getD_cons_zero]
      · rw [if_neg h1, if_neg (by omega)]

/-- The byte path agrees with the scalar formula: for 8-bit samples the value
stored by `sseWritePixels8` is the packed value. -/
theorem widen8_eq_packed {Q v : Nat} (hQ : Q = 8 ∨ Q = 16 ∨ Q = 32) (hv : v < 256) :
    widen8 Q v = (packSample (scaleFactor Q 8) (shiftFactor Q 8) v : ℚ) := by
  rcases hQ with rfl | rfl | rfl
  · have h1 : scaleFactor 8 8 = 0 := by decide
    have h2 : shiftFactor 8 8 = 0 := by decide
    rw [h1, h2, packSample_zero_zero (by omega)]
    simp [widen8]
  · have h1 : scaleFactor 16 8 = 256 := by decide
    have h2 : shiftFactor 16 8 = 0 := by decide
    have h3 : packSample 256 0 v = v + 256 * v := by
      unfold packSample toU32
      rw [Nat.shiftRight_zero]
      omega
    rw [h1, h2, h3]
    simp [widen8]
  · have h1 : scaleFactor 32 8 = 16843008 := by decide
    have h2 : shiftFactor 32 8 = 0 := by decide
    have h3 : packSample 16843008 0 v = (v + 256 * v) * 65537 := by
      unfold packSample toU32
      rw [Nat.shiftRight_zero]
      omega
    rw [h1, h2, h3]
    simp [widen8]

/-- A block of `k` pixels written by a kernel is the result of the scalar loop
on the same pixels, for the layout RGB (3 channels) or RGBA (4 channels). -/
theorem block_eq_scalar (wa : Bool) (sf sh : Nat) (im : MagickImage) (p : RowPtrs Nat)
    (hr : im.rOff = 0) (hg : im.gOff = 1) (hb : im.bOff = 2)
    (hch : im.channels = if wa = true then 4 else 3) (ha : wa = true → im.aOff = 3)
    (k x : Nat) (pixels blockRow : Nat → ℚ)
    (hblock : ∀ i, blockRow i
      = if x * im.channels ≤ i ∧ i < x * im.channels + k * im.channels then
          (packSample sf sh
            ((if (i - x * im.channels) % im.channels = 0 then p.r
              else if (i - x * im.channels) % im.channels = 1 then p.g
              else if (i - x * im.channels) % im.channels = 2 then p.b
              else p.a) (x + (i - x * im.channels) / im.channels)) : ℚ)
        else pixels i) :
    blockRow = forLoop (scalarPixel wa sf sh im p) k x pixels := by
  funext i
  have hr' : im.rOff < im.channels := by rw [hr, hch]; split <;> norm_num
  have hg' : im.gOff < im.channels := by rw [hg, hch]; split <;> norm_num
  have hb' : im.bOff < im.channels := by rw [hb, hch]; split <;> norm_num
  have ha' : wa = true → 0 ≤ im.aOff ∧ im.aOff.toNat < im.channels := by
    intro h
    rw [ha h, hch, if_pos h]
    exact ⟨by norm_num, by decide⟩
  rw [hblock, scalarLoop_apply wa sf sh im p hr' hg' hb' ha']
  cases wa with
  | true =>
    rw [ha rfl, hr, hg, hb]
    rw [if_pos rfl] at hch
    rw [hch]
    have e3 : (3 : Int).toNat = 3 := rfl
    rw [e3]
    by_cases c : x * 4 ≤ i ∧ i < x * 4 + k * 4
    · have c' : x ≤ i / 4 ∧ i / 4 < x + k := by omega
      have e1 : (i - x * 4) % 4 = i % 4 := by omega
      have e2 : x + (i - x * 4) / 4 = i / 4 := by omega
      rw [if_pos c, if_pos c', e1, e2]
      have hm : i % 4 < 4 := Nat.mod_lt _ (by norm_num)
      by_cases m3 : i % 4 = 3
      · simp [m3]
      · by_cases m2 : i % 4 = 2
        · simp [m2]
        · by_cases m1 : i % 4 = 1
          · simp [m1]
          · have m0 : i % 4 = 0 := by omega
            simp [m0]
    · have c' : ¬ (x ≤ i / 4 ∧ i / 4 < x + k) := by omega
      rw [if_neg c, if_neg c']
  | false =>
    rw [hr, hg, hb]
    rw [if_neg (by decide)] at hch
    rw [hch]
    by_cases c : x * 3 ≤ i ∧ i < x * 3 + k * 3
    · have c' : x ≤ i / 3 ∧ i / 3 < x + k := by omega
      have e1 : (i - x * 3) % 3 = i % 3 := by omega
      have e2 : x + (i - x * 3) / 3 = i / 3 := by omega
      rw [if_pos c, if_pos c', e1, e2]
      have hm : i % 3 < 3 := Nat.mod_lt _ (by norm_num)
      by_cases m2 : i % 3 = 2
      · simp [m2]
      · by_cases m1 : i % 3 = 1
        · simp [m1]
        · have m0 : i % 3 = 0 := by omega
          simp [m0]
    · have c' : ¬ (x ≤ i / 3 ∧ i / 3 < x + k) := by omega
      rw [if_neg c, if_neg c']

theorem forLoop_add {σ : Type} (body : Nat → σ → σ) :
    ∀ (a b x : Nat) (s : σ),
      forLoop body (a + b) x s = forLoop body b (x + a) (forLoop body a x s) := by
  intro a
  induction a with
  | zero => intro b x s; simp [forLoop]
  | succ a ih =>
    intro b x s
    have e : a + 1 + b = (a + b) + 1 := by omega
    rw [e, forLoop, forLoop, ih]
    have e2 : x + 1 + a = x + (a + 1) := by omega
    rw [e2]

/-- A vector loop whose body does what `k` rounds of a scalar body do runs
`width / k` times (the fuel `width` is enough) and leaves `x = k * (width / k)`. -/
theorem vecLoop_blocks {σ : Type} (k width : Nat) (hk : 1 ≤ k) (body sbody : Nat → σ → σ)
    (hb : ∀ x s, body x s = forLoop sbody k x s) :
    ∀ (fuel x : Nat) (s : σ), (width - x) / k ≤ fuel →
      vecLoop k width body fuel x s
        = (forLoop sbody (k * ((width - x) / k)) x s, x + k * ((width - x) / k)) := by
  intro fuel
  induction fuel with
  | zero =>
    intro x s h
    have h0 : (width - x) / k = 0 := Nat.eq_zero_of_le_zero h
    rw [vecLoop, h0, Nat.mul_zero]
    rfl
  | succ fuel ih =>
    intro x s h
    rw [vecLoop]
    by_cases c : x + (k - 1) < width
    · have hq : (width - x) / k = (width - (x + k)) / k + 1 := by
        have e : width - x = (width - (x + k)) + k := by omega
        rw [e, Nat.add_div_right _ hk]
      rw [if_pos c, ih (x + k) (body x s) (by omega), hb, hq, Nat.mul_succ,
        Nat.add_comm (k * _) k, forLoop_add]
      congr 1
      omega
    · have h0 : (width - x) / k = 0 := Nat.div_eq_of_lt (by omega)
      rw [if_neg c, h0, Nat.mul_zero]
      rfl

/-- A row converted by a kernel that does whole blocks of the scalar loop is
the row converted by the scalar loop alone. -/
theorem writeRow_kernel_eq (wa : Bool) (sf sh : Nat) (im : MagickImage) (width k : Nat)
    (hk : 1 ≤ k) (p : RowPtrs Nat) (pixels : Nat → ℚ) (body : Nat → (Nat → ℚ) → (Nat → ℚ))
    (kernel : RowPtrs Nat → (Nat → ℚ) → (Nat → ℚ) × Nat)
    (hkernel : kernel p pixels = vecLoop k width body width 0 pixels)
    (hb : ∀ x s, body x s = forLoop (scalarPixel wa sf sh im p) k x s) :
    writeRow wa sf sh im width kernel p pixels
      = writeRow wa sf sh im width noKernel p pixels := by
  have hfuel : (width - 0) / k ≤ width := Nat.div_le_self _ _
  rw [writeRow_noKernel]
  simp only [writeRow]
  rw [hkernel, vecLoop_blocks k width hk body _ hb width 0 pixels hfuel]
  simp only [Nat.sub_zero, Nat.zero_add]
  have hle : k * (width / k) ≤ width := Nat.mul_div_le width k
  have e : width = k * (width / k) + (width - k * (width / k)) := by omega
  conv_rhs => rw [e, forLoop_add, Nat.zero_add]

theorem loadu_byte (ptr : Nat → Nat) (x n : Nat) {i : Nat} (hi : i < 16) :
    mm_loadu_si128 1 ptr x n i = ptr (x + (16 * n + i)) % 256 := by
  unfold mm_loadu_si128
  rw [reg_lt _ hi, Nat.mod_one, pow_zero, Nat.div_one, Nat.div_one]

theorem isReg_unpack16 (a b : M128) :
    IsReg (mm_unpacklo_epi16 a b) ∧ IsReg (mm_unpackhi_epi16 a b) :=
  ⟨isReg_reg _, isReg_reg _⟩

theorem isReg_unpack32 (a b : M128) :
    IsReg (mm_unpacklo_epi32 a b) ∧ IsReg (mm_unpackhi_epi32 a b) :=
  ⟨isReg_reg _, isReg_reg _⟩

theorem isReg_four {a b c d : M128} (ha : IsReg a) (hb : IsReg b) (hc : IsReg c)
    (hd : IsReg d) : ∀ v, v ∈ [a, b, c, d] → IsReg v := by
  intro v hv
  simp only [List.mem_cons, List.mem_singleton, List.not_mem_nil, or_false] at hv
  rcases hv with rfl | rfl | rfl | rfl <;> assumption

theorem isReg_six {a b c d e f : M128} (ha : IsReg a) (hb : IsReg b) (hc : IsReg c)
    (hd : IsReg d) (he : IsReg e) (hf : IsReg f) : ∀ v, v ∈ [a, b, c, d, e, f] → IsReg v := by
  intro v hv
  simp only [List.mem_cons, List.mem_singleton, List.not_mem_nil, or_false] at hv
  rcases hv with rfl | rfl | rfl | rfl | rfl | rfl <;> assumption

theorem satU8_of_lt {v : Nat} (h : v < 256) : satU8 v = v := by
  unfold satU8
  rw [if_neg (by omega), if_neg (by omega)]

theorem word_and_mask {a : M128} (ha : IsReg a) {j : Nat} (hj : j < 8) :
    word (mm_and_si128 a (mm_set1_epi16 0xff)) j = a (2 * j) := by
  have hm : word (mm_set1_epi16 0xff) j = 2 ^ 8 - 1 := by
    unfold mm_set1_epi16
    rw [word_ofWords _ hj]
    norm_num
  unfold mm_and_si128
  rw [word_ofWords _ hj, hm, Nat.and_pow_two_sub_one_eq_mod]
  unfold word
  have h1 := ha (2 * j) (by omega)
  have h2 := ha (2 * j + 1) (by omega)
  omega

theorem word_srli8_byte {a : M128} (ha : IsReg a) {j : Nat} (hj : j < 8) :
    word (mm_srli_epi16 a 8) j = a (2 * j + 1) := by
  rw [word_srli8 ha hj]
  unfold word
  have h1 := ha (2 * j) (by omega)
  have h2 := ha (2 * j + 1) (by omega)
  omega

/-- `ssePackPair8(a, b)` returns the even-indexed bytes of `a` followed by `b`
as `outLo` and the odd-indexed bytes as `outHi`. -/
theorem ssePackPair8_eq {a b : M128} (ha : IsReg a) (hb : IsReg b) :
    ssePackPair8 a b = evenOdd8 a b := by
  unfold ssePackPair8 evenOdd8 mm_packus_epi16
  refine Prod.ext ?_ ?_
  · funext i
    dsimp only
    unfold reg
    by_cases h16 : i < 16
    · rw [if_pos h16, if_pos h16]
      dsimp only
      by_cases h8 : i < 8
      · rw [if_pos h8, if_pos h8, word_and_mask ha h8, satU8_of_lt (ha _ (by omega))]
      · rw [if_neg h8, if_neg h8, word_and_mask hb (by omega), satU8_of_lt (hb _ (by omega))]
        congr 2
        omega
    · rw [if_neg h16, if_neg h16]
  · funext i
    dsimp only
    unfold reg
    by_cases h16 : i < 16
    · rw [if_pos h16, if_pos h16]
      dsimp only
      by_cases h8 : i < 8
      · rw [if_pos h8, if_pos h8, word_srli8_byte ha h8, satU8_of_lt (ha _ (by omega))]
      · rw [if_neg h8, if_neg h8, word_srli8_byte hb (by omega), satU8_of_lt (hb _ (by omega))]
        congr 2
        omega
    · rw [if_neg h16, if_neg h16]

theorem isReg_evenOdd8 (a b : M128) : IsReg (evenOdd8 a b).1 ∧ IsReg (evenOdd8 a b).2 :=
  ⟨isReg_reg _, isReg_reg _⟩

theorem isReg_loadu (tB : Nat) (ptr : Nat → Nat) (x n : Nat) :
    IsReg (mm_loadu_si128 tB ptr x n) := isReg_reg _

/-- The network of `ssePackPair8` is the network of `evenOdd8`. -/
theorem packRounds8_eq {r0 r1 g0 g1 b0 b1 : M128} (h1 : IsReg r0) (h2 : IsReg r1)
    (h3 : IsReg g0) (h4 : IsReg g1) (h5 : IsReg b0) (h6 : IsReg b1) :
    packRounds ssePackPair8 r0 r1 g0 g1 b0 b1 = packRounds evenOdd8 r0 r1 g0 g1 b0 b1 := by
  unfold packRounds
  simp only [ssePackPair8_eq h1 h2, ssePackPair8_eq h3 h4, ssePackPair8_eq h5 h6,
    ssePackPair8_eq (isReg_evenOdd8 _ _).1 (isReg_evenOdd8 _ _).1,
    ssePackPair8_eq (isReg_evenOdd8 _ _).1 (isReg_evenOdd8 _ _).2,
    ssePackPair8_eq (isReg_evenOdd8 _ _).2 (isReg_evenOdd8 _ _).1,
    ssePackPair8_eq (isReg_evenOdd8 _ _).2 (isReg_evenOdd8 _ _).2]

/-! ### Data movement commutes with a change of the bytes -/

theorem reg_reg (f : Nat → Nat) : reg (reg f) = reg f := by
  funext i
  unfold reg
  by_cases h : i < 16
  · simp only [if_pos h, Nat.mod_mod]
  · simp only [if_neg h]

theorem mapReg_apply (f : Nat → Nat) (a : M128) {i : Nat} (hi : i < 16) :
    mapReg f a i = f (a i % 256) % 256 := by
  unfold mapReg
  rw [reg_lt _ hi]

theorem isReg_mapReg (f : Nat → Nat) (a : M128) : IsReg (mapReg f a) := isReg_reg _

/-- A register built by picking, for every byte, one byte of `a` or one byte of
`b`: doing so after changing the bytes by `f` is changing the bytes by `f`
afterwards. -/
theorem move_natural (f : Nat → Nat) (c : Nat → Prop) [DecidablePred c] (ia ib : Nat → Nat)
    (hia : ∀ i, i < 16 → c i → ia i < 16) (hib : ∀ i, i < 16 → ¬ c i → ib i < 16)
    (a b : M128) :
    reg (fun i => if c i then mapReg f a (ia i) else mapReg f b (ib i))
      = mapReg f (reg (fun i => if c i then a (ia i) else b (ib i))) := by
  funext i
  by_cases h : i < 16
  · rw [reg_lt _ h, mapReg_apply _ _ h, reg_lt _ h]
    by_cases hc : c i
    · rw [if_pos hc, if_pos hc, mapReg_apply _ _ (hia i h hc), Nat.mod_mod, Nat.mod_mod]
    · rw [if_neg hc, if_neg hc, mapReg_apply _ _ (hib i h hc), Nat.mod_mod, Nat.mod_mod]
  · unfold mapReg reg
    rw [if_neg h, if_neg h]

theorem unpacklo8_map (f : Nat → Nat) (a b : M128) :
    mm_unpacklo_epi8 (mapReg f a) (mapReg f b) = mapReg f (mm_unpacklo_epi8 a b) :=
  move_natural f (fun i => i % 2 = 0) (fun i => i / 2) (fun i => i / 2)
    (fun i h _ => by dsimp only; omega) (fun i h _ => by dsimp only; omega) a b

theorem unpackhi8_map (f : Nat → Nat) (a b : M128) :
    mm_unpackhi_epi8 (mapReg f a) (mapReg f b) = mapReg f (mm_unpackhi_epi8 a b) :=
  move_natural f (fun i => i % 2 = 0) (fun i => 8 + i / 2) (fun i => 8 + i / 2)
    (fun i h _ => by dsimp only; omega) (fun i h _ => by dsimp only; omega) a b

theorem unpacklo16_map (f : Nat → Nat) (a b : M128) :
    mm_unpacklo_epi16 (mapReg f a) (mapReg f b) = mapReg f (mm_unpacklo_epi16 a b) :=
  move_natural f (fun i => (i / 2) % 2 = 0) (fun i => 2 * (i / 4) + i % 2)
    (fun i => 2 * (i / 4) + i % 2) (fun i h _ => by dsimp only; omega) (fun i h _ => by dsimp only; omega) a b

theorem unpackhi16_map (f : Nat → Nat) (a b : M128) :
    mm_unpackhi_epi16 (mapReg f a) (mapReg f b) = mapReg f (mm_unpackhi_epi16 a b) :=
  move_natural f (fun i => (i / 2) % 2 = 0) (fun i => 8 + 2 * (i / 4) + i % 2)
    (fun i => 8 + 2 * (i / 4) + i % 2) (fun i h _ => by dsimp only; omega) (fun i h _ => by dsimp only; omega) a b

theorem unpacklo32_map (f : Nat → Nat) (a b : M128) :
    mm_unpacklo_epi32 (mapReg f a) (mapReg f b) = mapReg f (mm_unpacklo_epi32 a b) :=
  move_natural f (fun i => (i / 4) % 2 = 0) (fun i => 4 * (i / 8) + i % 4)
    (fun i => 4 * (i / 8) + i % 4) (fun i h _ => by dsimp only; omega) (fun i h _ => by dsimp only; omega) a b

theorem unpackhi32_map (f : Nat → Nat) (a b : M128) :
    mm_unpackhi_epi32 (mapReg f a) (mapReg f b) = mapReg f (mm_unpackhi_epi32 a b) :=
  move_natural f (fun i => (i / 4) % 2 = 0) (fun i => 8 + 4 * (i / 8) + i % 4)
    (fun i => 8 + 4 * (i / 8) + i % 4) (fun i h _ => by dsimp only; omega) (fun i h _ => by dsimp only; omega) a b

theorem evenOdd8_map_fst (f : Nat → Nat) (a b : M128) :
    (evenOdd8 (mapReg f a) (mapReg f b)).1 = mapReg f (evenOdd8 a b).1 :=
  move_natural f (fun i => i < 8) (fun i => 2 * i) (fun i => 2 * i - 16)
    (fun i h hc => by dsimp only at hc ⊢; omega) (fun i h hc => by dsimp only at hc ⊢; omega) a b

theorem evenOdd8_map_snd (f : Nat → Nat) (a b : M128) :
    (evenOdd8 (mapReg f a) (mapReg f b)).2 = mapReg f (evenOdd8 a b).2 :=
  move_natural f (fun i => i < 8) (fun i => 2 * i + 1) (fun i => 2 * i - 15)
    (fun i h hc => by dsimp only at hc ⊢; omega) (fun i h hc => by dsimp only at hc ⊢; omega) a b

theorem evenOdd16_map_fst (f : Nat → Nat) (a b : M128) :
    (evenOdd16 (mapReg f a) (mapReg f b)).1 = mapReg f (evenOdd16 a b).1 :=
  move_natural f (fun i => i < 8) (fun i => 4 * (i / 2) + i % 2)
    (fun i => 4 * (i / 2) + i % 2 - 16) (fun i h hc => by dsimp only at hc ⊢; omega) (fun i h hc => by dsimp only at hc ⊢; omega) a b

theorem evenOdd16_map_snd (f : Nat → Nat) (a b : M128) :
    (evenOdd16 (mapReg f a) (mapReg f b)).2 = mapReg f (evenOdd16 a b).2 :=
  move_natural f (fun i => i < 8) (fun i => 4 * (i / 2) + i % 2 + 2)
    (fun i => 4 * (i / 2) + i % 2 - 14) (fun i h hc => by dsimp only at hc ⊢; omega) (fun i h hc => by dsimp only at hc ⊢; omega) a b
/-- `ssePackPair16(a, b)` returns the even-indexed 16-bit words of `a` followed
by `b` as `outLo` and the odd-indexed words as `outHi`. -/
theorem ssePackPair16_eq (a b : M128) : ssePackPair16 a b = evenOdd16 a b := by
  have hs : MM_SHUFFLE 3 1 2 0 = 216 := by decide
  have h20 : MM_SHUFFLE 2 0 2 0 = 136 := by decide
  have h31 : MM_SHUFFLE 3 1 3 1 = 221 := by decide
  have h3 : ∀ n, n &&& 3 = n % 4 := fun n => Nat.and_pow_two_sub_one_eq_mod n 2
  unfold ssePackPair16 evenOdd16
  rw [hs, h20, h31]
  refine Prod.ext ?_ ?_
  · funext i
    by_cases h16 : i < 16
    · interval_cases i <;>
        simp [mm_shuffle_ps, mm_shufflehi_epi16, mm_shufflelo_epi16, reg, h3,
          Nat.shiftRight_eq_div_pow]
    · simp [mm_shuffle_ps, reg, h16]
  · funext i
    by_cases h16 : i < 16
    · interval_cases i <;>
        simp [mm_shuffle_ps, mm_shufflehi_epi16, mm_shufflelo_epi16, reg, h3,
          Nat.shiftRight_eq_div_pow]
    · simp [mm_shuffle_ps, reg, h16]
theorem isReg_pack8_fst (a b : M128) : IsReg (ssePackPair8 a b).1 := isReg_reg _

theorem isReg_pack8_snd (a b : M128) : IsReg (ssePackPair8 a b).2 := isReg_reg _

theorem ssePackPair8_map_fst (f : Nat → Nat) {a b : M128} (ha : IsReg a) (hb : IsReg b) :
    (ssePackPair8 (mapReg f a) (mapReg f b)).1 = mapReg f (ssePackPair8 a b).1 := by
  rw [ssePackPair8_eq (isReg_mapReg f a) (isReg_mapReg f b), ssePackPair8_eq ha hb,
    evenOdd8_map_fst]

theorem ssePackPair8_map_snd (f : Nat → Nat) {a b : M128} (ha : IsReg a) (hb : IsReg b) :
    (ssePackPair8 (mapReg f a) (mapReg f b)).2 = mapReg f (ssePackPair8 a b).2 := by
  rw [ssePackPair8_eq (isReg_mapReg f a) (isReg_mapReg f b), ssePackPair8_eq ha hb,
    evenOdd8_map_snd]

theorem ssePackPair16_map_fst (f : Nat → Nat) (a b : M128) :
    (ssePackPair16 (mapReg f a) (mapReg f b)).1 = mapReg f (ssePackPair16 a b).1 := by
  rw [ssePackPair16_eq, ssePackPair16_eq, evenOdd16_map_fst]

theorem ssePackPair16_map_snd (f : Nat → Nat) (a b : M128) :
    (ssePackPair16 (mapReg f a) (mapReg f b)).2 = mapReg f (ssePackPair16 a b).2 := by
  rw [ssePackPair16_eq, ssePackPair16_eq, evenOdd16_map_snd]

/-- The interleaving of the RGBA kernel for 8-bit samples moves bytes. -/
theorem interleaveRGBA8_map (f : Nat → Nat) (r0 g0 b0 a0 : M128) :
    interleaveRGBA8 (mapReg f r0) (mapReg f g0) (mapReg f b0) (mapReg f a0)
      = (interleaveRGBA8 r0 g0 b0 a0).map (mapReg f) := by
  simp only [interleaveRGBA8, unpacklo8_map, unpackhi8_map, unpacklo16_map, unpackhi16_map,
    List.map]

/-- The interleaving of the RGBA kernel for 16-bit storage moves bytes. -/
theorem interleaveRGBA16_map (f : Nat → Nat) (r0 g0 b0 a0 : M128) :
    interleaveRGBA16 (mapReg f r0) (mapReg f g0) (mapReg f b0) (mapReg f a0)
      = (interleaveRGBA16 r0 g0 b0 a0).map (mapReg f) := by
  simp only [interleaveRGBA16, unpacklo16_map, unpackhi16_map, unpacklo32_map, unpackhi32_map,
    List.map]

/-- The interleaving of the RGB kernel for 8-bit samples moves bytes. -/
theorem interleaveRGB8_map (f : Nat → Nat) {r0 r1 g0 g1 b0 b1 : M128} (h1 : IsReg r0)
    (h2 : IsReg r1) (h3 : IsReg g0) (h4 : IsReg g1) (h5 : IsReg b0) (h6 : IsReg b1) :
    interleaveRGB8 (mapReg f r0) (mapReg f r1) (mapReg f g0) (mapReg f g1) (mapReg f b0)
        (mapReg f b1)
      = (interleaveRGB8 r0 r1 g0 g1 b0 b1).map (mapReg f) := by
  simp only [interleaveRGB8, packRounds, ssePackPair8_map_fst, ssePackPair8_map_snd,
    isReg_pack8_fst, isReg_pack8_snd, h1, h2, h3, h4, h5, h6, List.map]

/-- The interleaving of the RGB kernel for 16-bit storage moves bytes. -/
theorem interleaveRGB16_map (f : Nat → Nat) (r0 r1 g0 g1 b0 b1 : M128) :
    interleaveRGB16 (mapReg f r0) (mapReg f r1) (mapReg f g0) (mapReg f g1) (mapReg f b0)
        (mapReg f b1)
      = (interleaveRGB16 r0 r1 g0 g1 b0 b1).map (mapReg f) := by
  simp only [interleaveRGB16, packRounds, ssePackPair16_map_fst, ssePackPair16_map_snd,
    List.map]
/-! ### Where the interleaving networks put each byte -/

theorem getD_reg : ∀ (rs : List M128), (∀ v, v ∈ rs → reg v = v) → ∀ k,
    reg (rs.getD k mm_setzero_si128) = rs.getD k mm_setzero_si128 := by
  intro rs
  induction rs with
  | nil =>
    intro _ k
    rw [List.getD_nil]
    exact reg_reg _
  | cons v rs ih =>
    intro h k
    cases k with
    | zero =>
      rw [List.getD_cons_zero]
      exact h v (List.mem_cons_self _ _)
    | succ k =>
      rw [List.getD_cons_succ]
      exact ih (fun w hw => h w (List.mem_cons_of_mem _ hw)) k

theorem byteOf_lt (rs : List M128) (h : ∀ v, v ∈ rs → reg v = v) (t : Nat) :
    byteOf rs t < 256 := by
  unfold byteOf
  rw [← getD_reg rs h]
  exact isReg_reg _ _ (Nat.mod_lt _ (by norm_num))

/-- A register of a list is the register of its byte numbers, mapped to the
bytes of the list. -/
theorem tag_lift (rs : List M128) (h : ∀ v, v ∈ rs → reg v = v) (k : Nat) (hk : k < 16) :
    mapReg (byteOf rs) (tagReg k) = rs.getD k mm_setzero_si128 := by
  funext i
  by_cases hi : i < 16
  · rw [mapReg_apply _ _ hi]
    unfold tagReg
    rw [reg_lt _ hi]
    have e0 : (16 * k + i) % 256 % 256 = 16 * k + i := by omega
    have e1 : (16 * k + i) / 16 = k := by omega
    have e2 : (16 * k + i) % 16 = i := by omega
    rw [e0]
    have hb := byteOf_lt rs h (16 * k + i)
    rw [Nat.mod_eq_of_lt hb]
    unfold byteOf
    rw [e1, e2]
  · have h0 := congrFun (getD_reg rs h k) i
    rw [← h0]
    unfold mapReg reg
    rw [if_neg hi, if_neg hi]

theorem getD_map_of_lt {α β : Type} (f : α → β) (l : List α) (d : α) (e : β) {n : Nat}
    (h : n < l.length) : (l.map f).getD n e = f (l.getD n d) := by
  rw [List.getD_eq_getElem _ _ (by rw [List.length_map]; exact h), List.getD_eq_getElem _ _ h,
    List.getElem_map]

theorem mem_four {a b c d : M128} (ha : reg a = a) (hb : reg b = b) (hc : reg c = c)
    (hd : reg d = d) : ∀ v, v ∈ [a, b, c, d] → reg v = v := by
  intro v hv
  simp only [List.mem_cons, List.mem_singleton, List.not_mem_nil, or_false] at hv
  rcases hv with rfl | rfl | rfl | rfl <;> assumption

theorem mem_six {a b c d e f : M128} (ha : reg a = a) (hb : reg b = b) (hc : reg c = c)
    (hd : reg d = d) (he : reg e = e) (hf : reg f = f) :
    ∀ v, v ∈ [a, b, c, d, e, f] → reg v = v := by
  intro v hv
  simp only [List.mem_cons, List.mem_singleton, List.not_mem_nil, or_false] at hv
  rcases hv with rfl | rfl | rfl | rfl | rfl | rfl <;> assumption

/-- The RGBA network for 8-bit samples on byte numbers: byte `m` of vector `n`
is byte `q` of register `c` for the pixel `q` and channel `c` of `16 * n + m`. -/
theorem tagsRGBA8 : ∀ n, n < 4 → ∀ m, m < 16 →
    ((interleaveRGBA8 (tagReg 0) (tagReg 1) (tagReg 2) (tagReg 3)).getD n mm_setzero_si128) m
      = 16 * ((16 * n + m) % 4) + (16 * n + m) / 4 := by
  decide

/-- The RGBA network for 16-bit storage on byte numbers. -/
theorem tagsRGBA16 : ∀ n, n < 4 → ∀ m, m < 16 →
    ((interleaveRGBA16 (tagReg 0) (tagReg 1) (tagReg 2) (tagReg 3)).getD n mm_setzero_si128) m
      = 16 * (((16 * n + m) / 2) % 4) + 2 * (((16 * n + m) / 2) / 4) + (16 * n + m) % 2 := by
  decide

/-- The RGB network for 8-bit samples on byte numbers. -/
theorem tagsRGB8 : ∀ n, n < 6 → ∀ m, m < 16 →
    ((interleaveRGB8 (tagReg 0) (tagReg 1) (tagReg 2) (tagReg 3) (tagReg 4) (tagReg 5)).getD n
        mm_setzero_si128) m
      = 32 * ((16 * n + m) % 3) + (16 * n + m) / 3 := by
  have e : interleaveRGB8 (tagReg 0) (tagReg 1) (tagReg 2) (tagReg 3) (tagReg 4) (tagReg 5)
      = match packRounds evenOdd8 (tagReg 0) (tagReg 1) (tagReg 2) (tagReg 3) (tagReg 4)
          (tagReg 5) with
        | (r_g0, r_g1, b_r0, b_r1, g_b0, g_b1) =>
          [(evenOdd8 r_g0 b_r0).1, (evenOdd8 g_b0 r_g1).1, (evenOdd8 b_r1 g_b1).1,
           (evenOdd8 r_g0 b_r0).2, (evenOdd8 g_b0 r_g1).2, (evenOdd8 b_r1 g_b1).2] := by
    have ht : ∀ k, IsReg (tagReg k) := fun k => isReg_reg _
    unfold interleaveRGB8
    rw [packRounds8_eq (ht 0) (ht 1) (ht 2) (ht 3) (ht 4) (ht 5)]
    simp only [packRounds, ssePackPair8_eq (isReg_evenOdd8 _ _).1 (isReg_evenOdd8 _ _).1,
      ssePackPair8_eq (isReg_evenOdd8 _ _).1 (isReg_evenOdd8 _ _).2,
      ssePackPair8_eq (isReg_evenOdd8 _ _).2 (isReg_evenOdd8 _ _).1,
      ssePackPair8_eq (isReg_evenOdd8 _ _).2 (isReg_evenOdd8 _ _).2]
  rw [e]
  decide

/-- The RGB network for 16-bit storage on byte numbers. -/
theorem tagsRGB16 : ∀ n, n < 6 → ∀ m, m < 16 →
    ((interleaveRGB16 (tagReg 0) (tagReg 1) (tagReg 2) (tagReg 3) (tagReg 4) (tagReg 5)).getD n
        mm_setzero_si128) m
      = 32 * (((16 * n + m) / 2) % 3) + 2 * (((16 * n + m) / 2) / 3) + (16 * n + m) % 2 := by
  simp only [interleaveRGB16, packRounds, ssePackPair16_eq]
  decide
/-- Byte `m` of vector `n` of the RGBA network for 8-bit samples. -/
theorem interleaveRGBA8_lane {r0 g0 b0 a0 : M128} (h1 : reg r0 = r0) (h2 : reg g0 = g0)
    (h3 : reg b0 = b0) (h4 : reg a0 = a0) {n : Nat} (hn : n < 4) {m : Nat} (hm : m < 16) :
    ((interleaveRGBA8 r0 g0 b0 a0).getD n mm_setzero_si128) m
      = byteOf [r0, g0, b0, a0] (16 * ((16 * n + m) % 4) + (16 * n + m) / 4) := by
  have hl := mem_four h1 h2 h3 h4
  have key := interleaveRGBA8_map (byteOf [r0, g0, b0, a0]) (tagReg 0) (tagReg 1) (tagReg 2)
    (tagReg 3)
  rw [tag_lift _ hl 0 (by norm_num), tag_lift _ hl 1 (by norm_num),
    tag_lift _ hl 2 (by norm_num), tag_lift _ hl 3 (by norm_num)] at key
  simp only [List.getD_cons_zero, List.getD_cons_succ] at key
  rw [key, getD_map_of_lt _ _ mm_setzero_si128 _ (by exact hn), mapReg_apply _ _ hm,
    tagsRGBA8 n hn m hm, Nat.mod_eq_of_lt (byteOf_lt _ hl _)]
  congr 1
  omega

/-- Byte `m` of vector `n` of the RGBA network for 16-bit storage. -/
theorem interleaveRGBA16_lane {r0 g0 b0 a0 : M128} (h1 : reg r0 = r0) (h2 : reg g0 = g0)
    (h3 : reg b0 = b0) (h4 : reg a0 = a0) {n : Nat} (hn : n < 4) {m : Nat} (hm : m < 16) :
    ((interleaveRGBA16 r0 g0 b0 a0).getD n mm_setzero_si128) m
      = byteOf [r0, g0, b0, a0]
          (16 * (((16 * n + m) / 2) % 4) + 2 * (((16 * n + m) / 2) / 4) + (16 * n + m) % 2) := by
  have hl := mem_four h1 h2 h3 h4
  have key := interleaveRGBA16_map (byteOf [r0, g0, b0, a0]) (tagReg 0) (tagReg 1) (tagReg 2)
    (tagReg 3)
  rw [tag_lift _ hl 0 (by norm_num), tag_lift _ hl 1 (by norm_num),
    tag_lift _ hl 2 (by norm_num), tag_lift _ hl 3 (by norm_num)] at key
  simp only [List.getD_cons_zero, List.getD_cons_succ] at key
  rw [key, getD_map_of_lt _ _ mm_setzero_si128 _ (by exact hn), mapReg_apply _ _ hm,
    tagsRGBA16 n hn m hm, Nat.mod_eq_of_lt (byteOf_lt _ hl _)]
  congr 1
  omega

/-- Byte `m` of vector `n` of the RGB network for 8-bit samples. -/
theorem interleaveRGB8_lane {r0 r1 g0 g1 b0 b1 : M128} (h1 : reg r0 = r0) (h2 : reg r1 = r1)
    (h3 : reg g0 = g0) (h4 : reg g1 = g1) (h5 : reg b0 = b0) (h6 : reg b1 = b1)
    {n : Nat} (hn : n < 6) {m : Nat} (hm : m < 16) :
    ((interleaveRGB8 r0 r1 g0 g1 b0 b1).getD n mm_setzero_si128) m
      = byteOf [r0, r1, g0, g1, b0, b1] (32 * ((16 * n + m) % 3) + (16 * n + m) / 3) := by
  have hl := mem_six h1 h2 h3 h4 h5 h6
  have ht : ∀ k, IsReg (tagReg k) := fun k => isReg_reg _
  have key := interleaveRGB8_map (byteOf [r0, r1, g0, g1, b0, b1]) (ht 0) (ht 1) (ht 2) (ht 3)
    (ht 4) (ht 5)
  rw [tag_lift _ hl 0 (by norm_num), tag_lift _ hl 1 (by norm_num),
    tag_lift _ hl 2 (by norm_num), tag_lift _ hl 3 (by norm_num),
    tag_lift _ hl 4 (by norm_num), tag_lift _ hl 5 (by norm_num)] at key
  simp only [List.getD_cons_zero, List.getD_cons_succ] at key
  rw [key, getD_map_of_lt _ _ mm_setzero_si128 _ (by exact hn), mapReg_apply _ _ hm,
    tagsRGB8 n hn m hm, Nat.mod_eq_of_lt (byteOf_lt _ hl _)]
  congr 1
  omega

/-- Byte `m` of vector `n` of the RGB network for 16-bit storage. -/
theorem interleaveRGB16_lane {r0 r1 g0 g1 b0 b1 : M128} (h1 : reg r0 = r0) (h2 : reg r1 = r1)
    (h3 : reg g0 = g0) (h4 : reg g1 = g1) (h5 : reg b0 = b0) (h6 : reg b1 = b1)
    {n : Nat} (hn : n < 6) {m : Nat} (hm : m < 16) :
    ((interleaveRGB16 r0 r1 g0 g1 b0 b1).getD n mm_setzero_si128) m
      = byteOf [r0, r1, g0, g1, b0, b1]
          (32 * (((16 * n + m) / 2) % 3) + 2 * (((16 * n + m) / 2) / 3) + (16 * n + m) % 2) := by
  have hl := mem_six h1 h2 h3 h4 h5 h6
  have key := interleaveRGB16_map (byteOf [r0, r1, g0, g1, b0, b1]) (tagReg 0) (tagReg 1)
    (tagReg 2) (tagReg 3) (tagReg 4) (tagReg 5)
  rw [tag_lift _ hl 0 (by norm_num), tag_lift _ hl 1 (by norm_num),
    tag_lift _ hl 2 (by norm_num), tag_lift _ hl 3 (by norm_num),
    tag_lift _ hl 4 (by norm_num), tag_lift _ hl 5 (by norm_num)] at key
  simp only [List.getD_cons_zero, List.getD_cons_succ] at key
  rw [key, getD_map_of_lt _ _ mm_setzero_si128 _ (by exact hn), mapReg_apply _ _ hm,
    tagsRGB16 n hn m hm, Nat.mod_eq_of_lt (byteOf_lt _ hl _)]
  congr 1
  omega
/-! ### The 16-bit lanes of the fast path -/

theorem up_or {s t v : Nat} (h1 : v * 2 ^ s < 65536) (h2 : v / 2 ^ t < 2 ^ s) :
    ((v <<< s) % 65536) ||| (v >>> t) = v * 2 ^ s + v / 2 ^ t := by
  rw [Nat.shiftLeft_eq, Nat.shiftRight_eq_div_pow, Nat.mod_eq_of_lt h1, Nat.mul_comm,
    ← Nat.mul_add_lt_is_or h2]

/-- The upsampled lane as a sum: `v * 2 ^ (16 - B) + v / 2 ^ (2 * B - 16)`. -/
theorem upsampleLane_eq {B v : Nat} (h8 : 8 ≤ B) (h16 : B ≤ 16) (hv : v < 2 ^ B) :
    upsampleLane B v = v * 2 ^ (16 - B) + v / 2 ^ (2 * B - 16) := by
  unfold upsampleLane
  apply up_or
  · have e : (65536 : Nat) = 2 ^ B * 2 ^ (16 - B) := by
      rw [← pow_add]
      have : B + (16 - B) = 16 := by omega
      rw [this]
      norm_num
    rw [e]
    exact Nat.mul_lt_mul_of_pos_right hv (by positivity)
  · rw [Nat.div_lt_iff_lt_mul (by positivity), ← pow_add]
    have : 16 - B + (2 * B - 16) = B := by omega
    rw [this]
    exact hv

theorem packSample_small {sf sh v : Nat} (h : v * sf + v / 2 ^ sh < 2 ^ 32) :
    packSample sf sh v = v * sf + v / 2 ^ sh := by
  unfold packSample toU32
  rw [Nat.shiftRight_eq_div_pow, Nat.mod_eq_of_lt h]

theorem scale8 {B : Nat} (h8 : 8 ≤ B) (h16 : B ≤ 16) :
    scaleFactor 8 B = 0 ∧ shiftFactor 8 B = B - 8 := by
  interval_cases B <;> decide

theorem scale16 {B : Nat} (h8 : 8 ≤ B) (h16 : B ≤ 16) :
    scaleFactor 16 B = (if B = 16 then 0 else 2 ^ (16 - B))
      ∧ shiftFactor 16 B = (if B = 16 then 0 else 2 * B - 16) := by
  interval_cases B <;> decide

/-- The 16-bit path agrees with the scalar formula on the depths for which the
fast path is selected. -/
theorem widen16_eq_packed {Q B v : Nat} (hQ : Q = 8 ∨ Q = 16 ∨ Q = 32) (h8 : 8 ≤ B)
    (h16 : B ≤ 16) (hsel : Q ≤ 16 ∨ B = 8 ∨ B = 16) (hv : v < 2 ^ B) :
    widen16 Q (upsampleLane B v)
      = (packSample (scaleFactor Q B) (shiftFactor Q B) v : ℚ) := by
  have hv16 : v < 65536 := lt_of_lt_of_le hv (by
    have : (65536 : Nat) = 2 ^ 16 := by norm_num
    rw [this]
    exact Nat.pow_le_pow_right (by norm_num) h16)
  rw [upsampleLane_eq h8 h16 hv]
  rcases hQ with rfl | rfl | rfl
  · rw [(scale8 h8 h16).1, (scale8 h8 h16).2]
    have hb : v * 0 + v / 2 ^ (B - 8) < 2 ^ 32 := by
      have := Nat.div_le_self v (2 ^ (B - 8))
      omega
    have e : (v * 2 ^ (16 - B) + v / 2 ^ (2 * B - 16)) / 256 = v * 0 + v / 2 ^ (B - 8) := by
      interval_cases B <;> norm_num at hv ⊢ <;> omega
    rw [packSample_small hb, ← e]
    simp only [widen16]
    norm_num
  · rw [(scale16 h8 h16).1, (scale16 h8 h16).2]
    have e : v * 2 ^ (16 - B) + v / 2 ^ (2 * B - 16)
        = v * (if B = 16 then 0 else 2 ^ (16 - B))
            + v / 2 ^ (if B = 16 then 0 else 2 * B - 16) := by
      interval_cases B
      all_goals norm_num at hv ⊢
      omega
    have hb : v * (if B = 16 then 0 else 2 ^ (16 - B))
        + v / 2 ^ (if B = 16 then 0 else 2 * B - 16) < 2 ^ 32 := by
      rw [← e]
      interval_cases B <;> norm_num at hv ⊢ <;> omega
    rw [packSample_small hb, ← e]
    simp only [widen16]
    norm_num
  · have hB : B = 8 ∨ B = 16 := by omega
    rcases hB with rfl | rfl
    · have h1 : scaleFactor 32 8 = 16843008 := by decide
      have h2 : shiftFactor 32 8 = 0 := by decide
      have e : (v * 2 ^ (16 - 8) + v / 2 ^ (2 * 8 - 16)) * 65537
          = v * 16843008 + v / 2 ^ 0 := by
        norm_num at hv ⊢
        omega
      have hb : v * 16843008 + v / 2 ^ 0 < 2 ^ 32 := by
        norm_num at hv ⊢
        omega
      rw [h1, h2, packSample_small hb, ← e]
      simp only [widen16]
      norm_num
    · have h1 : scaleFactor 32 16 = 65536 := by decide
      have h2 : shiftFactor 32 16 = 0 := by decide
      have e : (v * 2 ^ (16 - 16) + v / 2 ^ (2 * 16 - 16)) * 65537
          = v * 65536 + v / 2 ^ 0 := by
        norm_num at hv ⊢
        omega
      have hb : v * 65536 + v / 2 ^ 0 < 2 ^ 32 := by
        norm_num at hv ⊢
        omega
      rw [h1, h2, packSample_small hb, ← e]
      simp only [widen16]
      norm_num

theorem loadu_word (ptr : Nat → Nat) (x n : Nat) {j : Nat} (hj : j < 8)
    (h : ptr (x + (8 * n + j)) < 65536) :
    word (mm_loadu_si128 2 ptr x n) j = ptr (x + (8 * n + j)) := by
  unfold word mm_loadu_si128
  rw [reg_lt _ (by omega), reg_lt _ (by omega)]
  have e1 : (16 * n + 2 * j) / 2 = 8 * n + j := by omega
  have e2 : (16 * n + 2 * j) % 2 = 0 := by omega
  have e3 : (16 * n + (2 * j + 1)) / 2 = 8 * n + j := by omega
  have e4 : (16 * n + (2 * j + 1)) % 2 = 1 := by omega
  rw [e1, e2, e3, e4, pow_zero, pow_one, Nat.div_one]
  omega

theorem shl_count {B : Nat} (h8 : 8 ≤ B) (h16 : B ≤ 16) :
    qword (shlCount B) 0 = 16 - B ∧ qword (shrCount B) 0 = 2 * B - 16 := by
  interval_cases B <;> decide

/-- The 16-bit lanes of an upsampled register. -/
theorem upsample16_word {B : Nat} (h8 : 8 ≤ B) (h16 : B ≤ 16) {v : M128} (hv : IsReg v)
    {j : Nat} (hj : j < 8) :
    word (upsample16 v (shlCount B) (shrCount B)) j = upsampleLane B (word v j) := by
  have hw := word_lt hv hj
  have h2 : word v j >>> (2 * B - 16) < 65536 := by
    rw [Nat.shiftRight_eq_div_pow]
    exact lt_of_le_of_lt (Nat.div_le_self _ _) hw
  have hsr : (if 2 * B - 16 > 15 then 0 else word v j >>> (2 * B - 16))
      = word v j >>> (2 * B - 16) := by
    by_cases c : 2 * B - 16 > 15
    · have e : 2 * B - 16 = 16 := by omega
      rw [if_pos c, e, Nat.shiftRight_eq_div_pow]
      exact (Nat.div_eq_of_lt (by norm_num; exact hw)).symm
    · rw [if_neg c]
  unfold upsample16 mm_or_si128 mm_sll_epi16 mm_srl_epi16
  rw [word_ofWords _ hj, word_ofWords _ hj, word_ofWords _ hj, (shl_count h8 h16).1,
    (shl_count h8 h16).2, if_neg (by omega), hsr]
  unfold upsampleLane
  rw [Nat.mod_eq_of_lt h2]
  have h1 : (word v j <<< (16 - B)) % 65536 < 2 ^ 16 := Nat.mod_lt _ (by norm_num)
  have h3 : word v j >>> (2 * B - 16) < 2 ^ 16 := h2
  exact Nat.mod_eq_of_lt (Nat.or_lt_two_pow h1 h3)

theorem reg_loadu (t : Nat) (ptr : Nat → Nat) (x n : Nat) :
    reg (mm_loadu_si128 t ptr x n) = mm_loadu_si128 t ptr x n := reg_reg _

theorem reg_upsample16 (v shl shr : M128) : reg (upsample16 v shl shr) = upsample16 v shl shr :=
  reg_reg _
/-! ### The samples that a block of each kernel writes -/

theorem rgba8_sample (p : RowPtrs Nat) (x : Nat) {d : Nat} (hd : d < 64) :
    ((interleaveRGBA8 (mm_loadu_si128 1 p.r x 0) (mm_loadu_si128 1 p.g x 0)
        (mm_loadu_si128 1 p.b x 0) (mm_loadu_si128 1 p.a x 0)).getD (d / 16)
        mm_setzero_si128) (d % 16)
      = (if d % 4 = 0 then p.r else if d % 4 = 1 then p.g else if d % 4 = 2 then p.b
          else p.a) (x + d / 4) % 256 := by
  rw [interleaveRGBA8_lane (reg_loadu _ _ _ _) (reg_loadu _ _ _ _) (reg_loadu _ _ _ _)
    (reg_loadu _ _ _ _) (by omega) (Nat.mod_lt _ (by norm_num))]
  have e : 16 * ((16 * (d / 16) + d % 16) % 4) + (16 * (d / 16) + d % 16) / 4
      = 16 * (d % 4) + d / 4 := by omega
  have e1 : (16 * (d % 4) + d / 4) / 16 = d % 4 := by omega
  have e2 : (16 * (d % 4) + d / 4) % 16 = d / 4 := by omega
  have hc : d % 4 < 4 := Nat.mod_lt _ (by norm_num)
  have hq : d / 4 < 16 := by omega
  rw [e]
  unfold byteOf
  rw [e1, e2]
  generalize d % 4 = c at hc
  generalize d / 4 = q at hq
  interval_cases c <;> simp [loadu_byte _ _ _ hq]

theorem rgb8_sample (p : RowPtrs Nat) (x : Nat) {d : Nat} (hd : d < 96) :
    ((interleaveRGB8 (mm_loadu_si128 1 p.r x 0) (mm_loadu_si128 1 p.r x 1)
        (mm_loadu_si128 1 p.g x 0) (mm_loadu_si128 1 p.g x 1)
        (mm_loadu_si128 1 p.b x 0) (mm_loadu_si128 1 p.b x 1)).getD (d / 16)
        mm_setzero_si128) (d % 16)
      = (if d % 3 = 0 then p.r else if d % 3 = 1 then p.g else if d % 3 = 2 then p.b
          else p.a) (x + d / 3) % 256 := by
  rw [interleaveRGB8_lane (reg_loadu _ _ _ _) (reg_loadu _ _ _ _) (reg_loadu _ _ _ _)
    (reg_loadu _ _ _ _) (reg_loadu _ _ _ _) (reg_loadu _ _ _ _) (by omega)
    (Nat.mod_lt _ (by norm_num))]
  have e : 32 * ((16 * (d / 16) + d % 16) % 3) + (16 * (d / 16) + d % 16) / 3
      = 32 * (d % 3) + d / 3 := by omega
  have e1 : (32 * (d % 3) + d / 3) / 16 = 2 * (d % 3) + d / 3 / 16 := by omega
  have e2 : (32 * (d % 3) + d / 3) % 16 = d / 3 % 16 := by omega
  have hc : d % 3 < 3 := Nat.mod_lt _ (by norm_num)
  have hq : d / 3 < 32 := by omega
  rw [e]
  unfold byteOf
  rw [e1, e2]
  generalize d % 3 = c at hc
  generalize d / 3 = q at hq
  have hq1 : q / 16 < 2 := by omega
  have hq2 : q % 16 < 16 := Nat.mod_lt _ (by norm_num)
  have hq3 : q = 16 * (q / 16) + q % 16 := by omega
  generalize q / 16 = n at hq1 hq3
  generalize q % 16 = m at hq2 hq3
  subst hq3
  interval_cases c <;> interval_cases n <;> simp [loadu_byte _ _ _ hq2]

theorem idxRGBA16 : ∀ d, d < 32 →
    (16 * (((16 * (d / 8) + 2 * (d % 8)) / 2) % 4)
        + 2 * (((16 * (d / 8) + 2 * (d % 8)) / 2) / 4) + (16 * (d / 8) + 2 * (d % 8)) % 2) / 16
      = d % 4
    ∧ (16 * (((16 * (d / 8) + 2 * (d % 8)) / 2) % 4)
        + 2 * (((16 * (d / 8) + 2 * (d % 8)) / 2) / 4) + (16 * (d / 8) + 2 * (d % 8)) % 2) % 16
      = 2 * (d / 4)
    ∧ (16 * (((16 * (d / 8) + (2 * (d % 8) + 1)) / 2) % 4)
        + 2 * (((16 * (d / 8) + (2 * (d % 8) + 1)) / 2) / 4)
        + (16 * (d / 8) + (2 * (d % 8) + 1)) % 2) / 16
      = d % 4
    ∧ (16 * (((16 * (d / 8) + (2 * (d % 8) + 1)) / 2) % 4)
        + 2 * (((16 * (d / 8) + (2 * (d % 8) + 1)) / 2) / 4)
        + (16 * (d / 8) + (2 * (d % 8) + 1)) % 2) % 16
      = 2 * (d / 4) + 1 := by
  decide

theorem idxRGB16 : ∀ d, d < 48 →
    (32 * (((16 * (d / 8) + 2 * (d % 8)) / 2) % 3)
        + 2 * (((16 * (d / 8) + 2 * (d % 8)) / 2) / 3) + (16 * (d / 8) + 2 * (d % 8)) % 2) / 16
      = 2 * (d % 3) + d / 3 / 8
    ∧ (32 * (((16 * (d / 8) + 2 * (d % 8)) / 2) % 3)
        + 2 * (((16 * (d / 8) + 2 * (d % 8)) / 2) / 3) + (16 * (d / 8) + 2 * (d % 8)) % 2) % 16
      = 2 * (d / 3 % 8)
    ∧ (32 * (((16 * (d / 8) + (2 * (d % 8) + 1)) / 2) % 3)
        + 2 * (((16 * (d / 8) + (2 * (d % 8) + 1)) / 2) / 3)
        + (16 * (d / 8) + (2 * (d % 8) + 1)) % 2) / 16
      = 2 * (d % 3) + d / 3 / 8
    ∧ (32 * (((16 * (d / 8) + (2 * (d % 8) + 1)) / 2) % 3)
        + 2 * (((16 * (d / 8) + (2 * (d % 8) + 1)) / 2) / 3)
        + (16 * (d / 8) + (2 * (d % 8) + 1)) % 2) % 16
      = 2 * (d / 3 % 8) + 1 := by
  decide

theorem rgba16_sample {B : Nat} (h8 : 8 ≤ B) (h16 : B ≤ 16) (p : RowPtrs Nat)
    (hp : ∀ k, p.r k < 65536 ∧ p.g k < 65536 ∧ p.b k < 65536 ∧ p.a k < 65536) (x : Nat)
    {d : Nat} (hd : d < 32) :
    word ((interleaveRGBA16
        (upsample16 (mm_loadu_si128 2 p.r x 0) (shlCount B) (shrCount B))
        (upsample16 (mm_loadu_si128 2 p.g x 0) (shlCount B) (shrCount B))
        (upsample16 (mm_loadu_si128 2 p.b x 0) (shlCount B) (shrCount B))
        (upsample16 (mm_loadu_si128 2 p.a x 0) (shlCount B) (shrCount B))).getD (d / 8)
        mm_setzero_si128) (d % 8)
      = upsampleLane B ((if d % 4 = 0 then p.r else if d % 4 = 1 then p.g
          else if d % 4 = 2 then p.b else p.a) (x + d / 4)) := by
  have hn : d / 8 < 4 := by omega
  have hm : d % 8 < 8 := Nat.mod_lt _ (by norm_num)
  have hc : d % 4 < 4 := Nat.mod_lt _ (by norm_num)
  have hq : d / 4 < 8 := by omega
  obtain ⟨e1, e2, e3, e4⟩ := idxRGBA16 d hd
  unfold word
  rw [interleaveRGBA16_lane (reg_upsample16 _ _ _) (reg_upsample16 _ _ _)
      (reg_upsample16 _ _ _) (reg_upsample16 _ _ _) hn (by omega),
    interleaveRGBA16_lane (reg_upsample16 _ _ _) (reg_upsample16 _ _ _)
      (reg_upsample16 _ _ _) (reg_upsample16 _ _ _) hn (by omega)]
  unfold byteOf
  rw [e1, e2, e3, e4]
  generalize d % 4 = c at hc
  generalize d / 4 = q at hq
  have hw : ∀ ptr : Nat → Nat, (∀ k, ptr k < 65536) →
      upsample16 (mm_loadu_si128 2 ptr x 0) (shlCount B) (shrCount B) (2 * q)
        + 256 * upsample16 (mm_loadu_si128 2 ptr x 0) (shlCount B) (shrCount B) (2 * q + 1)
      = upsampleLane B (ptr (x + q)) := by
    intro ptr hptr
    have h := upsample16_word h8 h16 (isReg_loadu 2 ptr x 0) hq
    rw [loadu_word ptr x 0 hq (hptr _)] at h
    simpa [word] using h
  interval_cases c
  · simpa using hw p.r (fun k => (hp k).1)
  · simpa using hw p.g (fun k => (hp k).2.1)
  · simpa using hw p.b (fun k => (hp k).2.2.1)
  · simpa using hw p.a (fun k => (hp k).2.2.2)

theorem rgb16_sample {B : Nat} (h8 : 8 ≤ B) (h16 : B ≤ 16) (p : RowPtrs Nat)
    (hp : ∀ k, p.r k < 65536 ∧ p.g k < 65536 ∧ p.b k < 65536 ∧ p.a k < 65536) (x : Nat)
    {d : Nat} (hd : d < 48) :
    word ((interleaveRGB16
        (upsample16 (mm_loadu_si128 2 p.r x 0) (shlCount B) (shrCount B))
        (upsample16 (mm_loadu_si128 2 p.r x 1) (shlCount B) (shrCount B))
        (upsample16 (mm_loadu_si128 2 p.g x 0) (shlCount B) (shrCount B))
        (upsample16 (mm_loadu_si128 2 p.g x 1) (shlCount B) (shrCount B))
        (upsample16 (mm_loadu_si128 2 p.b x 0) (shlCount B) (shrCount B))
        (upsample16 (mm_loadu_si128 2 p.b x 1) (shlCount B) (shrCount B))).getD (d / 8)
        mm_setzero_si128) (d % 8)
      = upsampleLane B ((if d % 3 = 0 then p.r else if d % 3 = 1 then p.g
          else if d % 3 = 2 then p.b else p.a) (x + d / 3)) := by
  have hn : d / 8 < 6 := by omega
  have hm : d % 8 < 8 := Nat.mod_lt _ (by norm_num)
  have hc : d % 3 < 3 := Nat.mod_lt _ (by norm_num)
  have hq : d / 3 < 16 := by omega
  obtain ⟨e1, e2, e3, e4⟩ := idxRGB16 d hd
  unfold word
  rw [interleaveRGB16_lane (reg_upsample16 _ _ _) (reg_upsample16 _ _ _)
      (reg_upsample16 _ _ _) (reg_upsample16 _ _ _) (reg_upsample16 _ _ _)
      (reg_upsample16 _ _ _) hn (by omega),
    interleaveRGB16_lane (reg_upsample16 _ _ _) (reg_upsample16 _ _ _)
      (reg_upsample16 _ _ _) (reg_upsample16 _ _ _) (reg_upsample16 _ _ _)
      (reg_upsample16 _ _ _) hn (by omega)]
  unfold byteOf
  rw [e1, e2, e3, e4]
  generalize d % 3 = c at hc
  generalize d / 3 = q at hq
  have hq1 : q / 8 < 2 := by omega
  have hq2 : q % 8 < 8 := Nat.mod_lt _ (by norm_num)
  have hq3 : q = 8 * (q / 8) + q % 8 := by omega
  generalize q / 8 = n at hq1 hq3
  generalize q % 8 = m at hq2 hq3
  subst hq3
  have hw : ∀ ptr : Nat → Nat, (∀ k, ptr k < 65536) →
      upsample16 (mm_loadu_si128 2 ptr x n) (shlCount B) (shrCount B) (2 * m)
        + 256 * upsample16 (mm_loadu_si128 2 ptr x n) (shlCount B) (shrCount B) (2 * m + 1)
      = upsampleLane B (ptr (x + (8 * n + m))) := by
    intro ptr hptr
    have h := upsample16_word h8 h16 (isReg_loadu 2 ptr x n) hq2
    rw [loadu_word ptr x n hq2 (hptr _)] at h
    simpa [word] using h
  interval_cases c <;> interval_cases n
  · simpa using hw p.r (fun k => (hp k).1)
  · simpa using hw p.r (fun k => (hp k).1)
  · simpa using hw p.g (fun k => (hp k).2.1)
  · simpa using hw p.g (fun k => (hp k).2.1)
  · simpa using hw p.b (fun k => (hp k).2.2.1)
  · simpa using hw p.b (fun k => (hp k).2.2.1)
/-! ### Every kernel row is the scalar row -/

theorem isReg_interleaveRGBA8 (r0 g0 b0 a0 : M128) :
    ∀ v, v ∈ interleaveRGBA8 r0 g0 b0 a0 → IsReg v :=
  isReg_four (isReg_reg _) (isReg_reg _) (isReg_reg _) (isReg_reg _)

theorem isReg_interleaveRGBA16 (r0 g0 b0 a0 : M128) :
    ∀ v, v ∈ interleaveRGBA16 r0 g0 b0 a0 → IsReg v :=
  isReg_four (isReg_reg _) (isReg_reg _) (isReg_reg _) (isReg_reg _)

theorem isReg_interleaveRGB8 (r0 r1 g0 g1 b0 b1 : M128) :
    ∀ v, v ∈ interleaveRGB8 r0 r1 g0 g1 b0 b1 → IsReg v :=
  isReg_six (isReg_reg _) (isReg_reg _) (isReg_reg _) (isReg_reg _) (isReg_reg _)
    (isReg_reg _)

theorem isReg_interleaveRGB16 (r0 r1 g0 g1 b0 b1 : M128) :
    ∀ v, v ∈ interleaveRGB16 r0 r1 g0 g1 b0 b1 → IsReg v :=
  isReg_six (isReg_reg _) (isReg_reg _) (isReg_reg _) (isReg_reg _) (isReg_reg _)
    (isReg_reg _)

theorem length_interleaveRGBA8 (r0 g0 b0 a0 : M128) :
    (interleaveRGBA8 r0 g0 b0 a0).length = 4 := rfl

theorem length_interleaveRGBA16 (r0 g0 b0 a0 : M128) :
    (interleaveRGBA16 r0 g0 b0 a0).length = 4 := rfl

theorem length_interleaveRGB8 (r0 r1 g0 g1 b0 b1 : M128) :
    (interleaveRGB8 r0 r1 g0 g1 b0 b1).length = 6 := rfl

theorem length_interleaveRGB16 (r0 r1 g0 g1 b0 b1 : M128) :
    (interleaveRGB16 r0 r1 g0 g1 b0 b1).length = 6 := rfl

theorem chan_lt {n : Nat} (p : RowPtrs Nat)
    (hp : ∀ k, p.r k < n ∧ p.g k < n ∧ p.b k < n ∧ p.a k < n) (c k : Nat) :
    (if c = 0 then p.r else if c = 1 then p.g else if c = 2 then p.b else p.a) k < n := by
  split
  · exact (hp k).1
  · split
    · exact (hp k).2.1
    · split
      · exact (hp k).2.2.1
      · exact (hp k).2.2.2

/-- A row converted by the RGBA kernel for 8-bit samples is the row converted by
the scalar loop. -/
theorem kernelRGBA8_row (Q : Nat) (hQ : Q = 8 ∨ Q = 16 ∨ Q = 32) (im : MagickImage)
    (hch : im.channels = 4) (hr : im.rOff = 0) (hg : im.gOff = 1) (hb : im.bOff = 2)
    (ha : im.aOff = 3) (p : RowPtrs Nat)
    (hp : ∀ k, p.r k < 256 ∧ p.g k < 256 ∧ p.b k < 256 ∧ p.a k < 256)
    (width : Nat) (pixels : Nat → ℚ) :
    writeRow true (scaleFactor Q 8) (shiftFactor Q 8) im width
        (kernelRGBA8 Q im.channels width) p pixels
      = writeRow true (scaleFactor Q 8) (shiftFactor Q 8) im width noKernel p pixels := by
  refine writeRow_kernel_eq true _ _ im width 16 (by norm_num) p pixels _ _ rfl ?_
  intro x s
  refine block_eq_scalar true _ _ im p hr hg hb (by rw [hch]; rfl) (fun _ => ha) 16 x s _ ?_
  intro i
  rw [sseWritePixels8_spec Q _ _ _ (isReg_interleaveRGBA8 _ _ _ _), hch,
    length_interleaveRGBA8]
  by_cases c : x * 4 ≤ i ∧ i < x * 4 + 16 * 4
  · have hlt := chan_lt p hp ((i - x * 4) % 4) (x + (i - x * 4) / 4)
    rw [if_pos (by omega), if_pos c, rgba8_sample p x (by omega), Nat.mod_eq_of_lt hlt,
      widen8_eq_packed hQ hlt]
  · rw [if_neg (by omega), if_neg c]

/-- A row converted by the RGB kernel for 8-bit samples is the row converted by
the scalar loop. -/
theorem kernelRGB8_row (Q : Nat) (hQ : Q = 8 ∨ Q = 16 ∨ Q = 32) (im : MagickImage)
    (hch : im.channels = 3) (hr : im.rOff = 0) (hg : im.gOff = 1) (hb : im.bOff = 2)
    (p : RowPtrs Nat) (hp : ∀ k, p.r k < 256 ∧ p.g k < 256 ∧ p.b k < 256 ∧ p.a k < 256)
    (width : Nat) (pixels : Nat → ℚ) :
    writeRow false (scaleFactor Q 8) (shiftFactor Q 8) im width
        (kernelRGB8 Q im.channels width) p pixels
      = writeRow false (scaleFactor Q 8) (shiftFactor Q 8) im width noKernel p pixels := by
  refine writeRow_kernel_eq false _ _ im width 32 (by norm_num) p pixels _ _ rfl ?_
  intro x s
  refine block_eq_scalar false _ _ im p hr hg hb (by rw [hch]; rfl)
    (fun h => absurd h (by decide)) 32 x s _ ?_
  intro i
  rw [sseWritePixels8_spec Q _ _ _ (isReg_interleaveRGB8 _ _ _ _ _ _), hch,
    length_interleaveRGB8]
  by_cases c : x * 3 ≤ i ∧ i < x * 3 + 32 * 3
  · have hlt := chan_lt p hp ((i - x * 3) % 3) (x + (i - x * 3) / 3)
    rw [if_pos (by omega), if_pos c, rgb8_sample p x (by omega), Nat.mod_eq_of_lt hlt,
      widen8_eq_packed hQ hlt]
  · rw [if_neg (by omega), if_neg c]

theorem pow_le_65536 {B : Nat} (h16 : B ≤ 16) : 2 ^ B ≤ 65536 := by
  have e : (65536 : Nat) = 2 ^ 16 := by norm_num
  rw [e]
  exact Nat.pow_le_pow_right (by norm_num) h16

/-- A row converted by the RGBA kernel for 16-bit storage is the row converted by
the scalar loop. -/
theorem kernelRGBA16_row (Q B : Nat) (hQ : Q = 8 ∨ Q = 16 ∨ Q = 32) (h8 : 8 ≤ B)
    (h16 : B ≤ 16) (hsel : Q ≤ 16 ∨ B = 8 ∨ B = 16) (im : MagickImage)
    (hch : im.channels = 4) (hr : im.rOff = 0) (hg : im.gOff = 1) (hb : im.bOff = 2)
    (ha : im.aOff = 3) (p : RowPtrs Nat)
    (hp : ∀ k, p.r k < 2 ^ B ∧ p.g k < 2 ^ B ∧ p.b k < 2 ^ B ∧ p.a k < 2 ^ B)
    (width : Nat) (pixels : Nat → ℚ) :
    writeRow true (scaleFactor Q B) (shiftFactor Q B) im width
        (kernelRGBA16 Q B im.channels width) p pixels
      = writeRow true (scaleFactor Q B) (shiftFactor Q B) im width noKernel p pixels := by
  have hB := pow_le_65536 h16
  have hp16 : ∀ k, p.r k < 65536 ∧ p.g k < 65536 ∧ p.b k < 65536 ∧ p.a k < 65536 :=
    fun k => ⟨lt_of_lt_of_le (hp k).1 hB, lt_of_lt_of_le (hp k).2.1 hB,
      lt_of_lt_of_le (hp k).2.2.1 hB, lt_of_lt_of_le (hp k).2.2.2 hB⟩
  refine writeRow_kernel_eq true _ _ im width 8 (by norm_num) p pixels _ _ rfl ?_
  intro x s
  refine block_eq_scalar true _ _ im p hr hg hb (by rw [hch]; rfl) (fun _ => ha) 8 x s _ ?_
  intro i
  rw [sseWritePixels16_spec Q _ _ _ (isReg_interleaveRGBA16 _ _ _ _), hch,
    length_interleaveRGBA16]
  by_cases c : x * 4 ≤ i ∧ i < x * 4 + 8 * 4
  · have hlt := chan_lt p hp ((i - x * 4) % 4) (x + (i - x * 4) / 4)
    rw [if_pos (by omega), if_pos c, rgba16_sample h8 h16 p hp16 x (by omega),
      widen16_eq_packed hQ h8 h16 hsel hlt]
  · rw [if_neg (by omega), if_neg c]

/-- A row converted by the RGB kernel for 16-bit storage is the row converted by
the scalar loop. -/
theorem kernelRGB16_row (Q B : Nat) (hQ : Q = 8 ∨ Q = 16 ∨ Q = 32) (h8 : 8 ≤ B)
    (h16 : B ≤ 16) (hsel : Q ≤ 16 ∨ B = 8 ∨ B = 16) (im : MagickImage)
    (hch : im.channels = 3) (hr : im.rOff = 0) (hg : im.gOff = 1) (hb : im.bOff = 2)
    (p : RowPtrs Nat)
    (hp : ∀ k, p.r k < 2 ^ B ∧ p.g k < 2 ^ B ∧ p.b k < 2 ^ B ∧ p.a k < 2 ^ B)
    (width : Nat) (pixels : Nat → ℚ) :
    writeRow false (scaleFactor Q B) (shiftFactor Q B) im width
        (kernelRGB16 Q B im.channels width) p pixels
      = writeRow false (scaleFactor Q B) (shiftFactor Q B) im width noKernel p pixels := by
  have hB := pow_le_65536 h16
  have hp16 : ∀ k, p.r k < 65536 ∧ p.g k < 65536 ∧ p.b k < 65536 ∧ p.a k < 65536 :=
    fun k => ⟨lt_of_lt_of_le (hp k).1 hB, lt_of_lt_of_le (hp k).2.1 hB,
      lt_of_lt_of_le (hp k).2.2.1 hB, lt_of_lt_of_le (hp k).2.2.2 hB⟩
  refine writeRow_kernel_eq false _ _ im width 16 (by norm_num) p pixels _ _ rfl ?_
  intro x s
  refine block_eq_scalar false _ _ im p hr hg hb (by rw [hch]; rfl)
    (fun h => absurd h (by decide)) 16 x s _ ?_
  intro i
  rw [sseWritePixels16_spec Q _ _ _ (isReg_interleaveRGB16 _ _ _ _ _ _), hch,
    length_interleaveRGB16]
  by_cases c : x * 3 ≤ i ∧ i < x * 3 + 16 * 3
  · have hlt := chan_lt p hp ((i - x * 3) % 3) (x + (i - x * 3) / 3)
    rw [if_pos (by omega), if_pos c, rgb16_sample h8 h16 p hp16 x (by omega),
      widen16_eq_packed hQ h8 h16 hsel hlt]
  · rw [if_neg (by omega), if_neg c]

/-! ### The whole image -/

/-- C5. Vector/scalar equivalence: for quantum depth 8, 16 or 32, every row
width, every row of samples below `2 ^ B` and every destination row, the row
that a vector kernel followed by the scalar remainder loop produces is the row
that the scalar loop alone produces, quantum for quantum: for the RGBA kernels
(4 channels, offsets 0, 1, 2, 3) and the RGB kernels (3 channels, offsets 0, 1,
2), for 1-byte samples with `B = 8` (`kernelRGBA8`, `kernelRGB8`) and for 2-byte
samples with `8 ≤ B ≤ 16` on the depths for which the fast path is selected
(`kernelRGBA16`, `kernelRGB16`). -/
theorem C5_vector_scalar_equivalence (Q B width : Nat) (rgba rgb : MagickImage)
    (p : RowPtrs Nat) (pixels : Nat → ℚ) (hQ : Q = 8 ∨ Q = 16 ∨ Q = 32) (h8 : 8 ≤ B)
    (h16 : B ≤ 16)
    (hrgba : rgba.channels = 4 ∧ rgba.rOff = 0 ∧ rgba.gOff = 1 ∧ rgba.bOff = 2 ∧ rgba.aOff = 3)
    (hrgb : rgb.channels = 3 ∧ rgb.rOff = 0 ∧ rgb.gOff = 1 ∧ rgb.bOff = 2)
    (hp : ∀ k, p.r k < 2 ^ B ∧ p.g k < 2 ^ B ∧ p.b k < 2 ^ B ∧ p.a k < 2 ^ B) :
    (B = 8 →
      writeRow true (scaleFactor Q B) (shiftFactor Q B) rgba width
          (kernelRGBA8 Q rgba.channels width) p pixels
        = writeRow true (scaleFactor Q B) (shiftFactor Q B) rgba width noKernel p pixels)
    ∧ ((Q ≤ 16 ∨ B = 8 ∨ B = 16) →
      writeRow true (scaleFactor Q B) (shiftFactor Q B) rgba width
          (kernelRGBA16 Q B rgba.channels width) p pixels
        = writeRow true (scaleFactor Q B) (shiftFactor Q B) rgba width noKernel p pixels)
    ∧ (B = 8 →
      writeRow false (scaleFactor Q B) (shiftFactor Q B) rgb width
          (kernelRGB8 Q rgb.channels width) p pixels
        = writeRow false (scaleFactor Q B) (shiftFactor Q B) rgb width noKernel p pixels)
    ∧ ((Q ≤ 16 ∨ B = 8 ∨ B = 16) →
      writeRow false (scaleFactor Q B) (shiftFactor Q B) rgb width
          (kernelRGB16 Q B rgb.channels width) p pixels
        = writeRow false (scaleFactor Q B) (shiftFactor Q B) rgb width noKernel p pixels) := by
  obtain ⟨c4, r4, g4, b4, a4⟩ := hrgba
  obtain ⟨c3, r3, g3, b3⟩ := hrgb
  refine ⟨?_, ?_, ?_, ?_⟩
  · intro hB
    subst hB
    exact kernelRGBA8_row Q hQ rgba c4 r4 g4 b4 a4 p hp width pixels
  · intro hsel
    exact kernelRGBA16_row Q B hQ h8 h16 hsel rgba c4 r4 g4 b4 a4 p hp width pixels
  · intro hB
    subst hB
    exact kernelRGB8_row Q hQ rgb c3 r3 g3 b3 p hp width pixels
  · intro hsel
    exact kernelRGB16_row Q B hQ h8 h16 hsel rgb c3 r3 g3 b3 p hp width pixels

theorem C5_vector_scalar_equivalence_witness :
    writeRow true (scaleFactor 16 8) (shiftFactor 16 8) demoImage 37
        (kernelRGBA8 16 demoImage.channels 37) demoRow (demoImage.pixels 0)
      = writeRow true (scaleFactor 16 8) (shiftFactor 16 8) demoImage 37 noKernel demoRow
          (demoImage.pixels 0)
    ∧ writeRow true (scaleFactor 16 8) (shiftFactor 16 8) demoImage 37
        (kernelRGBA16 16 8 demoImage.channels 37) demoRow (demoImage.pixels 0)
      = writeRow true (scaleFactor 16 8) (shiftFactor 16 8) demoImage 37 noKernel demoRow
          (demoImage.pixels 0)
    ∧ writeRow false (scaleFactor 16 8) (shiftFactor 16 8) demoOpaque 37
        (kernelRGB8 16 demoOpaque.channels 37) demoRow (demoImage.pixels 0)
      = writeRow false (scaleFactor 16 8) (shiftFactor 16 8) demoOpaque 37 noKernel demoRow
          (demoImage.pixels 0)
    ∧ writeRow false (scaleFactor 16 8) (shiftFactor 16 8) demoOpaque 37
        (kernelRGB16 16 8 demoOpaque.channels 37) demoRow (demoImage.pixels 0)
      = writeRow false (scaleFactor 16 8) (shiftFactor 16 8) demoOpaque 37 noKernel demoRow
          (demoImage.pixels 0) :=
  have h := C5_vector_scalar_equivalence 16 8 37 demoImage demoOpaque demoRow
    (demoImage.pixels 0) (by decide) (by decide) (by decide) (by decide) (by decide)
    (fun k => ⟨Nat.mod_lt _ (by decide), Nat.mod_lt _ (by decide), Nat.mod_lt _ (by decide),
      Nat.lt_succ_of_le (Nat.sub_le _ _)⟩)
  ⟨h.1 rfl, h.2.1 (by decide), h.2.2.1 rfl, h.2.2.2 (by decide)⟩

/-! ### Full range and range safety -/

theorem ones_mul_pred (B k : Nat) :
    (2 ^ B - 1) * ∑ i in Finset.range k, 2 ^ (B * i) = 2 ^ (B * k) - 1 := by
  have h := ones_geom B k
  have h1 : 1 ≤ 2 ^ B := Nat.one_le_two_pow
  have e : (2 ^ B - 1) * ∑ i in Finset.range k, 2 ^ (B * i)
      = (∑ i in Finset.range k, 2 ^ (B * i)) * 2 ^ B - ∑ i in Finset.range k, 2 ^ (B * i) := by
    rw [Nat.sub_mul, Nat.one_mul, Nat.mul_comm]
  rw [e]
  omega

/-- C16. Full range maps to full range: for `1 ≤ B ≤ Q ≤ 32` the packed value of
`0` is `0`, the packed value of the largest sample `2 ^ B - 1` is the largest
quantum `2 ^ Q - 1`, and for every `v < 2 ^ B` the top `B` bits of the packed
value are `v`: `packed >> (Q - B) = v`. -/
theorem C16_full_range (Q B v : Nat) (hB : 1 ≤ B) (hBQ : B ≤ Q) (hQ : Q ≤ 32)
    (hv : v < 2 ^ B) :
    packed Q B 0 = 0 ∧ packed Q B (2 ^ B - 1) = 2 ^ Q - 1 ∧ packed Q B v >>> (Q - B) = v := by
  have hQ1 : 1 ≤ Q := by omega
  have hs := depth_split (B := B) hQ1 hQ
  have hp := pleftover_le_width (Q := Q) hB hQ1 hQ
  have h1 : 1 ≤ 2 ^ B := Nat.one_le_two_pow
  refine ⟨?_, ?_, ?_⟩
  · rw [(packed_eq_of_le hB hBQ hQ (by omega : 0 < 2 ^ B)).1]
    simp
  · have hmax : 2 ^ B - 1 < 2 ^ B := by omega
    rw [(packed_eq_of_le hB hBQ hQ hmax).1, ones_mul_pred, Nat.shiftRight_eq_div_pow]
    have e1 : 2 ^ B = 2 ^ (B - pleftover Q B) * 2 ^ pleftover Q B := by
      rw [← pow_add]
      congr 1
      omega
    have e2 : (2 ^ B - 1) / 2 ^ (B - pleftover Q B) = 2 ^ pleftover Q B - 1 := by
      have hpos : 0 < 2 ^ (B - pleftover Q B) := by positivity
      have hpl : 1 ≤ 2 ^ pleftover Q B := Nat.one_le_two_pow
      have hm : (2 ^ pleftover Q B - 1) * 2 ^ (B - pleftover Q B)
          = 2 ^ B - 2 ^ (B - pleftover Q B) := by
        rw [Nat.sub_mul, Nat.one_mul, e1, Nat.mul_comm]
      have hm2 : (2 ^ pleftover Q B - 1 + 1) * 2 ^ (B - pleftover Q B) = 2 ^ B := by
        rw [Nat.sub_add_cancel hpl, e1, Nat.mul_comm]
      apply Nat.div_eq_of_lt_le
      · rw [hm]
        omega
      · rw [hm2]
        omega
    have e3 : 2 ^ Q = 2 ^ pleftover Q B * 2 ^ (B * prepeat Q B) := by
      rw [← pow_add]
      congr 1
      omega
    have hk : 1 ≤ 2 ^ (B * prepeat Q B) := Nat.one_le_two_pow
    have hpl : 1 ≤ 2 ^ pleftover Q B := Nat.one_le_two_pow
    rw [e2, e3, Nat.mul_sub, Nat.mul_one]
    have : 2 ^ pleftover Q B ≤ 2 ^ pleftover Q B * 2 ^ (B * prepeat Q B) :=
      Nat.le_mul_of_pos_right _ (by positivity)
    omega
  · apply Nat.eq_of_testBit_eq
    intro j
    rw [Nat.testBit_shiftRight]
    by_cases hj : j < B
    · have h := packed_testBit (i := B - 1 - j) hB hBQ hQ hv (by omega)
      have e1 : Q - 1 - (B - 1 - j) = Q - B + j := by omega
      have e2 : (B - 1 - j) % B = B - 1 - j := Nat.mod_eq_of_lt (by omega)
      have e3 : B - 1 - (B - 1 - j) = j := by omega
      rw [e1, e2, e3] at h
      exact h
    · have hlt := (packed_eq_of_le hB hBQ hQ hv).2
      have hQj : 2 ^ Q ≤ 2 ^ (Q - B + j) := Nat.pow_le_pow_right (by norm_num) (by omega)
      have hBj : 2 ^ B ≤ 2 ^ j := Nat.pow_le_pow_right (by norm_num) (by omega)
      rw [Nat.testBit_lt_two_pow (lt_of_lt_of_le hlt hQj),
        Nat.testBit_lt_two_pow (lt_of_lt_of_le hv hBj)]

theorem C16_full_range_witness :
    packed 8 5 0 = 0 ∧ packed 8 5 (2 ^ 5 - 1) = 2 ^ 8 - 1 ∧ packed 8 5 22 >>> (8 - 5) = 22 :=
  C16_full_range 8 5 22 (by decide) (by decide) (by decide) (by decide)

/-! ### The float packer -/

theorem floatPixel_apply (wa : Bool) (sc : ℚ) (im : MagickImage) (p : RowPtrs ℚ)
    (x : Nat) (pixels : Nat → ℚ) (i : Nat) (ha : wa = true → 0 ≤ im.aOff) :
    floatPixel wa sc im p x pixels i
      = if wa = true ∧ i = x * im.channels + im.aOff.toNat then p.a x * sc
        else if i = x * im.channels + im.bOff then p.b x * sc
        else if i = x * im.channels + im.gOff then p.g x * sc
        else if i = x * im.channels + im.rOff then p.r x * sc
        else pixels i := by
  cases wa with
  | false => simp [floatPixel, Function.update_apply]
  | true =>
    simp only [floatPixel, if_true, true_and, Function.update_apply, alpha_index x _ (ha rfl)]

/-- A loop over the pixels `x0 .. x0 + n - 1` of a row whose body stores one
value per channel: every slot of those pixels that carries a channel holds the
value of the channel written last, every other slot is unchanged. -/
theorem slotLoop_apply (wa : Bool) (ch rOff gOff bOff aOff : Nat) (vr vg vb va : Nat → ℚ)
    (body : Nat → (Nat → ℚ) → Nat → ℚ)
    (hbody : ∀ x pixels i, body x pixels i
      = if wa = true ∧ i = x * ch + aOff then va x
        else if i = x * ch + bOff then vb x
        else if i = x * ch + gOff then vg x
        else if i = x * ch + rOff then vr x
        else pixels i)
    (hr : rOff < ch) (hg : gOff < ch) (hb : bOff < ch) (ha : wa = true → aOff < ch) :
    ∀ (n x0 : Nat) (pixels : Nat → ℚ) (i : Nat),
      forLoop body n x0 pixels i
        = if x0 ≤ i / ch ∧ i / ch < x0 + n then
            (if wa = true ∧ i % ch = aOff then va (i / ch)
              else if i % ch = bOff then vb (i / ch)
              else if i % ch = gOff then vg (i / ch)
              else if i % ch = rOff then vr (i / ch)
              else pixels i)
          else pixels i := by
  intro n
  induction n with
  | zero =>
    intro x0 pixels i
    rw [forLoop, if_neg (by omega)]
  | succ n ih =>
    intro x0 pixels i
    rw [forLoop_succ_right, hbody, ih]
    have ea : wa = true → (i = (x0 + n) * ch + aOff ↔ i / ch = x0 + n ∧ i % ch = aOff) :=
      fun h => idx_eq_iff i (x0 + n) (ha h)
    have eb := idx_eq_iff i (x0 + n) hb
    have eg := idx_eq_iff i (x0 + n) hg
    have er := idx_eq_iff i (x0 + n) hr
    by_cases hx : i / ch = x0 + n
    · have c1 : x0 ≤ i / ch ∧ i / ch < x0 + (n + 1) := by omega
      have c2 : ¬ (x0 ≤ i / ch ∧ i / ch < x0 + n) := by omega
      rw [if_pos c1, if_neg c2]
      simp only [eb, eg, er, hx, true_and]
      by_cases hwa : wa = true
      · simp only [hwa, true_and, ea hwa, hx]
      · have hwa' : wa = false := by cases wa <;> simp_all
        subst hwa'
        simp only [Bool.false_eq_true, false_and, if_false]
    · have n1 : ¬ (wa = true ∧ i = (x0 + n) * ch + aOff) := by
        rintro ⟨hwa, h⟩
        exact hx ((ea hwa).1 h).1
      have n2 : ¬ (i = (x0 + n) * ch + bOff) := fun h => hx (eb.1 h).1
      have n3 : ¬ (i = (x0 + n) * ch + gOff) := fun h => hx (eg.1 h).1
      have n4 : ¬ (i = (x0 + n) * ch + rOff) := fun h => hx (er.1 h).1
      rw [if_neg n1, if_neg n2, if_neg n3, if_neg n4]
      by_cases c : x0 ≤ i / ch ∧ i / ch < x0 + n
      · have c' : x0 ≤ i / ch ∧ i / ch < x0 + (n + 1) := by omega
        rw [if_pos c, if_pos c']
      · have c' : ¬ (x0 ≤ i / ch ∧ i / ch < x0 + (n + 1)) := by omega
        rw [if_neg c, if_neg c']

/-- The state of the float row loops after their rows: row `y < height` holds
the pixel loop of the pointers advanced `y` times, the other rows are as before,
and every row contributed one `get` and one `sync`. -/
theorem floatLoop_spec (wa : Bool) (sc : ℚ) (sR sG sB sA : Nat) (im : MagickImage)
    (width : Nat) (st : FloatWriteState) :
    ∀ height,
      (floatLoop wa sc sR sG sB sA im width height st).ptrs
          = (nextRow wa 4 sR sG sB sA)^[height] st.ptrs
      ∧ (∀ y, (floatLoop wa sc sR sG sB sA im width height st).pixels y
          = if y < height then
              forLoop (floatPixel wa sc im ((nextRow wa 4 sR sG sB sA)^[y] st.ptrs)) width 0
                (st.pixels y)
            else st.pixels y)
      ∧ (floatLoop wa sc sR sG sB sA im width height st).calls
          = st.calls ++ (List.range height).flatMap (fun y => [CacheCall.get y, CacheCall.sync]) := by
  intro height
  induction height with
  | zero => simp [floatLoop, forLoop]
  | succ n ih =>
    obtain ⟨h1, h2, h3⟩ := ih
    unfold floatLoop at h1 h2 h3 ⊢
    rw [forLoop_succ_right]
    generalize forLoop _ n 0 st = S at h1 h2 h3 ⊢
    rw [Nat.zero_add]
    refine ⟨?_, ?_, ?_⟩
    · show nextRow wa 4 sR sG sB sA S.ptrs = _
      rw [h1, Function.iterate_succ_apply']
    · intro y
      show Function.update S.pixels n
        (forLoop (floatPixel wa sc im S.ptrs) width 0 (S.pixels n)) y = _
      by_cases hy : y = n
      · subst hy
        rw [Function.update_same, h1, h2 y, if_neg (lt_irrefl y), if_pos (Nat.lt_succ_self y)]
      · rw [Function.update_noteq hy, h2 y]
        by_cases hlt : y < n
        · rw [if_pos hlt, if_pos (by omega)]
        · rw [if_neg hlt, if_neg (by omega)]
    · show S.calls ++ [CacheCall.get n, CacheCall.sync] = _
      rw [h3, List.range_succ, List.flatMap_append]
      simp

/-- The rows that the float branch leaves behind, for pointers at row 0: a slot
of pixel `x < width` in a row `y < height` that carries a channel holds the
sample of the channel written last times the scale. -/
theorem floatImage_apply (wa : Bool) (sc : ℚ) (sR sG sB sA : Nat) (im : MagickImage)
    (width height : Nat) (st : FloatWriteState)
    (hr : im.rOff < im.channels) (hg : im.gOff < im.channels) (hb : im.bOff < im.channels)
    (ha : wa = true → 0 ≤ im.aOff ∧ im.aOff.toNat < im.channels)
    (x y c : Nat) (hx : x < width) (hy : y < height) (hc : c < im.channels) :
    (floatLoop wa sc sR sG sB sA im width height st).pixels y (x * im.channels + c)
      = if wa = true ∧ c = im.aOff.toNat then st.ptrs.a (x + y * (sA / 4)) * sc
        else if c = im.bOff then st.ptrs.b (x + y * (sB / 4)) * sc
        else if c = im.gOff then st.ptrs.g (x + y * (sG / 4)) * sc
        else if c = im.rOff then st.ptrs.r (x + y * (sR / 4)) * sc
        else st.pixels y (x * im.channels + c) := by
  obtain ⟨_, h2, _⟩ := floatLoop_spec wa sc sR sG sB sA im width st height
  obtain ⟨pr, pg, pb, pa⟩ := nextRow_iterate wa 4 sR sG sB sA st.ptrs y x
  rw [h2 y, if_pos hy,
    slotLoop_apply wa im.channels im.rOff im.gOff im.bOff im.aOff.toNat _ _ _ _ _
      (fun x' pixels i => floatPixel_apply wa sc im _ x' pixels i (fun h => (ha h).1))
      hr hg hb (fun h => (ha h).2),
    idx_div x hc, idx_mod x hc, if_pos ⟨Nat.zero_le _, by omega⟩, pr, pg, pb]
  by_cases hwa : wa = true
  · rw [pa hwa]
  · have hwa' : wa = false := by cases wa <;> simp_all
    subst hwa'
    simp only [Bool.false_eq_true, false_and, if_false]

/-! ### Gray frames and untouched slots -/

/-- A loop whose body leaves slot `i` alone at every pixel it visits leaves
slot `i` as it was. -/
theorem forLoop_untouched (body : Nat → (Nat → ℚ) → Nat → ℚ) (i : Nat) :
    ∀ (n x0 : Nat) (pixels : Nat → ℚ),
      (∀ x pixels, x0 ≤ x → x < x0 + n → body x pixels i = pixels i) →
      forLoop body n x0 pixels i = pixels i := by
  intro n
  induction n with
  | zero => intro x0 pixels _; rfl
  | succ n ih =>
    intro x0 pixels h
    rw [forLoop_succ_right, h (x0 + n) _ (by omega) (by omega)]
    exact ih x0 pixels (fun x px h1 h2 => h x px h1 (by omega))

theorem scalarPixel_untouched (sf sh : Nat) (im : MagickImage) (p : RowPtrs Nat) (x : Nat)
    (pixels : Nat → ℚ) (i : Nat)
    (h : i ≠ x * im.channels + im.rOff ∧ i ≠ x * im.channels + im.gOff
      ∧ i ≠ x * im.channels + im.bOff) :
    scalarPixel false sf sh im p x pixels i = pixels i := by
  simp [scalarPixel, Function.update_apply, h.1, h.2.1, h.2.2]

theorem floatPixel_untouched (sc : ℚ) (im : MagickImage) (p : RowPtrs ℚ) (x : Nat)
    (pixels : Nat → ℚ) (i : Nat)
    (h : i ≠ x * im.channels + im.rOff ∧ i ≠ x * im.channels + im.gOff
      ∧ i ≠ x * im.channels + im.bOff) :
    floatPixel false sc im p x pixels i = pixels i := by
  simp [floatPixel, Function.update_apply, h.1, h.2.1, h.2.2]

/-- A vector loop whose blocks stay below `bound` leaves the slots from `bound`
on as they were. -/
theorem vecLoop_untouched (k width bound : Nat) (body : Nat → (Nat → ℚ) → Nat → ℚ)
    (hk : 1 ≤ k)
    (hbody : ∀ x pixels i, x + k ≤ width → bound ≤ i → body x pixels i = pixels i) :
    ∀ (fuel x : Nat) (pixels : Nat → ℚ) (i : Nat), bound ≤ i →
      (vecLoop k width body fuel x pixels).1 i = pixels i := by
  intro fuel
  induction fuel with
  | zero => intro x pixels i _; rfl
  | succ fuel ih =>
    intro x pixels i hi
    rw [vecLoop]
    by_cases c : x + (k - 1) < width
    · rw [if_pos c, ih (x + k) (body x pixels) i hi, hbody x pixels i (by omega) hi]
    · rw [if_neg c]

/-- For three channels at the offsets 0, 1, 2 a slot that is no colour slot of
a pixel `x < width` lies at or after `width * 3`. -/
theorem rgb_slot_bound {width i : Nat}
    (h : ∀ x, x < width → i ≠ x * 3 + 0 ∧ i ≠ x * 3 + 1 ∧ i ≠ x * 3 + 2) : width * 3 ≤ i := by
  by_contra hlt
  have hx : i / 3 < width := by omega
  have := h (i / 3) hx
  omega

theorem kernelRGB8_untouched (Q width : Nat) (p : RowPtrs Nat) (pixels : Nat → ℚ) (i : Nat)
    (hi : width * 3 ≤ i) : (kernelRGB8 Q 3 width p pixels).1 i = pixels i := by
  refine vecLoop_untouched 32 width (width * 3) _ (by norm_num) ?_ width 0 pixels i hi
  intro x px j hx hj
  rw [sseWritePixels8_spec Q _ _ _ (isReg_interleaveRGB8 _ _ _ _ _ _), length_interleaveRGB8,
    if_neg (by omega)]

theorem kernelRGB16_untouched (Q B width : Nat) (p : RowPtrs Nat) (pixels : Nat → ℚ) (i : Nat)
    (hi : width * 3 ≤ i) : (kernelRGB16 Q B 3 width p pixels).1 i = pixels i := by
  refine vecLoop_untouched 16 width (width * 3) _ (by norm_num) ?_ width 0 pixels i hi
  intro x px j hx hj
  rw [sseWritePixels16_spec Q _ _ _ (isReg_interleaveRGB16 _ _ _ _ _ _), length_interleaveRGB16,
    if_neg (by omega)]

/-- A row written without an alpha frame: a slot that is no colour slot of a
pixel `x < width` is as it was, when the kernel leaves it alone. -/
theorem writeRow_untouched (sf sh : Nat) (im : MagickImage) (width : Nat)
    (kernel : RowPtrs Nat → (Nat → ℚ) → (Nat → ℚ) × Nat) (p : RowPtrs Nat)
    (pixels : Nat → ℚ) (i : Nat)
    (h : ∀ x, x < width → i ≠ x * im.channels + im.rOff ∧ i ≠ x * im.channels + im.gOff
      ∧ i ≠ x * im.channels + im.bOff)
    (hkernel : (kernel p pixels).1 i = pixels i) :
    writeRow false sf sh im width kernel p pixels i = pixels i := by
  unfold writeRow
  rw [forLoop_untouched _ i _ _ _ (fun x px h1 h2 =>
    scalarPixel_untouched sf sh im p x px i (h x (by omega))), hkernel]

/-- C12. Write without alpha leaves the other slots untouched: when no alpha
frame is supplied, `writeImageHelper` (in every build, with or without the
vector kernels) and the float branch of `frameToImage` change in a row only the
slots `x * channels + rOff`, `x * channels + gOff` and `x * channels + bOff` of
the pixels `x < width`; every other slot of every row, an alpha slot included,
keeps the value it had before the call. -/
theorem C12_write_without_alpha (cfg : Build) (tBytes B : Nat) (frame : Frame Nat)
    (quantumRange : ℚ) (fframe : Frame ℚ) (isGray : Bool) (image : MagickImage)
    (width height y i : Nat)
    (h : ∀ x, x < width → i ≠ x * image.channels + image.rOff
      ∧ i ≠ x * image.channels + image.gOff ∧ i ≠ x * image.channels + image.bOff) :
    (writeImageHelper cfg tBytes frame none isGray image width height B).pixels y i
        = image.pixels y i
    ∧ (frameToImageFloat quantumRange fframe none isGray image width height).pixels y i
        = image.pixels y i := by
  constructor
  · have key : ∀ (kernel : RowPtrs Nat → (Nat → ℚ) → (Nat → ℚ) × Nat) (st : WriteState),
        (∀ p pixels, (kernel p pixels).1 i = pixels i) →
        (loopImage false (scaleFactor cfg.Q B) (shiftFactor cfg.Q B) tBytes (frame.stride 0)
          (frame.stride (if isGray then 0 else 1)) (frame.stride (if isGray then 0 else 2)) 0
          image width height kernel st).pixels y i = st.pixels y i := by
      intro kernel st hk
      obtain ⟨_, h2, _⟩ := loopImage_spec false (scaleFactor cfg.Q B) (shiftFactor cfg.Q B)
        tBytes (frame.stride 0) (frame.stride (if isGray then 0 else 1))
        (frame.stride (if isGray then 0 else 2)) 0 image width kernel st height
      rw [h2 y]
      by_cases hy : y < height
      · rw [if_pos hy, writeRow_untouched _ _ image width kernel _ _ i h (hk _ _)]
      · rw [if_neg hy]
    simp only [writeImageHelper]
    by_cases c : cfg.sse2 = true ∧ cfg.quantumBytes ≤ 4 ∧ cfg.Q ≤ 32 ∧ image.channels = 3
        ∧ image.rOff = 0 ∧ image.gOff = 1 ∧ image.bOff = 2
    · rw [if_pos c]
      obtain ⟨_, _, _, hch, hr, hg, hb⟩ := c
      have hi : width * 3 ≤ i := by
        apply rgb_slot_bound
        intro x hx
        have := h x hx
        rw [hch, hr, hg, hb] at this
        exact this
      by_cases c1 : tBytes = 1 ∧ B = 8
      · rw [if_pos c1, hch]
        exact key _ _ (fun p pixels => kernelRGB8_untouched cfg.Q width p pixels i hi)
      · rw [if_neg c1]
        by_cases c2 : tBytes = 2 ∧ B ≥ 8 ∧ (cfg.Q ≤ 16 ∨ B = 8 ∨ B = 16)
        · rw [if_pos c2, hch]
          exact key _ _ (fun p pixels => kernelRGB16_untouched cfg.Q B width p pixels i hi)
        · rw [if_neg c2]
          exact key _ _ (fun p pixels => rfl)
    · rw [if_neg c]
      exact key _ _ (fun p pixels => rfl)
  · show (floatLoop false _ _ _ _ _ image width height _).pixels y i = _
    obtain ⟨_, h2, _⟩ := floatLoop_spec false quantumRange (fframe.stride 0)
      (fframe.stride (if isGray then 0 else 1)) (fframe.stride (if isGray then 0 else 2)) 0
      image width
      { ptrs := { r := fframe.plane 0, g := fframe.plane (if isGray then 0 else 1),
                  b := fframe.plane (if isGray then 0 else 2), a := fun _ => 0 }
        pixels := image.pixels, calls := image.calls } height
    rw [h2 y]
    by_cases hy : y < height
    · rw [if_pos hy]
      exact forLoop_untouched _ i _ _ _ (fun x px h1 h2 =>
        floatPixel_untouched quantumRange image _ x px i (h x (by omega)))
    · rw [if_neg hy]

theorem C12_write_without_alpha_witness :
    (writeImageHelper ⟨16, 4, true⟩ 1 demoFrame none false demoImage 2 2 8).pixels 1 3
        = demoImage.pixels 1 3
    ∧ (frameToImageFloat 65535 demoFloat none false demoImage 2 2).pixels 1 3
        = demoImage.pixels 1 3 :=
  C12_write_without_alpha ⟨16, 4, true⟩ 1 8 demoFrame 65535 demoFloat false demoImage 2 2 1 3
    (by decide)

/-! ### Frame-number substitution -/

theorem scanStep_idle (f : List Char) (n : Int) (pos : Nat) (r : List Char) (cp : Nat)
    (h : f.getD pos ' ' ≠ '%') :
    scanStep f n pos ⟨r, cp, 0, false, false, false, false⟩
      = ⟨r, cp, 0, false, false, false, false⟩ := by
  simp only [scanStep, h, false_and, Bool.false_eq_true, if_false]

/-- Outside a directive, a stretch of characters without `%` changes nothing. -/
theorem idle_segment (f : List Char) (n : Int) (r : List Char) (cp : Nat) :
    ∀ (k a : Nat), (∀ pos, a ≤ pos → pos < a + k → f.getD pos ' ' ≠ '%') →
      forLoop (scanStep f n) k a ⟨r, cp, 0, false, false, false, false⟩
        = ⟨r, cp, 0, false, false, false, false⟩ := by
  intro k
  induction k with
  | zero => intro a _; rfl
  | succ k ih =>
    intro a h
    rw [forLoop, scanStep_idle f n a r cp (h a (le_refl a) (by omega))]
    exact ih (a + 1) (fun pos h1 h2 => h pos (by omega) (by omega))

theorem getD_ne_of_not_mem {l : List Char} {c : Char} (h : c ∉ l) (j : Nat) (hc : c ≠ ' ') :
    l.getD j ' ' ≠ c := by
  by_cases hj : j < l.length
  · rw [List.getD_eq_getElem _ _ hj]
    intro e
    exact h (e ▸ List.getElem_mem hj)
  · rw [List.getD_eq_default _ _ (by omega)]
    exact fun e => hc e.symm

theorem getD_mid (pre dir suf : List Char) (j : Nat) (hj : j < dir.length) :
    (pre ++ dir ++ suf).getD (pre.length + j) ' ' = dir.getD j ' ' := by
  rw [List.append_assoc, List.getD_append_right _ _ _ _ (by omega),
    List.getD_append _ _ _ _ (by omega)]
  congr 1
  omega

/-- A filename with one directive `dir` between two stretches without `%`: when
the scan of `dir` leaves the loop outside a directive with `out` appended, the
result is the filename with `dir` replaced by `out`. -/
theorem specialPrintf_directive (pre dir suf out : List Char) (n : Int) (hpre : '%' ∉ pre)
    (hsuf : '%' ∉ suf)
    (hdir : forLoop (scanStep (pre ++ dir ++ suf) n) dir.length pre.length
        ⟨[], 0, 0, false, false, false, false⟩
      = ⟨pre ++ out, pre.length + dir.length, 0, false, false, false, false⟩) :
    specialPrintf (pre ++ dir ++ suf) n = pre ++ out ++ suf := by
  have hlen : (pre ++ dir ++ suf).length = pre.length + (dir.length + suf.length) := by
    simp [Nat.add_assoc]
  have h1 : forLoop (scanStep (pre ++ dir ++ suf) n) pre.length 0
      ⟨[], 0, 0, false, false, false, false⟩ = ⟨[], 0, 0, false, false, false, false⟩ := by
    apply idle_segment
    intro pos _ h2
    rw [List.append_assoc, List.getD_append _ _ _ _ (by omega)]
    exact getD_ne_of_not_mem hpre pos (by decide)
  have h3 : forLoop (scanStep (pre ++ dir ++ suf) n) suf.length (pre.length + dir.length)
      ⟨pre ++ out, pre.length + dir.length, 0, false, false, false, false⟩
      = ⟨pre ++ out, pre.length + dir.length, 0, false, false, false, false⟩ := by
    apply idle_segment
    intro pos h1 _
    rw [List.getD_append_right _ _ _ _ (by simp; omega)]
    exact getD_ne_of_not_mem hsuf _ (by decide)
  unfold specialPrintf scanState scanInit
  rw [hlen, forLoop_add, forLoop_add, h1, Nat.zero_add, hdir, h3]
  show pre ++ out ++ substr (pre ++ dir ++ suf) (pre.length + dir.length) _ = _
  have hd : List.drop (pre.length + dir.length) (pre ++ dir ++ suf) = suf :=
    List.drop_left' (by simp)
  rw [substr, hd]
  exact congrArg _ (List.take_of_length_le (by dsimp only; omega))

theorem toStringInt_natCast (n : Nat) : toStringInt (n : Int) = Nat.toDigits 10 n := by
  unfold toStringInt
  rw [if_neg (by omega), Int.toNat_natCast]

theorem substr_zero_left (pre dir suf : List Char) :
    substr (pre ++ dir ++ suf) 0 (pre.length - 0) = pre := by
  rw [substr, List.drop_zero, Nat.sub_zero, List.append_assoc, List.take_left]

/-- The number as the substitution of lines 118-120 writes it: the digits,
left-padded to `minWidth` characters when a width was read. -/
theorem pad_eq (seen : Bool) (W : Nat) (c : Char) (num : List Char) :
    (if seen = true ∧ W > num.length then List.replicate (W - num.length) c ++ num else num)
      = List.leftpad (if seen then W else 0) c num := by
  unfold List.leftpad
  cases seen with
  | false => simp
  | true =>
    by_cases h : W > num.length
    · rw [if_pos ⟨rfl, h⟩]
      rfl
    · have e : W - num.length = 0 := by omega
      rw [if_neg (fun c => h c.2)]
      simp [e]

theorem step_percent (f : List Char) (n : Int) (pos : Nat) (st : ScanState)
    (hc : f.getD pos ' ' = '%') (hp : st.percentSeen = false) :
    scanStep f n pos st
      = { st with
          result := st.result ++ substr f st.copyPos (pos - st.copyPos)
          copyPos := pos
          percentSeen := true } := by
  unfold scanStep
  rw [if_pos ⟨hc, hp⟩]

theorem step_zero (f : List Char) (n : Int) (pos : Nat) (st : ScanState)
    (hc : f.getD pos ' ' = '0') (hp : st.percentSeen = true) (hz : st.zeroPadSeen = false) :
    scanStep f n pos st = { st with zeroPad := true, zeroPadSeen := true } := by
  unfold scanStep
  rw [if_neg (by rw [hp]; simp), if_pos ⟨hp, hc, hz⟩]

theorem step_width (f : List Char) (n : Int) (pos : Nat) (st : ScanState)
    (hp : st.percentSeen = true) (h0 : f.getD pos ' ' ≠ '0') (h1 : '1' ≤ f.getD pos ' ')
    (h9 : f.getD pos ' ' ≤ '9') (hm : st.minWidthSeen = false) :
    scanStep f n pos st
      = { st with
          minWidth := (f.getD pos ' ').toNat - '0'.toNat, zeroPadSeen := true
          minWidthSeen := true } := by
  unfold scanStep
  rw [if_neg (by rw [hp]; simp), if_neg (fun c => h0 c.2.1), if_pos ⟨hp, h1, h9, hm⟩]

theorem step_d (f : List Char) (n : Int) (pos : Nat) (st : ScanState)
    (hp : st.percentSeen = true) (hc : f.getD pos ' ' = 'd') :
    scanStep f n pos st
      = ⟨st.result ++ List.leftpad (if st.minWidthSeen then st.minWidth else 0)
            (if st.zeroPad then '0' else ' ') (toStringInt n),
          pos + 1, 0, false, false, false, false⟩ := by
  unfold scanStep
  rw [if_neg (by rw [hp]; simp), if_neg (by rw [hc]; simp +decide),
    if_neg (by rw [hc]; simp +decide)]
  dsimp only
  rw [if_pos ⟨hp, hc⟩, pad_eq]

/-- The directive `%d` read outside a directive. -/
theorem run_d (f : List Char) (n : Int) (a : Nat) (r : List Char) (cp : Nat)
    (h0 : f.getD a ' ' = '%') (h1 : f.getD (a + 1) ' ' = 'd') :
    forLoop (scanStep f n) 2 a ⟨r, cp, 0, false, false, false, false⟩
      = ⟨r ++ substr f cp (a - cp) ++ toStringInt n, a + 2, 0, false, false, false, false⟩ := by
  show scanStep f n (a + 1) (scanStep f n a _) = _
  rw [step_percent f n a _ h0 rfl, step_d f n (a + 1) _ rfl h1]
  simp [List.leftpad]

/-- The directive `%0Wd` read outside a directive. -/
theorem run_0Wd (f : List Char) (n : Int) (a : Nat) (r : List Char) (cp : Nat)
    (h0 : f.getD a ' ' = '%') (h1 : f.getD (a + 1) ' ' = '0')
    (hw0 : f.getD (a + 2) ' ' ≠ '0') (hw1 : '1' ≤ f.getD (a + 2) ' ')
    (hw9 : f.getD (a + 2) ' ' ≤ '9') (h3 : f.getD (a + 3) ' ' = 'd') :
    forLoop (scanStep f n) 4 a ⟨r, cp, 0, false, false, false, false⟩
      = ⟨r ++ substr f cp (a - cp)
            ++ List.leftpad ((f.getD (a + 2) ' ').toNat - '0'.toNat) '0' (toStringInt n),
          a + 4, 0, false, false, false, false⟩ := by
  show scanStep f n (a + 1 + 1 + 1) (scanStep f n (a + 1 + 1) (scanStep f n (a + 1)
    (scanStep f n a _))) = _
  rw [step_percent f n a _ h0 rfl, step_zero f n (a + 1) _ h1 rfl rfl,
    step_width f n (a + 1 + 1) _ rfl hw0 hw1 hw9 rfl, step_d f n (a + 1 + 1 + 1) _ rfl h3]
  rfl

/-- The directive `%Wd` read outside a directive. -/
theorem run_Wd (f : List Char) (n : Int) (a : Nat) (r : List Char) (cp : Nat)
    (h0 : f.getD a ' ' = '%')
    (hw0 : f.getD (a + 1) ' ' ≠ '0') (hw1 : '1' ≤ f.getD (a + 1) ' ')
    (hw9 : f.getD (a + 1) ' ' ≤ '9') (h2 : f.getD (a + 2) ' ' = 'd') :
    forLoop (scanStep f n) 3 a ⟨r, cp, 0, false, false, false, false⟩
      = ⟨r ++ substr f cp (a - cp)
            ++ List.leftpad ((f.getD (a + 1) ' ').toNat - '0'.toNat) ' ' (toStringInt n),
          a + 3, 0, false, false, false, false⟩ := by
  show scanStep f n (a + 1 + 1) (scanStep f n (a + 1) (scanStep f n a _)) = _
  rw [step_percent f n a _ h0 rfl, step_width f n (a + 1) _ rfl hw0 hw1 hw9 rfl,
    step_d f n (a + 1 + 1) _ rfl h2]
  rfl

/-- C17. Frame-number substitution: for `pre` and `suf` without `%` and a number
`n ≥ 0`, `specialPrintf` turns `pre%dsuf` into `pre`, the decimal digits of `n`,
`suf`; for a width digit `W` in 1..9 it turns `pre%0Wdsuf` into the same with
the digits left-padded with `0` to at least `W` characters, and `pre%Wdsuf`
into the same with the digits left-padded with blanks; digits that are already
`W` or more characters long are left whole. -/
theorem C17_frame_number_substitution (pre suf : List Char) (n W : Nat)
    (hpre : '%' ∉ pre) (hsuf : '%' ∉ suf) (hW1 : 1 ≤ W) (hW9 : W ≤ 9) :
    specialPrintf (pre ++ ['%', 'd'] ++ suf) (n : Int) = pre ++ Nat.toDigits 10 n ++ suf
    ∧ specialPrintf (pre ++ ['%', '0', Char.ofNat (48 + W), 'd'] ++ suf) (n : Int)
        = pre ++ List.leftpad W '0' (Nat.toDigits 10 n) ++ suf
    ∧ specialPrintf (pre ++ ['%', Char.ofNat (48 + W), 'd'] ++ suf) (n : Int)
        = pre ++ List.leftpad W ' ' (Nat.toDigits 10 n) ++ suf
    ∧ (W ≤ (Nat.toDigits 10 n).length →
        List.leftpad W '0' (Nat.toDigits 10 n) = Nat.toDigits 10 n
        ∧ List.leftpad W ' ' (Nat.toDigits 10 n) = Nat.toDigits 10 n) := by
  have hW : ∀ w, 1 ≤ w → w ≤ 9 →
      Char.ofNat (48 + w) ≠ '0' ∧ '1' ≤ Char.ofNat (48 + w)
        ∧ Char.ofNat (48 + w) ≤ '9' ∧ (Char.ofNat (48 + w)).toNat - '0'.toNat = w := by
    intro w h1 h9
    interval_cases w <;> decide
  obtain ⟨w2, w3, w4, w5⟩ := hW W hW1 hW9
  refine ⟨?_, ?_, ?_, ?_⟩
  · apply specialPrintf_directive pre _ suf _ _ hpre hsuf
    have g0 := getD_mid pre ['%', 'd'] suf 0 (by simp)
    have g1 := getD_mid pre ['%', 'd'] suf 1 (by simp)
    rw [Nat.add_zero] at g0
    have key := run_d _ (n : Int) pre.length [] 0 g0 g1
    rw [substr_zero_left, toStringInt_natCast] at key
    exact key
  · apply specialPrintf_directive pre _ suf _ _ hpre hsuf
    have g0 := getD_mid pre ['%', '0', Char.ofNat (48 + W), 'd'] suf 0 (by simp)
    have g1 := getD_mid pre ['%', '0', Char.ofNat (48 + W), 'd'] suf 1 (by simp)
    have g2 := getD_mid pre ['%', '0', Char.ofNat (48 + W), 'd'] suf 2 (by simp)
    have g3 := getD_mid pre ['%', '0', Char.ofNat (48 + W), 'd'] suf 3 (by simp)
    rw [Nat.add_zero] at g0
    have e2 : (pre ++ ['%', '0', Char.ofNat (48 + W), 'd'] ++ suf).getD (pre.length + 2) ' '
        = Char.ofNat (48 + W) := g2
    have key := run_0Wd _ (n : Int) pre.length [] 0 g0 g1 (by rw [e2]; exact w2)
      (by rw [e2]; exact w3) (by rw [e2]; exact w4) g3
    rw [e2, w5, substr_zero_left, toStringInt_natCast] at key
    exact key
  · apply specialPrintf_directive pre _ suf _ _ hpre hsuf
    have g0 := getD_mid pre ['%', Char.ofNat (48 + W), 'd'] suf 0 (by simp)
    have g1 := getD_mid pre ['%', Char.ofNat (48 + W), 'd'] suf 1 (by simp)
    have g2 := getD_mid pre ['%', Char.ofNat (48 + W), 'd'] suf 2 (by simp)
    rw [Nat.add_zero] at g0
    have e1 : (pre ++ ['%', Char.ofNat (48 + W), 'd'] ++ suf).getD (pre.length + 1) ' '
        = Char.ofNat (48 + W) := g1
    have key := run_Wd _ (n : Int) pre.length [] 0 g0 (by rw [e1]; exact w2)
      (by rw [e1]; exact w3) (by rw [e1]; exact w4) g2
    rw [e1, w5, substr_zero_left, toStringInt_natCast] at key
    exact key
  · intro h
    have e : W - (Nat.toDigits 10 n).length = 0 := by omega
    unfold List.leftpad
    rw [e]
    exact ⟨rfl, rfl⟩

/-! ### Detection of a missing frame number -/

theorem take_succ_getD (l : List Char) (k : Nat) (h : k < l.length) :
    l.take (k + 1) = l.take k ++ [l.getD k ' '] := by
  rw [List.take_succ, List.getD_eq_getElem _ _ h, List.getElem?_eq_getElem h]
  rfl

theorem substr_succ (f : List Char) (cp pos : Nat) (h1 : cp ≤ pos) (h2 : pos < f.length) :
    substr f cp (pos + 1 - cp) = substr f cp (pos - cp) ++ [f.getD pos ' '] := by
  have e : pos + 1 - cp = (pos - cp) + 1 := by omega
  have hl : pos - cp < (f.drop cp).length := by
    rw [List.length_drop]
    omega
  have hg : (f.drop cp).getD (pos - cp) ' ' = f.getD pos ' ' := by
    rw [List.getD_eq_getElem?_getD, List.getD_eq_getElem?_getD, List.getElem?_drop]
    congr 2
    omega
  rw [substr, substr, e, take_succ_getD _ _ hl, hg]

theorem substr_length (f : List Char) (cp pos : Nat) (h2 : pos ≤ f.length) :
    (substr f cp (pos - cp)).length = pos - cp := by
  rw [substr, List.length_take, List.length_drop]
  omega

/-- What one round of the loop does to the result, the copy position and the
directive flag. -/
theorem step_summary (f : List Char) (n : Int) (pos : Nat) (st : ScanState) :
    (st.percentSeen = true ∧ f.getD pos ' ' = 'd' →
      (scanStep f n pos st).result
          = st.result ++ List.leftpad (if st.minWidthSeen then st.minWidth else 0)
              (if st.zeroPad then '0' else ' ') (toStringInt n)
        ∧ (scanStep f n pos st).copyPos = pos + 1
        ∧ (scanStep f n pos st).percentSeen = false)
    ∧ (¬ (st.percentSeen = true ∧ f.getD pos ' ' = 'd') →
      (f.getD pos ' ' = '%' ∧ st.percentSeen = false →
        (scanStep f n pos st).result = st.result ++ substr f st.copyPos (pos - st.copyPos)
          ∧ (scanStep f n pos st).copyPos = pos
          ∧ (scanStep f n pos st).percentSeen = true)
      ∧ (¬ (f.getD pos ' ' = '%' ∧ st.percentSeen = false) →
        (scanStep f n pos st).result = st.result
          ∧ (scanStep f n pos st).copyPos = st.copyPos
          ∧ ((scanStep f n pos st).percentSeen = true → st.percentSeen = true))) := by
  refine ⟨?_, ?_⟩
  · rintro ⟨hp, hc⟩
    rw [step_d f n pos st hp hc]
    exact ⟨rfl, rfl, rfl⟩
  · intro hnd
    refine ⟨?_, ?_⟩
    · rintro ⟨hc, hp⟩
      rw [step_percent f n pos st hc hp]
      exact ⟨rfl, rfl, rfl⟩
    · intro hn1
      unfold scanStep
      dsimp only
      rw [if_neg hn1]
      by_cases c2 : st.percentSeen = true ∧ f.getD pos ' ' = '0' ∧ st.zeroPadSeen = false
      · rw [if_pos c2]
        exact ⟨rfl, rfl, fun _ => c2.1⟩
      · rw [if_neg c2]
        by_cases c3 : st.percentSeen = true ∧ '1' ≤ f.getD pos ' ' ∧ f.getD pos ' ' ≤ '9'
            ∧ st.minWidthSeen = false
        · rw [if_pos c3]
          exact ⟨rfl, rfl, fun _ => c3.1⟩
        · rw [if_neg c3, if_neg hnd]
          exact ⟨rfl, rfl, fun h => by simp at h⟩

theorem scanState_succ (f : List Char) (n : Int) (pos : Nat) :
    scanState f n (pos + 1) = scanStep f n pos (scanState f n pos) := by
  unfold scanState
  rw [forLoop_succ_right, Nat.zero_add]

/-- The number `0` as a substitution writes it never starts with `%`. -/
theorem pad_zero_not_prefix (m : Nat) (pad : Char) (hpad : pad ≠ '%') (l : List Char) :
    ¬ (List.leftpad m pad (toStringInt 0) <+: '%' :: l) := by
  have e : toStringInt 0 = ['0'] := by decide
  rw [e, List.leftpad]
  cases h : m - ['0'].length with
  | zero =>
    rw [List.replicate_zero, List.nil_append, List.cons_prefix_cons]
    exact fun c => absurd c.1 (by decide)
  | succ k =>
    rw [List.replicate_succ, List.cons_append, List.cons_prefix_cons]
    exact fun c => hpad c.1

/-- The loop of `specialPrintf(filename, 0)` up to position `pos`: the copy
position is behind, inside a directive it is the position of the `%`; without a
substitution so far the result and the pending copy are the characters read so
far, and after a substitution the result is no beginning of the filename. -/
theorem scan_invariant (f : List Char) :
    ∀ pos, pos ≤ f.length →
      (scanState f 0 pos).copyPos ≤ pos
      ∧ ((scanState f 0 pos).percentSeen = true →
          (scanState f 0 pos).copyPos < pos ∧ f.getD (scanState f 0 pos).copyPos ' ' = '%')
      ∧ ((∀ q, q < pos → ¬ substitutesAt f q) →
          (scanState f 0 pos).result
              ++ substr f (scanState f 0 pos).copyPos (pos - (scanState f 0 pos).copyPos)
            = f.take pos)
      ∧ ((∃ q, q < pos ∧ substitutesAt f q) → ¬ ((scanState f 0 pos).result <+: f)) := by
  intro pos
  induction pos with
  | zero =>
    intro _
    refine ⟨le_refl _, fun h => by simp [scanState, forLoop, scanInit] at h, fun _ => rfl, ?_⟩
    rintro ⟨q, hq, _⟩
    omega
  | succ pos ih =>
    intro hlen
    have hpos : pos < f.length := by omega
    obtain ⟨ia, ib, ic, id⟩ := ih (by omega)
    obtain ⟨sd, sn⟩ := step_summary f 0 pos (scanState f 0 pos)
    rw [scanState_succ]
    by_cases hsub : substitutesAt f pos
    · obtain ⟨r1, r2, r3⟩ := sd hsub
      refine ⟨by omega, fun h => by rw [r3] at h; simp at h, ?_, ?_⟩
      · intro hno
        exact absurd hsub (hno pos (Nat.lt_succ_self pos))
      · intro _ hpre
        by_cases hearlier : ∃ q, q < pos ∧ substitutesAt f q
        · apply id hearlier
          rw [r1] at hpre
          exact (List.prefix_append _ _).trans hpre
        · have hno : ∀ q, q < pos → ¬ substitutesAt f q :=
            fun q hq hs => hearlier ⟨q, hq, hs⟩
          obtain ⟨hcp, hch⟩ := ib hsub.1
          have hc := ic hno
          have hlenr : (scanState f 0 pos).result.length = (scanState f 0 pos).copyPos := by
            have := congrArg List.length hc
            rw [List.length_append, substr_length f _ pos (by omega), List.length_take] at this
            omega
          have hres : (scanState f 0 pos).result = f.take (scanState f 0 pos).copyPos := by
            have hp : (scanState f 0 pos).result <+: f :=
              (List.prefix_append _ _).trans (hc ▸ List.take_prefix pos f)
            have h := List.prefix_iff_eq_take.1 hp
            rw [hlenr] at h
            exact h
          have hcplt : (scanState f 0 pos).copyPos < f.length := by omega
          have hdrop : f.drop (scanState f 0 pos).copyPos
              = '%' :: f.drop ((scanState f 0 pos).copyPos + 1) := by
            rw [List.drop_eq_getElem_cons hcplt, ← List.getD_eq_getElem _ ' ' hcplt, hch]
          rw [r1] at hpre
          have hsplit := List.take_append_drop (scanState f 0 pos).copyPos f
          rw [← hres, hdrop] at hsplit
          have hpre2 : (scanState f 0 pos).result
              ++ List.leftpad (if (scanState f 0 pos).minWidthSeen then (scanState f 0 pos).minWidth
                  else 0) (if (scanState f 0 pos).zeroPad then '0' else ' ') (toStringInt 0)
              <+: (scanState f 0 pos).result
                ++ '%' :: f.drop ((scanState f 0 pos).copyPos + 1) := by
            rw [hsplit]
            exact hpre
          exact pad_zero_not_prefix _ _ (by split <;> decide) _
            ((List.prefix_append_right_inj _).1 hpre2)
    · obtain ⟨s1, s2⟩ := sn hsub
      have hrest : (∃ q, q < pos + 1 ∧ substitutesAt f q) → ∃ q, q < pos ∧ substitutesAt f q := by
        rintro ⟨q, hq, hs⟩
        have hne : q ≠ pos := fun e => hsub (e ▸ hs)
        exact ⟨q, by omega, hs⟩
      by_cases c1 : f.getD pos ' ' = '%' ∧ (scanState f 0 pos).percentSeen = false
      · obtain ⟨r1, r2, r3⟩ := s1 c1
        refine ⟨by omega, fun _ => ⟨by omega, by rw [r2]; exact c1.1⟩, ?_, ?_⟩
        · intro hno
          have hc := ic (fun q hq => hno q (by omega))
          rw [r1, r2, hc, substr_succ f pos pos (le_refl _) hpos, Nat.sub_self]
          have e0 : substr f pos 0 = [] := by rw [substr, List.take_zero]
          rw [e0, List.nil_append, take_succ_getD f pos hpos]
        · intro hex hpre
          apply id (hrest hex)
          rw [r1] at hpre
          exact (List.prefix_append _ _).trans hpre
      · obtain ⟨r1, r2, r3⟩ := s2 c1
        refine ⟨by omega, ?_, ?_, ?_⟩
        · intro h
          obtain ⟨h1, h2⟩ := ib (r3 h)
          rw [r2]
          exact ⟨by omega, h2⟩
        · intro hno
          have hc := ic (fun q hq => hno q (by omega))
          rw [r1, r2, substr_succ f _ pos ia hpos, ← List.append_assoc, hc,
            take_succ_getD f pos hpos]
        · intro hex hpre
          apply id (hrest hex)
          rw [r1] at hpre
          exact hpre

theorem specialPrintf_no_percent (f : List Char) (n : Int) (h : '%' ∉ f) :
    specialPrintf f n = f := by
  have hs : scanState f n f.length = ⟨[], 0, 0, false, false, false, false⟩ := by
    unfold scanState scanInit
    exact idle_segment f n [] 0 f.length 0 (fun pos _ _ => getD_ne_of_not_mem h pos (by decide))
  unfold specialPrintf
  rw [hs]
  show [] ++ substr f 0 (f.length - 0) = f
  rw [List.nil_append, substr, List.drop_zero, Nat.sub_zero, List.take_length]

theorem specialPrintf_eq_iff (f : List Char) : specialPrintf f 0 = f ↔ ¬ substitutes f := by
  obtain ⟨_, _, ic, id⟩ := scan_invariant f f.length (le_refl _)
  constructor
  · rintro h ⟨q, hq, hs⟩
    apply id ⟨q, hq, hs⟩
    have hp : (scanState f 0 f.length).result <+: specialPrintf f 0 := List.prefix_append _ _
    rw [h] at hp
    exact hp
  · intro h
    have hc := ic (fun q hq hs => h ⟨q, hq, hs⟩)
    rw [List.take_length] at hc
    exact hc

/-- C18. Detection of a missing frame number: `specialPrintf(f, 0)` is `f`
exactly when the loop never reaches the substitution of lines 118-122 on `f`
(no `%`, optional `0`, optional digit, `d` is recognised); so with `overwrite`
off the test of `writeCreate` rejects exactly those filenames, with `overwrite`
on it rejects none, `readCreate` leaves the file list mode exactly for a single
filename with a substitution; and a filename without `%` is returned unchanged
for every number. -/
theorem C18_missing_frame_number (f : List Char) :
    (specialPrintf f 0 = f ↔ ¬ substitutes f)
    ∧ (writeCreateFilenameTest false f = some "Write: Filename string doesn't contain a number"
        ↔ ¬ substitutes f)
    ∧ writeCreateFilenameTest true f = none
    ∧ (readCreateFileListMode [f] = false ↔ substitutes f)
    ∧ ('%' ∉ f → ¬ substitutes f ∧ ∀ n : Int, specialPrintf f n = f) := by
  have h := specialPrintf_eq_iff f
  refine ⟨h, ?_, ?_, ?_, ?_⟩
  · unfold writeCreateFilenameTest
    by_cases c : specialPrintf f 0 = f
    · rw [if_pos ⟨rfl, c⟩]
      exact ⟨fun _ => h.1 c, fun _ => rfl⟩
    · rw [if_neg (fun x => c x.2)]
      exact ⟨fun x => (by cases x), fun x => absurd (h.2 x) c⟩
  · unfold writeCreateFilenameTest
    rw [if_neg (fun x => by cases x.1)]
  · unfold readCreateFileListMode
    by_cases c : specialPrintf f 0 = f
    · rw [if_neg (fun x => x.2 c)]
      exact ⟨fun x => (by cases x), fun x => absurd x (h.1 c)⟩
    · rw [if_pos ⟨rfl, c⟩]
      exact ⟨fun _ => by_contra (fun x => c (h.2 x)), fun _ => rfl⟩
  · intro hp
    exact ⟨h.1 (specialPrintf_no_percent f 0 hp), fun n => specialPrintf_no_percent f n hp⟩

/-- Sample filenames: `img%03d.png` with 7 gives `img007.png`; `img%%d.png`
holds the text `%d` but no directive that the loop recognises, and comes back
unchanged, like `img%10d.png`. -/
theorem specialPrintf_samples :
    specialPrintf "img%03d.png".toList 7 = "img007.png".toList
    ∧ specialPrintf "img%%d.png".toList 0 = "img%%d.png".toList
    ∧ specialPrintf "img%10d.png".toList 0 = "img%10d.png".toList
    ∧ specialPrintf "%x%d".toList 0 = "%x0".toList := by
  decide

theorem C17_frame_number_substitution_witness :
    specialPrintf ("img".toList ++ ['%', 'd'] ++ ".png".toList) ((7 : Nat) : Int)
        = "img".toList ++ Nat.toDigits 10 7 ++ ".png".toList
    ∧ specialPrintf ("img".toList ++ ['%', '0', Char.ofNat (48 + 3), 'd'] ++ ".png".toList)
          ((7 : Nat) : Int)
        = "img".toList ++ List.leftpad 3 '0' (Nat.toDigits 10 7) ++ ".png".toList
    ∧ specialPrintf ("img".toList ++ ['%', Char.ofNat (48 + 3), 'd'] ++ ".png".toList)
          ((7 : Nat) : Int)
        = "img".toList ++ List.leftpad 3 ' ' (Nat.toDigits 10 7) ++ ".png".toList
    ∧ (3 ≤ (Nat.toDigits 10 7).length →
        List.leftpad 3 '0' (Nat.toDigits 10 7) = Nat.toDigits 10 7
        ∧ List.leftpad 3 ' ' (Nat.toDigits 10 7) = Nat.toDigits 10 7) :=
  C17_frame_number_substitution "img".toList ".png".toList 7 3 (by decide) (by decide)
    (by decide) (by decide)

/-! ### Argument validation -/

/-- C19. Quality validation: `fillWriteDataFromMap` sets `quality` to 75 when
the argument is absent (and then raises no quality error), returns
"Quality must be between 0 and 100" exactly when a supplied quality `q` has
`q < 0` or `q > 100`, stores a supplied `q` in `0..100` unchanged, and, when it
returns no error, leaves `dither` true for an absent argument and `v ≠ 0` for a
supplied `v`; on the object that `new WriteData()` makes, `dither` is true after
the call whenever the argument is absent, error or not. -/
theorem C19_quality_validation (args : WriteArgs) (d : WriteData) :
    (args.quality = none →
      (fillWriteDataFromMap args d).2.quality = 75
      ∧ (fillWriteDataFromMap args d).1 ≠ some "Quality must be between 0 and 100")
    ∧ (∀ q, args.quality = some q →
      ((fillWriteDataFromMap args d).1 = some "Quality must be between 0 and 100"
        ↔ q < 0 ∨ q > 100))
    ∧ (∀ q, args.quality = some q → 0 ≤ q → q ≤ 100 →
      (fillWriteDataFromMap args d).2.quality = q)
    ∧ ((fillWriteDataFromMap args d).1 = none →
      (args.dither = none → (fillWriteDataFromMap args d).2.dither = true)
      ∧ (∀ v, args.dither = some v →
          ((fillWriteDataFromMap args d).2.dither = true ↔ v ≠ 0)))
    ∧ (args.dither = none → (fillWriteDataFromMap args WriteData.new).2.dither = true) := by
  obtain ⟨aq, ac, ai, ad⟩ := args
  have hmsg : ("Unrecognized compression type" : String) ≠ "Quality must be between 0 and 100" := by
    decide
  refine ⟨?_, ?_, ?_, ?_, ?_⟩
  · intro h
    dsimp only at h
    subst h
    cases ac with
    | none => cases ad <;> simp [fillWriteDataFromMap, mapGetIntSaturated, mapGetInt]
    | some s =>
      cases hp : parseCompression s.toUpper with
      | none => cases ad <;> simp [fillWriteDataFromMap, mapGetIntSaturated, mapGetInt, hp, hmsg]
      | some t => cases ad <;> simp [fillWriteDataFromMap, mapGetIntSaturated, mapGetInt, hp]
  · intro q h
    dsimp only at h
    subst h
    by_cases hq : max (-(2 ^ 31)) (min q (2 ^ 31 - 1)) < 0 ∨ max (-(2 ^ 31)) (min q (2 ^ 31 - 1)) > 100
    · have hq' : q < 0 ∨ q > 100 := by omega
      simp [fillWriteDataFromMap, mapGetIntSaturated, mapGetInt, hq, hq']
    · have hq' : ¬ (q < 0 ∨ q > 100) := by omega
      cases ac with
      | none => cases ad <;> simp [fillWriteDataFromMap, mapGetIntSaturated, mapGetInt, hq, hq']
      | some s =>
        cases hp : parseCompression s.toUpper with
        | none => cases ad <;> simp [fillWriteDataFromMap, mapGetIntSaturated, mapGetInt, hq, hq', hp, hmsg]
        | some t => cases ad <;> simp [fillWriteDataFromMap, mapGetIntSaturated, mapGetInt, hq, hq', hp]
  · intro q h h0 h100
    dsimp only at h
    subst h
    have e : max (-2147483648 : Int) (min q 2147483647) = q := by omega
    have hq : ¬ (q < 0 ∨ q > 100) := by omega
    cases ac with
    | none => cases ad <;> simp [fillWriteDataFromMap, mapGetIntSaturated, mapGetInt, e, hq]
    | some s =>
      cases hp : parseCompression s.toUpper with
      | none => cases ad <;> simp [fillWriteDataFromMap, mapGetIntSaturated, mapGetInt, e, hq, hp]
      | some t => cases ad <;> simp [fillWriteDataFromMap, mapGetIntSaturated, mapGetInt, e, hq, hp]
  · intro hnone
    cases aq with
    | none =>
      cases ac with
      | none => cases ad <;> simp [fillWriteDataFromMap, mapGetIntSaturated, mapGetInt]
      | some s =>
        cases hp : parseCompression s.toUpper with
        | none =>
          exfalso
          simp [fillWriteDataFromMap, mapGetIntSaturated, mapGetInt, hp] at hnone
        | some t => cases ad <;> simp [fillWriteDataFromMap, mapGetIntSaturated, mapGetInt, hp]
    | some q =>
      by_cases hq : max (-(2 ^ 31)) (min q (2 ^ 31 - 1)) < 0 ∨ max (-(2 ^ 31)) (min q (2 ^ 31 - 1)) > 100
      · exfalso
        have hq' : q < 0 ∨ q > 100 := by omega
        simp [fillWriteDataFromMap, mapGetIntSaturated, mapGetInt, hq, hq'] at hnone
      · have hq' : ¬ (q < 0 ∨ q > 100) := by omega
        cases ac with
        | none => cases ad <;> simp [fillWriteDataFromMap, mapGetIntSaturated, mapGetInt, hq, hq']
        | some s =>
          cases hp : parseCompression s.toUpper with
          | none =>
            exfalso
            simp [fillWriteDataFromMap, mapGetIntSaturated, mapGetInt, hq, hq', hp] at hnone
          | some t =>
            cases ad <;> simp [fillWriteDataFromMap, mapGetIntSaturated, mapGetInt, hq, hq', hp]
  · intro had
    dsimp only at had
    subst had
    cases aq with
    | none =>
      cases ac with
      | none => simp [fillWriteDataFromMap, mapGetIntSaturated, mapGetInt]
      | some s =>
        cases hp : parseCompression s.toUpper <;>
          simp [fillWriteDataFromMap, mapGetIntSaturated, mapGetInt, hp, WriteData.new]
    | some q =>
      by_cases hq : max (-(2 ^ 31)) (min q (2 ^ 31 - 1)) < 0 ∨ max (-(2 ^ 31)) (min q (2 ^ 31 - 1)) > 100
      · have hq' : q < 0 ∨ q > 100 := by omega
        simp [fillWriteDataFromMap, mapGetIntSaturated, mapGetInt, hq, hq', WriteData.new]
      · have hq' : ¬ (q < 0 ∨ q > 100) := by omega
        cases ac with
        | none => simp [fillWriteDataFromMap, mapGetIntSaturated, mapGetInt, hq, hq']
        | some s =>
          cases hp : parseCompression s.toUpper <;>
            simp [fillWriteDataFromMap, mapGetIntSaturated, mapGetInt, hq, hq', hp, WriteData.new]

/-! ### Acceptance of the alpha clip and the alpha frame -/

/-- C20. Alpha acceptance in `writeCreate` and `encodeFrame`: `writeCreate`
accepts the alpha clip exactly by the rule of the claim (same width and height,
gray, the sample type and bits per sample of the main clip; the subsampling of a
gray format is zero), while `encodeFrame` accepts an alpha frame exactly when it
has the width of the main frame and the colour family, sample type, bits per
sample and subsampling of the main frame. So a 640x480 RGB frame of 8-bit samples
with a 640x480 gray 8-bit alpha frame satisfies the rule, is accepted by
`writeCreate` and is refused by `encodeFrame`, and a 640x240 RGB frame as alpha,
which breaks the rule, is accepted by `encodeFrame`. -/
theorem C20_alpha_acceptance :
    (∀ vi a : Picture, writeCreateAlphaTest vi a = none ↔
      alphaRule vi a ∧ a.format.subSamplingW = 0 ∧ a.format.subSamplingH = 0)
    ∧ (∀ f a : Picture, encodeFrameAlphaTest f a = none ↔
      a.width = f.width ∧ a.format.colorFamily ≠ ColorFamily.cfUndefined
        ∧ a.format.colorFamily = f.format.colorFamily
        ∧ a.format.sampleType = f.format.sampleType
        ∧ a.format.bitsPerSample = f.format.bitsPerSample
        ∧ a.format.subSamplingW = f.format.subSamplingW
        ∧ a.format.subSamplingH = f.format.subSamplingH)
    ∧ alphaRule demoRGB24 demoGray8
    ∧ writeCreateAlphaTest demoRGB24 demoGray8 = none
    ∧ encodeFrameAlphaTest demoRGB24 demoGray8
        = some "EncodeFrame: Alpha frame dimensions and format don't match the main frame"
    ∧ ¬ alphaRule demoRGB24 demoRGB24Half
    ∧ writeCreateAlphaTest demoRGB24 demoRGB24Half
        = some "Write: Alpha clip dimensions and format don't match the main clip"
    ∧ encodeFrameAlphaTest demoRGB24 demoRGB24Half = none := by
  refine ⟨?_, ?_, by decide, by decide, by decide, by decide, by decide, by decide⟩
  · intro vi a
    simp only [writeCreateAlphaTest, alphaRule, isSameVideoFormat, queryVideoFormat]
    constructor
    · intro h
      split at h
      · exact absurd h (by simp)
      · rename_i hc
        simp only [not_or, not_not, decide_eq_false_iff_not, ne_eq] at hc
        obtain ⟨h1, h2, _, h4, h5, h6, h7, h8⟩ := hc
        exact ⟨⟨h1.symm, h2.symm, h4, h5, h6⟩, h7, h8⟩
    · rintro ⟨⟨h1, h2, h3, h4, h5⟩, h6, h7⟩
      rw [if_neg]
      simp only [not_or, not_not, decide_eq_false_iff_not, ne_eq]
      exact ⟨h1.symm, h2.symm, by rw [h3]; decide, h3, h4, h5, h6, h7⟩
  · intro f a
    simp only [encodeFrameAlphaTest, frameDimsMatch, isSameVideoFormat]
    constructor
    · intro h
      split at h
      · exact absurd h (by simp)
      · rename_i hc
        simp only [not_or, not_not, decide_eq_false_iff_not, ne_eq, and_true] at hc
        obtain ⟨h1, h2, h3, h4, h5, h6, h7⟩ := hc
        exact ⟨h1.symm, h2, h3.symm, h4.symm, h5.symm, h6.symm, h7.symm⟩
    · rintro ⟨h1, h2, h3, h4, h5, h6, h7⟩
      rw [if_neg]
      simp only [not_or, not_not, decide_eq_false_iff_not, ne_eq, and_true]
      exact ⟨h1.symm, h2, h3.symm, h4.symm, h5.symm, h6.symm, h7.symm⟩

/-! ### The write arithmetic never wraps, and upsampling is read back exactly -/

theorem packSample_exact {Q B v : Nat} (hQ1 : 1 ≤ Q) (hQ : Q ≤ 32) (hB1 : 1 ≤ B)
    (hv : v < 2 ^ B) :
    v * scaleFactor Q B + v >>> shiftFactor Q B < 2 ^ Q
      ∧ packSample (scaleFactor Q B) (shiftFactor Q B) v
          = v * scaleFactor Q B + v >>> shiftFactor Q B := by
  have h32 : 2 ^ Q ≤ 2 ^ 32 := pow_le_word hQ
  have key : v * scaleFactor Q B + v >>> shiftFactor Q B < 2 ^ Q := by
    by_cases hBQ : B ≤ Q
    · obtain ⟨he, hlt⟩ := packed_eq_of_le hB1 hBQ hQ hv
      rw [he] at hlt
      rw [scaleFactor_eq hB1 hQ1 hQ, shiftFactor_eq hB1 hBQ hQ]
      calc v * (2 ^ pleftover Q B * ∑ i in Finset.range (prepeat Q B), 2 ^ (B * i))
            + v >>> (B - pleftover Q B)
          = 2 ^ pleftover Q B * (v * ∑ i in Finset.range (prepeat Q B), 2 ^ (B * i))
            + v >>> (B - pleftover Q B) := by ring
        _ < 2 ^ Q := hlt
    · have hQB : Q < B := by omega
      rw [scaleFactor_of_lt hQ1 hQB]
      have hs : shiftFactor Q B = B - Q := by
        unfold shiftFactor
        rw [if_pos hQB]
      rw [hs, Nat.mul_zero, Nat.zero_add, Nat.shiftRight_eq_div_pow]
      apply Nat.div_lt_of_lt_mul
      rw [← pow_add]
      have e : B - Q + Q = B := by omega
      rw [e]
      exact hv
  refine ⟨key, ?_⟩
  unfold packSample toU32
  exact Nat.mod_eq_of_lt (by omega)

/-- C29. Exact round trip when upsampling: for `1 ≤ B ≤ Q ≤ 32` and `v < 2 ^ B`,
the packed value `v * scaleFactor + (v >> shiftFactor)` of `writeImageHelper`
is computed without wrap-around, and in exact rational arithmetic
`floor(pack(v) * (2 ^ B - 1) / (2 ^ Q - 1) + 1 / 2) = v`: the read rule recovers
every sample exactly. -/
theorem C29_exact_round_trip (Q B v : Nat) (hB : 1 ≤ B) (hBQ : B ≤ Q) (hQ : Q ≤ 32)
    (hv : v < 2 ^ B) :
    packSample (scaleFactor Q B) (shiftFactor Q B) v
        = v * scaleFactor Q B + v >>> shiftFactor Q B
      ∧ ⌊((v * scaleFactor Q B + v >>> shiftFactor Q B : Nat) : ℚ)
            * (((2 : ℚ) ^ B - 1) / ((2 : ℚ) ^ Q - 1)) + 1 / 2⌋ = (v : Int) := by
  obtain ⟨_, he⟩ := packSample_exact (le_trans hB hBQ) hQ hB hv
  refine ⟨he, ?_⟩
  rw [← he]
  exact roundtrip_floor hB hBQ hQ hv

theorem C29_exact_round_trip_witness :
    packSample (scaleFactor 16 10) (shiftFactor 16 10) 1023
        = 1023 * scaleFactor 16 10 + 1023 >>> shiftFactor 16 10
      ∧ ⌊((1023 * scaleFactor 16 10 + 1023 >>> shiftFactor 16 10 : Nat) : ℚ)
            * (((2 : ℚ) ^ 10 - 1) / ((2 : ℚ) ^ 16 - 1)) + 1 / 2⌋ = ((1023 : Nat) : Int) :=
  C29_exact_round_trip 16 10 1023 (by decide) (by decide) (by decide) (by decide)

/-- C30. No wrap-around in the write arithmetic: for `1 ≤ Q ≤ 32` and
`1 ≤ B ≤ 32`, `1 ≤ pleftover ≤ min(B, Q)`, the unsigned subtraction
`bitsPerSample - pleftover` of line 342 does not wrap, the final `shiftFactor` is
`B - pleftover` and is below `B`, and for every `v < 2 ^ B` the sum
`v * scaleFactor + (v >> shiftFactor)` is below `2 ^ Q`, so that the 32-bit
unsigned result is the sum itself. -/
theorem C30_no_wrap_around (Q B v : Nat) (hQ1 : 1 ≤ Q) (hQ : Q ≤ 32) (hB1 : 1 ≤ B)
    (hB : B ≤ 32) (hv : v < 2 ^ B) :
    1 ≤ pleftover Q B ∧ pleftover Q B ≤ min B Q
      ∧ toU32 (B + 2 ^ 32 - pleftover Q B) = B - pleftover Q B
      ∧ shiftFactor Q B = B - pleftover Q B
      ∧ shiftFactor Q B < B
      ∧ v * scaleFactor Q B < 2 ^ 32
      ∧ v * scaleFactor Q B + v >>> shiftFactor Q B < 2 ^ Q
      ∧ packSample (scaleFactor Q B) (shiftFactor Q B) v
          = v * scaleFactor Q B + v >>> shiftFactor Q B := by
  have h1 := pleftover_pos (B := B) hQ1 hQ
  have h2 := pleftover_le_width hB1 hQ1 hQ
  have h3 := pleftover_le_depth (B := B) hQ1 hQ
  have h4 : toU32 (B + 2 ^ 32 - pleftover Q B) = B - pleftover Q B := by
    unfold toU32
    have e : B + 2 ^ 32 - pleftover Q B = (B - pleftover Q B) + 2 ^ 32 := by omega
    rw [e, Nat.add_mod_right]
    exact Nat.mod_eq_of_lt (by omega)
  have h5 : shiftFactor Q B = B - pleftover Q B := by
    unfold shiftFactor
    by_cases hQB : B > Q
    · rw [if_pos hQB, pleftover_eq hQ1 hQ, prepeat_of_lt hQ1 hQB]
      simp
    · rw [if_neg hQB]
      exact h4
  obtain ⟨h6, h7⟩ := packSample_exact hQ1 hQ hB1 hv
  have h32 : 2 ^ Q ≤ 2 ^ 32 := pow_le_word hQ
  exact ⟨h1, le_min h2 h3, h4, h5, by omega,
    lt_of_le_of_lt (Nat.le_add_right _ _) (lt_of_lt_of_le h6 h32), h6, h7⟩

theorem C30_no_wrap_around_witness :
    1 ≤ pleftover 16 10 ∧ pleftover 16 10 ≤ min 10 16
      ∧ toU32 (10 + 2 ^ 32 - pleftover 16 10) = 10 - pleftover 16 10
      ∧ shiftFactor 16 10 = 10 - pleftover 16 10
      ∧ shiftFactor 16 10 < 10
      ∧ 1023 * scaleFactor 16 10 < 2 ^ 32
      ∧ 1023 * scaleFactor 16 10 + 1023 >>> shiftFactor 16 10 < 2 ^ 16
      ∧ packSample (scaleFactor 16 10) (shiftFactor 16 10) 1023
          = 1023 * scaleFactor 16 10 + 1023 >>> shiftFactor 16 10 :=
  C30_no_wrap_around 16 10 1023 (by decide) (by decide) (by decide) (by decide) (by decide)

/-! ### The upsampling and the widening of the fast path -/

/-- C23. Vector upsample equals scalar replication: for `8 ≤ B ≤ 16` and a lane
`v < 2 ^ B`, the lane `((v << (16 - B)) mod 2 ^ 16) | (v >> (2 * B - 16))` is the
scalar packed value `v * scaleFactor + (v >> shiftFactor)` of quantum depth 16;
the shift counts that `_mm_sll_epi16` and `_mm_srl_epi16` read from `shl` and
`shr` are `16 - B` and `2 * B - 16`, and every 16-bit lane of the register that
lines 430-433 and 532-537 compute is that lane value. -/
theorem C23_vector_upsample (B v : Nat) (h8 : 8 ≤ B) (h16 : B ≤ 16) (hv : v < 2 ^ B) :
    upsampleLane B v = v * scaleFactor 16 B + v >>> shiftFactor 16 B
      ∧ upsampleLane B v = packSample (scaleFactor 16 B) (shiftFactor 16 B) v
      ∧ qword (shlCount B) 0 = 16 - B
      ∧ qword (shrCount B) 0 = 2 * B - 16
      ∧ (∀ (r : Nat → Nat) (j : Nat), j < 8 →
          word (upsample16 (reg r) (shlCount B) (shrCount B)) j
            = upsampleLane B (word (reg r) j)) := by
  obtain ⟨hlt, hpk⟩ := packSample_exact (Q := 16) (by norm_num) (by norm_num)
    (by omega : 1 ≤ B) hv
  have e : upsampleLane B v = v * scaleFactor 16 B + v >>> shiftFactor 16 B := by
    rw [upsampleLane_eq h8 h16 hv, (scale16 h8 h16).1, (scale16 h8 h16).2,
      Nat.shiftRight_eq_div_pow]
    by_cases hB : B = 16
    · subst hB
      have : v / 65536 = 0 := Nat.div_eq_of_lt (by norm_num at hv; exact hv)
      norm_num
      exact this
    · rw [if_neg hB, if_neg hB]
  refine ⟨e, ?_, (shl_count h8 h16).1, (shl_count h8 h16).2, ?_⟩
  · rw [hpk]
    exact e
  · intro r j hj
    exact upsample16_word h8 h16 (isReg_reg r) hj

theorem C23_vector_upsample_witness :
    upsampleLane 10 1023 = 1023 * scaleFactor 16 10 + 1023 >>> shiftFactor 16 10
      ∧ upsampleLane 10 1023 = packSample (scaleFactor 16 10) (shiftFactor 16 10) 1023
      ∧ qword (shlCount 10) 0 = 16 - 10
      ∧ qword (shrCount 10) 0 = 2 * 10 - 16
      ∧ (∀ (r : Nat → Nat) (j : Nat), j < 8 →
          word (upsample16 (reg r) (shlCount 10) (shrCount 10)) j
            = upsampleLane 10 (word (reg r) j)) :=
  C23_vector_upsample 10 1023 (by decide) (by decide) (by decide)

/-! ### The transposition networks of the RGB kernels -/

theorem reg_mod (f : Nat → Nat) (k : Nat) : reg f k % 256 = reg f k := by
  unfold reg
  split
  · exact Nat.mod_mod _ _
  · rfl

theorem byteOf_pair (r0 r1 g0 g1 b0 b1 : M128) {i : Nat} (hi : i < 32) :
    byteOf [r0, r1, g0, g1, b0, b1] (32 * 0 + i) = byteOf [r0, r1] i
      ∧ byteOf [r0, r1, g0, g1, b0, b1] (32 * 1 + i) = byteOf [g0, g1] i
      ∧ byteOf [r0, r1, g0, g1, b0, b1] (32 * 2 + i) = byteOf [b0, b1] i := by
  have h : i / 16 = 0 ∨ i / 16 = 1 := by omega
  have e0 : (32 * 0 + i) / 16 = i / 16 := by omega
  have e1 : (32 * 1 + i) / 16 = 2 + i / 16 := by omega
  have e2 : (32 * 2 + i) / 16 = 4 + i / 16 := by omega
  have m0 : (32 * 0 + i) % 16 = i % 16 := by omega
  have m1 : (32 * 1 + i) % 16 = i % 16 := by omega
  have m2 : (32 * 2 + i) % 16 = i % 16 := by omega
  unfold byteOf
  rw [e0, e1, e2, m0, m1, m2]
  rcases h with h | h <;> rw [h] <;> exact ⟨rfl, rfl, rfl⟩

/-- C21. The 8-bit RGB transposition network: for all registers `r0, r1`
(the block R of 32 bytes), `g0, g1` (G) and `b0, b1` (B), the five rounds of
`ssePackPair8` of lines 487-510 give six vectors whose 96 bytes, in the order
`r_r0, g_g0, b_b0, r_r1, g_g1, b_b1`, have byte `3 * i` equal to `R[i]`, byte
`3 * i + 1` equal to `G[i]` and byte `3 * i + 2` equal to `B[i]` for `i < 32`; and
`ssePackPair8(a, b)` returns as `outLo` the even-indexed bytes and as `outHi`
the odd-indexed bytes of the 32 bytes of `a` followed by `b`. -/
theorem C21_rgb8_transposition (r0 r1 g0 g1 b0 b1 a b : Nat → Nat) (i : Nat) (hi : i < 32) :
    (interleaveRGB8 (reg r0) (reg r1) (reg g0) (reg g1) (reg b0) (reg b1)).length = 6
      ∧ byteOf (interleaveRGB8 (reg r0) (reg r1) (reg g0) (reg g1) (reg b0) (reg b1)) (3 * i)
          = byteOf [reg r0, reg r1] i
      ∧ byteOf (interleaveRGB8 (reg r0) (reg r1) (reg g0) (reg g1) (reg b0) (reg b1)) (3 * i + 1)
          = byteOf [reg g0, reg g1] i
      ∧ byteOf (interleaveRGB8 (reg r0) (reg r1) (reg g0) (reg g1) (reg b0) (reg b1)) (3 * i + 2)
          = byteOf [reg b0, reg b1] i
      ∧ (∀ j, j < 16 →
          (ssePackPair8 (reg a) (reg b)).1 j = byteOf [reg a, reg b] (2 * j)
          ∧ (ssePackPair8 (reg a) (reg b)).2 j = byteOf [reg a, reg b] (2 * j + 1)) := by
  have lane : ∀ t, t < 96 →
      byteOf (interleaveRGB8 (reg r0) (reg r1) (reg g0) (reg g1) (reg b0) (reg b1)) t
        = byteOf [reg r0, reg r1, reg g0, reg g1, reg b0, reg b1] (32 * (t % 3) + t / 3) := by
    intro t ht
    have h := interleaveRGB8_lane (reg_reg r0) (reg_reg r1) (reg_reg g0) (reg_reg g1)
      (reg_reg b0) (reg_reg b1) (n := t / 16) (m := t % 16) (by omega)
      (Nat.mod_lt _ (by norm_num))
    rw [Nat.div_add_mod] at h
    exact h
  obtain ⟨p0, p1, p2⟩ := byteOf_pair (reg r0) (reg r1) (reg g0) (reg g1) (reg b0) (reg b1) hi
  refine ⟨rfl, ?_, ?_, ?_, ?_⟩
  · rw [lane _ (by omega), ← p0]
    congr 1
    omega
  · rw [lane _ (by omega), ← p1]
    congr 1
    omega
  · rw [lane _ (by omega), ← p2]
    congr 1
    omega
  · intro j hj
    rw [ssePackPair8_eq (isReg_reg a) (isReg_reg b)]
    unfold evenOdd8 byteOf
    simp only [reg_lt _ hj]
    by_cases h8 : j < 8
    · have e1 : 2 * j / 16 = 0 := by omega
      have e2 : (2 * j + 1) / 16 = 0 := by omega
      have e3 : 2 * j % 16 = 2 * j := by omega
      have e4 : (2 * j + 1) % 16 = 2 * j + 1 := by omega
      rw [if_pos h8, if_pos h8, e1, e2, e3, e4, reg_mod, reg_mod]
      exact ⟨rfl, rfl⟩
    · have e1 : 2 * j / 16 = 1 := by omega
      have e2 : (2 * j + 1) / 16 = 1 := by omega
      have e3 : 2 * j % 16 = 2 * j - 16 := by omega
      have e4 : (2 * j + 1) % 16 = 2 * j - 15 := by omega
      rw [if_neg h8, if_neg h8, e1, e2, e3, e4, reg_mod, reg_mod]
      exact ⟨rfl, rfl⟩

theorem C21_rgb8_transposition_witness :
    (interleaveRGB8 (reg (fun k => k)) (reg (fun k => 16 + k)) (reg (fun k => 32 + k))
        (reg (fun k => 48 + k)) (reg (fun k => 64 + k)) (reg (fun k => 80 + k))).length = 6
      ∧ byteOf (interleaveRGB8 (reg (fun k => k)) (reg (fun k => 16 + k)) (reg (fun k => 32 + k))
          (reg (fun k => 48 + k)) (reg (fun k => 64 + k)) (reg (fun k => 80 + k))) (3 * 17)
          = byteOf [reg (fun k => k), reg (fun k => 16 + k)] 17
      ∧ byteOf (interleaveRGB8 (reg (fun k => k)) (reg (fun k => 16 + k)) (reg (fun k => 32 + k))
          (reg (fun k => 48 + k)) (reg (fun k => 64 + k)) (reg (fun k => 80 + k))) (3 * 17 + 1)
          = byteOf [reg (fun k => 32 + k), reg (fun k => 48 + k)] 17
      ∧ byteOf (interleaveRGB8 (reg (fun k => k)) (reg (fun k => 16 + k)) (reg (fun k => 32 + k))
          (reg (fun k => 48 + k)) (reg (fun k => 64 + k)) (reg (fun k => 80 + k))) (3 * 17 + 2)
          = byteOf [reg (fun k => 64 + k), reg (fun k => 80 + k)] 17
      ∧ (∀ j, j < 16 →
          (ssePackPair8 (reg (fun k => k)) (reg (fun k => 16 + k))).1 j
            = byteOf [reg (fun k => k), reg (fun k => 16 + k)] (2 * j)
          ∧ (ssePackPair8 (reg (fun k => k)) (reg (fun k => 16 + k))).2 j
            = byteOf [reg (fun k => k), reg (fun k => 16 + k)] (2 * j + 1)) :=
  C21_rgb8_transposition (fun k => k) (fun k => 16 + k) (fun k => 32 + k) (fun k => 48 + k)
    (fun k => 64 + k) (fun k => 80 + k) (fun k => k) (fun k => 16 + k) 17 (by decide)

theorem wordOf_pair (r0 r1 g0 g1 b0 b1 : M128) {i : Nat} (hi : i < 16) :
    byteOf [r0, r1, g0, g1, b0, b1] (16 * (2 * 0 + i / 8) + 2 * (i % 8))
        + 256 * byteOf [r0, r1, g0, g1, b0, b1] (16 * (2 * 0 + i / 8) + (2 * (i % 8) + 1))
        = wordOf [r0, r1] i
      ∧ byteOf [r0, r1, g0, g1, b0, b1] (16 * (2 * 1 + i / 8) + 2 * (i % 8))
        + 256 * byteOf [r0, r1, g0, g1, b0, b1] (16 * (2 * 1 + i / 8) + (2 * (i % 8) + 1))
        = wordOf [g0, g1] i
      ∧ byteOf [r0, r1, g0, g1, b0, b1] (16 * (2 * 2 + i / 8) + 2 * (i % 8))
        + 256 * byteOf [r0, r1, g0, g1, b0, b1] (16 * (2 * 2 + i / 8) + (2 * (i % 8) + 1))
        = wordOf [b0, b1] i := by
  have h : i / 8 = 0 ∨ i / 8 = 1 := by omega
  have hm : i % 8 < 8 := Nat.mod_lt _ (by norm_num)
  have e : ∀ k, (16 * k + 2 * (i % 8)) / 16 = k ∧ (16 * k + 2 * (i % 8)) % 16 = 2 * (i % 8)
      ∧ (16 * k + (2 * (i % 8) + 1)) / 16 = k
      ∧ (16 * k + (2 * (i % 8) + 1)) % 16 = 2 * (i % 8) + 1 := by
    intro k
    omega
  unfold byteOf wordOf word
  simp only [e]
  rcases h with h | h <;> rw [h] <;> exact ⟨rfl, rfl, rfl⟩

/-- C22. The 16-bit RGB transposition network: for all registers `r0, r1` (the
block R of sixteen 16-bit words), `g0, g1` (G) and `b0, b1` (B), the four rounds
of `ssePackPair16` of lines 540-558 give six vectors whose 48 words, in the order
`r_g0, b_r0, g_b0, r_g1, b_r1, g_b1`, have word `3 * i` equal to `R[i]`, word
`3 * i + 1` equal to `G[i]` and word `3 * i + 2` equal to `B[i]` for `i < 16`; and
`ssePackPair16(a, b)` returns as `outLo` the even-indexed words and as `outHi`
the odd-indexed words of the 16 words of `a` followed by `b`. -/
theorem C22_rgb16_transposition (r0 r1 g0 g1 b0 b1 a b : Nat → Nat) (i : Nat) (hi : i < 16) :
    (interleaveRGB16 (reg r0) (reg r1) (reg g0) (reg g1) (reg b0) (reg b1)).length = 6
      ∧ wordOf (interleaveRGB16 (reg r0) (reg r1) (reg g0) (reg g1) (reg b0) (reg b1)) (3 * i)
          = wordOf [reg r0, reg r1] i
      ∧ wordOf (interleaveRGB16 (reg r0) (reg r1) (reg g0) (reg g1) (reg b0) (reg b1)) (3 * i + 1)
          = wordOf [reg g0, reg g1] i
      ∧ wordOf (interleaveRGB16 (reg r0) (reg r1) (reg g0) (reg g1) (reg b0) (reg b1)) (3 * i + 2)
          = wordOf [reg b0, reg b1] i
      ∧ (∀ j, j < 8 →
          word (ssePackPair16 (reg a) (reg b)).1 j = wordOf [reg a, reg b] (2 * j)
          ∧ word (ssePackPair16 (reg a) (reg b)).2 j = wordOf [reg a, reg b] (2 * j + 1)) := by
  have lane : ∀ d, d < 48 →
      wordOf (interleaveRGB16 (reg r0) (reg r1) (reg g0) (reg g1) (reg b0) (reg b1)) d
        = byteOf [reg r0, reg r1, reg g0, reg g1, reg b0, reg b1]
            (16 * (2 * (d % 3) + d / 3 / 8) + 2 * (d / 3 % 8))
          + 256 * byteOf [reg r0, reg r1, reg g0, reg g1, reg b0, reg b1]
            (16 * (2 * (d % 3) + d / 3 / 8) + (2 * (d / 3 % 8) + 1)) := by
    intro d hd
    have hn : d / 8 < 6 := by omega
    have hm : d % 8 < 8 := Nat.mod_lt _ (by norm_num)
    obtain ⟨e1, e2, e3, e4⟩ := idxRGB16 d hd
    have hl := fun m hm2 => interleaveRGB16_lane (reg_reg r0) (reg_reg r1) (reg_reg g0)
      (reg_reg g1) (reg_reg b0) (reg_reg b1) (n := d / 8) (m := m) hn hm2
    unfold wordOf word
    rw [hl (2 * (d % 8)) (by omega), hl (2 * (d % 8) + 1) (by omega)]
    have f1 : ∀ t, byteOf [reg r0, reg r1, reg g0, reg g1, reg b0, reg b1] t
        = byteOf [reg r0, reg r1, reg g0, reg g1, reg b0, reg b1] (16 * (t / 16) + t % 16) := by
      intro t
      rw [Nat.div_add_mod]
    rw [f1 (32 * _ + _ + _), e1, e2]
    rw [f1 (32 * _ + _ + _), e3, e4]
  obtain ⟨p0, p1, p2⟩ := wordOf_pair (reg r0) (reg r1) (reg g0) (reg g1) (reg b0) (reg b1) hi
  have d0 : (3 * i) % 3 = 0 ∧ (3 * i) / 3 = i := by omega
  have d1 : (3 * i + 1) % 3 = 1 ∧ (3 * i + 1) / 3 = i := by omega
  have d2 : (3 * i + 2) % 3 = 2 ∧ (3 * i + 2) / 3 = i := by omega
  refine ⟨rfl, ?_, ?_, ?_, ?_⟩
  · rw [lane _ (by omega), d0.1, d0.2]
    exact p0
  · rw [lane _ (by omega), d1.1, d1.2]
    exact p1
  · rw [lane _ (by omega), d2.1, d2.2]
    exact p2
  · intro j hj
    rw [ssePackPair16_eq]
    unfold evenOdd16 wordOf word
    have hj2 : 2 * j < 16 := by omega
    have hj3 : 2 * j + 1 < 16 := by omega
    simp only [reg_lt _ hj2, reg_lt _ hj3, reg_mod]
    by_cases h4 : j < 4
    · have e1 : 2 * j / 8 = 0 := by omega
      have e2 : (2 * j + 1) / 8 = 0 := by omega
      have e3 : 2 * j % 8 = 2 * j := by omega
      have e4 : (2 * j + 1) % 8 = 2 * j + 1 := by omega
      have e5 : 4 * (2 * j / 2) + 2 * j % 2 = 2 * (2 * j) := by omega
      have e6 : 4 * ((2 * j + 1) / 2) + (2 * j + 1) % 2 = 2 * (2 * j) + 1 := by omega
      have e7 : 2 * (2 * j) + 1 + 2 = 2 * (2 * j + 1) + 1 := by omega
      have e8 : 2 * (2 * j) + 2 = 2 * (2 * j + 1) := by omega
      rw [if_pos (by omega), if_pos (by omega), if_pos (by omega), if_pos (by omega),
        e1, e2, e3, e4, e5, e6, e7, e8]
      simp only [reg_mod]
      exact ⟨rfl, rfl⟩
    · have e1 : 2 * j / 8 = 1 := by omega
      have e2 : (2 * j + 1) / 8 = 1 := by omega
      have e3 : 2 * j % 8 = 2 * j - 8 := by omega
      have e4 : (2 * j + 1) % 8 = 2 * j - 7 := by omega
      have e5 : 4 * (2 * j / 2) + 2 * j % 2 - 16 = 2 * (2 * j - 8) := by omega
      have e6 : 4 * ((2 * j + 1) / 2) + (2 * j + 1) % 2 - 16 = 2 * (2 * j - 8) + 1 := by omega
      have e7 : 4 * (2 * j / 2) + 2 * j % 2 - 14 = 2 * (2 * j - 7) := by omega
      have e8 : 4 * ((2 * j + 1) / 2) + (2 * j + 1) % 2 - 14 = 2 * (2 * j - 7) + 1 := by omega
      rw [if_neg (by omega), if_neg (by omega), if_neg (by omega), if_neg (by omega),
        e1, e2, e3, e4, e5, e6, e7, e8]
      simp only [reg_mod]
      exact ⟨rfl, rfl⟩

theorem C22_rgb16_transposition_witness :
    (interleaveRGB16 (reg (fun k => k)) (reg (fun k => 16 + k)) (reg (fun k => 32 + k))
        (reg (fun k => 48 + k)) (reg (fun k => 64 + k)) (reg (fun k => 80 + k))).length = 6
      ∧ wordOf (interleaveRGB16 (reg (fun k => k)) (reg (fun k => 16 + k)) (reg (fun k => 32 + k))
          (reg (fun k => 48 + k)) (reg (fun k => 64 + k)) (reg (fun k => 80 + k))) (3 * 9)
          = wordOf [reg (fun k => k), reg (fun k => 16 + k)] 9
      ∧ wordOf (interleaveRGB16 (reg (fun k => k)) (reg (fun k => 16 + k)) (reg (fun k => 32 + k))
          (reg (fun k => 48 + k)) (reg (fun k => 64 + k)) (reg (fun k => 80 + k))) (3 * 9 + 1)
          = wordOf [reg (fun k => 32 + k), reg (fun k => 48 + k)] 9
      ∧ wordOf (interleaveRGB16 (reg (fun k => k)) (reg (fun k => 16 + k)) (reg (fun k => 32 + k))
          (reg (fun k => 48 + k)) (reg (fun k => 64 + k)) (reg (fun k => 80 + k))) (3 * 9 + 2)
          = wordOf [reg (fun k => 64 + k), reg (fun k => 80 + k)] 9
      ∧ (∀ j, j < 8 →
          word (ssePackPair16 (reg (fun k => k)) (reg (fun k => 16 + k))).1 j
            = wordOf [reg (fun k => k), reg (fun k => 16 + k)] (2 * j)
          ∧ word (ssePackPair16 (reg (fun k => k)) (reg (fun k => 16 + k))).2 j
            = wordOf [reg (fun k => k), reg (fun k => 16 + k)] (2 * j + 1)) :=
  C22_rgb16_transposition (fun k => k) (fun k => 16 + k) (fun k => 32 + k) (fun k => 48 + k)
    (fun k => 64 + k) (fun k => 80 + k) (fun k => k) (fun k => 16 + k) 9 (by decide)

/-! ### The dispatch to the kernels -/

theorem writeImageHelper_select (cfg : Build) (tBytes B : Nat) (frame : Frame Nat)
    (alphaFrame : Option (Frame Nat)) (isGray : Bool) (image : MagickImage)
    (width height : Nat) :
    writeImageHelper cfg tBytes frame alphaFrame isGray image width height B
      = writeImageWith (kernelOf (selectKernel cfg tBytes alphaFrame.isSome image B) cfg.Q B
          image.channels width) cfg.Q tBytes frame alphaFrame isGray image width height B := by
  cases alphaFrame with
  | none =>
    simp only [writeImageHelper, writeImageWith, selectKernel, Option.isSome,
      Bool.false_eq_true, if_false]
    by_cases c : cfg.sse2 = true ∧ cfg.quantumBytes ≤ 4 ∧ cfg.Q ≤ 32 ∧ image.channels = 3
        ∧ image.rOff = 0 ∧ image.gOff = 1 ∧ image.bOff = 2
    · simp only [if_pos c]
      by_cases c1 : tBytes = 1 ∧ B = 8
      · simp only [if_pos c1]
        rfl
      · simp only [if_neg c1]
        by_cases c2 : tBytes = 2 ∧ B ≥ 8 ∧ (cfg.Q ≤ 16 ∨ B = 8 ∨ B = 16)
        · simp only [if_pos c2]
          rfl
        · simp only [if_neg c2]
          rfl
    · simp only [if_neg c]
      rfl
  | some alpha =>
    simp only [writeImageHelper, writeImageWith, selectKernel, Option.isSome, if_true]
    by_cases c : cfg.sse2 = true ∧ cfg.quantumBytes ≤ 4 ∧ cfg.Q ≤ 32 ∧ image.channels = 4
        ∧ image.rOff = 0 ∧ image.gOff = 1 ∧ image.bOff = 2 ∧ image.aOff = 3
    · simp only [if_pos c]
      by_cases c1 : tBytes = 1 ∧ B = 8
      · simp only [if_pos c1]
        rfl
      · simp only [if_neg c1]
        by_cases c2 : tBytes = 2 ∧ B ≥ 8 ∧ (cfg.Q ≤ 16 ∨ B = 8 ∨ B = 16)
        · simp only [if_pos c2]
          rfl
        · simp only [if_neg c2]
          rfl
    · simp only [if_neg c]
      rfl

theorem selectKernel_ne_scalar (cfg : Build) (tBytes B : Nat) (image : MagickImage)
    (withAlpha : Bool) :
    selectKernel cfg tBytes withAlpha image B ≠ KernelChoice.scalar ↔
      cfg.sse2 = true ∧ cfg.quantumBytes ≤ 4 ∧ cfg.Q ≤ 32
        ∧ image.channels = (if withAlpha then 4 else 3)
        ∧ image.rOff = 0 ∧ image.gOff = 1 ∧ image.bOff = 2
        ∧ (withAlpha = true → image.aOff = 3)
        ∧ ((tBytes = 1 ∧ B = 8) ∨ (tBytes = 2 ∧ B ≥ 8 ∧ (cfg.Q ≤ 16 ∨ B = 8 ∨ B = 16))) := by
  cases withAlpha with
  | false =>
    simp only [selectKernel, Bool.false_eq_true, if_false]
    by_cases c : cfg.sse2 = true ∧ cfg.quantumBytes ≤ 4 ∧ cfg.Q ≤ 32 ∧ image.channels = 3
        ∧ image.rOff = 0 ∧ image.gOff = 1 ∧ image.bOff = 2
    · rw [if_pos c]
      obtain ⟨h1, h2, h3, h4, h5, h6, h7⟩ := c
      by_cases c1 : tBytes = 1 ∧ B = 8
      · rw [if_pos c1]
        exact ⟨fun _ => ⟨h1, h2, h3, h4, h5, h6, h7, False.elim, Or.inl c1⟩,
          fun _ => by decide⟩
      · rw [if_neg c1]
        by_cases c2 : tBytes = 2 ∧ B ≥ 8 ∧ (cfg.Q ≤ 16 ∨ B = 8 ∨ B = 16)
        · rw [if_pos c2]
          exact ⟨fun _ => ⟨h1, h2, h3, h4, h5, h6, h7, False.elim, Or.inr c2⟩,
            fun _ => by decide⟩
        · rw [if_neg c2]
          refine ⟨fun h => absurd rfl h, fun h => ?_⟩
          rcases h.2.2.2.2.2.2.2.2 with h | h
          · exact absurd h c1
          · exact absurd h c2
    · rw [if_neg c]
      refine ⟨fun h => absurd rfl h, fun h => ?_⟩
      obtain ⟨h1, h2, h3, h4, h5, h6, h7, _, _⟩ := h
      exact absurd ⟨h1, h2, h3, h4, h5, h6, h7⟩ c
  | true =>
    simp only [selectKernel, if_true]
    by_cases c : cfg.sse2 = true ∧ cfg.quantumBytes ≤ 4 ∧ cfg.Q ≤ 32 ∧ image.channels = 4
        ∧ image.rOff = 0 ∧ image.gOff = 1 ∧ image.bOff = 2 ∧ image.aOff = 3
    · rw [if_pos c]
      obtain ⟨h1, h2, h3, h4, h5, h6, h7, h8⟩ := c
      by_cases c1 : tBytes = 1 ∧ B = 8
      · rw [if_pos c1]
        exact ⟨fun _ => ⟨h1, h2, h3, h4, h5, h6, h7, fun _ => h8, Or.inl c1⟩,
          fun _ => by decide⟩
      · rw [if_neg c1]
        by_cases c2 : tBytes = 2 ∧ B ≥ 8 ∧ (cfg.Q ≤ 16 ∨ B = 8 ∨ B = 16)
        · rw [if_pos c2]
          exact ⟨fun _ => ⟨h1, h2, h3, h4, h5, h6, h7, fun _ => h8, Or.inr c2⟩,
            fun _ => by decide⟩
        · rw [if_neg c2]
          refine ⟨fun h => absurd rfl h, fun h => ?_⟩
          rcases h.2.2.2.2.2.2.2.2 with h | h
          · exact absurd h c1
          · exact absurd h c2
    · rw [if_neg c]
      refine ⟨fun h => absurd rfl h, fun h => ?_⟩
      obtain ⟨h1, h2, h3, h4, h5, h6, h7, h8, _⟩ := h
      exact absurd ⟨h1, h2, h3, h4, h5, h6, h7, h8 trivial⟩ c

theorem writeImageWith_noKernel (cfg : Build) (tBytes B : Nat) (frame : Frame Nat)
    (alphaFrame : Option (Frame Nat)) (isGray : Bool) (image : MagickImage)
    (width height : Nat) :
    writeImageWith noKernel cfg.Q tBytes frame alphaFrame isGray image width height B
      = writeImageHelper ⟨cfg.Q, cfg.quantumBytes, false⟩ tBytes frame alphaFrame isGray image
          width height B := by
  cases alphaFrame <;>
    simp only [writeImageHelper, writeImageWith, Bool.false_eq_true, false_and, if_false]

/-- C26. Fast-path selection: `writeImageHelper` runs `loopImage` on the kernel
that the dispatch selects, and the dispatch selects a vector kernel exactly when
the build has SSE2, a quantum of at most 4 bytes and depth at most 32, the offset
table is canonical (without an alpha frame 3 channels at the offsets 0, 1, 2; with
one 4 channels at 0, 1, 2, 3) and the samples are 1 byte wide with `B = 8` or 2
bytes wide with `B ≥ 8` and (`Q ≤ 16` or `B = 8` or `B = 16`).  With alpha it is
an RGBA kernel, without an RGB kernel.  In every other case, gray with alpha
(2 channels) and 4-byte samples included, the empty kernel is selected and the
scalar loop converts the whole row from `x = 0`: the result is that of the build
without SSE2. -/
theorem C26_fast_path_selection (cfg : Build) (tBytes B : Nat) (frame : Frame Nat)
    (alphaFrame : Option (Frame Nat)) (isGray : Bool) (image : MagickImage)
    (width height : Nat) (withAlpha : Bool) :
    writeImageHelper cfg tBytes frame alphaFrame isGray image width height B
        = writeImageWith (kernelOf (selectKernel cfg tBytes alphaFrame.isSome image B) cfg.Q B
            image.channels width) cfg.Q tBytes frame alphaFrame isGray image width height B
      ∧ (selectKernel cfg tBytes withAlpha image B ≠ KernelChoice.scalar ↔
          cfg.sse2 = true ∧ cfg.quantumBytes ≤ 4 ∧ cfg.Q ≤ 32
            ∧ image.channels = (if withAlpha then 4 else 3)
            ∧ image.rOff = 0 ∧ image.gOff = 1 ∧ image.bOff = 2
            ∧ (withAlpha = true → image.aOff = 3)
            ∧ ((tBytes = 1 ∧ B = 8)
              ∨ (tBytes = 2 ∧ B ≥ 8 ∧ (cfg.Q ≤ 16 ∨ B = 8 ∨ B = 16))))
      ∧ (selectKernel cfg tBytes true image B ≠ KernelChoice.rgb8
          ∧ selectKernel cfg tBytes true image B ≠ KernelChoice.rgb16
          ∧ selectKernel cfg tBytes false image B ≠ KernelChoice.rgba8
          ∧ selectKernel cfg tBytes false image B ≠ KernelChoice.rgba16)
      ∧ (image.channels = 2 → selectKernel cfg tBytes withAlpha image B = KernelChoice.scalar)
      ∧ (tBytes = 4 → selectKernel cfg tBytes withAlpha image B = KernelChoice.scalar)
      ∧ (selectKernel cfg tBytes alphaFrame.isSome image B = KernelChoice.scalar →
          writeImageHelper cfg tBytes frame alphaFrame isGray image width height B
            = writeImageHelper ⟨cfg.Q, cfg.quantumBytes, false⟩ tBytes frame alphaFrame isGray
                image width height B)
      ∧ (∀ (sf sh : Nat) (p : RowPtrs Nat) (pixels : Nat → ℚ),
          writeRow withAlpha sf sh image width
              (kernelOf KernelChoice.scalar cfg.Q B image.channels width) p pixels
            = forLoop (scalarPixel withAlpha sf sh image p) width 0 pixels) := by
  have hne := selectKernel_ne_scalar cfg tBytes B image withAlpha
  refine ⟨writeImageHelper_select cfg tBytes B frame alphaFrame isGray image width height,
    hne, ?_, ?_, ?_, ?_, fun _ _ _ _ => rfl⟩
  · simp only [selectKernel, if_true, Bool.false_eq_true, if_false]
    refine ⟨?_, ?_, ?_, ?_⟩ <;> split_ifs <;> decide
  · intro h
    by_contra hsel
    have h2 := (hne.1 hsel).2.2.2.1
    rw [h] at h2
    cases withAlpha <;> simp at h2
  · intro h
    by_contra hsel
    have h2 := (hne.1 hsel).2.2.2.2.2.2.2.2
    omega
  · intro h
    rw [writeImageHelper_select, h]
    exact writeImageWith_noKernel cfg tBytes B frame alphaFrame isGray image width height

/-! ### Bounds of the vector loops -/

theorem vecLoop_snd {σ : Type} (k width : Nat) (hk : 1 ≤ k) (body : Nat → σ → σ) :
    ∀ (fuel x : Nat) (s : σ), (width - x) / k ≤ fuel →
      (vecLoop k width body fuel x s).2 = x + k * ((width - x) / k) := by
  intro fuel
  induction fuel with
  | zero =>
    intro x s h
    have h0 : (width - x) / k = 0 := Nat.eq_zero_of_le_zero h
    rw [vecLoop, h0, Nat.mul_zero]
    rfl
  | succ fuel ih =>
    intro x s h
    rw [vecLoop]
    by_cases c : x + (k - 1) < width
    · have hq : (width - x) / k = (width - (x + k)) / k + 1 := by
        have e : width - x = (width - (x + k)) + k := by omega
        rw [e, Nat.add_div_right _ hk]
      rw [if_pos c, ih (x + k) (body x s) (by omega), hq, Nat.mul_succ]
      omega
    · have h0 : (width - x) / k = 0 := Nat.div_eq_of_lt (by omega)
      rw [if_neg c, h0, Nat.mul_zero]
      rfl

theorem vecLoop_final {σ : Type} (k width : Nat) (hk : 1 ≤ k) (body : Nat → σ → σ) (s : σ) :
    (vecLoop k width body width 0 s).2 = k * (width / k) := by
  rw [vecLoop_snd k width hk body width 0 s (Nat.div_le_self _ _), Nat.zero_add, Nat.sub_zero]

theorem vecLoop_starts (k width : Nat) (hk : 1 ≤ k) :
    ∀ (fuel x : Nat) (xs : List Nat), (width - x) / k ≤ fuel →
      (vecLoop k width (fun x xs => xs ++ [x]) fuel x xs).1
        = xs ++ (List.range ((width - x) / k)).map (fun j => x + k * j) := by
  intro fuel
  induction fuel with
  | zero =>
    intro x xs h
    have h0 : (width - x) / k = 0 := Nat.eq_zero_of_le_zero h
    rw [vecLoop, h0]
    simp
  | succ fuel ih =>
    intro x xs h
    rw [vecLoop]
    by_cases c : x + (k - 1) < width
    · have hq : (width - x) / k = (width - (x + k)) / k + 1 := by
        have e : width - x = (width - (x + k)) + k := by omega
        rw [e, Nat.add_div_right _ hk]
      rw [if_pos c, ih (x + k) (xs ++ [x]) (by omega), hq, List.range_succ_eq_map,
        List.map_cons, List.map_map, List.append_assoc]
      congr 1
      simp only [List.singleton_append, Nat.mul_zero, Nat.add_zero, List.cons.injEq, true_and]
      apply List.map_congr_left
      intro j _
      simp only [Function.comp, Nat.mul_succ]
      omega
    · have h0 : (width - x) / k = 0 := Nat.div_eq_of_lt (by omega)
      rw [if_neg c, h0]
      simp

theorem forLoop_visits : ∀ (n x0 : Nat) (xs : List Nat),
    forLoop (fun x xs => xs ++ [x]) n x0 xs = xs ++ List.range' x0 n := by
  intro n
  induction n with
  | zero => intro x0 xs; simp [forLoop]
  | succ n ih =>
    intro x0 xs
    rw [forLoop, ih, List.range'_succ, List.append_assoc]
    rfl

theorem blocks_cover (k : Nat) : ∀ q,
    ((List.range q).map (fun j => 0 + k * j)).flatMap (fun s => List.range' s k)
      = List.range' 0 (k * q) := by
  intro q
  induction q with
  | zero => simp
  | succ q ih =>
    have e := List.range'_append_1 0 (k * q) k
    rw [Nat.zero_add, Nat.add_comm k (k * q)] at e
    rw [List.range_succ, List.map_append, List.flatMap_append, ih, Nat.mul_succ, ← e]
    simp

theorem vecLoop_congr {σ : Type} (k width : Nat) (body1 body2 : Nat → σ → σ)
    (h : ∀ x s, x + k ≤ width → body1 x s = body2 x s) (hk : 1 ≤ k) :
    ∀ (fuel x : Nat) (s : σ), vecLoop k width body1 fuel x s = vecLoop k width body2 fuel x s := by
  intro fuel
  induction fuel with
  | zero => intro x s; rfl
  | succ fuel ih =>
    intro x s
    rw [vecLoop, vecLoop]
    by_cases c : x + (k - 1) < width
    · rw [if_pos c, if_pos c, h x s (by omega), ih]
    · rw [if_neg c, if_neg c]

theorem loadu_congr (t : Nat) (p q : Nat → Nat) (x n width : Nat)
    (h : ∀ j, j < width → p j = q j) (hb : x + (16 * n + 15) / t < width) :
    mm_loadu_si128 t p x n = mm_loadu_si128 t q x n := by
  unfold mm_loadu_si128 reg
  funext i
  by_cases hi : i < 16
  · rw [if_pos hi, if_pos hi]
    have hle : (16 * n + i) / t ≤ (16 * n + 15) / t := Nat.div_le_div_right (by omega)
    dsimp only
    rw [h (x + (16 * n + i) / t) (by omega)]
  · rw [if_neg hi, if_neg hi]

theorem kernel_final (Q B channels width : Nat) (p : RowPtrs Nat) (pixels : Nat → ℚ) :
    (kernelRGBA8 Q channels width p pixels).2 = 16 * (width / 16)
      ∧ (kernelRGBA16 Q B channels width p pixels).2 = 8 * (width / 8)
      ∧ (kernelRGB8 Q channels width p pixels).2 = 32 * (width / 32)
      ∧ (kernelRGB16 Q B channels width p pixels).2 = 16 * (width / 16) :=
  ⟨vecLoop_final 16 width (by norm_num) _ pixels, vecLoop_final 8 width (by norm_num) _ pixels,
    vecLoop_final 32 width (by norm_num) _ pixels, vecLoop_final 16 width (by norm_num) _ pixels⟩

theorem kernel_reads (Q B channels width : Nat) (p q : RowPtrs Nat) (pixels : Nat → ℚ)
    (h : ∀ x, x < width → p.r x = q.r x ∧ p.g x = q.g x ∧ p.b x = q.b x ∧ p.a x = q.a x) :
    kernelRGBA8 Q channels width p pixels = kernelRGBA8 Q channels width q pixels
      ∧ kernelRGBA16 Q B channels width p pixels = kernelRGBA16 Q B channels width q pixels
      ∧ kernelRGB8 Q channels width p pixels = kernelRGB8 Q channels width q pixels
      ∧ kernelRGB16 Q B channels width p pixels = kernelRGB16 Q B channels width q pixels := by
  have hr : ∀ x, x < width → p.r x = q.r x := fun x hx => (h x hx).1
  have hg : ∀ x, x < width → p.g x = q.g x := fun x hx => (h x hx).2.1
  have hb : ∀ x, x < width → p.b x = q.b x := fun x hx => (h x hx).2.2.1
  have ha : ∀ x, x < width → p.a x = q.a x := fun x hx => (h x hx).2.2.2
  refine ⟨?_, ?_, ?_, ?_⟩
  · refine vecLoop_congr 16 width _ _ ?_ (by norm_num) width 0 pixels
    intro x s hx
    dsimp only
    rw [loadu_congr 1 p.r q.r x 0 width hr (by omega),
      loadu_congr 1 p.g q.g x 0 width hg (by omega),
      loadu_congr 1 p.b q.b x 0 width hb (by omega),
      loadu_congr 1 p.a q.a x 0 width ha (by omega)]
  · refine vecLoop_congr 8 width _ _ ?_ (by norm_num) width 0 pixels
    intro x s hx
    dsimp only
    rw [loadu_congr 2 p.r q.r x 0 width hr (by omega),
      loadu_congr 2 p.g q.g x 0 width hg (by omega),
      loadu_congr 2 p.b q.b x 0 width hb (by omega),
      loadu_congr 2 p.a q.a x 0 width ha (by omega)]
  · refine vecLoop_congr 32 width _ _ ?_ (by norm_num) width 0 pixels
    intro x s hx
    dsimp only
    rw [loadu_congr 1 p.r q.r x 0 width hr (by omega),
      loadu_congr 1 p.r q.r x 1 width hr (by omega),
      loadu_congr 1 p.g q.g x 0 width hg (by omega),
      loadu_congr 1 p.g q.g x 1 width hg (by omega),
      loadu_congr 1 p.b q.b x 0 width hb (by omega),
      loadu_congr 1 p.b q.b x 1 width hb (by omega)]
  · refine vecLoop_congr 16 width _ _ ?_ (by norm_num) width 0 pixels
    intro x s hx
    dsimp only
    rw [loadu_congr 2 p.r q.r x 0 width hr (by omega),
      loadu_congr 2 p.r q.r x 1 width hr (by omega),
      loadu_congr 2 p.g q.g x 0 width hg (by omega),
      loadu_congr 2 p.g q.g x 1 width hg (by omega),
      loadu_congr 2 p.b q.b x 0 width hb (by omega),
      loadu_congr 2 p.b q.b x 1 width hb (by omega)]

theorem kernel_writes (Q B width : Nat) (p : RowPtrs Nat) (pixels : Nat → ℚ) (i : Nat) :
    (width * 4 ≤ i → (kernelRGBA8 Q 4 width p pixels).1 i = pixels i
        ∧ (kernelRGBA16 Q B 4 width p pixels).1 i = pixels i)
      ∧ (width * 3 ≤ i → (kernelRGB8 Q 3 width p pixels).1 i = pixels i
        ∧ (kernelRGB16 Q B 3 width p pixels).1 i = pixels i) := by
  refine ⟨fun hi => ⟨?_, ?_⟩, fun hi =>
    ⟨kernelRGB8_untouched Q width p pixels i hi, kernelRGB16_untouched Q B width p pixels i hi⟩⟩
  · refine vecLoop_untouched 16 width (width * 4) _ (by norm_num) ?_ width 0 pixels i hi
    intro x px j hx hj
    rw [sseWritePixels8_spec Q _ _ _ (isReg_interleaveRGBA8 _ _ _ _), length_interleaveRGBA8,
      if_neg (by omega)]
  · refine vecLoop_untouched 8 width (width * 4) _ (by norm_num) ?_ width 0 pixels i hi
    intro x px j hx hj
    rw [sseWritePixels16_spec Q _ _ _ (isReg_interleaveRGBA16 _ _ _ _), length_interleaveRGBA16,
      if_neg (by omega)]

theorem writeRow_tail (wa : Bool) (sf sh Q B : Nat) (im : MagickImage) (width : Nat)
    (p : RowPtrs Nat) (pixels : Nat → ℚ) :
    writeRow wa sf sh im width (kernelRGBA8 Q im.channels width) p pixels
        = forLoop (scalarPixel wa sf sh im p) (width % 16) (16 * (width / 16))
            (kernelRGBA8 Q im.channels width p pixels).1
      ∧ writeRow wa sf sh im width (kernelRGBA16 Q B im.channels width) p pixels
        = forLoop (scalarPixel wa sf sh im p) (width % 8) (8 * (width / 8))
            (kernelRGBA16 Q B im.channels width p pixels).1
      ∧ writeRow wa sf sh im width (kernelRGB8 Q im.channels width) p pixels
        = forLoop (scalarPixel wa sf sh im p) (width % 32) (32 * (width / 32))
            (kernelRGB8 Q im.channels width p pixels).1
      ∧ writeRow wa sf sh im width (kernelRGB16 Q B im.channels width) p pixels
        = forLoop (scalarPixel wa sf sh im p) (width % 16) (16 * (width / 16))
            (kernelRGB16 Q B im.channels width p pixels).1 := by
  obtain ⟨h1, h2, h3, h4⟩ := kernel_final Q B im.channels width p pixels
  refine ⟨?_, ?_, ?_, ?_⟩
  · simp only [writeRow, h1, ← Nat.mod_def]
  · simp only [writeRow, h2, ← Nat.mod_def]
  · simp only [writeRow, h3, ← Nat.mod_def]
  · simp only [writeRow, h4, ← Nat.mod_def]

/-- C25. Vector loop bounds and remainder: for every `width` and block size
`k ≥ 1`, the loop `for (; x < width - (k - 1); x += k)` started at `x = 0` runs
its body at `x = 0, k, 2 * k, ...`, `width / k` times, every time with
`x + k ≤ width`, and leaves `x = k * (width / k)`; the scalar loop that follows
visits `k * (width / k), ..., width - 1`, and the blocks followed by the scalar
pixels are `0, ..., width - 1`, each once.  For the four kernels: the final `x` is
that of their block size, the scalar loop of the row runs on the remaining
`width % k` pixels, the result depends on no source sample of index `≥ width`,
and no quantum at or after `width * channels` is changed. -/
theorem C25_vector_loop_bounds (k width : Nat) (hk : 1 ≤ k) (Q B : Nat) (im : MagickImage)
    (p q : RowPtrs Nat) (pixels : Nat → ℚ) (i : Nat) :
    vecLoop k width (fun x xs => xs ++ [x]) width 0 ([] : List Nat)
        = ((List.range (width / k)).map (fun j => k * j), k * (width / k))
      ∧ (∀ j, j < width / k → k * j + k ≤ width)
      ∧ (∀ (σ : Type) (body : Nat → σ → σ) (s : σ),
          (vecLoop k width body width 0 s).2 = k * (width / k))
      ∧ forLoop (fun x xs => xs ++ [x]) (width - k * (width / k)) (k * (width / k))
            ([] : List Nat)
          = List.range' (k * (width / k)) (width % k)
      ∧ ((List.range (width / k)).map (fun j => k * j)).flatMap (fun s => List.range' s k)
            ++ List.range' (k * (width / k)) (width % k)
          = List.range width
      ∧ ((kernelRGBA8 Q im.channels width p pixels).2 = 16 * (width / 16)
        ∧ (kernelRGBA16 Q B im.channels width p pixels).2 = 8 * (width / 8)
        ∧ (kernelRGB8 Q im.channels width p pixels).2 = 32 * (width / 32)
        ∧ (kernelRGB16 Q B im.channels width p pixels).2 = 16 * (width / 16))
      ∧ (∀ (wa : Bool) (sf sh : Nat),
        writeRow wa sf sh im width (kernelRGBA8 Q im.channels width) p pixels
            = forLoop (scalarPixel wa sf sh im p) (width % 16) (16 * (width / 16))
                (kernelRGBA8 Q im.channels width p pixels).1
          ∧ writeRow wa sf sh im width (kernelRGBA16 Q B im.channels width) p pixels
            = forLoop (scalarPixel wa sf sh im p) (width % 8) (8 * (width / 8))
                (kernelRGBA16 Q B im.channels width p pixels).1
          ∧ writeRow wa sf sh im width (kernelRGB8 Q im.channels width) p pixels
            = forLoop (scalarPixel wa sf sh im p) (width % 32) (32 * (width / 32))
                (kernelRGB8 Q im.channels width p pixels).1
          ∧ writeRow wa sf sh im width (kernelRGB16 Q B im.channels width) p pixels
            = forLoop (scalarPixel wa sf sh im p) (width % 16) (16 * (width / 16))
                (kernelRGB16 Q B im.channels width p pixels).1)
      ∧ ((∀ x, x < width → p.r x = q.r x ∧ p.g x = q.g x ∧ p.b x = q.b x ∧ p.a x = q.a x) →
          kernelRGBA8 Q im.channels width p pixels = kernelRGBA8 Q im.channels width q pixels
          ∧ kernelRGBA16 Q B im.channels width p pixels
              = kernelRGBA16 Q B im.channels width q pixels
          ∧ kernelRGB8 Q im.channels width p pixels = kernelRGB8 Q im.channels width q pixels
          ∧ kernelRGB16 Q B im.channels width p pixels
              = kernelRGB16 Q B im.channels width q pixels)
      ∧ (width * 4 ≤ i → (kernelRGBA8 Q 4 width p pixels).1 i = pixels i
          ∧ (kernelRGBA16 Q B 4 width p pixels).1 i = pixels i)
      ∧ (width * 3 ≤ i → (kernelRGB8 Q 3 width p pixels).1 i = pixels i
          ∧ (kernelRGB16 Q B 3 width p pixels).1 i = pixels i) := by
  have hstarts := vecLoop_starts k width hk width 0 [] (by
    rw [Nat.sub_zero]
    exact Nat.div_le_self _ _)
  simp only [Nat.sub_zero, Nat.zero_add, List.nil_append] at hstarts
  have hcover := blocks_cover k (width / k)
  simp only [Nat.zero_add] at hcover
  have hmod : width % k + k * (width / k) = width := Nat.mod_add_div width k
  refine ⟨Prod.ext hstarts (vecLoop_final k width hk _ _), ?_,
    fun σ body s => vecLoop_final k width hk body s, ?_, ?_,
    kernel_final Q B im.channels width p pixels,
    fun wa sf sh => writeRow_tail wa sf sh Q B im width p pixels,
    kernel_reads Q B im.channels width p q pixels,
    (kernel_writes Q B width p pixels i).1, (kernel_writes Q B width p pixels i).2⟩
  · intro j hj
    calc k * j + k = k * (j + 1) := by ring
      _ ≤ k * (width / k) := Nat.mul_le_mul_left k hj
      _ ≤ width := Nat.mul_div_le width k
  · rw [forLoop_visits, List.nil_append, ← Nat.mod_def]
  · have e := List.range'_append_1 0 (k * (width / k)) (width % k)
    rw [Nat.zero_add, hmod] at e
    rw [hcover, e, List.range_eq_range']

theorem C25_vector_loop_bounds_witness :
    vecLoop 16 40 (fun x xs => xs ++ [x]) 40 0 ([] : List Nat)
        = ((List.range (40 / 16)).map (fun j => 16 * j), 16 * (40 / 16))
      ∧ (∀ j, j < 40 / 16 → 16 * j + 16 ≤ 40)
      ∧ (∀ (σ : Type) (body : Nat → σ → σ) (s : σ),
          (vecLoop 16 40 body 40 0 s).2 = 16 * (40 / 16))
      ∧ forLoop (fun x xs => xs ++ [x]) (40 - 16 * (40 / 16)) (16 * (40 / 16))
            ([] : List Nat)
          = List.range' (16 * (40 / 16)) (40 % 16)
      ∧ ((List.range (40 / 16)).map (fun j => 16 * j)).flatMap (fun s => List.range' s 16)
            ++ List.range' (16 * (40 / 16)) (40 % 16)
          = List.range 40
      ∧ ((kernelRGBA8 16 demoImage.channels 40 demoRow (fun _ => (0 : ℚ))).2 = 16 * (40 / 16)
        ∧ (kernelRGBA16 16 16 demoImage.channels 40 demoRow (fun _ => (0 : ℚ))).2 = 8 * (40 / 8)
        ∧ (kernelRGB8 16 demoImage.channels 40 demoRow (fun _ => (0 : ℚ))).2 = 32 * (40 / 32)
        ∧ (kernelRGB16 16 16 demoImage.channels 40 demoRow (fun _ => (0 : ℚ))).2 = 16 * (40 / 16))
      ∧ (∀ (wa : Bool) (sf sh : Nat),
        writeRow wa sf sh demoImage 40 (kernelRGBA8 16 demoImage.channels 40) demoRow (fun _ => (0 : ℚ))
            = forLoop (scalarPixel wa sf sh demoImage demoRow) (40 % 16) (16 * (40 / 16))
                (kernelRGBA8 16 demoImage.channels 40 demoRow (fun _ => (0 : ℚ))).1
          ∧ writeRow wa sf sh demoImage 40 (kernelRGBA16 16 16 demoImage.channels 40) demoRow (fun _ => (0 : ℚ))
            = forLoop (scalarPixel wa sf sh demoImage demoRow) (40 % 8) (8 * (40 / 8))
                (kernelRGBA16 16 16 demoImage.channels 40 demoRow (fun _ => (0 : ℚ))).1
          ∧ writeRow wa sf sh demoImage 40 (kernelRGB8 16 demoImage.channels 40) demoRow (fun _ => (0 : ℚ))
            = forLoop (scalarPixel wa sf sh demoImage demoRow) (40 % 32) (32 * (40 / 32))
                (kernelRGB8 16 demoImage.channels 40 demoRow (fun _ => (0 : ℚ))).1
          ∧ writeRow wa sf sh demoImage 40 (kernelRGB16 16 16 demoImage.channels 40) demoRow (fun _ => (0 : ℚ))
            = forLoop (scalarPixel wa sf sh demoImage demoRow) (40 % 16) (16 * (40 / 16))
                (kernelRGB16 16 16 demoImage.channels 40 demoRow (fun _ => (0 : ℚ))).1)
      ∧ ((∀ x, x < 40 → demoRow.r x = demoRow.r x ∧ demoRow.g x = demoRow.g x ∧ demoRow.b x = demoRow.b x ∧ demoRow.a x = demoRow.a x) →
          kernelRGBA8 16 demoImage.channels 40 demoRow (fun _ => (0 : ℚ)) = kernelRGBA8 16 demoImage.channels 40 demoRow (fun _ => (0 : ℚ))
          ∧ kernelRGBA16 16 16 demoImage.channels 40 demoRow (fun _ => (0 : ℚ))
              = kernelRGBA16 16 16 demoImage.channels 40 demoRow (fun _ => (0 : ℚ))
          ∧ kernelRGB8 16 demoImage.channels 40 demoRow (fun _ => (0 : ℚ)) = kernelRGB8 16 demoImage.channels 40 demoRow (fun _ => (0 : ℚ))
          ∧ kernelRGB16 16 16 demoImage.channels 40 demoRow (fun _ => (0 : ℚ))
              = kernelRGB16 16 16 demoImage.channels 40 demoRow (fun _ => (0 : ℚ)))
      ∧ (40 * 4 ≤ 200 → (kernelRGBA8 16 4 40 demoRow (fun _ => (0 : ℚ))).1 200 = (fun _ => (0 : ℚ)) 200
          ∧ (kernelRGBA16 16 16 4 40 demoRow (fun _ => (0 : ℚ))).1 200 = (fun _ => (0 : ℚ)) 200)
      ∧ (40 * 3 ≤ 200 → (kernelRGB8 16 3 40 demoRow (fun _ => (0 : ℚ))).1 200 = (fun _ => (0 : ℚ)) 200
          ∧ (kernelRGB16 16 16 3 40 demoRow (fun _ => (0 : ℚ))).1 200 = (fun _ => (0 : ℚ)) 200) :=
  C25_vector_loop_bounds 16 40 (by decide) 16 16 demoImage demoRow demoRow (fun _ => (0 : ℚ)) 200

/-! ### Block sizes of the kernels -/

/-- C27, counterexample. The RGBA kernel for 16-bit storage run on a row of 8
pixels leaves `x = 8`: it has made one iteration of 8 pixels, so its block is
neither 16 nor 32 pixels. -/
theorem C27_block_size_counterexample :
    (kernelRGBA16 16 16 4 8 demoRow (fun _ => (0 : ℚ))).2 = 8
      ∧ ¬ ∃ k, (k = 16 ∨ k = 32) ∧ ∀ width,
          (kernelRGBA16 16 16 4 width demoRow (fun _ => (0 : ℚ))).2 = k * (width / k) := by
  have h := (kernel_final 16 16 4 8 demoRow (fun _ => (0 : ℚ))).2.1
  refine ⟨h, ?_⟩
  rintro ⟨k, hk, hall⟩
  have h8 := hall 8
  rw [h] at h8
  rcases hk with rfl | rfl <;> omega

/-- C27, amended. Vector block sizes: the RGBA 8-bit kernel advances `x` by 16
pixels per iteration, the RGBA 16-bit kernel by 8, the RGB 8-bit kernel by 32 and
the RGB 16-bit kernel by 16: for every width the kernel leaves
`x = k * (width / k)` for its block size `k`, and `k` more pixels in the row give
one more iteration. -/
theorem C27_block_sizes (Q B channels width : Nat) (p : RowPtrs Nat) (pixels : Nat → ℚ) :
    ((kernelRGBA8 Q channels width p pixels).2 = 16 * (width / 16)
      ∧ (kernelRGBA16 Q B channels width p pixels).2 = 8 * (width / 8)
      ∧ (kernelRGB8 Q channels width p pixels).2 = 32 * (width / 32)
      ∧ (kernelRGB16 Q B channels width p pixels).2 = 16 * (width / 16))
    ∧ ((kernelRGBA8 Q channels (width + 16) p pixels).2
          = (kernelRGBA8 Q channels width p pixels).2 + 16
      ∧ (kernelRGBA16 Q B channels (width + 8) p pixels).2
          = (kernelRGBA16 Q B channels width p pixels).2 + 8
      ∧ (kernelRGB8 Q channels (width + 32) p pixels).2
          = (kernelRGB8 Q channels width p pixels).2 + 32
      ∧ (kernelRGB16 Q B channels (width + 16) p pixels).2
          = (kernelRGB16 Q B channels width p pixels).2 + 16) := by
  obtain ⟨h1, h2, h3, h4⟩ := kernel_final Q B channels width p pixels
  obtain ⟨g1, g2, g3, g4⟩ := kernel_final Q B channels (width + 16) p pixels
  obtain ⟨_, f2, _, _⟩ := kernel_final Q B channels (width + 8) p pixels
  obtain ⟨_, _, e3, _⟩ := kernel_final Q B channels (width + 32) p pixels
  refine ⟨⟨h1, h2, h3, h4⟩, ?_, ?_, ?_, ?_⟩
  · rw [g1, h1]
    omega
  · rw [f2, h2]
    omega
  · rw [e3, h3]
    omega
  · rw [g4, h4]
    omega

/-! ### The order of the accessor calls -/

theorem rowCalls_spec : ∀ height,
    ((List.range height).flatMap (fun y => [CacheCall.get y, CacheCall.sync])).length
        = 2 * height
      ∧ ∀ y, y < height →
        ((List.range height).flatMap (fun y => [CacheCall.get y, CacheCall.sync]))[2 * y]?
            = some (CacheCall.get y)
          ∧ ((List.range height).flatMap (fun y => [CacheCall.get y, CacheCall.sync]))[2 * y + 1]?
            = some CacheCall.sync := by
  intro height
  induction height with
  | zero => exact ⟨rfl, fun y hy => absurd hy (Nat.not_lt_zero y)⟩
  | succ h ih =>
    obtain ⟨hl, hg⟩ := ih
    have e : (List.range (h + 1)).flatMap (fun y => [CacheCall.get y, CacheCall.sync])
        = (List.range h).flatMap (fun y => [CacheCall.get y, CacheCall.sync])
          ++ [CacheCall.get h, CacheCall.sync] := by
      rw [List.range_succ, List.flatMap_append]
      simp
    rw [e]
    refine ⟨by rw [List.length_append, hl]; simp; omega, ?_⟩
    intro y hy
    by_cases c : y < h
    · rw [List.getElem?_append_left (by omega), List.getElem?_append_left (by omega)]
      exact hg y c
    · have hy2 : y = h := by omega
      subst hy2
      rw [List.getElem?_append_right (by omega), List.getElem?_append_right (by omega), hl]
      have e1 : 2 * y - 2 * y = 0 := by omega
      have e2 : 2 * y + 1 - 2 * y = 1 := by omega
      rw [e1, e2]
      exact ⟨rfl, rfl⟩

theorem loopImage_rows (wa : Bool) (sf sh tB sR sG sB sA : Nat) (im : MagickImage)
    (width : Nat) (lp : RowPtrs Nat → (Nat → ℚ) → (Nat → ℚ) × Nat) (st : WriteState)
    (y n height : Nat) (hy : y < n) (hn : n ≤ height) :
    (loopImage wa sf sh tB sR sG sB sA im width n lp st).pixels y
      = (loopImage wa sf sh tB sR sG sB sA im width height lp st).pixels y := by
  rw [(loopImage_spec wa sf sh tB sR sG sB sA im width lp st n).2.1 y,
    (loopImage_spec wa sf sh tB sR sG sB sA im width lp st height).2.1 y, if_pos hy,
    if_pos (lt_of_lt_of_le hy hn)]

theorem floatLoop_rows (wa : Bool) (sc : ℚ) (sR sG sB sA : Nat) (im : MagickImage)
    (width : Nat) (st : FloatWriteState) (y n height : Nat) (hy : y < n) (hn : n ≤ height) :
    (floatLoop wa sc sR sG sB sA im width n st).pixels y
      = (floatLoop wa sc sR sG sB sA im width height st).pixels y := by
  rw [(floatLoop_spec wa sc sR sG sB sA im width st n).2.1 y,
    (floatLoop_spec wa sc sR sG sB sA im width st height).2.1 y, if_pos hy,
    if_pos (lt_of_lt_of_le hy hn)]

theorem writeImageWith_rows (kernel : RowPtrs Nat → (Nat → ℚ) → (Nat → ℚ) × Nat)
    (Q tBytes B : Nat) (frame : Frame Nat) (alphaFrame : Option (Frame Nat)) (isGray : Bool)
    (image : MagickImage) (width height : Nat) :
    (writeImageWith kernel Q tBytes frame alphaFrame isGray image width height B).calls
        = image.calls
          ++ (List.range height).flatMap (fun y => [CacheCall.get y, CacheCall.sync])
      ∧ ∀ y n, y < n → n ≤ height →
        (writeImageWith kernel Q tBytes frame alphaFrame isGray image width n B).pixels y
          = (writeImageWith kernel Q tBytes frame alphaFrame isGray image width height B).pixels
              y := by
  cases alphaFrame with
  | none =>
    simp only [writeImageWith]
    exact ⟨(loopImage_spec _ _ _ _ _ _ _ _ _ _ _ _ height).2.2,
      fun y n hy hn => loopImage_rows _ _ _ _ _ _ _ _ _ _ _ _ y n height hy hn⟩
  | some alpha =>
    simp only [writeImageWith]
    exact ⟨(loopImage_spec _ _ _ _ _ _ _ _ _ _ _ _ height).2.2,
      fun y n hy hn => loopImage_rows _ _ _ _ _ _ _ _ _ _ _ _ y n height hy hn⟩

theorem frameToImageFloat_rows (quantumRange : ℚ) (frame : Frame ℚ)
    (alphaFrame : Option (Frame ℚ)) (isGray : Bool) (image : MagickImage)
    (width height : Nat) :
    (frameToImageFloat quantumRange frame alphaFrame isGray image width height).calls
        = image.calls
          ++ (List.range height).flatMap (fun y => [CacheCall.get y, CacheCall.sync])
      ∧ ∀ y n, y < n → n ≤ height →
        (frameToImageFloat quantumRange frame alphaFrame isGray image width n).pixels y
          = (frameToImageFloat quantumRange frame alphaFrame isGray image width height).pixels
              y := by
  cases alphaFrame with
  | none =>
    simp only [frameToImageFloat]
    exact ⟨(floatLoop_spec _ _ _ _ _ _ _ _ _ height).2.2,
      fun y n hy hn => floatLoop_rows _ _ _ _ _ _ _ _ _ y n height hy hn⟩
  | some alpha =>
    simp only [frameToImageFloat]
    exact ⟨(floatLoop_spec _ _ _ _ _ _ _ _ _ height).2.2,
      fun y n hy hn => floatLoop_rows _ _ _ _ _ _ _ _ _ y n height hy hn⟩

/-- C28. Row commit order: for every height, the integer write path (scalar or
vector, with or without alpha) and the float write path add to the calls already
made on the pixel accessor exactly `get(0), sync, get(1), sync, ...,
get(height - 1), sync`, `2 * height` calls with `get(y)` at position `2 * y` and
`sync` after it; and the quanta of row `y` after `n > y` rows are those of the
finished image: a row is complete when its `sync` is issued and no later row
changes it. -/
theorem C28_row_commit_order (cfg : Build) (tBytes B : Nat) (frame : Frame Nat)
    (alphaFrame : Option (Frame Nat)) (quantumRange : ℚ) (fframe : Frame ℚ)
    (falpha : Option (Frame ℚ)) (isGray : Bool) (image : MagickImage) (width height : Nat) :
    (writeImageHelper cfg tBytes frame alphaFrame isGray image width height B).calls
        = image.calls
          ++ (List.range height).flatMap (fun y => [CacheCall.get y, CacheCall.sync])
      ∧ (frameToImageFloat quantumRange fframe falpha isGray image width height).calls
        = image.calls
          ++ (List.range height).flatMap (fun y => [CacheCall.get y, CacheCall.sync])
      ∧ ((List.range height).flatMap (fun y => [CacheCall.get y, CacheCall.sync])).length
        = 2 * height
      ∧ (∀ y, y < height →
        ((List.range height).flatMap (fun y => [CacheCall.get y, CacheCall.sync]))[2 * y]?
            = some (CacheCall.get y)
          ∧ ((List.range height).flatMap (fun y => [CacheCall.get y, CacheCall.sync]))[2 * y + 1]?
            = some CacheCall.sync)
      ∧ (∀ y n, y < n → n ≤ height →
        (writeImageHelper cfg tBytes frame alphaFrame isGray image width n B).pixels y
            = (writeImageHelper cfg tBytes frame alphaFrame isGray image width height B).pixels y
          ∧ (frameToImageFloat quantumRange fframe falpha isGray image width n).pixels y
            = (frameToImageFloat quantumRange fframe falpha isGray image width height).pixels
                y) := by
  have hw := fun w h => writeImageWith_rows
    (kernelOf (selectKernel cfg tBytes alphaFrame.isSome image B) cfg.Q B image.channels w)
    cfg.Q tBytes B frame alphaFrame isGray image w h
  have hf := frameToImageFloat_rows quantumRange fframe falpha isGray image width height
  refine ⟨?_, hf.1, (rowCalls_spec height).1, (rowCalls_spec height).2, ?_⟩
  · rw [writeImageHelper_select]
    exact (hw width height).1
  · intro y n hy hn
    refine ⟨?_, hf.2 y n hy hn⟩
    rw [writeImageHelper_select, writeImageHelper_select]
    exact (hw width height).2 y n hy hn

/-! ### The downsampling override, and the order of the packed values -/

/-- C31. The downsampling override changes nothing: for `1 ≤ Q < B ≤ 32` the
statements of lines 340-348 give `prepeat = 0`, `pleftover = Q`,
`scaleFactor = 0` and, at line 342, `shiftFactor = B - Q`, which is the value that
lines 351-352 assign; so the parameters and the packed value of every sample are
the same with and without that statement. -/
theorem C31_override_redundant (Q B v : Nat) (hQ1 : 1 ≤ Q) (hQB : Q < B) (hB : B ≤ 32) :
    prepeat Q B = 0 ∧ pleftover Q B = Q ∧ scaleFactor Q B = 0
      ∧ shiftFactorGeneral Q B = B - Q
      ∧ shiftFactor Q B = shiftFactorGeneral Q B
      ∧ packSample (scaleFactor Q B) (shiftFactor Q B) v
          = packSample (scaleFactor Q B) (shiftFactorGeneral Q B) v := by
  have hQ : Q ≤ 32 := by omega
  have h1 : prepeat Q B = 0 := prepeat_of_lt hQ1 hQB
  have h2 : pleftover Q B = Q := by
    rw [pleftover_eq hQ1 hQ, h1]
    simp
  have h3 : shiftFactorGeneral Q B = B - Q := by
    unfold shiftFactorGeneral toU32
    rw [h2]
    have e : B + 2 ^ 32 - Q = (B - Q) + 2 ^ 32 := by omega
    rw [e, Nat.add_mod_right]
    exact Nat.mod_eq_of_lt (by omega)
  have h4 : shiftFactor Q B = shiftFactorGeneral Q B := by
    rw [h3]
    unfold shiftFactor
    rw [if_pos hQB]
  exact ⟨h1, h2, scaleFactor_of_lt hQ1 hQB, h3, h4, by rw [h4]⟩

theorem C31_override_redundant_witness :
    prepeat 8 16 = 0 ∧ pleftover 8 16 = 8 ∧ scaleFactor 8 16 = 0
      ∧ shiftFactorGeneral 8 16 = 16 - 8
      ∧ shiftFactor 8 16 = shiftFactorGeneral 8 16
      ∧ packSample (scaleFactor 8 16) (shiftFactor 8 16) 0xABCD
          = packSample (scaleFactor 8 16) (shiftFactorGeneral 8 16) 0xABCD :=
  C31_override_redundant 8 16 0xABCD (by decide) (by decide) (by decide)

/-- C32. Packing is monotone: for `1 ≤ Q ≤ 32`, `1 ≤ B` (so for every
`B ≤ 32`) and samples `v ≤ w < 2 ^ B`, the packed value of `v` is at most the packed value of `w`, and
for `B ≤ Q` it is smaller whenever `v < w`: distinct samples are packed to
distinct quanta when upsampling. -/
theorem C32_packing_monotone (Q B v w : Nat) (hQ1 : 1 ≤ Q) (hQ : Q ≤ 32) (hB1 : 1 ≤ B)
    (hvw : v ≤ w) (hw : w < 2 ^ B) :
    packSample (scaleFactor Q B) (shiftFactor Q B) v
        ≤ packSample (scaleFactor Q B) (shiftFactor Q B) w
      ∧ (B ≤ Q → v < w →
          packSample (scaleFactor Q B) (shiftFactor Q B) v
            < packSample (scaleFactor Q B) (shiftFactor Q B) w) := by
  have hv : v < 2 ^ B := lt_of_le_of_lt hvw hw
  have hle : packSample (scaleFactor Q B) (shiftFactor Q B) v
      ≤ packSample (scaleFactor Q B) (shiftFactor Q B) w := by
    rw [(packSample_exact hQ1 hQ hB1 hv).2, (packSample_exact hQ1 hQ hB1 hw).2,
      Nat.shiftRight_eq_div_pow, Nat.shiftRight_eq_div_pow]
    exact Nat.add_le_add (Nat.mul_le_mul_right _ hvw) (Nat.div_le_div_right hvw)
  refine ⟨hle, fun hBQ hlt => lt_of_le_of_ne hle ?_⟩
  intro heq
  have r1 := roundtrip_floor hB1 hBQ hQ hv
  have r2 := roundtrip_floor hB1 hBQ hQ hw
  unfold packed at r1 r2
  rw [heq, r2] at r1
  have : w = v := by exact_mod_cast r1
  omega

theorem C32_packing_monotone_witness :
    packSample (scaleFactor 16 10) (shiftFactor 16 10) 511
        ≤ packSample (scaleFactor 16 10) (shiftFactor 16 10) 512
      ∧ (10 ≤ 16 → 511 < 512 →
          packSample (scaleFactor 16 10) (shiftFactor 16 10) 511
            < packSample (scaleFactor 16 10) (shiftFactor 16 10) 512) :=
  C32_packing_monotone 16 10 511 512 (by decide) (by decide) (by decide) (by decide)
    (by decide)

/-! ### The dimension test of the alpha frame -/

/-- C34. `frameDimsMatch(a, b)` compares the width of `a` with the width of `b`
and the height of `b` with itself, so it is true exactly when the widths agree,
whatever the heights: for a 640x480 gray frame and a 640x240 gray alpha frame of
the same format it is true, `writeGetFrame` reports no mismatch and `encodeFrame`
accepts the alpha frame, although the heights differ. -/
theorem C34_frame_dims (a b : Picture) :
    (frameDimsMatch a b = true ↔ a.width = b.width)
      ∧ (writeGetFrameAlphaTest a b = some "Write: Mismatched dimension of the alpha clip"
          ↔ a.width ≠ b.width)
      ∧ demoGray8.height ≠ demoGray8Half.height
      ∧ frameDimsMatch demoGray8 demoGray8Half = true
      ∧ writeGetFrameAlphaTest demoGray8 demoGray8Half = none
      ∧ encodeFrameAlphaTest demoGray8 demoGray8Half = none := by
  have h : frameDimsMatch a b = true ↔ a.width = b.width := by
    simp [frameDimsMatch]
  refine ⟨h, ?_, by decide, by decide, by decide, by decide⟩
  unfold writeGetFrameAlphaTest
  by_cases c : a.width = b.width
  · rw [if_neg (by rw [h.2 c]; decide)]
    exact ⟨fun x => (by cases x), fun x => absurd c x⟩
  · have hf : frameDimsMatch a b = false := by
      cases hv : frameDimsMatch a b
      · rfl
      · exact absurd (h.1 hv) c
    rw [if_pos hf]
    exact ⟨fun _ => c, fun _ => rfl⟩

/-! ### The sample type and depth of an image that is read -/

/-- C35. Read format selection: for an image depth `d ≥ 1` that fits an `int`,
every `floatOutput` flag and every `quantum:format` attribute,
`readSampleTypeDepth` returns a depth of at least 8; the sample type is float
exactly when `d = 32` or `floatOutput` is set or the attribute is
"floating-point", and then the depth is 32; otherwise the type is integer and the
depth is `max(d, 8)`, which is not 32. -/
theorem C35_read_format_selection (floatOutput : Bool) (format : String) (d : Nat)
    (hd1 : 1 ≤ d) (hd : d < 2 ^ 31) :
    8 ≤ (readSampleTypeDepth floatOutput format d).2
      ∧ ((readSampleTypeDepth floatOutput format d).1 = SampleType.stFloat
          ↔ d = 32 ∨ floatOutput = true ∨ format = "floating-point")
      ∧ ((readSampleTypeDepth floatOutput format d).1 = SampleType.stFloat →
          (readSampleTypeDepth floatOutput format d).2 = 32)
      ∧ ((readSampleTypeDepth floatOutput format d).1 ≠ SampleType.stFloat →
          (readSampleTypeDepth floatOutput format d).1 = SampleType.stInteger
          ∧ (readSampleTypeDepth floatOutput format d).2 = max (d : Int) 8
          ∧ (readSampleTypeDepth floatOutput format d).2 ≠ 32) := by
  have hc : toI32 (d : Int) = d := by
    unfold toI32
    omega
  by_cases hf : floatOutput = true ∨ format = "floating-point"
  · have e : readSampleTypeDepth floatOutput format d = (SampleType.stFloat, 32) := by
      simp only [readSampleTypeDepth, if_pos hf]
      rfl
    rw [e]
    refine ⟨by norm_num, ⟨fun _ => ?_, fun _ => rfl⟩, fun _ => rfl, fun h => absurd rfl h⟩
    rcases hf with h | h
    · exact Or.inr (Or.inl h)
    · exact Or.inr (Or.inr h)
  · by_cases h32 : d = 32
    · subst h32
      have e : readSampleTypeDepth floatOutput format 32 = (SampleType.stFloat, 32) := by
        simp only [readSampleTypeDepth, if_neg hf]
        rfl
      rw [e]
      exact ⟨by norm_num, ⟨fun _ => Or.inl rfl, fun _ => rfl⟩, fun _ => rfl,
        fun h => absurd rfl h⟩
    · have hne : ¬ ((d : Int) = 32) := by omega
      have e : readSampleTypeDepth floatOutput format d
          = (SampleType.stInteger, max (d : Int) 8) := by
        simp only [readSampleTypeDepth, if_neg hf, hc, if_neg hne]
        by_cases h8 : (d : Int) < 8
        · rw [if_pos h8, max_eq_right (le_of_lt h8)]
        · rw [if_neg h8, max_eq_left (not_lt.1 h8)]
      rw [e]
      refine ⟨le_max_right _ _, ⟨fun h => (by cases h), fun h => ?_⟩, fun h => (by cases h),
        fun _ => ⟨rfl, rfl, ?_⟩⟩
      · rcases h with h | h | h
        · exact absurd h h32
        · exact absurd (Or.inl h) hf
        · exact absurd (Or.inr h) hf
      · show max (d : Int) 8 ≠ 32
        omega

theorem C35_read_format_selection_witness :
    8 ≤ (readSampleTypeDepth false "" 1).2
      ∧ ((readSampleTypeDepth false "" 1).1 = SampleType.stFloat
          ↔ 1 = 32 ∨ false = true ∨ "" = "floating-point")
      ∧ ((readSampleTypeDepth false "" 1).1 = SampleType.stFloat →
          (readSampleTypeDepth false "" 1).2 = 32)
      ∧ ((readSampleTypeDepth false "" 1).1 ≠ SampleType.stFloat →
          (readSampleTypeDepth false "" 1).1 = SampleType.stInteger
          ∧ (readSampleTypeDepth false "" 1).2 = max ((1 : Nat) : Int) 8
          ∧ (readSampleTypeDepth false "" 1).2 ≠ 32) :=
  C35_read_format_selection false "" 1 (by decide) (by decide)

/-! ### The decimal digits of a frame number -/

theorem toDigitsCore_append (b : Nat) : ∀ (fuel n : Nat) (ds : List Char),
    Nat.toDigitsCore b fuel n ds = Nat.toDigitsCore b fuel n [] ++ ds := by
  intro fuel
  induction fuel with
  | zero => intro n ds; rfl
  | succ fuel ih =>
    intro n ds
    simp only [Nat.toDigitsCore]
    by_cases h : n / b = 0
    · rw [if_pos h, if_pos h]
      rfl
    · rw [if_neg h, if_neg h, ih (n / b) (Nat.digitChar (n % b) :: ds),
        ih (n / b) [Nat.digitChar (n % b)], List.append_assoc]
      rfl

theorem toDigitsCore_fuel (b : Nat) (hb : 2 ≤ b) : ∀ (fuel1 fuel2 n : Nat),
    n < fuel1 → n < fuel2 → Nat.toDigitsCore b fuel1 n [] = Nat.toDigitsCore b fuel2 n [] := by
  intro fuel1
  induction fuel1 with
  | zero => intro fuel2 n h; omega
  | succ fuel1 ih =>
    intro fuel2 n h1 h2
    cases fuel2 with
    | zero => omega
    | succ fuel2 =>
      simp only [Nat.toDigitsCore]
      by_cases h : n / b = 0
      · rw [if_pos h, if_pos h]
      · rw [if_neg h, if_neg h, toDigitsCore_append b fuel1, toDigitsCore_append b fuel2]
        have hn : 0 < n := by
          rcases Nat.eq_zero_or_pos n with h0 | h0
          · rw [h0, Nat.zero_div] at h
            exact absurd rfl h
          · exact h0
        have hlt : n / b < n := Nat.div_lt_self hn hb
        rw [ih fuel2 (n / b) (by omega) (by omega)]

theorem toDigits_small {n : Nat} (h : n < 10) : Nat.toDigits 10 n = [Nat.digitChar n] := by
  unfold Nat.toDigits
  simp only [Nat.toDigitsCore]
  rw [if_pos (Nat.div_eq_of_lt h), Nat.mod_eq_of_lt h]

theorem toDigits_step {n : Nat} (h : 10 ≤ n) :
    Nat.toDigits 10 n = Nat.toDigits 10 (n / 10) ++ [Nat.digitChar (n % 10)] := by
  have hd : n / 10 ≠ 0 := by omega
  show Nat.toDigitsCore 10 (n + 1) n []
    = Nat.toDigitsCore 10 (n / 10 + 1) (n / 10) [] ++ [Nat.digitChar (n % 10)]
  rw [Nat.toDigitsCore, if_neg hd, toDigitsCore_append,
    toDigitsCore_fuel 10 (by norm_num) n (n / 10 + 1) (n / 10) (by omega) (by omega)]

theorem toDigits_length_pos (n : Nat) : 1 ≤ (Nat.toDigits 10 n).length := by
  by_cases h : n < 10
  · rw [toDigits_small h]
    exact le_refl _
  · rw [toDigits_step (by omega), List.length_append]
    exact Nat.le_add_left _ _

theorem toDigits_length_mono : ∀ (m n : Nat), n ≤ m →
    (Nat.toDigits 10 n).length ≤ (Nat.toDigits 10 m).length := by
  intro m
  induction m using Nat.strong_induction_on with
  | _ m ih =>
    intro n hnm
    by_cases hm : m < 10
    · rw [toDigits_small hm, toDigits_small (lt_of_le_of_lt hnm hm)]
      exact le_refl _
    · rw [toDigits_step (by omega : 10 ≤ m), List.length_append]
      by_cases hn : n < 10
      · rw [toDigits_small hn]
        exact Nat.le_add_left _ _
      · rw [toDigits_step (by omega : 10 ≤ n), List.length_append]
        exact Nat.add_le_add_right (ih (m / 10) (by omega) (n / 10) (by omega)) _

theorem digitChar_inj : ∀ a, a < 10 → ∀ b, b < 10 → Nat.digitChar a = Nat.digitChar b → a = b := by
  decide

theorem toDigits_inj : ∀ (m n : Nat), Nat.toDigits 10 n = Nat.toDigits 10 m → n = m := by
  intro m
  induction m using Nat.strong_induction_on with
  | _ m ih =>
    intro n h
    by_cases hm : m < 10
    · by_cases hn : n < 10
      · rw [toDigits_small hm, toDigits_small hn] at h
        exact digitChar_inj n hn m hm (List.cons.inj h).1
      · have hl := congrArg List.length h
        rw [toDigits_small hm, toDigits_step (by omega : 10 ≤ n), List.length_append] at hl
        have := toDigits_length_pos (n / 10)
        simp only [List.length_cons, List.length_nil] at hl
        omega
    · by_cases hn : n < 10
      · have hl := congrArg List.length h
        rw [toDigits_small hn, toDigits_step (by omega : 10 ≤ m), List.length_append] at hl
        have := toDigits_length_pos (m / 10)
        simp only [List.length_cons, List.length_nil] at hl
        omega
      · rw [toDigits_step (by omega : 10 ≤ m), toDigits_step (by omega : 10 ≤ n)] at h
        obtain ⟨h1, h2⟩ := List.append_inj' h rfl
        have e1 := ih (m / 10) (by omega) (n / 10) h1
        have e2 := digitChar_inj (n % 10) (Nat.mod_lt _ (by norm_num)) (m % 10)
          (Nat.mod_lt _ (by norm_num)) (List.cons.inj h2).1
        omega

theorem digitChar_lead : ∀ a, a < 10 → 1 ≤ a →
    Nat.digitChar a ≠ '0' ∧ Nat.digitChar a ≠ ' ' := by
  decide

theorem toDigits_head : ∀ (m : Nat), 1 ≤ m →
    ∃ c rest, Nat.toDigits 10 m = c :: rest ∧ c ≠ '0' ∧ c ≠ ' ' := by
  intro m
  induction m using Nat.strong_induction_on with
  | _ m ih =>
    intro h1
    by_cases hm : m < 10
    · exact ⟨Nat.digitChar m, [], toDigits_small hm, digitChar_lead m hm h1⟩
    · obtain ⟨c, rest, e, hc⟩ := ih (m / 10) (by omega) (by omega)
      exact ⟨c, rest ++ [Nat.digitChar (m % 10)], by
        rw [toDigits_step (by omega : 10 ≤ m), e]
        rfl, hc⟩

/-- The padded digits of two numbers `n < m` differ, for the padding characters
`0` and blank. -/
theorem leftpad_digits_ne (W : Nat) (ch : Char) (hch : ch = '0' ∨ ch = ' ') {n m : Nat}
    (hnm : n < m) :
    List.leftpad W ch (Nat.toDigits 10 n) ≠ List.leftpad W ch (Nat.toDigits 10 m) := by
  intro h
  have hlen := toDigits_length_mono m n (le_of_lt hnm)
  unfold List.leftpad at h
  have e : W - (Nat.toDigits 10 n).length
      = (W - (Nat.toDigits 10 m).length)
        + ((W - (Nat.toDigits 10 n).length) - (W - (Nat.toDigits 10 m).length)) := by omega
  rw [e, List.replicate_add, List.append_assoc] at h
  have h2 := List.append_cancel_left h
  cases hj : (W - (Nat.toDigits 10 n).length) - (W - (Nat.toDigits 10 m).length) with
  | zero =>
    rw [hj, List.replicate_zero, List.nil_append] at h2
    have := toDigits_inj m n h2
    omega
  | succ j =>
    obtain ⟨c, rest, ec, hc0, hcs⟩ := toDigits_head m (by omega)
    rw [hj, List.replicate_succ, List.cons_append, ec] at h2
    have hcc := (List.cons.inj h2).1
    rcases hch with r | r
    · exact hc0 (by rw [← hcc, r])
    · exact hcs (by rw [← hcc, r])

theorem leftpad_digits_length (W : Nat) (ch : Char) {n m : Nat} (hnm : n ≤ m) :
    (List.leftpad W ch (Nat.toDigits 10 n)).length
      ≤ (List.leftpad W ch (Nat.toDigits 10 m)).length := by
  rw [List.leftpad_length, List.leftpad_length]
  exact max_le_max (le_refl _) (toDigits_length_mono m n hnm)

/-! ### Distinct frame numbers -/

theorem step_control (f : List Char) (n m : Int) (pos : Nat) (s t : ScanState)
    (h : s.copyPos = t.copyPos ∧ s.minWidth = t.minWidth ∧ s.zeroPad = t.zeroPad
      ∧ s.percentSeen = t.percentSeen ∧ s.zeroPadSeen = t.zeroPadSeen
      ∧ s.minWidthSeen = t.minWidthSeen) :
    (scanStep f n pos s).copyPos = (scanStep f m pos t).copyPos
      ∧ (scanStep f n pos s).minWidth = (scanStep f m pos t).minWidth
      ∧ (scanStep f n pos s).zeroPad = (scanStep f m pos t).zeroPad
      ∧ (scanStep f n pos s).percentSeen = (scanStep f m pos t).percentSeen
      ∧ (scanStep f n pos s).zeroPadSeen = (scanStep f m pos t).zeroPadSeen
      ∧ (scanStep f n pos s).minWidthSeen = (scanStep f m pos t).minWidthSeen := by
  obtain ⟨r1, cp1, mw1, zp1, ps1, zps1, mws1⟩ := s
  obtain ⟨r2, cp2, mw2, zp2, ps2, zps2, mws2⟩ := t
  dsimp only at h
  obtain ⟨rfl, rfl, rfl, rfl, rfl, rfl⟩ := h
  unfold scanStep
  dsimp only
  split_ifs <;> exact ⟨rfl, rfl, rfl, rfl, rfl, rfl⟩

/-- The flags, the width and the copy position of the loop of `specialPrintf` do
not depend on the number. -/
theorem scan_control (f : List Char) (n m : Int) : ∀ pos,
    (scanState f n pos).copyPos = (scanState f m pos).copyPos
      ∧ (scanState f n pos).minWidth = (scanState f m pos).minWidth
      ∧ (scanState f n pos).zeroPad = (scanState f m pos).zeroPad
      ∧ (scanState f n pos).percentSeen = (scanState f m pos).percentSeen
      ∧ (scanState f n pos).zeroPadSeen = (scanState f m pos).zeroPadSeen
      ∧ (scanState f n pos).minWidthSeen = (scanState f m pos).minWidthSeen := by
  intro pos
  induction pos with
  | zero => exact ⟨rfl, rfl, rfl, rfl, rfl, rfl⟩
  | succ pos ih =>
    rw [scanState_succ, scanState_succ]
    exact step_control f n m pos _ _ ih

/-- The results of the loop of `specialPrintf` for two numbers `n < m`: equal
before the first substitution, different after it, and never longer for `n`. -/
theorem scan_pair (f : List Char) (n m : Nat) (hnm : n < m) : ∀ pos,
    (scanState f n pos).result.length ≤ (scanState f m pos).result.length
      ∧ ((∀ q, q < pos → ¬ substitutesAt f q) →
          (scanState f n pos).result = (scanState f m pos).result)
      ∧ ((∃ q, q < pos ∧ substitutesAt f q) →
          (scanState f n pos).result ≠ (scanState f m pos).result) := by
  intro pos
  induction pos with
  | zero =>
    refine ⟨le_refl _, fun _ => rfl, ?_⟩
    rintro ⟨q, hq, _⟩
    omega
  | succ pos ih =>
    obtain ⟨il, ie, id⟩ := ih
    obtain ⟨c1, c2, c3, c4, _, c6⟩ := scan_control f (n : Int) (m : Int) pos
    obtain ⟨_, _, _, z4, _, _⟩ := scan_control f (n : Int) 0 pos
    obtain ⟨nd, nn⟩ := step_summary f (n : Int) pos (scanState f n pos)
    obtain ⟨md, mn⟩ := step_summary f (m : Int) pos (scanState f m pos)
    rw [scanState_succ, scanState_succ]
    by_cases hsub : substitutesAt f pos
    · have hA : (scanState f n pos).percentSeen = true ∧ f.getD pos ' ' = 'd' :=
        ⟨z4.trans hsub.1, hsub.2⟩
      have hB : (scanState f m pos).percentSeen = true ∧ f.getD pos ' ' = 'd' :=
        ⟨c4.symm.trans hA.1, hsub.2⟩
      obtain ⟨a1, _, _⟩ := nd hA
      obtain ⟨b1, _, _⟩ := md hB
      rw [a1, b1, toStringInt_natCast, toStringInt_natCast, ← c2, ← c3, ← c6]
      have hch : (if (scanState f n pos).zeroPad = true then '0' else ' ') = '0'
          ∨ (if (scanState f n pos).zeroPad = true then '0' else ' ') = ' ' := by
        split
        · exact Or.inl rfl
        · exact Or.inr rfl
      have hlen := leftpad_digits_length
        (if (scanState f n pos).minWidthSeen = true then (scanState f n pos).minWidth else 0)
        (if (scanState f n pos).zeroPad = true then '0' else ' ') (le_of_lt hnm)
      have hne := leftpad_digits_ne
        (if (scanState f n pos).minWidthSeen = true then (scanState f n pos).minWidth else 0)
        (if (scanState f n pos).zeroPad = true then '0' else ' ') hch hnm
      refine ⟨?_, fun hno => absurd hsub (hno pos (Nat.lt_succ_self pos)), ?_⟩
      · rw [List.length_append, List.length_append]
        exact Nat.add_le_add il hlen
      · intro _ heq
        by_cases hearlier : ∃ q, q < pos ∧ substitutesAt f q
        · have hl := congrArg List.length heq
          rw [List.length_append, List.length_append] at hl
          exact id hearlier (List.append_inj heq (by omega)).1
        · have hsame := ie (fun q hq hs => hearlier ⟨q, hq, hs⟩)
          rw [hsame] at heq
          exact hne (List.append_cancel_left heq)
    · have hA : ¬ ((scanState f n pos).percentSeen = true ∧ f.getD pos ' ' = 'd') :=
        fun h => hsub ⟨z4.symm.trans h.1, h.2⟩
      have hB : ¬ ((scanState f m pos).percentSeen = true ∧ f.getD pos ' ' = 'd') :=
        fun h => hA ⟨c4.trans h.1, h.2⟩
      obtain ⟨a1, a2⟩ := nn hA
      obtain ⟨b1, b2⟩ := mn hB
      have hrest : (∃ q, q < pos + 1 ∧ substitutesAt f q) → ∃ q, q < pos ∧ substitutesAt f q := by
        rintro ⟨q, hq, hs⟩
        have hne : q ≠ pos := fun e => hsub (e ▸ hs)
        exact ⟨q, by omega, hs⟩
      by_cases hp : f.getD pos ' ' = '%' ∧ (scanState f n pos).percentSeen = false
      · have hp2 : f.getD pos ' ' = '%' ∧ (scanState f m pos).percentSeen = false :=
          ⟨hp.1, c4.symm.trans hp.2⟩
        obtain ⟨r1, _, _⟩ := a1 hp
        obtain ⟨r2, _, _⟩ := b1 hp2
        rw [r1, r2, ← c1]
        refine ⟨?_, ?_, ?_⟩
        · rw [List.length_append, List.length_append]
          exact Nat.add_le_add_right il _
        · intro hno
          rw [ie (fun q hq => hno q (by omega))]
        · intro hex heq
          exact id (hrest hex) (List.append_cancel_right heq)
      · have hp2 : ¬ (f.getD pos ' ' = '%' ∧ (scanState f m pos).percentSeen = false) :=
          fun h => hp ⟨h.1, c4.trans h.2⟩
        obtain ⟨r1, _, _⟩ := a2 hp
        obtain ⟨r2, _, _⟩ := b2 hp2
        rw [r1, r2]
        exact ⟨il, fun hno => ie (fun q hq => hno q (by omega)), fun hex => id (hrest hex)⟩

/-- C33. Distinct frame numbers give distinct filenames: for every filename on
which `specialPrintf` substitutes the number at least once and all numbers
`0 ≤ n < m`, `specialPrintf(f, n)` and `specialPrintf(f, m)` are different. -/
theorem C33_distinct_frame_numbers (f : List Char) (n m : Int) (hsub : substitutes f)
    (h0 : 0 ≤ n) (hnm : n < m) : specialPrintf f n ≠ specialPrintf f m := by
  obtain ⟨a, rfl⟩ := Int.eq_ofNat_of_zero_le h0
  obtain ⟨b, rfl⟩ := Int.eq_ofNat_of_zero_le (le_trans h0 (le_of_lt hnm))
  have hab : a < b := by exact_mod_cast hnm
  obtain ⟨_, _, hd⟩ := scan_pair f a b hab f.length
  obtain ⟨c1, _⟩ := scan_control f (a : Int) (b : Int) f.length
  intro heq
  unfold specialPrintf at heq
  dsimp only at heq
  rw [← c1] at heq
  exact hd hsub (List.append_cancel_right heq)

theorem C33_distinct_frame_numbers_witness :
    specialPrintf "img%03d.png".toList 7 ≠ specialPrintf "img%03d.png".toList 8 :=
  C33_distinct_frame_numbers "img%03d.png".toList 7 8 ⟨6, by decide, by decide⟩ (by decide)
    (by decide)

/-! ### Rounding to a floating-point format -/

theorem roundHalfEven_intCast (k : Int) : roundHalfEven (k : ℚ) = k := by
  unfold roundHalfEven
  rw [Int.floor_intCast, sub_self, if_pos (by norm_num)]

theorem log2_eq {x : ℚ} {L : Int} (h1 : (2 : ℚ) ^ L ≤ |x|) (h2 : |x| < (2 : ℚ) ^ (L + 1)) :
    Int.log 2 |x| = L := by
  have hpos : 0 < |x| := lt_of_lt_of_le (zpow_pos (by norm_num) L) h1
  have a : L ≤ Int.log 2 |x| := by
    rw [← Int.zpow_le_iff_le_log (by norm_num) hpos]
    exact_mod_cast h1
  have b : Int.log 2 |x| < L + 1 := by
    rw [← Int.lt_zpow_iff_log_lt (by norm_num) hpos]
    exact_mod_cast h2
  omega

/-- The rounding of a number in the binade `[2 ^ L, 2 ^ (L + 1))` of the normal
range. -/
theorem roundTo_of_log (fmt : FloatFormat) {x : ℚ} {L : Int} (h1 : (2 : ℚ) ^ L ≤ |x|)
    (h2 : |x| < (2 : ℚ) ^ (L + 1)) (hL : fmt.emin ≤ L) :
    roundTo fmt x
      = (roundHalfEven (x / 2 ^ (L - ((fmt.prec : Int) - 1))) : ℚ)
          * 2 ^ (L - ((fmt.prec : Int) - 1)) := by
  unfold roundTo ulpExp
  rw [log2_eq h1 h2, max_eq_left hL]

/-- A number `m * 2 ^ e` with `|m| < 2 ^ prec` and `e` not below the exponent of
the least subnormal number is a value of the format: rounding leaves it as it is. -/
theorem roundTo_exact (fmt : FloatFormat) (m e : Int) (hm : |m| < 2 ^ fmt.prec)
    (he : fmt.emin - ((fmt.prec : Int) - 1) ≤ e) :
    roundTo fmt ((m : ℚ) * 2 ^ e) = (m : ℚ) * 2 ^ e := by
  by_cases h0 : m = 0
  · subst h0
    unfold roundTo
    rw [Int.cast_zero, zero_mul, zero_div]
    have := roundHalfEven_intCast 0
    rw [Int.cast_zero] at this
    rw [this, Int.cast_zero, zero_mul]
  · have h2 : (0 : ℚ) < 2 := by norm_num
    have hxpos : 0 < |(m : ℚ) * 2 ^ e| := by
      rw [abs_pos]
      exact mul_ne_zero (Int.cast_ne_zero.2 h0) (zpow_ne_zero _ (by norm_num))
    have hlog : Int.log 2 |(m : ℚ) * 2 ^ e| < (fmt.prec : Int) + e := by
      rw [← Int.lt_zpow_iff_log_lt (by norm_num) hxpos]
      rw [abs_mul, abs_of_pos (zpow_pos h2 e), zpow_add₀ (by norm_num)]
      apply mul_lt_mul_of_pos_right _ (zpow_pos h2 e)
      have : ((|m| : Int) : ℚ) < ((2 ^ fmt.prec : Int) : ℚ) := by exact_mod_cast hm
      simpa using this
    have hu : ulpExp fmt ((m : ℚ) * 2 ^ e) ≤ e := by
      unfold ulpExp
      have := max_le (a := Int.log 2 |(m : ℚ) * 2 ^ e|) (b := fmt.emin)
        (c := e + ((fmt.prec : Int) - 1)) (by omega) (by omega)
      omega
    unfold roundTo
    generalize ulpExp fmt ((m : ℚ) * 2 ^ e) = u at hu
    obtain ⟨d, hd⟩ := Int.eq_ofNat_of_zero_le (sub_nonneg.2 hu)
    have he2 : e = u + d := by omega
    have hq : (m : ℚ) * 2 ^ e / 2 ^ u = ((m * 2 ^ d : Int) : ℚ) := by
      rw [he2, zpow_add₀ (by norm_num), zpow_natCast]
      push_cast
      field_simp
      ring
    rw [hq, roundHalfEven_intCast, he2, zpow_add₀ (by norm_num), zpow_natCast]
    push_cast
    ring

/-- Rounding to the nearest integer moves a number by at most a half. -/
theorem roundHalfEven_error (q : ℚ) : |(roundHalfEven q : ℚ) - q| ≤ 1 / 2 := by
  have h1 : (⌊q⌋ : ℚ) ≤ q := Int.floor_le q
  have h2 : q < (⌊q⌋ : ℚ) + 1 := Int.lt_floor_add_one q
  unfold roundHalfEven
  by_cases c1 : q - ⌊q⌋ < 1 / 2
  · rw [if_pos c1, abs_le]
    constructor <;> linarith
  · rw [if_neg c1]
    by_cases c2 : 1 / 2 < q - ⌊q⌋
    · rw [if_pos c2, abs_le]
      push_cast
      constructor <;> linarith
    · rw [if_neg c2]
      have e : q - ⌊q⌋ = 1 / 2 := le_antisymm (not_lt.1 c2) (not_lt.1 c1)
      by_cases c3 : ⌊q⌋ % 2 = 0
      · rw [if_pos c3, abs_le]
        constructor <;> linarith
      · rw [if_neg c3, abs_le]
        push_cast
        constructor <;> linarith

/-- A rounding moves the exact result by at most half a unit in the last place. -/
theorem roundTo_error (fmt : FloatFormat) (x : ℚ) :
    |roundTo fmt x - x| ≤ 2 ^ ulpExp fmt x / 2 := by
  have hpos : (0 : ℚ) < 2 ^ ulpExp fmt x := zpow_pos (by norm_num) _
  have h := roundHalfEven_error (x / 2 ^ ulpExp fmt x)
  have e : roundTo fmt x - x
      = ((roundHalfEven (x / 2 ^ ulpExp fmt x) : ℚ) - x / 2 ^ ulpExp fmt x)
          * 2 ^ ulpExp fmt x := by
    unfold roundTo
    field_simp
  rw [e, abs_mul, abs_of_pos hpos]
  calc |(roundHalfEven (x / 2 ^ ulpExp fmt x) : ℚ) - x / 2 ^ ulpExp fmt x| * 2 ^ ulpExp fmt x
      ≤ 1 / 2 * 2 ^ ulpExp fmt x := mul_le_mul_of_nonneg_right h (le_of_lt hpos)
    _ = 2 ^ ulpExp fmt x / 2 := by ring

/-- A number strictly within a half of an integer rounds to that integer. -/
theorem roundHalfEven_near (q : ℚ) (k : Int) (h1 : (k : ℚ) - 1 / 2 < q)
    (h2 : q < (k : ℚ) + 1 / 2) : roundHalfEven q = k := by
  unfold roundHalfEven
  by_cases hq : (k : ℚ) ≤ q
  · have hf : ⌊q⌋ = k := by
      rw [Int.floor_eq_iff]
      constructor
      · exact hq
      · linarith
    rw [hf, if_pos (by linarith)]
  · have hq2 : q < (k : ℚ) := lt_of_not_le hq
    have hf : ⌊q⌋ = k - 1 := by
      rw [Int.floor_eq_iff]
      push_cast
      constructor
      · linarith
      · linarith
    rw [hf]
    push_cast
    rw [if_neg (by linarith), if_pos (by linarith)]
    ring

/-- A tie goes to the even neighbour. -/
theorem roundHalfEven_tie (k : Int) :
    roundHalfEven ((k : ℚ) + 1 / 2) = if k % 2 = 0 then k else k + 1 := by
  unfold roundHalfEven
  have hf : ⌊(k : ℚ) + 1 / 2⌋ = k := by
    rw [Int.floor_eq_iff]
    constructor
    · linarith
    · linarith
  rw [hf, if_neg (by norm_num), if_neg (by norm_num)]

/-- Evaluation of a rounding to `float` from the binade of the argument. -/
theorem roundTo32_eval (x : ℚ) (L k : Int) (h1 : (2 : ℚ) ^ L ≤ |x|)
    (h2 : |x| < (2 : ℚ) ^ (L + 1)) (hL : -126 ≤ L)
    (hk : roundHalfEven (x / 2 ^ (L - 23)) = k) :
    roundTo binary32 x = (k : ℚ) * 2 ^ (L - 23) := by
  have h := roundTo_of_log binary32 h1 h2 hL
  have e : L - (((binary32.prec : Nat) : Int) - 1) = L - 23 := by
    show L - (((24 : Nat) : Int) - 1) = L - 23
    norm_num
  rw [e, hk] at h
  exact h

/-- An integer below `2 ^ 24` in absolute value is a `float`. -/
theorem roundTo32_int (m : Int) (hm : |m| < 2 ^ 24) : roundTo binary32 (m : ℚ) = m := by
  have h := roundTo_exact binary32 m 0 hm (by show (-126 : Int) - (((24 : Nat) : Int) - 1) ≤ 0; norm_num)
  simpa using h

/-- A number `m * 2 ^ e` with `|m| < 2 ^ 24` and `e ≥ -149` is a `float`, hence a
value of every format that holds the `float`s. -/
theorem roundTo_wide (fmt : FloatFormat) (hw : fmt.Wide) (m e : Int) (hm : |m| < 2 ^ 24)
    (he : -149 ≤ e) : roundTo fmt ((m : ℚ) * 2 ^ e) = (m : ℚ) * 2 ^ e := by
  obtain ⟨hp, hemin, _⟩ := hw
  refine roundTo_exact fmt m e (lt_of_lt_of_le hm ?_) ?_
  · exact pow_le_pow_right₀ (by norm_num) hp
  · have : (24 : Int) ≤ (fmt.prec : Int) := by exact_mod_cast hp
    omega

theorem roundTo_wide_int (fmt : FloatFormat) (hw : fmt.Wide) (m : Int) (hm : |m| < 2 ^ 24) :
    roundTo fmt (m : ℚ) = m := by
  have h := roundTo_wide fmt hw m 0 hm (by norm_num)
  simpa using h

/-- A half-integer below `2 ^ 23` in absolute value is a `float`. -/
theorem roundTo_wide_half (fmt : FloatFormat) (hw : fmt.Wide) (m : Int) (hm : |m| < 2 ^ 23) :
    roundTo fmt ((m : ℚ) + 1 / 2) = (m : ℚ) + 1 / 2 := by
  have hm2 : |2 * m + 1| < 2 ^ 24 := by
    rw [abs_lt] at hm ⊢
    constructor <;> omega
  have h := roundTo_wide fmt hw (2 * m + 1) (-1) hm2 (by norm_num)
  have e : (((2 * m + 1 : Int)) : ℚ) * 2 ^ (-1 : Int) = (m : ℚ) + 1 / 2 := by
    push_cast
    rw [zpow_neg, zpow_one]
    ring
  rw [e] at h
  exact h

theorem binary32_wide : binary32.Wide := ⟨le_refl _, le_refl _, le_refl _⟩

theorem shlRun_mask {B : Nat} (hB : B ≤ 31) : toI32 (shlRun 1 B - 1) = 2 ^ B - 1 := by
  interval_cases B <;> decide

/-- `outScale` from the two `int` operands of line 932, when both are `float`s. -/
theorem outScale_fp_of {Q B : Nat} {n d : Int} (hn : toI32 (shlRun 1 B - 1) = n)
    (hd : toI32 (shlI32 1 Q - 1) = d) (hn24 : |n| < 2 ^ 24) (hd24 : |d| < 2 ^ 24) :
    outScale_fp Q B = roundTo binary32 ((n : ℚ) / (d : ℚ)) := by
  rw [outScale_fp, hn, hd, roundTo32_int n hn24, roundTo32_int d hd24]

theorem outScale_fp_32_8 : outScale_fp 32 8 = -255 := by
  rw [outScale_fp_of (n := 255) (d := -1) (by decide) (by decide) (by norm_num) (by norm_num)]
  have := roundTo32_int (-255) (by norm_num)
  norm_num at this ⊢
  exact this

theorem outScale_fp_16_10 : outScale_fp 16 10 = 65473 / 4194304 := by
  rw [outScale_fp_of (n := 1023) (d := 65535) (by decide) (by decide) (by norm_num)
      (by norm_num),
    roundTo32_eval _ (-7) 16761088 (by norm_num [abs_of_pos]) (by norm_num [abs_of_pos])
      (by norm_num) (roundHalfEven_near _ _ (by norm_num) (by norm_num))]
  norm_num

theorem outScale_fp_16_12 : outScale_fp 16 12 = 65521 / 1048576 := by
  rw [outScale_fp_of (n := 4095) (d := 65535) (by decide) (by decide) (by norm_num)
      (by norm_num),
    roundTo32_eval _ (-5) 16773376 (by norm_num [abs_of_pos]) (by norm_num [abs_of_pos])
      (by norm_num) (roundHalfEven_near _ _ (by norm_num) (by norm_num))]
  norm_num

theorem outScale_fp_16_24 : outScale_fp 16 24 = 65537 / 256 := by
  rw [outScale_fp_of (n := 16777215) (d := 65535) (by decide) (by decide) (by norm_num)
      (by norm_num),
    roundTo32_eval _ 8 8388736 (by norm_num [abs_of_pos]) (by norm_num [abs_of_pos])
      (by norm_num) (roundHalfEven_near _ _ (by norm_num) (by norm_num))]
  norm_num

theorem outScale_fp_16_32 : outScale_fp 16 32 = 0 := by
  rw [outScale_fp_of (n := 0) (d := 65535) (by decide) (by decide) (by norm_num) (by norm_num)]
  have := roundTo32_int 0 (by norm_num)
  simpa using this

/-- The stored sample from the value of the rounded sum. -/
theorem unpackSample_fp_eq {fmt : FloatFormat} {bytes n : Nat} {scale p : ℚ}
    (hf : roundTo fmt (roundTo fmt (p * scale) + 1 / 2) = (n : ℚ) ∨
      roundTo fmt (roundTo fmt (p * scale) + 1 / 2) = (n : ℚ) + 1 / 2)
    (h32 : n < 2 ^ 32) (hb : n < 2 ^ (8 * bytes)) :
    unpackSample_fp fmt bytes scale p = n := by
  have h32' : (n : Int) < 2 ^ 32 := by exact_mod_cast h32
  have hn : (0 : ℚ) ≤ (n : ℚ) := Nat.cast_nonneg n
  have hfl : ⌊roundTo fmt (roundTo fmt (p * scale) + 1 / 2)⌋ = (n : Int) := by
    rcases hf with h | h
    · rw [h]; exact Int.floor_natCast n
    · rw [h]; exact floor_add_half n
  have h0 : 0 ≤ roundTo fmt (roundTo fmt (p * scale) + 1 / 2) := by
    rcases hf with h | h <;> rw [h] <;> linarith
  rw [unpackSample_fp, storeT, toUnsigned, truncQ, if_pos h0, hfl,
    Int.emod_eq_of_lt (Int.natCast_nonneg n) h32', Int.toNat_natCast]
  exact Nat.mod_eq_of_lt hb

/-- The code at the quantum `45772` of a 16-bit build read at depth 10: the
stored sample is `715`, while `45772 * 1023 / 65535 + 1/2` is below `715`. -/
theorem unpackSample_fp_depth10 :
    unpackSample_fp binary32 2 (outScale_fp 16 10) 45772 = 715
      ∧ ⌊(45772 : ℚ) * (((2 : ℚ) ^ 10 - 1) / ((2 : ℚ) ^ 16 - 1)) + 1 / 2⌋ = 714 := by
  constructor
  · refine unpackSample_fp_eq (Or.inl ?_) (by norm_num) (by norm_num)
    rw [outScale_fp_16_10,
      roundTo32_eval (45772 * (65473 / 4194304)) 9 11706368 (by norm_num [abs_of_pos])
        (by norm_num [abs_of_pos]) (by norm_num)
        (roundHalfEven_near _ _ (by norm_num) (by norm_num)),
      roundTo32_eval _ 9 11714560 (by norm_num [abs_of_pos])
        (by norm_num [abs_of_pos]) (by norm_num)
        (roundHalfEven_near _ _ (by norm_num) (by norm_num))]
    norm_num
  · norm_num [Int.floor_eq_iff]

/-- The code at the quantum `34960` of a 16-bit build read at depth 12: the
stored sample is `2185`, while `34960 * 4095 / 65535 + 1/2` is below `2185`. -/
theorem unpackSample_fp_depth12 :
    unpackSample_fp binary32 2 (outScale_fp 16 12) 34960 = 2185
      ∧ ⌊(34960 : ℚ) * (((2 : ℚ) ^ 12 - 1) / ((2 : ℚ) ^ 16 - 1)) + 1 / 2⌋ = 2184 := by
  constructor
  · refine unpackSample_fp_eq (Or.inl ?_) (by norm_num) (by norm_num)
    rw [outScale_fp_16_12,
      roundTo32_eval (34960 * (65521 / 1048576)) 11 8947712 (by norm_num [abs_of_pos])
        (by norm_num [abs_of_pos]) (by norm_num)
        (roundHalfEven_near _ _ (by norm_num) (by norm_num)),
      roundTo32_eval _ 11 8949760 (by norm_num [abs_of_pos])
        (by norm_num [abs_of_pos]) (by norm_num)
        (roundHalfEven_near _ _ (by norm_num) (by norm_num))]
    norm_num
  · norm_num [Int.floor_eq_iff]

/-- The code at the white quantum of a 16-bit build read at depth 24: the stored
sample is `2 ^ 24`. -/
theorem unpackSample_fp_depth24 :
    unpackSample_fp binary32 4 (outScale_fp 16 24) 65535 = 16777216 := by
  refine unpackSample_fp_eq (Or.inl ?_) (by norm_num) (by norm_num)
  rw [outScale_fp_16_24,
    roundTo32_eval (65535 * (65537 / 256)) 23 16777216 (by norm_num [abs_of_pos])
      (by norm_num [abs_of_pos]) (by norm_num)
      (roundHalfEven_near _ _ (by norm_num) (by norm_num)),
    roundTo32_eval _ 24 8388608 (by norm_num [abs_of_pos])
      (by norm_num [abs_of_pos]) (by norm_num)
      (roundHalfEven_near _ _ (by norm_num) (by norm_num))]
  norm_num

/-- With a read scale of zero every quantum is read as zero. -/
theorem unpackSample_fp_zero (fmt : FloatFormat) (hw : fmt.Wide) (bytes : Nat) (p : ℚ) :
    unpackSample_fp fmt bytes 0 p = 0 := by
  have h0 : roundTo fmt (0 : ℚ) = 0 := by
    have := roundTo_wide_int fmt hw 0 (by norm_num)
    simpa using this
  have hh : roundTo fmt ((0 : ℚ) + 1 / 2) = 0 + 1 / 2 := by
    have := roundTo_wide_half fmt hw 0 (by norm_num)
    simpa using this
  have := @unpackSample_fp_eq fmt bytes 0 0 p
    (Or.inr (by rw [mul_zero, h0]; simpa using hh)) (by norm_num) (Nat.pow_pos (by norm_num))
  simpa using this

/-- The code at depth 32 in a 16-bit build: the numerator of line 932 is
`(1 << 0) - 1`, the read scale is zero and the quantum `131070` is read as `0`. -/
theorem unpackSample_fp_depth32 :
    unpackSample_fp binary32 4 (outScale_fp 16 32) 131070 = 0 := by
  rw [outScale_fp_16_32]
  exact unpackSample_fp_zero binary32 binary32_wide 4 _

/-- C15. The unpacked value leaves the range `[0, 2 ^ B - 1]` in the code.  In a
build of quantum depth 32 the `float` `outScale` for 8-bit samples is `-255`:
the quantum `1` gives the sum `-254.5`, which the cast to `unsigned` turns into
`4294967042`, above `255`, and the store into a byte truncates to `2`, where
`floor (1 * (2 ^ 8 - 1) / (2 ^ 32 - 1) + 1/2)` is `0`.  In a build of quantum
depth 16 read at depth 24 the white quantum `65535` is stored as `2 ^ 24`,
above `2 ^ 24 - 1`, where `floor (65535 * (2 ^ 24 - 1) / (2 ^ 16 - 1) + 1/2)`
is `2 ^ 24 - 1`. -/
theorem C15_unpacked_range :
    outScale_fp 32 8 = -255
      ∧ (∀ fmt : FloatFormat, fmt.Wide →
          roundTo fmt (roundTo fmt ((1 : ℚ) * outScale_fp 32 8) + 1 / 2) = -509 / 2
            ∧ unpackSample_fp fmt 1 (outScale_fp 32 8) 1 = 2)
      ∧ toUnsigned (-509 / 2) = 4294967042
      ∧ ¬ toUnsigned (-509 / 2) ≤ 2 ^ 8 - 1
      ∧ ⌊(1 : ℚ) * (((2 : ℚ) ^ 8 - 1) / ((2 : ℚ) ^ 32 - 1)) + 1 / 2⌋ = 0
      ∧ unpackSample_fp binary32 4 (outScale_fp 16 24) 65535 = 16777216
      ∧ ¬ unpackSample_fp binary32 4 (outScale_fp 16 24) 65535 ≤ 2 ^ 24 - 1
      ∧ ⌊(65535 : ℚ) * (((2 : ℚ) ^ 24 - 1) / ((2 : ℚ) ^ 16 - 1)) + 1 / 2⌋ = 2 ^ 24 - 1 := by
  have h := outScale_fp_32_8
  have hu : toUnsigned (-509 / 2) = 4294967042 := by
    have hc : ⌈(-509 / 2 : ℚ)⌉ = -254 := by
      rw [Int.ceil_eq_iff]
      constructor <;> norm_num
    rw [toUnsigned, truncQ, if_neg (by norm_num), hc]
    decide
  have hsum : ∀ fmt : FloatFormat, fmt.Wide →
      roundTo fmt (roundTo fmt ((1 : ℚ) * outScale_fp 32 8) + 1 / 2) = -509 / 2 := by
    intro fmt hw
    have h1 : roundTo fmt ((1 : ℚ) * -255) = -255 := by
      have := roundTo_wide_int fmt hw (-255) (by norm_num)
      norm_num at this ⊢
      exact this
    have h2 : roundTo fmt ((-255 : ℚ) + 1 / 2) = -255 + 1 / 2 := by
      have := roundTo_wide_half fmt hw (-255) (by norm_num)
      norm_num at this ⊢
      exact this
    rw [h, h1, h2]
    norm_num
  refine ⟨h, fun fmt hw => ⟨hsum fmt hw, ?_⟩, hu, ?_, ?_, unpackSample_fp_depth24, ?_, ?_⟩
  · rw [unpackSample_fp, one_mul] 
    have := hsum fmt hw
    rw [one_mul] at this
    rw [this, hu]
    decide
  · rw [hu]; norm_num
  · norm_num [Int.floor_eq_iff]
  · rw [unpackSample_fp_depth24]; norm_num
  · norm_num [Int.floor_eq_iff]

/-! ### The read paths in the arithmetic of the machine -/

theorem unpackSample_fp_floor (fmt : FloatFormat) (bytes : Nat) (scale p : ℚ)
    (h : 0 ≤ roundTo fmt (roundTo fmt (p * scale) + 1 / 2)) :
    unpackSample_fp fmt bytes scale p
      = Int.toNat (⌊roundTo fmt (roundTo fmt (p * scale) + 1 / 2)⌋ % 2 ^ 32)
          % 2 ^ (8 * bytes) := by
  rw [unpackSample_fp, storeT, toUnsigned, truncQ, if_pos h]

/-- The colour samples that the row loops of the read path leave in an RGB
frame, for any conversion of a quantum to a sample. -/
theorem unpackLoop_rgb {α : Type} (conv : ℚ → α) (tBytes : Nat) (strideR strideG strideB : Nat)
    (image : MagickImage) (width height x y : Nat)
    (hR : width ≤ strideR / tBytes) (hG : width ≤ strideG / tBytes)
    (hB : width ≤ strideB / tBytes) (hx : x < width) (hy : y < height)
    (wa : Bool) (sA : Nat) (st0 : ReadState α) (e1 : st0.r = 0) (e2 : st0.g = 0)
    (e3 : st0.b = 0) :
    (unpackLoop conv wa tBytes 1 2 strideR strideG strideB sA image width height st0).planes 0
        (y * (strideR / tBytes) + x)
      = conv (image.pixels y (x * image.channels + image.rOff))
    ∧ (unpackLoop conv wa tBytes 1 2 strideR strideG strideB sA image width height st0).planes 1
        (y * (strideG / tBytes) + x)
      = conv (image.pixels y (x * image.channels + image.gOff))
    ∧ (unpackLoop conv wa tBytes 1 2 strideR strideG strideB sA image width height st0).planes 2
        (y * (strideB / tBytes) + x)
      = conv (image.pixels y (x * image.channels + image.bOff)) := by
  obtain ⟨_, iR, iG, iB, _, _⟩ := unpackLoop_spec conv wa tBytes 1 2 strideR strideG strideB sA
    image width st0 (by decide) (by decide) (by decide) height
  have r1 := iR hR y x hy hx
  have g1 := iG hG y x hy hx
  have b1 := iB hB y x hy hx
  rw [e1, Nat.zero_add] at r1
  rw [e2, Nat.zero_add] at g1
  rw [e3, Nat.zero_add] at b1
  exact ⟨r1, g1, b1⟩

/-- C9. Integer unpacker, in the arithmetic of the machine: for an RGB frame
whose rows do not overlap (`width` samples fit a stride) and every pixel
`(x, y)` with `x < width` and `y < height`, `readImageHelper` leaves in each
colour plane `c` the value `(unsigned)(src[y][x * channels + off_c] * outScale + .5f)`
stored in the sample type, whether an alpha frame is requested or not; when one
is requested and `aOff ≥ 0` the alpha sample `(x, y)` follows the same rule with
`aOff`.  The product and the sum are those of the format `fmt` of `Quantum`,
each rounded to nearest, and `outScale` is the `float` of line 932; when the
rounded sum is not negative the stored value is its floor, reduced to 32 bits
and to the sample type. -/
theorem C9_integer_unpacker (fmt : FloatFormat) (cfg : Build) (tBytes : Nat) (frame : Frame Nat)
    (alphaFrame : Option (Frame Nat)) (image : MagickImage) (width height B x y : Nat)
    (hR : width ≤ frame.stride 0 / tBytes) (hG : width ≤ frame.stride 1 / tBytes)
    (hB : width ≤ frame.stride 2 / tBytes)
    (hA : ∀ alpha, alphaFrame = some alpha → width ≤ alpha.stride 0 / tBytes)
    (hx : x < width) (hy : y < height) :
    (readImageHelper_fp fmt cfg tBytes frame alphaFrame false image width height B).1.plane 0
        (y * (frame.stride 0 / tBytes) + x)
      = unpackSample_fp fmt tBytes (outScale_fp cfg.Q B)
          (image.pixels y (x * image.channels + image.rOff))
    ∧ (readImageHelper_fp fmt cfg tBytes frame alphaFrame false image width height B).1.plane 1
        (y * (frame.stride 1 / tBytes) + x)
      = unpackSample_fp fmt tBytes (outScale_fp cfg.Q B)
          (image.pixels y (x * image.channels + image.gOff))
    ∧ (readImageHelper_fp fmt cfg tBytes frame alphaFrame false image width height B).1.plane 2
        (y * (frame.stride 2 / tBytes) + x)
      = unpackSample_fp fmt tBytes (outScale_fp cfg.Q B)
          (image.pixels y (x * image.channels + image.bOff))
    ∧ (∀ alpha, alphaFrame = some alpha → 0 ≤ image.aOff →
        Option.map (fun f => f.plane 0 (y * (alpha.stride 0 / tBytes) + x))
            (readImageHelper_fp fmt cfg tBytes frame alphaFrame false image width height B).2
          = some (unpackSample_fp fmt tBytes (outScale_fp cfg.Q B)
              (image.pixels y (x * image.channels + image.aOff.toNat))))
    ∧ (∀ p : ℚ, 0 ≤ roundTo fmt (roundTo fmt (p * outScale_fp cfg.Q B) + 1 / 2) →
        unpackSample_fp fmt tBytes (outScale_fp cfg.Q B) p
          = Int.toNat (⌊roundTo fmt (roundTo fmt (p * outScale_fp cfg.Q B) + 1 / 2)⌋ % 2 ^ 32)
              % 2 ^ (8 * tBytes)) := by
  have key := unpackLoop_rgb (unpackSample_fp fmt tBytes (outScale_fp cfg.Q B)) tBytes
    (frame.stride 0) (frame.stride 1) (frame.stride 2) image width height x y hR hG hB hx hy
  refine ⟨?_, ?_, ?_, ?_, fun p hp => unpackSample_fp_floor fmt tBytes _ p hp⟩
  · cases alphaFrame with
    | none => exact (key false 0 _ rfl rfl rfl).1
    | some alpha =>
      by_cases h : image.aOff ≥ 0
      · simp only [readImageHelper_fp, if_pos h]
        exact (key true _ _ rfl rfl rfl).1
      · simp only [readImageHelper_fp, if_neg h]
        exact (key false _ _ rfl rfl rfl).1
  · cases alphaFrame with
    | none => exact (key false 0 _ rfl rfl rfl).2.1
    | some alpha =>
      by_cases h : image.aOff ≥ 0
      · simp only [readImageHelper_fp, if_pos h]
        exact (key true _ _ rfl rfl rfl).2.1
      · simp only [readImageHelper_fp, if_neg h]
        exact (key false _ _ rfl rfl rfl).2.1
  · cases alphaFrame with
    | none => exact (key false 0 _ rfl rfl rfl).2.2
    | some alpha =>
      by_cases h : image.aOff ≥ 0
      · simp only [readImageHelper_fp, if_pos h]
        exact (key true _ _ rfl rfl rfl).2.2
      · simp only [readImageHelper_fp, if_neg h]
        exact (key false _ _ rfl rfl rfl).2.2
  · intro alpha hal h
    subst hal
    obtain ⟨_, _, _, _, iA, _⟩ := unpackLoop_spec
      (unpackSample_fp fmt tBytes (outScale_fp cfg.Q B)) true
      tBytes 1 2 (frame.stride 0) (frame.stride 1) (frame.stride 2) (alpha.stride 0) image width
      { planes := frame.plane, alpha := alpha.plane 0, r := 0, g := 0, b := 0, a := 0 }
      (by decide) (by decide) (by decide) height
    have a1 := iA rfl (hA alpha rfl) y x hy hx
    rw [Nat.zero_add, alpha_index x _ h] at a1
    simp only [readImageHelper_fp, if_pos (show image.aOff ≥ 0 from h), Option.map_some',
      Function.update_same]
    exact congrArg some a1

theorem C9_integer_unpacker_witness :
    (readImageHelper_fp binary32 ⟨8, 4, true⟩ 1 demoFrame (some demoAlpha) false demoImage
        2 2 8).1.plane 0 (1 * (demoFrame.stride 0 / 1) + 1)
      = unpackSample_fp binary32 1 (outScale_fp 8 8)
          (demoImage.pixels 1 (1 * demoImage.channels + demoImage.rOff))
    ∧ (readImageHelper_fp binary32 ⟨8, 4, true⟩ 1 demoFrame (some demoAlpha) false demoImage
        2 2 8).1.plane 1 (1 * (demoFrame.stride 1 / 1) + 1)
      = unpackSample_fp binary32 1 (outScale_fp 8 8)
          (demoImage.pixels 1 (1 * demoImage.channels + demoImage.gOff))
    ∧ (readImageHelper_fp binary32 ⟨8, 4, true⟩ 1 demoFrame (some demoAlpha) false demoImage
        2 2 8).1.plane 2 (1 * (demoFrame.stride 2 / 1) + 1)
      = unpackSample_fp binary32 1 (outScale_fp 8 8)
          (demoImage.pixels 1 (1 * demoImage.channels + demoImage.bOff))
    ∧ (∀ alpha, some demoAlpha = some alpha → 0 ≤ demoImage.aOff →
        Option.map (fun f => f.plane 0 (1 * (alpha.stride 0 / 1) + 1))
            (readImageHelper_fp binary32 ⟨8, 4, true⟩ 1 demoFrame (some demoAlpha) false
              demoImage 2 2 8).2
          = some (unpackSample_fp binary32 1 (outScale_fp 8 8)
              (demoImage.pixels 1 (1 * demoImage.channels + demoImage.aOff.toNat))))
    ∧ (∀ p : ℚ, 0 ≤ roundTo binary32 (roundTo binary32 (p * outScale_fp 8 8) + 1 / 2) →
        unpackSample_fp binary32 1 (outScale_fp 8 8) p
          = Int.toNat (⌊roundTo binary32 (roundTo binary32 (p * outScale_fp 8 8) + 1 / 2)⌋
              % 2 ^ 32) % 2 ^ (8 * 1)) :=
  C9_integer_unpacker binary32 ⟨8, 4, true⟩ 1 demoFrame (some demoAlpha) demoImage 2 2 8 1 1
    (by decide) (by decide) (by decide)
    (fun alpha h => by cases h; decide) (by decide) (by decide)

/-- The quotient of the float read path, when it is a `float`, is stored as it
is. -/
theorem unpackFloat_fp_exact (fmt : FloatFormat) (hw : fmt.Wide) (s q : ℚ) (m e : Int)
    (hm : |m| < 2 ^ 24) (he : -149 ≤ e) (h : q / s = (m : ℚ) * 2 ^ e) :
    unpackFloat_fp fmt s q = q / s := by
  rw [unpackFloat_fp, h, roundTo_wide fmt hw m e hm he, roundTo_wide binary32 binary32_wide m e hm he]

/-- C11 on the code, in the arithmetic of the machine.  In the float branch of
`readGetFrame`, for an RGB frame whose rows do not overlap, every colour sample
`(x, y)` is the `float` `src[y][x * channels + off_c] / scaleFactor`, with
`scaleFactor` the `Quantum` made of `QuantumRange`, when no alpha frame is
requested and when one is requested and the image has an alpha channel
(`aOff ≥ 0`); the quotient is formed in the format `fmt` of `Quantum` and
converted to `float`, both finite, each rounding within half a unit in the last
place, and it is stored as it is whenever it is a `float`.  When an alpha frame is requested and the image has no alpha channel
(`aOff < 0`), lines 1104-1106 only clear the alpha plane: the frame comes back
as it was allocated, no colour sample is written. -/
theorem C11_float_unpacker (fmt : FloatFormat) (quantumRange : ℚ) (frame : Frame ℚ)
    (alphaFrame : Option (Frame ℚ)) (image : MagickImage) (width height x y : Nat)
    (hR : width ≤ frame.stride 0 / 4) (hG : width ≤ frame.stride 1 / 4)
    (hB : width ≤ frame.stride 2 / 4) (hx : x < width) (hy : y < height) :
    ((alphaFrame = none ∨ 0 ≤ image.aOff) →
      (unpackFloatFinite fmt quantumRange (image.pixels y (x * image.channels + image.rOff)) →
        (readGetFrameFloat_fp fmt quantumRange frame alphaFrame false image width height).1.plane
            0 (y * (frame.stride 0 / 4) + x)
          = roundTo binary32 (roundTo fmt
              (image.pixels y (x * image.channels + image.rOff) / roundTo fmt quantumRange)))
      ∧ (unpackFloatFinite fmt quantumRange (image.pixels y (x * image.channels + image.gOff)) →
        (readGetFrameFloat_fp fmt quantumRange frame alphaFrame false image width height).1.plane
            1 (y * (frame.stride 1 / 4) + x)
          = roundTo binary32 (roundTo fmt
              (image.pixels y (x * image.channels + image.gOff) / roundTo fmt quantumRange)))
      ∧ (unpackFloatFinite fmt quantumRange (image.pixels y (x * image.channels + image.bOff)) →
        (readGetFrameFloat_fp fmt quantumRange frame alphaFrame false image width height).1.plane
            2 (y * (frame.stride 2 / 4) + x)
          = roundTo binary32 (roundTo fmt
              (image.pixels y (x * image.channels + image.bOff) / roundTo fmt quantumRange))))
    ∧ (∀ (g : FloatFormat) (z : ℚ), |roundTo g z - z| ≤ 2 ^ ulpExp g z / 2)
    ∧ (fmt.Wide → ∀ (s q : ℚ) (m e : Int), |m| < 2 ^ 24 → -149 ≤ e → q / s = (m : ℚ) * 2 ^ e →
        roundTo binary32 (roundTo fmt (q / s)) = q / s)
    ∧ (alphaFrame.isSome = true → image.aOff < 0 →
      (readGetFrameFloat_fp fmt quantumRange frame alphaFrame false image width height).1
        = frame) := by
  have key := unpackLoop_rgb (unpackFloat_fp fmt (roundTo fmt quantumRange)) 4
    (frame.stride 0) (frame.stride 1) (frame.stride 2) image width height x y hR hG hB hx hy
  refine ⟨?_, fun g z => roundTo_error g z, ?_, ?_⟩
  · intro h
    cases alphaFrame with
    | none =>
      have k := key false 0
        { planes := frame.plane, alpha := fun _ => 0, r := 0, g := 0, b := 0, a := 0 }
        rfl rfl rfl
      exact ⟨fun _ => k.1, fun _ => k.2.1, fun _ => k.2.2⟩
    | some alpha =>
      have h0 : image.aOff ≥ 0 := by
        rcases h with h | h
        · cases h
        · exact h
      simp only [readGetFrameFloat_fp, if_pos h0]
      have k := key true (alpha.stride 0)
        { planes := frame.plane, alpha := alpha.plane 0, r := 0, g := 0, b := 0, a := 0 }
        rfl rfl rfl
      exact ⟨fun _ => k.1, fun _ => k.2.1, fun _ => k.2.2⟩
  · intro hw s q m e hm he h
    exact unpackFloat_fp_exact fmt hw s q m e hm he h
  · intro hs hneg
    cases alphaFrame with
    | none => cases hs
    | some alpha =>
      have h0 : ¬ image.aOff ≥ 0 := not_le.2 hneg
      simp only [readGetFrameFloat_fp, if_neg h0]

theorem C11_float_unpacker_witness :
    (readGetFrameFloat_fp binary32 65535 demoFloat (some demoFloat) false demoOpaque 2 2).1
        = demoFloat
      ∧ demoFloat.plane 0 (1 * (demoFloat.stride 0 / 4) + 1) = 1 / 2
      ∧ demoOpaque.pixels 1 (1 * demoOpaque.channels + demoOpaque.rOff) / 65535 = 31 / 65535 :=
  ⟨(C11_float_unpacker binary32 65535 demoFloat (some demoFloat) demoOpaque 2 2 1 1 (by decide)
      (by decide) (by decide) (by decide) (by decide)).2.2.2 rfl (by decide),
    rfl, by norm_num [demoOpaque]⟩

/-! ### The float packer in the arithmetic of the machine -/

theorem floatPixel_fp_apply (fmt : FloatFormat) (wa : Bool) (sc : ℚ) (im : MagickImage)
    (p : RowPtrs ℚ) (x : Nat) (pixels : Nat → ℚ) (i : Nat) (ha : wa = true → 0 ≤ im.aOff) :
    floatPixel_fp fmt wa sc im p x pixels i
      = if wa = true ∧ i = x * im.channels + im.aOff.toNat then
          packFloat_fp fmt sc (p.a x)
        else if i = x * im.channels + im.bOff then packFloat_fp fmt sc (p.b x)
        else if i = x * im.channels + im.gOff then packFloat_fp fmt sc (p.g x)
        else if i = x * im.channels + im.rOff then packFloat_fp fmt sc (p.r x)
        else pixels i := by
  cases wa with
  | false => simp [floatPixel_fp, Function.update_apply]
  | true =>
    simp only [floatPixel_fp, if_true, true_and, Function.update_apply, alpha_index x _ (ha rfl)]

/-- The state of the float row loops after their rows: row `y < height` holds
the pixel loop of the pointers advanced `y` times, the other rows are as before,
and every row contributed one `get` and one `sync`. -/
theorem floatLoop_fp_spec (fmt : FloatFormat) (wa : Bool) (sc : ℚ) (sR sG sB sA : Nat)
    (im : MagickImage) (width : Nat) (st : FloatWriteState) :
    ∀ height,
      (floatLoop_fp fmt wa sc sR sG sB sA im width height st).ptrs
          = (nextRow wa 4 sR sG sB sA)^[height] st.ptrs
      ∧ (∀ y, (floatLoop_fp fmt wa sc sR sG sB sA im width height st).pixels y
          = if y < height then
              forLoop (floatPixel_fp fmt wa sc im ((nextRow wa 4 sR sG sB sA)^[y] st.ptrs))
                width 0 (st.pixels y)
            else st.pixels y)
      ∧ (floatLoop_fp fmt wa sc sR sG sB sA im width height st).calls
          = st.calls
            ++ (List.range height).flatMap (fun y => [CacheCall.get y, CacheCall.sync]) := by
  intro height
  induction height with
  | zero => simp [floatLoop_fp, forLoop]
  | succ n ih =>
    obtain ⟨h1, h2, h3⟩ := ih
    unfold floatLoop_fp at h1 h2 h3 ⊢
    rw [forLoop_succ_right]
    generalize forLoop _ n 0 st = S at h1 h2 h3 ⊢
    rw [Nat.zero_add]
    refine ⟨?_, ?_, ?_⟩
    · show nextRow wa 4 sR sG sB sA S.ptrs = _
      rw [h1, Function.iterate_succ_apply']
    · intro y
      show Function.update S.pixels n
        (forLoop (floatPixel_fp fmt wa sc im S.ptrs) width 0 (S.pixels n)) y = _
      by_cases hy : y = n
      · subst hy
        rw [Function.update_same, h1, h2 y, if_neg (lt_irrefl y), if_pos (Nat.lt_succ_self y)]
      · rw [Function.update_noteq hy, h2 y]
        by_cases hlt : y < n
        · rw [if_pos hlt, if_pos (by omega)]
        · rw [if_neg hlt, if_neg (by omega)]
    · show S.calls ++ [CacheCall.get n, CacheCall.sync] = _
      rw [h3, List.range_succ, List.flatMap_append]
      simp

/-- The rows that the float branch leaves behind, for pointers at row 0: a slot
of pixel `x < width` in a row `y < height` that carries a channel holds the
product of the sample of the channel written last and the scale, rounded. -/
theorem floatImage_fp_apply (fmt : FloatFormat) (wa : Bool) (sc : ℚ) (sR sG sB sA : Nat)
    (im : MagickImage) (width height : Nat) (st : FloatWriteState)
    (hr : im.rOff < im.channels) (hg : im.gOff < im.channels) (hb : im.bOff < im.channels)
    (ha : wa = true → 0 ≤ im.aOff ∧ im.aOff.toNat < im.channels)
    (x y c : Nat) (hx : x < width) (hy : y < height) (hc : c < im.channels) :
    (floatLoop_fp fmt wa sc sR sG sB sA im width height st).pixels y (x * im.channels + c)
      = if wa = true ∧ c = im.aOff.toNat then
          packFloat_fp fmt sc (st.ptrs.a (x + y * (sA / 4)))
        else if c = im.bOff then packFloat_fp fmt sc (st.ptrs.b (x + y * (sB / 4)))
        else if c = im.gOff then packFloat_fp fmt sc (st.ptrs.g (x + y * (sG / 4)))
        else if c = im.rOff then packFloat_fp fmt sc (st.ptrs.r (x + y * (sR / 4)))
        else st.pixels y (x * im.channels + c) := by
  obtain ⟨_, h2, _⟩ := floatLoop_fp_spec fmt wa sc sR sG sB sA im width st height
  obtain ⟨pr, pg, pb, pa⟩ := nextRow_iterate wa 4 sR sG sB sA st.ptrs y x
  rw [h2 y, if_pos hy,
    slotLoop_apply wa im.channels im.rOff im.gOff im.bOff im.aOff.toNat _ _ _ _ _
      (fun x' pixels i => floatPixel_fp_apply fmt wa sc im _ x' pixels i (fun h => (ha h).1))
      hr hg hb (fun h => (ha h).2),
    idx_div x hc, idx_mod x hc, if_pos ⟨Nat.zero_le _, by omega⟩, pr, pg, pb]
  by_cases hwa : wa = true
  · rw [pa hwa]
  · have hwa' : wa = false := by cases wa <;> simp_all
    subst hwa'
    simp only [Bool.false_eq_true, false_and, if_false]

/-- The product of the float packer, when it is a `float`, is stored as it is. -/
theorem packFloat_fp_exact (fmt : FloatFormat) (hw : fmt.Wide) (sf s : ℚ) (m e : Int)
    (hm : |m| < 2 ^ 24) (he : -149 ≤ e) (h : s * sf = (m : ℚ) * 2 ^ e) :
    packFloat_fp fmt sf s = s * sf := by
  rw [packFloat_fp, h, roundTo_wide fmt hw m e hm he]

/-- The quanta that the float branch writes for a pixel, before any condition
on the range: the rounded product of the sample of each channel and the scale. -/
theorem frameToImageFloat_fp_apply (fmt : FloatFormat) (quantumRange : ℚ) (frame : Frame ℚ)
    (alphaFrame : Option (Frame ℚ)) (isGray : Bool) (image : MagickImage)
    (width height x y : Nat)
    (hstride : ∀ p, 4 ∣ frame.stride p)
    (hastride : ∀ alpha, alphaFrame = some alpha → 4 ∣ alpha.stride 0)
    (hr : image.rOff < image.channels) (hg : image.gOff < image.channels)
    (hb : image.bOff < image.channels)
    (hrg : image.rOff ≠ image.gOff) (hrb : image.rOff ≠ image.bOff)
    (hgb : image.gOff ≠ image.bOff)
    (ha : alphaFrame.isSome = true → 0 ≤ image.aOff ∧ image.aOff.toNat < image.channels
      ∧ image.aOff.toNat ≠ image.rOff ∧ image.aOff.toNat ≠ image.gOff
      ∧ image.aOff.toNat ≠ image.bOff)
    (hx : x < width) (hy : y < height) :
    (frameToImageFloat_fp fmt quantumRange frame alphaFrame isGray image width height).pixels y
        (x * image.channels + image.rOff)
      = roundTo fmt (frame.plane 0 ((y * frame.stride 0 + x * 4) / 4) * roundTo fmt quantumRange)
    ∧ (frameToImageFloat_fp fmt quantumRange frame alphaFrame isGray image width height).pixels y
        (x * image.channels + image.gOff)
      = roundTo fmt (frame.plane (if isGray then 0 else 1)
          ((y * frame.stride (if isGray then 0 else 1) + x * 4) / 4) * roundTo fmt quantumRange)
    ∧ (frameToImageFloat_fp fmt quantumRange frame alphaFrame isGray image width height).pixels y
        (x * image.channels + image.bOff)
      = roundTo fmt (frame.plane (if isGray then 0 else 2)
          ((y * frame.stride (if isGray then 0 else 2) + x * 4) / 4) * roundTo fmt quantumRange)
    ∧ (∀ alpha, alphaFrame = some alpha →
        (frameToImageFloat_fp fmt quantumRange frame alphaFrame isGray image width height).pixels y
            (x * image.channels + image.aOff.toNat)
          = roundTo fmt (alpha.plane 0 ((y * alpha.stride 0 + x * 4) / 4)
              * roundTo fmt quantumRange)) := by
  have h4 : 0 < 4 := by norm_num
  rw [sample_index x y h4 (hstride 0), sample_index x y h4 (hstride _),
    sample_index x y h4 (hstride _)]
  cases alphaFrame with
  | none =>
    have hf : (false = true) → 0 ≤ image.aOff ∧ image.aOff.toNat < image.channels :=
      fun h => absurd h (by decide)
    refine ⟨?_, ?_, ?_, ?_⟩
    · show (floatLoop_fp fmt false _ _ _ _ _ image width height _).pixels y _ = _
      rw [floatImage_fp_apply fmt false _ _ _ _ _ image width height _ hr hg hb hf x y _ hx hy hr]
      simp [hrg, hrb, packFloat_fp]
    · show (floatLoop_fp fmt false _ _ _ _ _ image width height _).pixels y _ = _
      rw [floatImage_fp_apply fmt false _ _ _ _ _ image width height _ hr hg hb hf x y _ hx hy hg]
      simp [hgb, packFloat_fp]
    · show (floatLoop_fp fmt false _ _ _ _ _ image width height _).pixels y _ = _
      rw [floatImage_fp_apply fmt false _ _ _ _ _ image width height _ hr hg hb hf x y _ hx hy hb]
      simp [packFloat_fp]
    · intro alpha h
      cases h
  | some alpha =>
    obtain ⟨ha0, ha1, har, hag, hab⟩ := ha rfl
    have hf : (true = true) → 0 ≤ image.aOff ∧ image.aOff.toNat < image.channels :=
      fun _ => ⟨ha0, ha1⟩
    refine ⟨?_, ?_, ?_, ?_⟩
    · show (floatLoop_fp fmt true _ _ _ _ _ image width height _).pixels y _ = _
      rw [floatImage_fp_apply fmt true _ _ _ _ _ image width height _ hr hg hb hf x y _ hx hy hr]
      simp [hrg, hrb, Ne.symm har, packFloat_fp]
    · show (floatLoop_fp fmt true _ _ _ _ _ image width height _).pixels y _ = _
      rw [floatImage_fp_apply fmt true _ _ _ _ _ image width height _ hr hg hb hf x y _ hx hy hg]
      simp [hgb, Ne.symm hag, packFloat_fp]
    · show (floatLoop_fp fmt true _ _ _ _ _ image width height _).pixels y _ = _
      rw [floatImage_fp_apply fmt true _ _ _ _ _ image width height _ hr hg hb hf x y _ hx hy hb]
      simp [Ne.symm hab, packFloat_fp]
    · intro alpha' h
      cases h
      rw [sample_index x y h4 (hastride alpha rfl)]
      show (floatLoop_fp fmt true _ _ _ _ _ image width height _).pixels y _ = _
      rw [floatImage_fp_apply fmt true _ _ _ _ _ image width height _ hr hg hb hf x y _ hx hy ha1]
      simp [packFloat_fp]

/-- C14. Float packer, in the arithmetic of the machine: in the float branch of
`frameToImage`, for a frame whose strides are multiples of `sizeof(float)`,
channel offsets that lie within a pixel and are distinct, and a pixel `(x, y)`
with `x < width` and `y < height`, the quantum at index `x * channels + off_c`
of row `y` is the product `src_c[y][x] * scaleFactor` for red, green and blue,
and the quantum at `x * channels + aOff` is `alpha[y][x] * scaleFactor` when an
alpha frame is supplied; `src_c[y][x]` is the sample at byte offset
`y * stride_c + x * sizeof(float)` and `scaleFactor` the `Quantum` made of
`QuantumRange`.  The product is the floating-point one of the format `fmt` of
`Quantum`, finite: the exact product rounded to nearest, hence within half a
unit in the last place of the exact product, and the exact product whenever that
is a `float`.  Nothing else is added to the product. -/
theorem C14_float_packer (fmt : FloatFormat) (quantumRange : ℚ) (frame : Frame ℚ)
    (alphaFrame : Option (Frame ℚ)) (isGray : Bool) (image : MagickImage)
    (width height x y : Nat)
    (hstride : ∀ p, 4 ∣ frame.stride p)
    (hastride : ∀ alpha, alphaFrame = some alpha → 4 ∣ alpha.stride 0)
    (hr : image.rOff < image.channels) (hg : image.gOff < image.channels)
    (hb : image.bOff < image.channels)
    (hrg : image.rOff ≠ image.gOff) (hrb : image.rOff ≠ image.bOff)
    (hgb : image.gOff ≠ image.bOff)
    (ha : alphaFrame.isSome = true → 0 ≤ image.aOff ∧ image.aOff.toNat < image.channels
      ∧ image.aOff.toNat ≠ image.rOff ∧ image.aOff.toNat ≠ image.gOff
      ∧ image.aOff.toNat ≠ image.bOff)
    (hx : x < width) (hy : y < height) :
    (packFloatFinite fmt quantumRange (frame.plane 0 ((y * frame.stride 0 + x * 4) / 4)) →
      (frameToImageFloat_fp fmt quantumRange frame alphaFrame isGray image width height).pixels y
          (x * image.channels + image.rOff)
        = roundTo fmt (frame.plane 0 ((y * frame.stride 0 + x * 4) / 4)
            * roundTo fmt quantumRange))
    ∧ (packFloatFinite fmt quantumRange (frame.plane (if isGray then 0 else 1)
          ((y * frame.stride (if isGray then 0 else 1) + x * 4) / 4)) →
      (frameToImageFloat_fp fmt quantumRange frame alphaFrame isGray image width height).pixels y
          (x * image.channels + image.gOff)
        = roundTo fmt (frame.plane (if isGray then 0 else 1)
            ((y * frame.stride (if isGray then 0 else 1) + x * 4) / 4)
              * roundTo fmt quantumRange))
    ∧ (packFloatFinite fmt quantumRange (frame.plane (if isGray then 0 else 2)
          ((y * frame.stride (if isGray then 0 else 2) + x * 4) / 4)) →
      (frameToImageFloat_fp fmt quantumRange frame alphaFrame isGray image width height).pixels y
          (x * image.channels + image.bOff)
        = roundTo fmt (frame.plane (if isGray then 0 else 2)
            ((y * frame.stride (if isGray then 0 else 2) + x * 4) / 4)
              * roundTo fmt quantumRange))
    ∧ (∀ alpha, alphaFrame = some alpha →
        packFloatFinite fmt quantumRange (alpha.plane 0 ((y * alpha.stride 0 + x * 4) / 4)) →
        (frameToImageFloat_fp fmt quantumRange frame alphaFrame isGray image width height).pixels y
            (x * image.channels + image.aOff.toNat)
          = roundTo fmt (alpha.plane 0 ((y * alpha.stride 0 + x * 4) / 4)
              * roundTo fmt quantumRange))
    ∧ (∀ s sf : ℚ, |roundTo fmt (s * sf) - s * sf| ≤ 2 ^ ulpExp fmt (s * sf) / 2)
    ∧ (fmt.Wide → ∀ (s sf : ℚ) (m e : Int), |m| < 2 ^ 24 → -149 ≤ e →
        s * sf = (m : ℚ) * 2 ^ e → roundTo fmt (s * sf) = s * sf) := by
  obtain ⟨h1, h2, h3, h4⟩ := frameToImageFloat_fp_apply fmt quantumRange frame alphaFrame isGray
    image width height x y hstride hastride hr hg hb hrg hrb hgb ha hx hy
  exact ⟨fun _ => h1, fun _ => h2, fun _ => h3, fun alpha e _ => h4 alpha e,
    fun s sf => roundTo_error fmt (s * sf),
    fun hw s sf m e hm he h => packFloat_fp_exact fmt hw sf s m e hm he h⟩

theorem roundTo32_65535 : roundTo binary32 65535 = 65535 := by
  have := roundTo32_int 65535 (by norm_num)
  simpa using this

/-- The sample `1/2` with `QuantumRange = 65535` and a `float` `Quantum` stays
finite. -/
theorem packFloatFinite_half : packFloatFinite binary32 65535 (1 / 2) := by
  unfold packFloatFinite FloatFormat.InRange FloatFormat.maxFinite
  rw [roundTo32_65535]
  constructor
  · show |(65535 : ℚ)| ≤ (2 ^ 24 - 1) * 2 ^ ((127 : Int) - (((24 : Nat) : Int) - 1))
    norm_num [abs_of_pos]
  · show |(1 / 2 : ℚ) * 65535| ≤ (2 ^ 24 - 1) * 2 ^ ((127 : Int) - (((24 : Nat) : Int) - 1))
    norm_num [abs_of_pos]

theorem C14_float_packer_witness :
    (frameToImageFloat_fp binary32 65535 demoFloat (some demoFloat) false demoImage 2 2).pixels 1
        (1 * demoImage.channels + demoImage.rOff)
      = roundTo binary32 (demoFloat.plane 0 ((1 * demoFloat.stride 0 + 1 * 4) / 4)
          * roundTo binary32 65535)
    ∧ (frameToImageFloat_fp binary32 65535 demoFloat (some demoFloat) false demoImage 2 2).pixels 1
        (1 * demoImage.channels + demoImage.gOff)
      = roundTo binary32 (demoFloat.plane 1 ((1 * demoFloat.stride 1 + 1 * 4) / 4)
          * roundTo binary32 65535)
    ∧ (frameToImageFloat_fp binary32 65535 demoFloat (some demoFloat) false demoImage 2 2).pixels 1
        (1 * demoImage.channels + demoImage.bOff)
      = roundTo binary32 (demoFloat.plane 2 ((1 * demoFloat.stride 2 + 1 * 4) / 4)
          * roundTo binary32 65535)
    ∧ (frameToImageFloat_fp binary32 65535 demoFloat (some demoFloat) false demoImage 2 2).pixels 1
        (1 * demoImage.channels + demoImage.aOff.toNat)
      = roundTo binary32 (demoFloat.plane 0 ((1 * demoFloat.stride 0 + 1 * 4) / 4)
          * roundTo binary32 65535) :=
  have h := C14_float_packer binary32 65535 demoFloat (some demoFloat) false demoImage 2 2 1 1
    (fun _ => ⟨4, rfl⟩) (fun alpha e => by cases e; decide)
    (by decide) (by decide) (by decide) (by decide) (by decide) (by decide)
    (fun _ => by decide) (by decide) (by decide)
  ⟨h.1 packFloatFinite_half, h.2.1 packFloatFinite_half, h.2.2.1 packFloatFinite_half,
    h.2.2.2.1 demoFloat rfl packFloatFinite_half⟩

/-- The code at the sample `0.1f` with `QuantumRange = 65535` and a `float`
`Quantum`: the quantum written is `6553.5`, the nearest `float` to the exact
product `879595893555 / 134217728`. -/
theorem packFloat_fp_tenth :
    roundTo binary32 (1 / 10) = 13421773 / 134217728
      ∧ roundTo binary32 65535 = 65535
      ∧ packFloat_fp binary32 (roundTo binary32 65535) (roundTo binary32 (1 / 10)) = 13107 / 2
      ∧ roundTo binary32 (1 / 10) * roundTo binary32 65535 = 879595893555 / 134217728 := by
  have h1 : roundTo binary32 (1 / 10) = 13421773 / 134217728 := by
    rw [roundTo32_eval (1 / 10) (-4) 13421773 (by norm_num [abs_of_pos])
      (by norm_num [abs_of_pos]) (by norm_num)
      (roundHalfEven_near _ _ (by norm_num) (by norm_num))]
    norm_num
  have h2 : roundTo binary32 65535 = 65535 := by
    have := roundTo32_int 65535 (by norm_num)
    simpa using this
  refine ⟨h1, h2, ?_, ?_⟩
  · rw [packFloat_fp, h1, h2,
      roundTo32_eval _ 12 13421568 (by norm_num [abs_of_pos])
        (by norm_num [abs_of_pos]) (by norm_num)
        (roundHalfEven_near _ _ (by norm_num) (by norm_num))]
    norm_num
  · rw [h1, h2]; norm_num

/-- The code at the quantum `30` with `QuantumRange = 65535` and a `float`
`Quantum`: the sample read is the nearest `float` to `30 / 65535`. -/
theorem unpackFloat_fp_thirty :
    unpackFloat_fp binary32 (roundTo binary32 65535) 30 = 983055 / 2147483648
      ∧ (983055 / 2147483648 : ℚ) ≠ 30 / 65535 := by
  have h2 : roundTo binary32 65535 = 65535 := by
    have := roundTo32_int 65535 (by norm_num)
    simpa using this
  have h3 : roundTo binary32 (30 / 65535) = 983055 / 2147483648 := by
    rw [roundTo32_eval _ (-12) 15728880 (by norm_num [abs_of_pos])
        (by norm_num [abs_of_pos]) (by norm_num)
        (roundHalfEven_near _ _ (by norm_num) (by norm_num))]
    norm_num
  have h4 : roundTo binary32 (983055 / 2147483648) = 983055 / 2147483648 := by
    have := roundTo_wide binary32 binary32_wide 983055 (-31) (by norm_num) (by norm_num)
    norm_num at this ⊢
    exact this
  refine ⟨?_, by norm_num⟩
  rw [unpackFloat_fp, h2, h3, h4]

end Imwri
